import Mathlib

/-!
# file_model: a piece-chain editor for large files

A shallow embedding of `src/fs/file_model.{h,cpp}` and `src/fs/file_change.{h,cpp}`.

Conventions of the embedding.

* A byte is a `Nat`; bytes are only copied and compared.
* A `(pointer, length)` pair of the source is the list of the `length` bytes
  found at the pointer.  A block therefore carries `data`, the `len` bytes
  `[data, data + len)` it designates, and `len` is the length of that list.
  Bytes of an allocated buffer beyond `len` are not represented: no path of
  the source reads them.
* The circular list through `_M_header` is the list `chain` of the blocks
  between `_M_header.next` and `_M_header.prev`.  A `struct block*` is an index
  into `chain`; the index `chain.length` is the header itself.
* `uint64_t` sums and differences that involve an argument of the caller are
  reduced modulo `2 ^ 64` (`u64`, `sub64`).  Sums of block lengths stay below
  `2 ^ 64` under the block-sum invariant and are not reduced.
* `malloc` refuses a request of `2 ^ 63` bytes or more (`remove`, `load`) and
  grants every other one.  An operation returns `none` when the run leaves the
  behaviour the C++ standard defines (the walk reaches the header as if it
  were a data block, a copy runs past an allocated buffer, a null record is
  dereferenced) or when the fuel of a loop is exhausted.
* The host is explicit where a system call can fail: `open` takes what the
  host delivers for the path (`host_file`), `save` the outcome of its system
  calls (`save_host`).
-/

namespace fs

/-! ## Machine arithmetic and constants -/

/-- The value of a `uint64_t` expression whose mathematical value is `n`. -/
def u64 (n : Nat) : Nat := n % 18446744073709551616

/-- The `uint64_t` difference `a - b` of two 64-bit values. -/
def sub64 (a b : Nat) : Nat := (a + 18446744073709551616 - b) % 18446744073709551616

/-- Constant `kMemoryBlockSize` of `file_model.h`. -/
def kMemoryBlockSize : Nat := 4 * 1024

/-- Constant `kMidMemoryBlock` of `file_model.h`. -/
def kMidMemoryBlock : Nat := kMemoryBlockSize / 2

/-- Constant `kMaxMemoryUsed` of `file_model.h`. -/
def kMaxMemoryUsed : Nat := 100 * 1024 * 1024

/-- Enumeration `file_model::operation_result`. -/
inductive operation_result where
  | kErrorReadOnly
  | kErrorBlockDevice
  | kInvalidOperation
  | kChangeBiggerMaxMemoryUsed
  | kNoMemory
  | kErrorNeedSave
  | kErrorUndoDisabled
  | kNoMoreChanges
  | kSuccess
  deriving DecidableEq

/-- Enumeration `file_model::open_mode`. -/
inductive open_mode where
  | kReadWrite
  | kReadOnly
  deriving DecidableEq

/-- Enumeration `direction` used by `file_model::find`. -/
inductive direction where
  | kForward
  | kBackward
  deriving DecidableEq

/-! ## Blocks -/

/-- Structure `file_model::block`.  `data` holds the bytes `[data, data + len)`;
`addr` is `data - _M_data` for a block in disk (it has no meaning for a block
in memory, where it is kept at 0). -/
structure block where
  data : List Nat
  in_memory : Bool
  addr : Nat
  deriving DecidableEq

/-- Field `len` of a block. -/
def block.len (b : block) : Nat := b.data.length

/-- The header `_M_header` as the constructor leaves it: `len = 0`, not in memory. -/
def header : block := { data := [], in_memory := false, addr := 0 }

/-- The block a `struct block*` designates: an index past the end is the header. -/
def blk (chain : List block) (i : Nat) : block := chain.getD i header

/-- The logical content: the payloads of the blocks in chain order. -/
def content (chain : List block) : List Nat := (chain.map block.data).flatten

/-- The sum of the block lengths. -/
def total_len (chain : List block) : Nat := (chain.map block.len).sum

/-! ## Change journal (`file_change.h`, `file_change.cpp`) -/

/-- Enumeration `file_change::type`. -/
inductive change_type where
  | kModify
  | kAdd
  | kRemove
  deriving DecidableEq

/-- Structure `file_change`; a null `olddata` or `newdata` is `none`. -/
structure file_change where
  t : change_type
  off : Nat
  olddata : Option (List Nat)
  newdata : Option (List Nat)
  len : Nat
  deriving DecidableEq

/-- Method `file_changes::register_change`: the `_M_used` records with the new
one appended; a change of length 0 is accepted and not stored. -/
def register_change (changes : List file_change) (type : change_type) (off : Nat)
    (olddata newdata : Option (List Nat)) (len : Nat) : List file_change :=
  if len = 0 then changes
  else changes ++ [{ t := type, off := off, olddata := olddata,
                     newdata := newdata.map (List.take len), len := len }]

/-- Method `file_changes::erase_last_change`. -/
def erase_last_change (changes : List file_change) : List file_change :=
  if changes.length = 0 then changes else changes.take (changes.length - 1)

/-- Method `file_changes::erase_from_position`. -/
def erase_from_position (changes : List file_change) (pos : Nat) : List file_change :=
  if pos ≥ changes.length then changes else changes.take pos

/-! ## The file model -/

/-- Class `file_model`: the members the editing operations read and write. -/
structure file_model where
  _M_undo_enabled : Bool
  _M_changes : List file_change
  _M_nchange : Nat
  _M_filename : String
  _M_read_only : Bool
  _M_block_device : Bool
  _M_filesize : Nat
  _M_data : Option (List Nat)
  _M_len : Nat
  _M_memory_used : Nat
  chain : List block
  _M_modified : Bool
  _M_size_modified : Bool
  deriving DecidableEq

/-- The step of `file_model::open` that fails after `::open` has returned a
descriptor, if one does: `fstat`, the test of the file type (the path is
neither a regular file nor a block device), `ioctl(BLKGETSIZE64)`, `mmap`, or
`malloc` of the block.  A step the run does not reach does not fail. -/
inductive open_fault where
  | kNone
  | kFstat
  | kFileType
  | kIoctl
  | kMmap
  | kMalloc
  deriving DecidableEq

/-- What the host reports for a path that `::open` opens: the bytes `mmap`
exposes, whether `fstat` says block device, and the step of
`file_model::open` that fails. -/
structure host_file where
  bytes : List Nat
  block_device : Bool
  fault : open_fault := open_fault.kNone
  deriving DecidableEq

/-- Function `strlen` on a file name (a file name holds no zero byte). -/
def strlen (s : String) : Nat := s.utf8ByteSize

/-- The value of `sizeof(_M_filename)`: `PATH_MAX` of `<limits.h>`. -/
def kPathMax : Nat := 4096

/-- What the host does to the system calls of `file_model::save` and
`file_model::save_in_place`: `::open` of the temporary file fails
(`no_temporary`), `lseek` fails (`no_seek`), `::write` fails after `room`
bytes, `rename` fails (`no_rename`), `::open` of the saved file fails
(`no_file`), a later step of its `open` fails (`fault`). -/
structure save_host where
  no_temporary : Bool
  no_seek : Bool
  room : Option Nat
  no_rename : Bool
  no_file : Bool
  fault : open_fault
  deriving DecidableEq

/-- A host on which every system call of `save` succeeds. -/
def steady : save_host :=
  { no_temporary := false, no_seek := false, room := none, no_rename := false,
    no_file := false, fault := open_fault.kNone }

/-- What the host delivers when `save` opens the file again: the file holds
`bytes`. -/
def save_host.again (host : save_host) (bytes : List Nat) (block_device : Bool) :
    Option host_file :=
  if host.no_file then none
  else some { bytes := bytes, block_device := block_device, fault := host.fault }

namespace file_model

/-- Constructor `file_model::file_model(bool undo_enabled)`. -/
def new (undo_enabled : Bool) : file_model :=
  { _M_undo_enabled := undo_enabled
    _M_changes := []
    _M_nchange := 0
    _M_filename := ""
    _M_read_only := true
    _M_block_device := false
    _M_filesize := 0
    _M_data := none
    _M_len := 0
    _M_memory_used := 0
    chain := []
    _M_modified := false
    _M_size_modified := false }

/-- Method `file_model::open` from the choice of the mode to the link of the
block.  `f` is what the host delivers for the path, `none` when `::open`
fails.  A run that returns `false` keeps the members it has written. -/
def open_file (m : file_model) (f : Option host_file) (mode : open_mode) :
    Bool × file_model :=
  let m := { m with _M_read_only := decide (mode = open_mode.kReadOnly) }
  -- Open file.
  match f with
  | none => (false, m)
  | some f =>
    -- Get file status.
    if f.fault = open_fault.kFstat then (false, m)
    -- Neither a regular file nor a block device.
    else if f.fault = open_fault.kFileType then (false, m)
    else
      let m := { m with _M_block_device := f.block_device }
      -- Get size.
      if f.block_device = true ∧ f.fault = open_fault.kIoctl then (false, m)
      else
        let m := { m with _M_filesize := f.bytes.length }
        -- If the file is not empty...
        if m._M_filesize ≠ 0 then
          -- Map file into memory.
          if f.fault = open_fault.kMmap then (false, { m with _M_data := none })
          else
            let m := { m with _M_data := some f.bytes }
            -- Create block.
            if f.fault = open_fault.kMalloc then (false, m)
            else (true, { m with chain := [{ data := f.bytes, in_memory := false, addr := 0 }] })
        else (true, m)

/-- Method `file_model::open` called by a client (`filename` is not the model's
own `_M_filename` buffer). -/
def «open» (m : file_model) (filename : String) (f : Option host_file)
    (mode : open_mode) : Bool × file_model :=
  -- If the length of the file name is too long...
  if strlen filename ≥ kPathMax then (false, m)
  else
    let r := open_file m f mode
    if r.1 then
      -- Save file name.
      (true, { r.2 with _M_filename := filename
                        _M_changes := if r.2._M_undo_enabled then [] else r.2._M_changes
                        _M_len := r.2._M_filesize })
    else r

/-- Method `file_model::close`: the blocks are freed, the mapping and the file
descriptor are released. -/
def close (m : file_model) : file_model :=
  { m with _M_read_only := true
           _M_len := 0
           _M_memory_used := 0
           chain := []
           _M_data := none
           _M_modified := false
           _M_size_modified := false }

/-- Method `file_model::seek`, the loop over the blocks: `n` is the offset of
the first block of the list.  The result is the index of the block and the
position in it. -/
def seek_loop : List block → Nat → Nat → Option (Nat × Nat)
  | [], _, _ => none
  | b :: rest, n, off =>
    let next := n + b.len
    if off < next then some (0, off - n)
    else (seek_loop rest next off).map (fun r => (r.1 + 1, r.2))

/-- Method `file_model::seek`. -/
def seek (m : file_model) (off : Nat) : Option (Nat × Nat) :=
  if off ≥ m._M_len then none else seek_loop m.chain 0 off

/-- Private method `file_model::get(b, pos, data, len)`, the do-while loop: the
bytes copied to `data` and the value left in `len`. -/
def get_loop : List block → Nat → Nat → Nat → List Nat × Nat
  | [], _, _, written => ([], written)
  | b :: rest, pos, left, written =>
    let count := b.len - pos
    if count ≥ left then ((b.data.drop pos).take left, written + left)
    else
      let r := get_loop rest 0 (left - count) (written + count)
      ((b.data.drop pos).take count ++ r.1, r.2)

/-- Private method `file_model::get(b, pos, data, len)`; `blocks` starts at `b`. -/
def get_from (blocks : List block) (pos len : Nat) : List Nat × Nat :=
  if len = 0 then ([], len) else get_loop blocks pos len 0

/-- Public method `file_model::get(off, data, len)`: `none` is `false`, otherwise
the bytes written to `data` and the value written back to `len`. -/
def get (m : file_model) (off len : Nat) : Option (List Nat × Nat) :=
  match seek m off with
  | none => none
  | some (i, pos) => some (get_from (m.chain.drop i) pos len)

/-! ### modify -/

/-- Method `file_model::modify`, block in disk: the number `l` of bytes copied
from the user's buffer into the new buffer, which already holds `count` bytes;
`len` bytes are still to write at `pos`. -/
def modify_disk_l (b : block) (pos count len : Nat) : Nat :=
  -- Left in block in memory.
  let left_memory_block := kMemoryBlockSize - count
  let l := if len < left_memory_block then len else left_memory_block
  if u64 (pos + l) > b.len then b.len - pos else l

/-- Method `file_model::modify`, block in disk: the bytes of the block that
follow the user's bytes in the new buffer.  `pos_end` is `end = pos + l`, `len`
what is left of the user's buffer and `left_memory_block` the room left. -/
def modify_disk_tail (b : block) (pos_end len left_memory_block : Nat) : List Nat :=
  -- If we have copied all the user's buffer and there is still space...
  if len = 0 ∧ left_memory_block > 0 then
    if pos_end < b.len then
      -- Left in block in disk.
      let left_disk_block := b.len - pos_end
      let l := if left_memory_block < left_disk_block then left_memory_block
               else left_disk_block
      (b.data.drop pos_end).take l
    else []
  else []

/-- Method `file_model::modify`, block in disk: the new block in memory (`buf`,
`count`) is linked in.  The result is: the blocks that now precede `nextblk`,
the block `nextblk` when it is a piece of `b` (no block when `nextblk` is
`b->next`), and the bytes left to write. -/
def modify_disk_link (b : block) (begin count : Nat) (buf data : List Nat) :
    List block × List block × List Nat :=
  -- If the new block should be inserted before the current block...
  if begin = 0 then
    -- If the new block can replace the old block...
    if count = b.len then
      ([{ data := buf, in_memory := true, addr := 0 }], [], data)
    else
      ([{ data := buf, in_memory := true, addr := 0 }],
       [{ b with data := b.data.drop count, addr := b.addr + count }], data)
  else
    let memblk : block := { data := buf, in_memory := true, addr := 0 }
    let pos_end := begin + count
    if pos_end < b.len then
      ([{ b with data := b.data.take begin }, memblk],
       [{ data := b.data.drop pos_end, in_memory := false, addr := b.addr + pos_end }], data)
    else
      ([{ b with data := b.data.take begin }, memblk], [], data)

/-- Method `file_model::modify`, loop body for a block in disk.  `b` is the
block, `pos` the position in it and `data` the bytes still to write (`len` is
their number). -/
def modify_disk (b : block) (pos : Nat) (data : List Nat) :
    List block × List block × List Nat :=
  -- Copy half a block before the offset (it might be modified later).
  let begin := if pos ≤ kMidMemoryBlock then 0 else pos - kMidMemoryBlock
  let count := if pos ≤ kMidMemoryBlock then pos else kMidMemoryBlock
  let buf := (b.data.drop begin).take count
  -- Copy from user's buffer.
  let l := modify_disk_l b pos count data.length
  let tail := modify_disk_tail b (pos + l) (data.length - l) (kMemoryBlockSize - count - l)
  modify_disk_link b begin (count + l + tail.length) (buf ++ data.take l ++ tail) (data.drop l)

/-- Method `file_model::modify`, loop body for a block in memory: the block
after the copy and the bytes left to write. -/
def modify_memory (b : block) (pos : Nat) (data : List Nat) : block × List Nat :=
  -- Left in block in memory.
  let left_memory_block := b.len - pos
  let l := if data.length < left_memory_block then data.length else left_memory_block
  ({ b with data := b.data.take pos ++ data.take l ++ b.data.drop (pos + l) }, data.drop l)

/-- Method `file_model::modify`, the do-while loop.  The list starts at `b`;
the result is the list that replaces it and the number of buffers allocated.
An empty list means that `b` is the header. -/
def modify_loop : Nat → List block → Nat → List Nat → Option (List block × Nat)
  | 0, _, _, _ => none
  | _ + 1, [], _, _ => none
  | fuel + 1, b :: rest, pos, data =>
    if !b.in_memory then
      let r := modify_disk b pos data
      if r.2.2.length > 0 then
        (modify_loop fuel (r.2.1 ++ rest) 0 r.2.2).map (fun c => (r.1 ++ c.1, c.2 + 1))
      else some (r.1 ++ (r.2.1 ++ rest), 1)
    else
      let r := modify_memory b pos data
      if r.2.length > 0 then
        (modify_loop fuel rest 0 r.2).map (fun c => (r.1 :: c.1, c.2))
      else some (r.1 :: rest, 0)

/-- Method `file_model::modify(off, data, len, record_change)`; `len` is the
length of `data`. -/
def modify (m : file_model) (off : Nat) (data : List Nat) (record_change : Bool) :
    Option (operation_result × file_model) :=
  let len := data.length
  -- Read only mode?
  if m._M_read_only then some (.kErrorReadOnly, m)
  -- If the end of the operation is beyond the end of the file...
  else if u64 (off + len) > m._M_len then some (.kInvalidOperation, m)
  -- If the change is bigger than the maximum memory which can be used...
  else if len > kMaxMemoryUsed then some (.kChangeBiggerMaxMemoryUsed, m)
  else
    -- Seek to offset.
    match seek m off with
    | none => some (.kInvalidOperation, m)
    | some (i, pos) =>
      -- Nothing to modify?
      if len = 0 then some (.kSuccess, m)
      -- Too many changes already?
      else if u64 (m._M_memory_used + len) > kMaxMemoryUsed then some (.kErrorNeedSave, m)
      else
        -- If undo is enabled and the change should be recorded...
        let record_change := record_change && m._M_undo_enabled
        let m1 :=
          if record_change then
            let old := get_from (m.chain.drop i) pos len
            { m with _M_changes :=
                (register_change (erase_from_position m._M_changes m._M_nchange)
                  change_type.kModify off (some old.1) (some data) old.2) }
          else m
        match modify_loop (len + m.chain.length) (m.chain.drop i) pos data with
        | none => none
        | some (c, n) =>
          some (.kSuccess,
            { m1 with chain := m.chain.take i ++ c
                      _M_memory_used := m._M_memory_used + n * kMemoryBlockSize
                      _M_modified := true
                      _M_nchange := if record_change then m1._M_nchange + 1
                                    else m1._M_nchange })

/-! ### add -/

/-- Static method `file_model::add(data, len, first, last, nblocks)`: the list
of new blocks in memory, `first` to `last`; `nblocks` is its length. -/
def add_blocks : Nat → List Nat → List block
  | 0, _ => []
  | fuel + 1, data =>
    if data.length > 0 then
      let l := if data.length < kMemoryBlockSize then data.length else kMemoryBlockSize
      { data := data.take l, in_memory := true, addr := 0 } :: add_blocks fuel (data.drop l)
    else []

/-- Method `file_model::add(off, data, len, record_change)`; `len` is the length
of `data`. -/
def add (m : file_model) (off : Nat) (data : List Nat) (record_change : Bool) :
    Option (operation_result × file_model) :=
  let len := data.length
  -- Read only mode?
  if m._M_read_only then some (.kErrorReadOnly, m)
  -- Block device?
  else if m._M_block_device then some (.kErrorBlockDevice, m)
  -- If the change is bigger than the maximum memory which can be used...
  else if len > kMaxMemoryUsed then some (.kChangeBiggerMaxMemoryUsed, m)
  else
    -- Seek to offset.
    let at_block : Option (Nat × Nat) :=
      match seek m off with
      | some r => some r
      | none =>
        -- If the offset is at the end of the file...
        if off = m._M_len then
          -- Get pointer to last block.
          some (m.chain.length - 1, (blk m.chain (m.chain.length - 1)).len)
        else none
    match at_block with
    | none => some (.kInvalidOperation, m)
    | some (i, pos) =>
      -- Nothing to modify?
      if len = 0 then some (.kSuccess, m)
      -- Too many changes already?
      else if u64 (m._M_memory_used + len) > kMaxMemoryUsed then some (.kErrorNeedSave, m)
      else
        -- If undo is enabled and the change should be recorded...
        let record_change := record_change && m._M_undo_enabled
        let m1 :=
          if record_change then
            { m with _M_changes :=
                (register_change (erase_from_position m._M_changes m._M_nchange)
                  change_type.kAdd off none (some data) len) }
          else m
        let b := blk m.chain i
        -- Left in block in memory.
        let left_memory_block := sub64 kMemoryBlockSize b.len
        -- If the block is in memory and it fits...
        if b.in_memory ∧ len ≤ left_memory_block then
          let b1 := { b with data := b.data.take pos ++ data ++ b.data.drop pos }
          -- The copy must fit the buffer (it does when `b->len <= kMemoryBlockSize`).
          if b1.len > kMemoryBlockSize then none
          else
            some (.kSuccess,
              { m1 with chain := m.chain.take i ++ b1 :: m.chain.drop (i + 1)
                        _M_len := u64 (m._M_len + len)
                        _M_modified := true
                        _M_size_modified := true
                        _M_nchange := if record_change then m1._M_nchange + 1
                                      else m1._M_nchange })
        else
          let fill := b.in_memory ∧ off = m._M_len ∧ left_memory_block > 0
          -- Copy from user's buffer (the block is the last one and `pos` its length).
          let b2 := if fill then { b with data := b.data ++ data.take left_memory_block } else b
          let chain2 := if fill then m.chain.take i ++ b2 :: m.chain.drop (i + 1) else m.chain
          let data2 := if fill then data.drop left_memory_block else data
          let len2 := data2.length
          let M_len2 := if fill then u64 (m._M_len + left_memory_block) else m._M_len
          let off2 := if fill then u64 (off + left_memory_block) else off
          let new_blocks := add_blocks len2 data2
          let nblocks := new_blocks.length
          -- If the blocks should be inserted before the current block...
          let spliced : List block × Nat :=
            if pos = 0 then
              (chain2.take i ++ new_blocks ++ chain2.drop i, nblocks)
            else if off2 ≠ M_len2 then
              -- Not at the end of the file.
              let blk1 : block :=
                { data := b2.data.drop pos, in_memory := b2.in_memory
                  addr := if b2.in_memory then 0 else b2.addr + pos }
              (chain2.take i ++ { b2 with data := b2.data.take pos } :: new_blocks
                 ++ blk1 :: chain2.drop (i + 1),
               if b2.in_memory then nblocks + 1 else nblocks)
            else
              (chain2.take (i + 1) ++ new_blocks, nblocks)
          -- The copy of the right side of a block in memory must fit its new buffer.
          if pos ≠ 0 ∧ off2 ≠ M_len2 ∧ b2.in_memory ∧ b2.len - pos > kMemoryBlockSize then none
          else
            some (.kSuccess,
              { m1 with chain := spliced.1
                        _M_len := u64 (M_len2 + len2)
                        _M_memory_used := m._M_memory_used + spliced.2 * kMemoryBlockSize
                        _M_modified := true
                        _M_size_modified := true
                        _M_nchange := if record_change then m1._M_nchange + 1
                                      else m1._M_nchange })

/-! ### remove -/

/-- Method `file_model::remove`, the final do-while loop.  The list starts at
`b`; the result is the list that starts at the block linked after `prev` and the
number of buffers freed.  An empty list means that `b` is the header. -/
def remove_loop : List block → Nat → Option (List block × Nat)
  | [], _ => none
  | b :: rest, len =>
    if len ≥ b.len then
      let freed := if b.in_memory then 1 else 0
      if len - b.len > 0 then
        (remove_loop rest (len - b.len)).map (fun r => (r.1, r.2 + freed))
      else some (rest, freed)
    else
      some ({ b with data := b.data.drop len
                     addr := if b.in_memory then b.addr else b.addr + len } :: rest, 0)

/-- Method `file_model::remove(off, len, record_change)`.  The `malloc(len)` of
a recorded removal takes the `len` of the caller before it is clamped: it is
refused, and `remove` returns `kNoMemory`, when `len` is `2 ^ 63` or more, the
size no `malloc` grants. -/
def remove (m : file_model) (off len : Nat) (record_change : Bool) :
    Option (operation_result × file_model) :=
  -- Read only mode?
  if m._M_read_only then some (.kErrorReadOnly, m)
  -- Block device?
  else if m._M_block_device then some (.kErrorBlockDevice, m)
  else
    -- Seek to offset.
    match seek m off with
    | none => some (.kInvalidOperation, m)
    | some (i, pos) =>
      -- Nothing to modify?
      if len = 0 then some (.kSuccess, m)
      else
        -- If undo is enabled and the change should be recorded...
        let record_change := record_change && m._M_undo_enabled
        -- Get data to be removed: `malloc(len)`.
        if record_change = true ∧ len ≥ 9223372036854775808 then some (.kNoMemory, m)
        else
        let m1 :=
          if record_change then
            let old := get_from (m.chain.drop i) pos len
            { m with _M_changes :=
                (register_change (erase_from_position m._M_changes m._M_nchange)
                  change_type.kRemove off (some old.1) none old.2) }
          else m
        let nchange := if record_change then m1._M_nchange + 1 else m1._M_nchange
        let len := if u64 (off + len) > m._M_len then sub64 m._M_len off else len
        let b := blk m.chain i
        -- If the change is inside the block...
        let n := u64 (pos + len)
        if n < b.len then
          if !b.in_memory then
            -- If not at the beginning of the block...
            let pieces : List block :=
              if pos ≠ 0 then
                [{ b with data := b.data.take pos },
                 { data := b.data.drop n, in_memory := false, addr := b.addr + n }]
              else [{ b with data := b.data.drop len, addr := b.addr + len }]
            some (.kSuccess,
              { m1 with chain := m.chain.take i ++ pieces ++ m.chain.drop (i + 1)
                        _M_len := sub64 m._M_len len
                        _M_modified := true
                        _M_size_modified := true
                        _M_nchange := nchange })
          else
            -- The block is in memory.
            let b1 := { b with data := b.data.take pos ++ b.data.drop n }
            if b1.len > kMemoryBlockSize then none
            else
              some (.kSuccess,
                { m1 with chain := m.chain.take i ++ b1 :: m.chain.drop (i + 1)
                          _M_len := sub64 m._M_len len
                          _M_modified := true
                          _M_size_modified := true
                          _M_nchange := nchange })
        else if n = b.len then
          some (.kSuccess,
            { m1 with chain := m.chain.take i ++ { b with data := b.data.take pos }
                                 :: m.chain.drop (i + 1)
                      _M_len := sub64 m._M_len len
                      _M_modified := true
                      _M_size_modified := true
                      _M_nchange := nchange })
        else
          -- If not at the beginning of the block...
          let kept : List block := if pos ≠ 0 then [{ b with data := b.data.take pos }] else []
          let len1 := if pos ≠ 0 then sub64 len (b.len - pos) else len
          let start := if pos ≠ 0 then i + 1 else i
          match remove_loop (m.chain.drop start) len1 with
          | none => none
          | some (c, freed) =>
            some (.kSuccess,
              { m1 with chain := m.chain.take i ++ kept ++ c
                        _M_len := sub64 m._M_len len
                        _M_memory_used := sub64 m._M_memory_used (freed * kMemoryBlockSize)
                        _M_modified := true
                        _M_size_modified := true
                        _M_nchange := nchange })

/-! ### undo and redo -/

/-- The `len` bytes at a `uint8_t*` of a change record; a null pointer has none. -/
def buffer (p : Option (List Nat)) (len : Nat) : Option (List Nat) :=
  p.map (List.take len)

/-- Method `file_model::undo`. -/
def undo (m : file_model) : Option (operation_result × file_model) :=
  -- Read only mode?
  if m._M_read_only then some (.kErrorReadOnly, m)
  else if !m._M_undo_enabled then some (.kErrorUndoDisabled, m)
  else if m._M_nchange = 0 then some (.kNoMoreChanges, m)
  else
    match m._M_changes.get? (m._M_nchange - 1) with
    | none => none
    | some chg =>
      let res :=
        match chg.t with
        | .kModify => (buffer chg.olddata chg.len).bind (fun d => modify m chg.off d false)
        | .kAdd => remove m chg.off chg.len false
        | .kRemove => (buffer chg.olddata chg.len).bind (fun d => add m chg.off d false)
      match res with
      | none => none
      | some (r, m1) =>
        if r = .kSuccess then some (.kSuccess, { m1 with _M_nchange := m1._M_nchange - 1 })
        else some (r, m1)

/-- Method `file_model::redo`. -/
def redo (m : file_model) : Option (operation_result × file_model) :=
  -- Read only mode?
  if m._M_read_only then some (.kErrorReadOnly, m)
  else if !m._M_undo_enabled then some (.kErrorUndoDisabled, m)
  else if m._M_nchange = m._M_changes.length then some (.kNoMoreChanges, m)
  else
    match m._M_changes.get? m._M_nchange with
    | none => none
    | some chg =>
      let res :=
        match chg.t with
        | .kModify => (buffer chg.newdata chg.len).bind (fun d => modify m chg.off d false)
        | .kAdd => (buffer chg.newdata chg.len).bind (fun d => add m chg.off d false)
        | .kRemove => remove m chg.off chg.len false
      match res with
      | none => none
      | some (r, m1) =>
        if r = .kSuccess then some (.kSuccess, { m1 with _M_nchange := m1._M_nchange + 1 })
        else some (r, m1)

/-! ### find -/

/-- Library function `memmem` of the C library: the index of the first
occurrence of `needle` in `haystack`. -/
def memmem : List Nat → List Nat → Option Nat
  | [], needle => if needle = [] then some 0 else none
  | h :: t, needle =>
    if (h :: t).take needle.length = needle then some 0
    else (memmem t needle).map (fun k => k + 1)

/-- How a scan over a block boundary ends: the needle is found at a position,
the end of the list is reached (`return false`), or the scan is over without a
match. -/
inductive scan_result where
  | found (position : Nat)
  | end_of_file
  | no_match
  deriving DecidableEq

/-- How the inner do-while of a scan ends: a match, `return false` at the
header, or `break` with the block the walking pointer is left at. -/
inductive walk_result where
  | found (position : Nat)
  | end_of_file
  | stopped (at_block : List block)

/-- Method `file_model::find_forward`, the inner do-while: `next` is the head
of the list, `l` bytes of the needle from index `idx` are still to compare. -/
def forward_walk : List block → List Nat → Nat → Nat → walk_result
  | [], _, _, _ => .end_of_file
  | next :: rest, needle, l, idx =>
    if l ≤ next.len then
      if next.data.take l = (needle.drop idx).take l then .found 0
      else .stopped (next :: rest)
    else
      if next.data = (needle.drop idx).take next.len then
        match rest with
        | [] => .end_of_file
        | _ :: _ => forward_walk rest needle (l - next.len) (idx + next.len)
      else .stopped (next :: rest)

/-- Method `file_model::find_forward`, the `for` loop over the starts in `b`
whose match runs into the following blocks; `next` is the list the variable
`next` points into, which an iteration leaves where its walk stopped. -/
def forward_straddle : Nat → block → List block → List Nat → Nat → scan_result
  | 0, _, _, _, _ => .no_match
  | left + 1, b, next, needle, pos =>
    if (b.data.drop pos).take (left + 1) = needle.take (left + 1) then
      match forward_walk next needle (needle.length - (left + 1)) (left + 1) with
      | .found _ => .found pos
      | .end_of_file => .end_of_file
      | .stopped next1 => forward_straddle left b next1 needle (pos + 1)
    else forward_straddle left b next needle (pos + 1)

/-- Method `file_model::find_forward`, the outer do-while; the list starts at
`b` and `off` is the offset of `b` in the file. -/
def find_forward_loop : List block → Nat → Nat → List Nat → Option Nat
  | [], _, _, _ => none
  | b :: rest, off, pos, needle =>
    let needlelen := needle.length
    -- If the needle fits in the current block...
    let fits := decide (u64 (pos + needlelen) ≤ b.len)
    let hit := if fits then memmem (b.data.drop pos) needle else none
    match hit with
    | some k => some (off + (pos + k))
    | none =>
      let pos := if fits then u64 (sub64 b.len needlelen + 1) else pos
      match rest with
      | [] => none
      | _ :: _ =>
        match forward_straddle (b.len - pos) b rest needle pos with
        | .found p => some (off + p)
        | .end_of_file => none
        | .no_match => find_forward_loop rest (off + b.len) 0 needle

/-- Method `file_model::find_forward`; `none` is `false`. -/
def find_forward (m : file_model) (off : Nat) (needle : List Nat) : Option Nat :=
  let needlelen := needle.length
  if u64 (off + needlelen) > m._M_len then none
  else if needlelen = 0 then none
  else
    -- Seek to offset.
    match seek m off with
    | none => none
    | some (i, pos) =>
      -- Make 'off' point to the beginning of the block.
      find_forward_loop (m.chain.drop i) (off - pos) pos needle

/-- Method `file_model::find_backward`, the `for` loop over the pointers `p`
from `b->data + k` down to `b->data`. -/
def backward_fit : List Nat → List Nat → Nat → Option Nat
  | d, needle, 0 => if d.take needle.length = needle then some 0 else none
  | d, needle, k + 1 =>
    if (d.drop (k + 1)).take needle.length = needle then some (k + 1)
    else backward_fit d needle k

/-- Method `file_model::find_backward`, the inner do-while: `prev` is the head
of the list (the blocks towards the start of the file follow), `l` bytes of the
needle are still to compare and `tmpoff` is the offset of `prev` in the file. -/
def backward_walk : List block → List Nat → Nat → Nat → walk_result
  | [], _, _, _ => .end_of_file
  | prev :: rest, needle, l, tmpoff =>
    if l ≤ prev.len then
      let idx := prev.len - l
      if (prev.data.drop idx).take l = needle.take l then .found (u64 (tmpoff + idx))
      else .stopped (prev :: rest)
    else
      if prev.data = (needle.drop (l - prev.len)).take prev.len then
        match rest with
        | [] => .end_of_file
        | p :: _ => backward_walk rest needle (l - prev.len) (sub64 tmpoff p.len)
      else .stopped (prev :: rest)

/-- Method `file_model::find_backward`, the `for` loop over the lengths `left`
of the part of the needle that lies in `b`; `prev` is the list the variable
`prev` points into, which an iteration leaves where its walk stopped. -/
def backward_straddle : Nat → block → List block → List Nat → Nat → scan_result
  | 0, _, _, _, _ => .no_match
  | left + 1, b, prev, needle, off =>
    let l := needle.length - (left + 1)
    if b.data.take (left + 1) = (needle.drop l).take (left + 1) then
      match backward_walk prev needle l off with
      | .found position => .found position
      | .end_of_file => .end_of_file
      | .stopped prev1 => backward_straddle left b prev1 needle off
    else backward_straddle left b prev needle off

/-- Method `file_model::find_backward`, the outer do-while; the list starts at
`b` and goes on towards the start of the file, `off` is the offset of `b`. -/
def find_backward_loop : List block → Nat → Nat → List Nat → Option Nat
  | [], _, _, _ => none
  | b :: before, off, pos, needle =>
    let needlelen := needle.length
    -- If the needle fits in the current block...
    let fits := decide (needlelen ≤ pos)
    let hit := if fits then backward_fit b.data needle (pos - needlelen) else none
    match hit with
    | some k => some (off + k)
    | none =>
      let pos := if fits then needlelen - 1 else pos
      match before with
      | [] => none
      | prev :: _ =>
        let off := sub64 off prev.len
        match backward_straddle pos b before needle off with
        | .found position => some position
        | .end_of_file => none
        | .no_match => find_backward_loop before off prev.len needle

/-- Method `file_model::find_backward`; `none` is `false`. -/
def find_backward (m : file_model) (off : Nat) (needle : List Nat) : Option Nat :=
  let needlelen := needle.length
  if needlelen > m._M_len then none
  else if needlelen = 0 then none
  else if u64 (off + needlelen) ≥ m._M_len then
    let b := blk m.chain (m.chain.length - 1)
    -- Make 'off' point to the beginning of the block.
    find_backward_loop m.chain.reverse (m._M_len - b.len) b.len needle
  else
    let off := u64 (off + needlelen)
    match seek m off with
    | none => none
    | some (i, pos) =>
      -- Make 'off' point to the beginning of the block.
      find_backward_loop (m.chain.take (i + 1)).reverse (off - pos) pos needle

/-- Method `file_model::find`. -/
def find (m : file_model) (off : Nat) (dir : direction) (needle : List Nat) : Option Nat :=
  if dir = direction.kForward then find_forward m off needle
  else find_backward m off needle

/-! ### save -/

/-- The ways through `file_model::save`: nothing to do, `save_in_place`, or the
rewrite through a temporary file. -/
inductive save_path where
  | kNotModified
  | kInPlace
  | kRewrite
  deriving DecidableEq

/-- Method `file_model::save`, the choice of the path. -/
def save_route (m : file_model) : save_path :=
  -- If the file has not been modified...
  if !m._M_modified then save_path.kNotModified
  -- If the file has neither shrinked nor grown...
  else if !m._M_size_modified then save_path.kInPlace
  else save_path.kRewrite

/-- System calls `lseek(fd, off, SEEK_SET)` and `::write(fd, data, len)` on a
file that holds `file`: the file afterwards (a gap past the end reads zero; a
write of no byte leaves the file as it is). -/
def write_at (file : List Nat) (off : Nat) (data : List Nat) : List Nat :=
  if data.length = 0 then file
  else
    file.take off ++ List.replicate (off - file.length) 0 ++ data ++ file.drop (off + data.length)

/-- Method `file_model::write(fd, buf, len)` at the position `off` of a file
that holds `file`: the number of bytes written and the file afterwards.
`room` is the number of bytes the host accepts before `::write` fails, `none`
when no write fails. -/
def write (file : List Nat) (off : Nat) (data : List Nat) (room : Option Nat) :
    Nat × List Nat :=
  match room with
  | none => (data.length, write_at file off data)
  | some r => (min r data.length, write_at file off (data.take r))

/-- Method `file_model::save_in_place`, the loop over the blocks: whether every
`lseek` and `write` succeeded, and the file after the blocks in memory have
been written at their offsets. -/
def save_in_place_loop (no_seek : Bool) :
    List block → Nat → List Nat → Option Nat → Bool × List Nat
  | [], _, file, _ => (true, file)
  | b :: rest, off, file, room =>
    -- If the block is in memory...
    if b.in_memory then
      -- Seek.
      if no_seek then (false, file)
      else
        -- Write block.
        let w := write file off b.data room
        if w.1 ≠ b.len then (false, w.2)
        else save_in_place_loop no_seek rest (off + b.len) w.2 (room.map (fun r => r - b.len))
    else save_in_place_loop no_seek rest (off + b.len) file room

/-- Method `file_model::save`, the loop that writes the blocks to the temporary
file: whether every `write` succeeded, and the temporary file. -/
def save_loop : List block → List Nat → Option Nat → Bool × List Nat
  | [], tmp, _ => (true, tmp)
  | b :: rest, tmp, room =>
    -- Write block.
    let w := write tmp tmp.length b.data room
    if w.1 ≠ b.len then (false, w.2)
    else save_loop rest w.2 (room.map (fun r => r - b.len))

/-- Method `file_model::open` called with the model's own `_M_filename`, as
`save` and `save_in_place` do: the name and the journal are left alone (the
stored name is shorter than `sizeof(_M_filename)`). -/
def open_own_name (m : file_model) (f : Option host_file) (mode : open_mode) :
    Bool × file_model :=
  let r := open_file m f mode
  if r.1 then (true, { r.2 with _M_len := r.2._M_filesize }) else r

/-- Method `file_model::save_in_place` on a model whose file holds `disk`: the
result, the model and the file afterwards. -/
def save_in_place (m : file_model) (disk : List Nat) (host : save_host) :
    Bool × file_model × List Nat :=
  -- Write blocks.
  let w := save_in_place_loop host.no_seek m.chain 0 disk host.room
  if !w.1 then (false, m, w.2)
  else
    let r := open_own_name m.close (host.again w.2 m._M_block_device) open_mode.kReadWrite
    (r.1, r.2, w.2)

/-- Method `file_model::save` on a model whose file holds `disk`: the result,
the model and the file `_M_filename` names afterwards.  The result of `rename`
is not looked at; the file a temporary file is renamed to is a regular
file. -/
def save (m : file_model) (disk : List Nat) (host : save_host) :
    Bool × file_model × List Nat :=
  match save_route m with
  -- If the file has not been modified...
  | save_path.kNotModified => (true, m, disk)
  -- If the file has neither shrinked nor grown...
  | save_path.kInPlace => save_in_place m disk host
  | save_path.kRewrite =>
    -- Open file for writing.
    if host.no_temporary then (false, m, disk)
    else
      -- Write blocks.
      let w := save_loop m.chain [] host.room
      if !w.1 then (false, m, disk)
      else
        let disk := if host.no_rename then disk else w.2
        let device := if host.no_rename then m._M_block_device else false
        let r := open_own_name m.close (host.again disk device) open_mode.kReadWrite
        (r.1, r.2, disk)

end file_model

/-! ## The change log on disk (`file_changes::save`, `file_changes::load`) -/

/-- The bytes of a string literal of the source. -/
def bytes_of (s : String) : List Nat := s.toList.map Char.toNat

/-- The literal `"Number of changes: "`. -/
def kNumberOfChanges : List Nat :=
  [78, 117, 109, 98, 101, 114, 32, 111, 102, 32, 99, 104, 97, 110, 103, 101, 115, 58, 32]

/-- The literal `"Modify: "`. -/
def kModifyLabel : List Nat := [77, 111, 100, 105, 102, 121, 58, 32]

/-- The literal `"Add: "`. -/
def kAddLabel : List Nat := [65, 100, 100, 58, 32]

/-- The literal `"Remove: "`. -/
def kRemoveLabel : List Nat := [82, 101, 109, 111, 118, 101, 58, 32]

/-- The literal `"offset: "`. -/
def kOffsetLabel : List Nat := [111, 102, 102, 115, 101, 116, 58, 32]

/-- The literal `", length: "`. -/
def kLengthLabel : List Nat := [44, 32, 108, 101, 110, 103, 116, 104, 58, 32]

/-- Library function `fprintf` with `%llu` or `%zu`, the loop over the digits:
`acc` holds the digits already produced, the least significant last. -/
def decimal_loop : Nat → Nat → List Nat → List Nat
  | 0, _, acc => acc
  | fuel + 1, n, acc =>
    if n < 10 then (48 + n) :: acc
    else decimal_loop fuel (n / 10) ((48 + n % 10) :: acc)

/-- Library function `fprintf` with `%llu` or `%zu`: the decimal digits of a
64-bit value (at most 20 digits). -/
def decimal (n : Nat) : List Nat := decimal_loop 20 n []

/-- One hexadecimal digit in lower case. -/
def hex_digit (d : Nat) : Nat := if d < 10 then 48 + d else 87 + d

/-- Library function `fprintf` with `%02x` on a `uint8_t`. -/
def hex_byte (v : Nat) : List Nat := [hex_digit (v % 256 / 16), hex_digit (v % 16)]

/-- Static method `file_changes::hexdump`: `none` when the loop reads a null
pointer or past the `data` it is given. -/
def hexdump (data : Option (List Nat)) (len : Nat) : Option (List Nat) :=
  if len = 0 then some [10]
  else
    match data with
    | none => none
    | some d =>
      if d.length < len then none
      else some (((d.take len).map hex_byte).flatten ++ [10])

/-- Method `file_changes::save`, the text written for one record. -/
def save_record (chg : file_change) : Option (List Nat) :=
  match chg.t with
  | change_type.kModify =>
    (hexdump chg.newdata chg.len).map (fun hex =>
      kModifyLabel ++ kOffsetLabel ++ decimal chg.off ++ kLengthLabel ++ decimal chg.len ++
        [46, 10] ++ hex)
  | change_type.kAdd =>
    (hexdump chg.newdata chg.len).map (fun hex =>
      kAddLabel ++ kOffsetLabel ++ decimal chg.off ++ kLengthLabel ++ decimal chg.len ++
        [46, 10] ++ hex)
  | change_type.kRemove =>
    some (kRemoveLabel ++ kOffsetLabel ++ decimal chg.off ++ kLengthLabel ++
      decimal chg.len ++ [46, 10])

/-- Method `file_changes::save`, the loop over the records. -/
def save_records : List file_change → Option (List Nat)
  | [] => some []
  | chg :: rest =>
    match save_record chg, save_records rest with
    | some a, some b => some (a ++ b)
    | _, _ => none

namespace file_changes

/-- Method `file_changes::save`: the bytes written to the file (`fopen`
succeeds); `none` when `hexdump` runs on a null pointer. -/
def save (changes : List file_change) : Option (List Nat) :=
  (save_records changes).map (fun records =>
    kNumberOfChanges ++ decimal changes.length ++ [46, 10] ++ records)

end file_changes

/-- Library function `memchr`: the index of the first occurrence of `c`. -/
def memchr (c : Nat) : List Nat → Option Nat
  | [] => none
  | x :: rest => if x = c then some 0 else (memchr c rest).map (fun i => i + 1)

/-- Method `file_changes::load`, the loop that parses the number of changes.
The list holds the bytes `[begin, eol)`; `none` is `return false`. -/
def load_count : List Nat → Nat → Nat → Option Nat
  | [], nchanges, _ => some nchanges
  | c :: rest, nchanges, l =>
    if 48 ≤ c ∧ c ≤ 57 then
      let tmp := u64 (nchanges * 10 + (c - 48))
      if tmp < nchanges then none
      else load_count rest tmp (l + 1)
    else if l > 0 ∧ c = 46 ∧ rest = [] then some nchanges
    else none

/-- Method `file_changes::load`, the loop that parses the offset: the value and
the bytes `[begin, eol)` left when the loop ends. -/
def load_offset : List Nat → Nat → Nat → Option (Nat × List Nat)
  | [], off, _ => some (off, [])
  | c :: rest, off, l =>
    if 48 ≤ c ∧ c ≤ 57 then
      let tmp := u64 (off * 10 + (c - 48))
      if tmp < off then none
      else load_offset rest tmp (l + 1)
    else if l > 0 ∧ c = 44 then some (off, c :: rest)
    else none

/-- Method `file_changes::load`, the loop that parses the length. -/
def load_length : List Nat → Nat → Nat → Option Nat
  | [], len, _ => some len
  | c :: rest, len, l =>
    if 48 ≤ c ∧ c ≤ 57 then
      let tmp := u64 (len * 10 + (c - 48))
      if tmp < len then none
      else load_length rest tmp (l + 1)
    else if l > 0 ∧ c = 46 ∧ rest = [] ∧ len > 0 then some len
    else none

/-- Method `file_changes::load`, the first line of a record: its type, offset
and length. -/
def load_record_line (line : List Nat) : Option (change_type × Nat × Nat) :=
  -- Get type of the file change.
  let typed : Option (change_type × Nat) :=
    if line.take 8 = kModifyLabel then some (change_type.kModify, 8)
    else if line.take 5 = kAddLabel then some (change_type.kAdd, 5)
    else if line.take 8 = kRemoveLabel then some (change_type.kRemove, 8)
    else none
  match typed with
  | none => none
  | some (t, skip) =>
    let line := line.drop skip
    -- Parse offset.
    if line.take 8 ≠ kOffsetLabel then none
    else
      match load_offset (line.drop 8) 0 0 with
      | none => none
      | some (off, line) =>
        -- Parse length.
        if line.length ≤ 10 ∨ line.take 10 ≠ kLengthLabel then none
        else (load_length (line.drop 10) 0 0).map (fun len => (t, off, len))

/-- The value of a hexadecimal digit, in either case. -/
def hex_value (c : Nat) : Option Nat :=
  if 48 ≤ c ∧ c ≤ 57 then some (c - 48)
  else if 97 ≤ c ∧ c ≤ 102 then some (c - 97 + 10)
  else if 65 ≤ c ∧ c ≤ 70 then some (c - 65 + 10)
  else none

/-- Method `file_changes::load`, the loop over the pairs of hexadecimal digits
of a data line.  With one byte left the loop reads the newline as the second
digit. -/
def load_hex : List Nat → Option (List Nat)
  | [] => some []
  | [_] => none
  | a :: b :: rest =>
    match hex_value a, hex_value b with
    | some x, some y => (load_hex rest).map (fun line => (x * 16 + y) :: line)
    | _, _ => none

/-- Method `file_changes::load`, the do-while loop over the lines.  The list
holds the bytes `[begin, end)`, `first` says that `nline` is 0.  `malloc_zero`
says that `malloc(0)` returns a pointer; a request of `2^63` bytes or more
returns `NULL`. -/
def load_loop (malloc_zero : Bool) :
    Nat → List Nat → Bool → Nat → List file_change → Option (Bool × List file_change)
  | 0, _, _, _, _ => none
  | fuel + 1, input, first, nchanges, changes =>
    -- Search end of line.
    match memchr 10 input with
    | none => some (false, changes)
    | some linelen =>
      -- If the line is too short...
      if linelen < 20 then some (false, changes)
      else
        let line := input.take linelen
        let next := input.drop (linelen + 1)
        -- First line?
        if first then
          if line.take 19 ≠ kNumberOfChanges then some (false, changes)
          else
            match load_count (line.drop 19) nchanges 0 with
            | none => some (false, changes)
            | some n =>
              if next.length > 0 then load_loop malloc_zero fuel next false n changes
              else some (decide (n = changes.length), changes)
        else
          match load_record_line line with
          | none => some (false, changes)
          | some (t, off, len) =>
            if t = change_type.kRemove then
              let changes := register_change changes change_type.kRemove off none none len
              if next.length > 0 then load_loop malloc_zero fuel next false nchanges changes
              else some (decide (nchanges = changes.length), changes)
            else
              match memchr 10 next with
              | none => some (false, changes)
              | some linelen =>
                if linelen ≠ u64 (2 * len) then some (false, changes)
                else if len ≥ 9223372036854775808 ∨ (len = 0 ∧ malloc_zero = false) then
                  some (false, changes)
                else
                  match load_hex (next.take linelen) with
                  | none => some (false, changes)
                  | some line =>
                    let changes := register_change changes t off none (some line) len
                    let next := next.drop (linelen + 1)
                    if next.length > 0 then
                      load_loop malloc_zero fuel next false nchanges changes
                    else some (decide (nchanges = changes.length), changes)

namespace file_changes

/-- Method `file_changes::load` on a regular file that holds `input` (`open`
and `mmap` succeed): the result and the journal it leaves; `none` when the fuel
of the loop is exhausted. -/
def load (changes : List file_change) (input : List Nat) (malloc_zero : Bool) :
    Option (Bool × List file_change) :=
  -- If the file is empty...
  if input.length = 0 then some (false, changes)
  else load_loop malloc_zero (input.length + 1) input true 0 changes

end file_changes

/-- The value of a string of decimal digits read after the value `n`. -/
def dec_val (n : Nat) (ds : List Nat) : Nat := ds.foldl (fun a c => a * 10 + (c - 48)) n

/-- The bytes are decimal digits. -/
def all_digits (ds : List Nat) : Prop := ∀ c ∈ ds, 48 ≤ c ∧ c ≤ 57

instance (ds : List Nat) : Decidable (all_digits ds) := by
  unfold all_digits; infer_instance

/-- What `load` stores for a record that `save` wrote: the type, the offset and
the length; the new bytes of a `kModify` or `kAdd` record; no old bytes. -/
def persisted (chg : file_change) : file_change :=
  { t := chg.t, off := chg.off, olddata := none,
    newdata := if chg.t = change_type.kRemove then none else chg.newdata, len := chg.len }

/-- A record of a journal: its length is not 0, offset and length are 64-bit
values, and a `kModify` or `kAdd` record has `len` new bytes (fewer than
`2^63`). -/
def record_ok (chg : file_change) : Prop :=
  0 < chg.len ∧ chg.off < 18446744073709551616 ∧ chg.len < 18446744073709551616 ∧
    (chg.t = change_type.kRemove ∨
      (chg.len < 9223372036854775808 ∧
        match chg.newdata with
        | some d => d.length = chg.len ∧ ∀ v ∈ d, v < 256
        | none => False))

instance (chg : file_change) : Decidable (record_ok chg) := by
  unfold record_ok
  cases chg.newdata <;> simp only <;> infer_instance

/-- The number `N` that the header line `"Number of changes: N."` declares:
the value of the digits that follow the 19 bytes of the label. -/
def declared_count (input : List Nat) : Nat :=
  dec_val 0 ((input.drop 19).takeWhile (fun c => decide (48 ≤ c ∧ c ≤ 57)))

/-! ## Reachable states -/

/-- The number of blocks of a chain that own a buffer. -/
def owned (chain : List block) : Nat := (chain.filter (fun b => b.in_memory)).length

/-- The sizes of a state that a 64-bit machine can hold: the length of the file
is an `off_t`, and so is the memory used. -/
def fits (m : file_model) : Prop :=
  m._M_len < 9223372036854775808 ∧ m._M_memory_used < 9223372036854775808

instance (m : file_model) : Decidable (fits m) := by
  unfold fits; infer_instance

/-- The call `undo` forwards to is an `add` or a `remove` of at least one byte. -/
def undo_resizes (m : file_model) : Bool :=
  match m._M_changes.get? (m._M_nchange - 1) with
  | none => false
  | some chg =>
    match chg.t with
    | change_type.kModify => false
    | change_type.kAdd => decide (chg.len ≠ 0)
    | change_type.kRemove => decide (((file_model.buffer chg.olddata chg.len).getD []).length ≠ 0)

/-- The call `redo` forwards to is an `add` or a `remove` of at least one byte. -/
def redo_resizes (m : file_model) : Bool :=
  match m._M_changes.get? m._M_nchange with
  | none => false
  | some chg =>
    match chg.t with
    | change_type.kModify => false
    | change_type.kAdd => decide (((file_model.buffer chg.newdata chg.len).getD []).length ≠ 0)
    | change_type.kRemove => decide (chg.len ≠ 0)

/-- The states reachable from `open` by public operations.  The first index is
the content of the file that `_M_filename` names; the second says whether an
`add` or a `remove` of at least one byte has returned `kSuccess` (called by the
client, or by `undo` or `redo`) since the last `close` or the last `open` or
`save` that returned `true`.  `open` is called on any model, also on one that
is still open; every state `fits`. -/
inductive reachable : List Nat → Bool → file_model → Prop where
  | open_new (undo_enabled : Bool) (filename : String) (f : host_file) (mode : open_mode) :
      f.bytes.length < 9223372036854775808 →
      (file_model.open (file_model.new undo_enabled) filename (some f) mode).1 = true →
      reachable f.bytes false
        (file_model.open (file_model.new undo_enabled) filename (some f) mode).2
  | open_again {disk : List Nat} {resized : Bool} {m : file_model} (filename : String)
      (f : host_file) (mode : open_mode) :
      reachable disk resized m → f.bytes.length < 9223372036854775808 →
      (file_model.open m filename (some f) mode).1 = true →
      reachable f.bytes false (file_model.open m filename (some f) mode).2
  | open_failed {disk : List Nat} {resized : Bool} {m : file_model} (filename : String)
      (f : Option host_file) (mode : open_mode) :
      reachable disk resized m → (file_model.open m filename f mode).1 = false →
      reachable disk resized (file_model.open m filename f mode).2
  | close {disk : List Nat} {resized : Bool} {m : file_model} :
      reachable disk resized m → reachable disk false m.close
  | save {disk : List Nat} {resized : Bool} {m : file_model} (host : save_host)
      (m' : file_model) (disk' : List Nat) :
      reachable disk resized m → m.save disk host = (true, m', disk') → fits m' →
      reachable disk' false m'
  | save_failed {disk : List Nat} {resized : Bool} {m : file_model} (host : save_host)
      (m' : file_model) (disk' : List Nat) :
      reachable disk resized m → m.save disk host = (false, m', disk') → fits m' →
      reachable disk' resized m'
  | modify {disk : List Nat} {resized : Bool} {m : file_model} (off : Nat) (data : List Nat)
      (record_change : Bool) (r : operation_result) (m' : file_model) :
      reachable disk resized m → m.modify off data record_change = some (r, m') → fits m' →
      reachable disk resized m'
  | add {disk : List Nat} {resized : Bool} {m : file_model} (off : Nat) (data : List Nat)
      (record_change : Bool) (r : operation_result) (m' : file_model) :
      reachable disk resized m → m.add off data record_change = some (r, m') → fits m' →
      reachable disk
        (resized || (decide (r = operation_result.kSuccess) && decide (data.length ≠ 0))) m'
  | remove {disk : List Nat} {resized : Bool} {m : file_model} (off len : Nat)
      (record_change : Bool) (r : operation_result) (m' : file_model) :
      reachable disk resized m → len < 18446744073709551616 →
      m.remove off len record_change = some (r, m') → fits m' →
      reachable disk (resized || (decide (r = operation_result.kSuccess) && decide (len ≠ 0))) m'
  | undo {disk : List Nat} {resized : Bool} {m : file_model} (r : operation_result)
      (m' : file_model) :
      reachable disk resized m → m.undo = some (r, m') → fits m' →
      reachable disk (resized || (decide (r = operation_result.kSuccess) && undo_resizes m)) m'
  | redo {disk : List Nat} {resized : Bool} {m : file_model} (r : operation_result)
      (m' : file_model) :
      reachable disk resized m → m.redo = some (r, m') → fits m' →
      reachable disk (resized || (decide (r = operation_result.kSuccess) && redo_resizes m)) m'

/-- The reachable states of a client that calls `open` on a model that was just
constructed or closed, never on one that is still open, and goes on only when
`open` and `save` return `true`, on a host whose `rename` succeeds.  The
indices are those of `reachable`. -/
inductive orderly : List Nat → Bool → file_model → Prop where
  | open_new (undo_enabled : Bool) (filename : String) (f : host_file) (mode : open_mode) :
      f.bytes.length < 9223372036854775808 →
      (file_model.open (file_model.new undo_enabled) filename (some f) mode).1 = true →
      orderly f.bytes false
        (file_model.open (file_model.new undo_enabled) filename (some f) mode).2
  | open_closed {disk : List Nat} {resized : Bool} {m : file_model} (filename : String)
      (f : host_file) (mode : open_mode) :
      orderly disk resized m → f.bytes.length < 9223372036854775808 →
      (file_model.open m.close filename (some f) mode).1 = true →
      orderly f.bytes false (file_model.open m.close filename (some f) mode).2
  | close {disk : List Nat} {resized : Bool} {m : file_model} :
      orderly disk resized m → orderly disk false m.close
  | save {disk : List Nat} {resized : Bool} {m : file_model} (host : save_host)
      (m' : file_model) (disk' : List Nat) :
      orderly disk resized m → host.no_rename = false →
      m.save disk host = (true, m', disk') → orderly disk' false m'
  | modify {disk : List Nat} {resized : Bool} {m : file_model} (off : Nat) (data : List Nat)
      (record_change : Bool) (r : operation_result) (m' : file_model) :
      orderly disk resized m → m.modify off data record_change = some (r, m') → fits m' →
      orderly disk resized m'
  | add {disk : List Nat} {resized : Bool} {m : file_model} (off : Nat) (data : List Nat)
      (record_change : Bool) (r : operation_result) (m' : file_model) :
      orderly disk resized m → m.add off data record_change = some (r, m') → fits m' →
      orderly disk
        (resized || (decide (r = operation_result.kSuccess) && decide (data.length ≠ 0))) m'
  | remove {disk : List Nat} {resized : Bool} {m : file_model} (off len : Nat)
      (record_change : Bool) (r : operation_result) (m' : file_model) :
      orderly disk resized m → len < 18446744073709551616 →
      m.remove off len record_change = some (r, m') → fits m' →
      orderly disk (resized || (decide (r = operation_result.kSuccess) && decide (len ≠ 0))) m'
  | undo {disk : List Nat} {resized : Bool} {m : file_model} (r : operation_result)
      (m' : file_model) :
      orderly disk resized m → m.undo = some (r, m') → fits m' →
      orderly disk (resized || (decide (r = operation_result.kSuccess) && undo_resizes m)) m'
  | redo {disk : List Nat} {resized : Bool} {m : file_model} (r : operation_result)
      (m' : file_model) :
      orderly disk resized m → m.redo = some (r, m') → fits m' →
      orderly disk (resized || (decide (r = operation_result.kSuccess) && redo_resizes m)) m'

/-! ## Invariants -/

/-- The invariant of the chain: the block lengths sum to `_M_len` (block-sum
invariant), `_M_len` is a 64-bit value, and no block in memory is longer than
its buffer of `kMemoryBlockSize` bytes. -/
def chain_ok (m : file_model) : Prop :=
  total_len m.chain = m._M_len ∧ m._M_len < 18446744073709551616 ∧
    ∀ b ∈ m.chain, b.in_memory = true → b.len ≤ kMemoryBlockSize

instance (m : file_model) : Decidable (chain_ok m) := by
  unfold chain_ok; infer_instance

/-- The window `[off, off + len)` of a byte sequence. -/
def window (bytes : List Nat) (off len : Nat) : List Nat := (bytes.drop off).take len

/-- A needle occurs at position `p` of a byte sequence. -/
def occurs_at (bytes needle : List Nat) (p : Nat) : Prop :=
  p + needle.length ≤ bytes.length ∧ window bytes p needle.length = needle

instance (bytes needle : List Nat) (p : Nat) : Decidable (occurs_at bytes needle p) := by
  unfold occurs_at; infer_instance

/-- The block and the position `add` works at: what `seek` found, or the end of
the last block when `off` is the length of the file. -/
def add_position (m : file_model) (off i pos : Nat) : Prop :=
  m.seek off = some (i, pos) ∨
    (m.seek off = none ∧ off = m._M_len ∧ i = m.chain.length - 1 ∧
      pos = (blk m.chain (m.chain.length - 1)).len)

instance (m : file_model) (off i pos : Nat) : Decidable (add_position m off i pos) := by
  unfold add_position; infer_instance

/-! ## Sample runs -/

/-- The state an operation leaves; the fresh model when the run is undefined. -/
def state_after (r : Option (operation_result × file_model)) : file_model :=
  match r with
  | some (_, m) => m
  | none => file_model.new false

/-- The result code of an operation, if the run is defined. -/
def result_of (r : Option (operation_result × file_model)) : Option operation_result :=
  r.map (fun x => x.1)

/-- A model with undo enabled opened read-write on a regular file. -/
def opened (bytes : List Nat) : file_model :=
  (file_model.open (file_model.new true) "file_model.bin"
    (some { bytes := bytes, block_device := false }) open_mode.kReadWrite).2

/-- A ten-byte file after `add(4, {40, 41}, 2)`: a block in disk, a block in
memory and a block in disk. -/
def sample_edited : file_model :=
  state_after (file_model.add (opened [0, 1, 2, 3, 4, 5, 6, 7, 8, 9]) 4 [40, 41] true)

/-- A model with undo disabled opened read-write on a regular file. -/
def opened_no_undo (bytes : List Nat) : file_model :=
  (file_model.open (file_model.new false) "file_model.bin"
    (some { bytes := bytes, block_device := false }) open_mode.kReadWrite).2

/-- An empty file after `add(0, {1, 2, 3}, 3)`. -/
def three_added : file_model :=
  state_after (file_model.add (opened []) 0 [1, 2, 3] true)

/-- An empty file after `add(0, {1, 2, 3}, 3)` and `remove(0, 3)`: the length is
0 again and the chain keeps one block in memory of length 0. -/
def emptied : file_model :=
  state_after (file_model.remove three_added 0 3 true)

/-- 4097 bytes: 4096 zeros and a one. -/
def zeros_one : List Nat := List.replicate 4096 0 ++ [1]

/-- A file of 4097 bytes after `add(4097, {9}, 1)`. -/
def tail_added : file_model :=
  state_after (file_model.add (opened zeros_one) 4097 [9] true)

/-- A file of 4097 bytes after `add(4097, {9}, 1)` and `remove(4097, 1)`: the
block in disk is followed by a block in memory of length 0. -/
def tail_emptied : file_model :=
  state_after (file_model.remove tail_added 4097 1 true)

/-- The file `aaZaZab` after `remove(2, 1)`. -/
def two_pieces : file_model :=
  state_after (file_model.remove (opened [97, 97, 90, 97, 90, 97, 98]) 2 1 true)

/-- The file `aaZaZab` after `remove(2, 1)` and `remove(3, 1)`: the content
`aaaab` in three blocks in disk, `aa`, `a` and `ab`. -/
def three_pieces : file_model :=
  state_after (file_model.remove two_pieces 3 1 true)

/-- The file `baZaZaa` after `remove(2, 1)`. -/
def two_pieces_back : file_model :=
  state_after (file_model.remove (opened [98, 97, 90, 97, 90, 97, 97]) 2 1 true)

/-- The file `baZaZaa` after `remove(2, 1)` and `remove(3, 1)`: the content
`baaaa` in three blocks in disk, `ba`, `a` and `aa`. -/
def three_pieces_back : file_model :=
  state_after (file_model.remove two_pieces_back 3 1 true)

/-- A model with undo enabled opened read-write on a block device. -/
def opened_device (bytes : List Nat) : file_model :=
  (file_model.open (file_model.new true) "/dev/file_model"
    (some { bytes := bytes, block_device := true }) open_mode.kReadWrite).2

/-- A four-byte file after a recorded `modify(1, {9}, 1)`: the journal holds one
record and `nchange` is 1. -/
def first_edited : file_model :=
  state_after (file_model.modify (opened [0, 1, 2, 3]) 1 [9] true)

/-- The model of `first_edited` closed and opened read-write on a second file of
four bytes. -/
def reopened : file_model :=
  (file_model.open first_edited.close "second.bin"
    (some { bytes := [5, 6, 7, 8], block_device := false }) open_mode.kReadWrite).2

/-- The state of `reopened` after a recorded `modify(1, {9}, 1)`. -/
def reopened_edited : file_model :=
  state_after (file_model.modify reopened 1 [9] true)

/-- Scenario 2 of the specification: a 6000-byte file of `0x00` after
`modify(4090, "ABCDEFGHIJ", 10)`. -/
def scenario_two : file_model :=
  state_after (file_model.modify (opened (List.replicate 6000 0)) 4090
    [65, 66, 67, 68, 69, 70, 71, 72, 73, 74] true)

/-- Scenario 3 of the specification: `scenario_two` after `remove(4095, 10)`. -/
def scenario_three : file_model :=
  state_after (file_model.remove scenario_two 4095 10 true)

/-- A journal of three records. -/
def sample_journal : List file_change :=
  [{ t := change_type.kModify, off := 3, olddata := some [1, 2], newdata := some [171, 10], len := 2 },
   { t := change_type.kRemove, off := 18446744073709551615, olddata := some [7], newdata := none,
     len := 12 },
   { t := change_type.kAdd, off := 0, olddata := none, newdata := some [0, 255, 16], len := 3 }]

/-- Every block in disk of the list holds the bytes of the file at its own
offset; `off` is the offset of the first block. -/
def aligned_from : List block → Nat → List Nat → Prop
  | [], _, _ => True
  | b :: rest, off, file =>
    (b.in_memory = false → b.data = window file off b.len) ∧
      aligned_from rest (off + b.len) file

/-- The invariant of the orderly runs.  `disk` is the content of the file
on disk and `resized` says whether an `add` or a `remove` of at least one byte
has succeeded since the last `open`, `close` or `save`: the chain invariant
holds, the sizes fit, the memory used is `kMemoryBlockSize` for every block in
memory, `_M_size_modified` is `resized`, a state that is not modified has no
block in memory, a state that was not resized is closed or has every block in
disk at its own offset of a file as long as the model, and the lengths of the
journal are 64-bit values. -/
def state_ok (disk : List Nat) (resized : Bool) (m : file_model) : Prop :=
  chain_ok m ∧ fits m ∧
    m._M_memory_used = kMemoryBlockSize * owned m.chain ∧
    m._M_size_modified = resized ∧
    (m._M_modified = false → resized = false ∧ owned m.chain = 0) ∧
    (resized = false →
      (m._M_modified = false ∧ m.chain = []) ∨
        (aligned_from m.chain 0 disk ∧ m._M_len = disk.length)) ∧
    ∀ chg ∈ m._M_changes, chg.len < 18446744073709551616

/-- The model of `first_edited` after one byte is added at the end. -/
def first_grown : file_model :=
  state_after (file_model.add first_edited 4 [7] true)

/-- The file `{0, 1, 2}` after `remove(0, 3)`. -/
def all_removed : file_model :=
  state_after (file_model.remove (opened [0, 1, 2]) 0 3 true)

/-- A model with undo enabled opened read-only on a regular file of ten bytes. -/
def viewed : file_model :=
  (file_model.open (file_model.new true) "file_model.bin"
    (some { bytes := [0, 1, 2, 3, 4, 5, 6, 7, 8, 9], block_device := false })
    open_mode.kReadOnly).2

/-- The model opened on the file `{0, 1, 2}` and then, without `close`, on an
empty file. -/
def empty_over_three : file_model :=
  (file_model.open (opened [0, 1, 2]) "empty.bin"
    (some { bytes := [], block_device := false }) open_mode.kReadWrite).2

/-- The model of `first_edited` opened, without `close`, on a second file of
four bytes. -/
def second_over_edited : file_model :=
  (file_model.open first_edited "second.bin"
    (some { bytes := [5, 6, 7, 8], block_device := false }) open_mode.kReadWrite).2

/-- The model of `first_grown` opened, without `close`, on a second file of
four bytes. -/
def second_over_grown : file_model :=
  (file_model.open first_grown "second.bin"
    (some { bytes := [5, 6, 7, 8], block_device := false }) open_mode.kReadWrite).2

/-- The file `zeros_one` of 4097 bytes after `modify(0, {9}, 1)`: a block in
memory of 4096 bytes and a block in disk of one byte. -/
def zeros_edited : file_model :=
  state_after (file_model.modify (opened zeros_one) 0 [9] true)

/-- The model of `zeros_edited` opened, without `close`, on an empty file. -/
def empty_over_zeros : file_model :=
  (file_model.open zeros_edited "empty.bin"
    (some { bytes := [], block_device := false }) open_mode.kReadWrite).2

/-- A host on which `rename` fails and every other system call of `save`
succeeds. -/
def rename_fails : save_host := { steady with no_rename := true }

/-- The state of `scenario_two` in a model with undo disabled. -/
def scenario_two_no_undo : file_model :=
  state_after (file_model.modify (opened_no_undo (List.replicate 6000 0)) 4090
    [65, 66, 67, 68, 69, 70, 71, 72, 73, 74] true)

/-- Every block in disk of the list points into the mapping at its own offset
in the file: `addr`, the offset of `data` from `_M_data`, is the sum of the
lengths of the blocks before it; `off` is that sum for the first block. -/
def placed_from : List block → Nat → Prop
  | [], _ => True
  | b :: rest, off => (b.in_memory = false → b.addr = off) ∧ placed_from rest (off + b.len)

/-- Specification of `find`, forward: `p` is the smallest position from `start`
on at which the needle occurs in `c`. -/
def first_occurrence (c needle : List Nat) (start p : Nat) : Prop :=
  start ≤ p ∧ occurs_at c needle p ∧ ∀ q, start ≤ q → q < p → ¬ occurs_at c needle q

end fs

namespace fs
open file_model

/-! ## Basic facts -/

theorem u64_of_lt {n : Nat} (h : n < 18446744073709551616) : u64 n = n := by
  unfold u64; omega

theorem sub64_of_le {a b : Nat} (h : b ≤ a) (ha : a < 18446744073709551616) :
    sub64 a b = a - b := by
  unfold sub64; omega

@[simp] theorem content_nil : content [] = [] := rfl

@[simp] theorem content_cons (b : block) (c : List block) :
    content (b :: c) = b.data ++ content c := by
  simp [content]

@[simp] theorem content_append (c d : List block) :
    content (c ++ d) = content c ++ content d := by
  simp [content]

@[simp] theorem total_len_nil : total_len [] = 0 := rfl

@[simp] theorem total_len_cons (b : block) (c : List block) :
    total_len (b :: c) = b.len + total_len c := by
  simp [total_len]

@[simp] theorem total_len_append (c d : List block) :
    total_len (c ++ d) = total_len c + total_len d := by
  simp [total_len]

theorem length_content (c : List block) : (content c).length = total_len c := by
  induction c with
  | nil => rfl
  | cons b c ih => simp [ih, block.len]

/-- What a successful `seek_loop` returns: the chain splits at the block found. -/
theorem seek_loop_some {c : List block} {n off i pos : Nat}
    (h : seek_loop c n off = some (i, pos)) (hn : n ≤ off) :
    ∃ pre b rest, c = pre ++ b :: rest ∧ pre.length = i ∧ pos < b.len ∧
      n + total_len pre + pos = off := by
  induction c generalizing n i with
  | nil => simp [seek_loop] at h
  | cons b c ih =>
    simp only [seek_loop] at h
    split at h
    · rename_i hlt
      simp only [Option.some.injEq, Prod.mk.injEq] at h
      refine ⟨[], b, c, rfl, ?_, ?_, ?_⟩
      · simp [h.1]
      · omega
      · simp; omega
    · rename_i hge
      cases hr : seek_loop c (n + b.len) off with
      | none => simp [hr] at h
      | some r =>
        simp only [hr, Option.map_some', Option.some.injEq, Prod.mk.injEq] at h
        obtain ⟨pre, b', rest, hc, hl, hp, hs⟩ := ih (i := r.1) (by rw [hr, ← h.2]) (by omega)
        refine ⟨b :: pre, b', rest, by simp [hc], by simp [hl, h.1], hp, ?_⟩
        simp; omega

/-- `seek_loop` finds a block whenever the offset lies inside the list. -/
theorem seek_loop_isSome (c : List block) (n off : Nat) (hn : n ≤ off)
    (h : off < n + total_len c) : ∃ r, seek_loop c n off = some r := by
  induction c generalizing n with
  | nil => simp at h; omega
  | cons b c ih =>
    simp only [seek_loop]
    split
    · exact ⟨_, rfl⟩
    · rename_i hge
      obtain ⟨r, hr⟩ := ih (n + b.len) (by omega) (by simp at h; omega)
      exact ⟨_, by rw [hr]; rfl⟩

/-- The outcome of `seek` on a chain that obeys the block-sum invariant. -/
theorem seek_some {m : file_model} {off i pos : Nat} (h : seek m off = some (i, pos)) :
    ∃ pre b rest, m.chain = pre ++ b :: rest ∧ pre.length = i ∧ pos < b.len ∧
      total_len pre + pos = off := by
  unfold seek at h
  split at h
  · simp at h
  · obtain ⟨pre, b, rest, h1, h2, h3, h4⟩ := seek_loop_some h (Nat.zero_le _)
    exact ⟨pre, b, rest, h1, h2, h3, by omega⟩

theorem seek_isSome (m : file_model) (off : Nat) (hsum : total_len m.chain = m._M_len)
    (h : off < m._M_len) : ∃ r, seek m off = some r := by
  unfold seek
  rw [if_neg (by omega)]
  exact seek_loop_isSome _ _ _ (Nat.zero_le _) (by omega)

theorem seek_none (m : file_model) (off : Nat) (h : off ≥ m._M_len) : seek m off = none := by
  unfold seek; rw [if_pos h]

/-- The state `open` leaves when its steps succeed. -/
theorem open_file_true {m : file_model} {f : host_file} {mode : open_mode}
    (h : (open_file m (some f) mode).1 = true) :
    (open_file m (some f) mode).2 =
      { m with _M_read_only := decide (mode = open_mode.kReadOnly)
               _M_block_device := f.block_device
               _M_filesize := f.bytes.length
               _M_data := if f.bytes.length ≠ 0 then some f.bytes else m._M_data
               chain := if f.bytes.length ≠ 0 then
                   [{ data := f.bytes, in_memory := false, addr := 0 }] else m.chain } := by
  unfold open_file at h ⊢
  simp only at h ⊢
  by_cases h1 : f.fault = open_fault.kFstat
  · rw [if_pos h1] at h; exact absurd h (by simp)
  rw [if_neg h1] at h ⊢
  by_cases h2 : f.fault = open_fault.kFileType
  · rw [if_pos h2] at h; exact absurd h (by simp)
  rw [if_neg h2] at h ⊢
  by_cases h3 : f.block_device = true ∧ f.fault = open_fault.kIoctl
  · rw [if_pos h3] at h; exact absurd h (by simp)
  rw [if_neg h3] at h ⊢
  by_cases h4 : f.bytes.length ≠ 0
  · rw [if_pos h4] at h ⊢
    by_cases h5 : f.fault = open_fault.kMmap
    · rw [if_pos h5] at h; exact absurd h (by simp)
    rw [if_neg h5] at h ⊢
    by_cases h6 : f.fault = open_fault.kMalloc
    · rw [if_pos h6] at h; exact absurd h (by simp)
    rw [if_neg h6]
    simp only [if_pos h4]
  · rw [if_neg h4]
    simp only [if_neg h4]

/-- On a host without a fault the steps of `open` succeed. -/
theorem open_file_ok (m : file_model) (f : host_file) (mode : open_mode)
    (hf : f.fault = open_fault.kNone) : (open_file m (some f) mode).1 = true := by
  unfold open_file
  simp only [hf]
  split_ifs <;> first | rfl | simp_all

/-- An `open` that returns `true` was given a name that fits and a file. -/
theorem open_true {m : file_model} {filename : String} {f : Option host_file} {mode : open_mode}
    (h : (file_model.open m filename f mode).1 = true) :
    strlen filename < kPathMax ∧ ∃ hf, f = some hf ∧ (open_file m (some hf) mode).1 = true := by
  unfold file_model.open at h
  by_cases hn : strlen filename ≥ kPathMax
  · rw [if_pos hn] at h; exact absurd h (by simp)
  · rw [if_neg hn] at h
    refine ⟨by omega, ?_⟩
    cases f with
    | none => simp [open_file] at h
    | some hf =>
      refine ⟨hf, rfl, ?_⟩
      by_cases hr : (open_file m (some hf) mode).1 = true
      · exact hr
      · simp only [hr] at h
        exact absurd h hr

/-- The state after an `open` that returns `true`. -/
theorem open_facts {m : file_model} {filename : String} {f : host_file} {mode : open_mode}
    (h : (file_model.open m filename (some f) mode).1 = true) :
    (file_model.open m filename (some f) mode).2 =
      { m with _M_read_only := decide (mode = open_mode.kReadOnly)
               _M_block_device := f.block_device
               _M_filesize := f.bytes.length
               _M_data := if f.bytes.length ≠ 0 then some f.bytes else m._M_data
               chain := if f.bytes.length ≠ 0 then
                   [{ data := f.bytes, in_memory := false, addr := 0 }] else m.chain
               _M_filename := filename
               _M_changes := if m._M_undo_enabled then [] else m._M_changes
               _M_len := f.bytes.length } := by
  obtain ⟨hn, hf, he, hr⟩ := open_true h
  cases he
  unfold file_model.open
  rw [if_neg (by omega)]
  simp only [hr, if_true]
  rw [open_file_true hr]

/-- With a name that fits and no fault `open` returns `true`. -/
theorem open_ok (m : file_model) (filename : String) (f : host_file) (mode : open_mode)
    (hn : strlen filename < kPathMax) (hf : f.fault = open_fault.kNone) :
    (file_model.open m filename (some f) mode).1 = true := by
  unfold file_model.open
  rw [if_neg (by omega)]
  simp only [open_file_ok m f mode hf, if_true]

/-- The state after `open(_M_filename)` returns `true`. -/
theorem open_own_true {m : file_model} {f : Option host_file} {mode : open_mode}
    (h : (open_own_name m f mode).1 = true) :
    ∃ hf, f = some hf ∧ (open_own_name m f mode).2 =
      { m with _M_read_only := decide (mode = open_mode.kReadOnly)
               _M_block_device := hf.block_device
               _M_filesize := hf.bytes.length
               _M_data := if hf.bytes.length ≠ 0 then some hf.bytes else m._M_data
               chain := if hf.bytes.length ≠ 0 then
                   [{ data := hf.bytes, in_memory := false, addr := 0 }] else m.chain
               _M_len := hf.bytes.length } := by
  unfold open_own_name at h ⊢
  cases f with
  | none => simp [open_file] at h
  | some hf =>
    refine ⟨hf, rfl, ?_⟩
    by_cases hr : (open_file m (some hf) mode).1 = true
    · simp only [hr, if_true]
      rw [open_file_true hr]
    · simp only [hr] at h
      exact absurd h hr
/-- A failing run of `open` leaves the chain, the length, the counters, the
flags and the journal as they were. -/
theorem open_file_keeps (m : file_model) (f : Option host_file) (mode : open_mode)
    (h : (open_file m f mode).1 = false) :
    (open_file m f mode).2.chain = m.chain ∧ (open_file m f mode).2._M_len = m._M_len ∧
    (open_file m f mode).2._M_memory_used = m._M_memory_used ∧
    (open_file m f mode).2._M_modified = m._M_modified ∧
    (open_file m f mode).2._M_size_modified = m._M_size_modified ∧
    (open_file m f mode).2._M_changes = m._M_changes ∧
    (open_file m f mode).2._M_nchange = m._M_nchange ∧
    (open_file m f mode).2._M_undo_enabled = m._M_undo_enabled ∧
    (open_file m f mode).2._M_filename = m._M_filename := by
  cases f with
  | none => simp [open_file]
  | some hf =>
    unfold open_file at h ⊢
    simp only at h ⊢
    split_ifs at h ⊢ <;> simp

/-- An `open` that returns `false` leaves the chain, the length, the counters,
the flags, the journal and the name as they were. -/
theorem open_false_keeps (m : file_model) (filename : String) (f : Option host_file)
    (mode : open_mode) (h : (file_model.open m filename f mode).1 = false) :
    (file_model.open m filename f mode).2.chain = m.chain ∧
    (file_model.open m filename f mode).2._M_len = m._M_len ∧
    (file_model.open m filename f mode).2._M_memory_used = m._M_memory_used ∧
    (file_model.open m filename f mode).2._M_modified = m._M_modified ∧
    (file_model.open m filename f mode).2._M_size_modified = m._M_size_modified ∧
    (file_model.open m filename f mode).2._M_changes = m._M_changes ∧
    (file_model.open m filename f mode).2._M_nchange = m._M_nchange ∧
    (file_model.open m filename f mode).2._M_undo_enabled = m._M_undo_enabled ∧
    (file_model.open m filename f mode).2._M_filename = m._M_filename := by
  unfold file_model.open at h ⊢
  by_cases hn : strlen filename ≥ kPathMax
  · rw [if_pos hn]; simp
  · rw [if_neg hn] at h ⊢
    by_cases hr : (open_file m f mode).1 = true
    · simp only [hr, if_true] at h; exact absurd h (by simp)
    · simp only [hr]
      exact open_file_keeps m f mode (by simpa using hr)

/-- A model that has just been constructed and opened obeys the chain invariant. -/
theorem open_chain_ok (undo_enabled : Bool) (filename : String) (f : host_file)
    (mode : open_mode) (h : f.bytes.length < 18446744073709551616) :
    chain_ok (file_model.open (file_model.new undo_enabled) filename (some f) mode).2 := by
  by_cases hr : (file_model.open (file_model.new undo_enabled) filename (some f) mode).1 = true
  · rw [open_facts hr]
    unfold file_model.new chain_ok
    by_cases h0 : f.bytes.length = 0
    · simp [h0, total_len]
    · simp [h0, block.len, h, total_len]
  · obtain ⟨h1, h2, -⟩ := open_false_keeps _ filename (some f) mode (by simpa using hr)
    unfold chain_ok
    rw [h1, h2]
    simp [file_model.new, total_len]


/-! ## get -/

theorem decompose_take {c pre rest : List block} {b : block} {i : Nat}
    (hc : c = pre ++ b :: rest) (hl : pre.length = i) :
    c.take i = pre ∧ c.drop i = b :: rest ∧ c.drop (i + 1) = rest ∧ blk c i = b := by
  subst hc; subst hl
  refine ⟨by simp, by simp, ?_, ?_⟩
  · rw [← List.drop_drop]; simp
  · have h : (pre ++ b :: rest)[pre.length]? = some b := by
      rw [List.getElem?_append_right (Nat.le_refl _)]; simp
    simp [blk, List.getD, h]

/-- The private `get` walk delivers the window of the content that starts at
`pos` in the first block. -/
theorem get_loop_eq (c : List block) (pos left written : Nat)
    (hpos : pos ≤ (blk c 0).len) :
    get_loop c pos left written =
      (((content c).drop pos).take left, written + min left ((content c).length - pos)) := by
  induction c generalizing pos left written with
  | nil => simp [get_loop]
  | cons b c ih =>
    have hp : pos ≤ b.data.length := by simpa [blk, block.len] using hpos
    simp only [get_loop, content_cons]
    rw [List.drop_append_of_le_length hp]
    split
    · rename_i hge
      simp only [block.len] at hge
      rw [List.take_append_of_le_length (by simp; omega)]
      simp; omega
    · rename_i hlt
      simp only [block.len] at hlt
      rw [ih 0 _ _ (Nat.zero_le _)]
      simp only [List.drop_zero, block.len, Nat.sub_zero, List.length_append]
      have h1 : (List.drop pos b.data).take (b.data.length - pos) = List.drop pos b.data := by
        apply List.take_of_length_le; simp
      rw [h1]
      have h2 : left = (List.drop pos b.data).length + (left - (b.data.length - pos)) := by
        simp; omega
      refine Prod.ext ?_ ?_
      · simp only
        conv => rhs; rw [h2, List.take_append]
      · simp only; omega

theorem get_from_eq (c : List block) (pos len : Nat) (hpos : pos ≤ (blk c 0).len) :
    get_from c pos len =
      (((content c).drop pos).take len, min len ((content c).length - pos)) := by
  unfold get_from
  split
  · rename_i h; subst h; simp
  · rw [get_loop_eq c pos len 0 hpos]; simp

/-- The public `get` on a chain that obeys the block-sum invariant. -/
theorem get_eq (m : file_model) (off len : Nat) (hsum : total_len m.chain = m._M_len)
    (h : off < m._M_len) :
    get m off len = some (((content m.chain).drop off).take (min len (m._M_len - off)),
      min len (m._M_len - off)) := by
  obtain ⟨⟨i, pos⟩, hr⟩ := seek_isSome m off hsum h
  obtain ⟨pre, b, rest, hc, hl, hp, hs⟩ := seek_some hr
  obtain ⟨-, hd, -, -⟩ := decompose_take hc hl
  unfold file_model.get
  rw [hr]
  simp only [hd]
  rw [get_from_eq _ _ _ (by simpa [blk] using Nat.le_of_lt hp)]
  have hlen : m._M_len = total_len pre + total_len (b :: rest) := by
    rw [← hsum, hc]; simp
  have hcont : (content m.chain).drop off = (content (b :: rest)).drop pos := by
    rw [hc, content_append, ← hs, ← length_content pre, List.drop_append]
  rw [hcont, length_content]
  have hk : m._M_len - off = total_len (b :: rest) - pos := by omega
  rw [hk]
  congr 2
  rw [List.take_eq_take]
  simp [length_content, block.len]


/-! ## modify -/

theorem take_append_take_drop (B : List Nat) (i j : Nat) :
    B.take i ++ (B.drop i).take j = B.take (i + j) := by
  rw [List.take_add]

theorem take_drop_append_drop (B : List Nat) (i j : Nat) :
    (B.drop i).take j ++ B.drop (i + j) = B.drop i := by
  rw [← List.drop_drop j i B, List.take_append_drop]

theorem modify_disk_l_spec (b : block) (pos count len : Nat)
    (hpos : pos ≤ b.len) (hlen : 0 < len) (hcount : count ≤ 2048)
    (hb : pos + len < 18446744073709551616) :
    modify_disk_l b pos count len ≤ len ∧ pos + modify_disk_l b pos count len ≤ b.len ∧
      count + modify_disk_l b pos count len ≤ 4096 ∧
      (modify_disk_l b pos count len = 0 → pos = b.len) := by
  unfold modify_disk_l u64
  simp only [kMemoryBlockSize]
  norm_num
  split_ifs <;> omega

theorem modify_disk_tail_spec (b : block) (e len left : Nat) (he : e ≤ b.len) :
    ∃ t, modify_disk_tail b e len left = (b.data.drop e).take t ∧ e + t ≤ b.len ∧
      t ≤ left ∧ (len ≠ 0 → t = 0) ∧ (modify_disk_tail b e len left).length = t := by
  unfold modify_disk_tail
  simp only [block.len] at *
  split_ifs with h1 h2 h3
  · exact ⟨left, rfl, by omega, by omega, by omega, by simp; omega⟩
  · exact ⟨b.data.length - e, rfl, by omega, by omega, by omega, by simp⟩
  · exact ⟨0, by simp, by omega, by omega, by omega, by simp⟩
  · exact ⟨0, by simp, by omega, by omega, by omega, by simp⟩

theorem modify_disk_link_spec (b : block) (begin count : Nat) (buf data : List Nat)
    (h : begin + count ≤ b.len) :
    (modify_disk_link b begin count buf data).2.2 = data ∧
    content (modify_disk_link b begin count buf data).1 = b.data.take begin ++ buf ∧
    content (modify_disk_link b begin count buf data).2.1 = b.data.drop (begin + count) ∧
    (modify_disk_link b begin count buf data).2.1.length ≤ 1 ∧
    ((modify_disk_link b begin count buf data).2.1 ≠ [] → begin + count < b.len) := by
  unfold modify_disk_link
  simp only [block.len] at *
  split_ifs with h1 h2 h3
  · subst h1; subst h2; simp
  · subst h1; simp; omega
  · simp; omega
  · simp; omega

theorem modify_disk_spec (b : block) (pos : Nat) (data : List Nat)
    (hpos : pos ≤ b.len) (hdata : 0 < data.length)
    (hb : pos + data.length < 18446744073709551616) :
    ∃ l, l ≤ data.length ∧ pos + l ≤ b.len ∧ (modify_disk b pos data).2.2 = data.drop l ∧
      content (modify_disk b pos data).1 ++ content (modify_disk b pos data).2.1 =
        b.data.take pos ++ data.take l ++ b.data.drop (pos + l) ∧
      (l < data.length → content (modify_disk b pos data).1 = b.data.take pos ++ data.take l ∧
        content (modify_disk b pos data).2.1 = b.data.drop (pos + l)) ∧
      (modify_disk b pos data).2.1.length ≤ l := by
  unfold modify_disk
  simp only [kMidMemoryBlock, kMemoryBlockSize]
  norm_num
  generalize hbegin : (if pos ≤ 2048 then 0 else pos - 2048) = begin
  generalize hcount : (if pos ≤ 2048 then pos else 2048) = count
  have hbc : begin + count = pos ∧ count ≤ 2048 := by
    subst hbegin; subst hcount; split_ifs <;> omega
  obtain ⟨hl1, hl2, hl3, hl4⟩ :=
    modify_disk_l_spec b pos count data.length hpos hdata hbc.2 hb
  generalize modify_disk_l b pos count data.length = l at *
  obtain ⟨t, ht1, ht2, ht3, ht4, ht5⟩ :=
    modify_disk_tail_spec b (pos + l) (data.length - l) (4096 - count - l) hl2
  simp only [kMemoryBlockSize] at *
  norm_num at *
  rw [ht5]
  generalize modify_disk_tail b (pos + l) (data.length - l) (4096 - count - l) = tail at *
  obtain ⟨k1, k2, k3, k4, k5⟩ := modify_disk_link_spec b begin (count + l + t)
    (List.take count (List.drop begin b.data) ++ (List.take l data ++ tail)) (List.drop l data)
    (by omega)
  refine ⟨l, hl1, hl2, k1, ?_, ?_, ?_⟩
  · rw [k2, k3, ht1]
    have e1 : begin + (count + l + t) = pos + l + t := by omega
    rw [e1]
    have e2 : List.take begin b.data ++ List.take count (List.drop begin b.data) =
        List.take pos b.data := by rw [take_append_take_drop, hbc.1]
    have e3 : List.take t (List.drop (pos + l) b.data) ++ List.drop (pos + l + t) b.data =
        List.drop (pos + l) b.data := by
      exact take_drop_append_drop _ _ _
    simp only [List.append_assoc]
    rw [e3, ← List.append_assoc, e2]
  · intro hlt
    have ht0 : t = 0 := ht4 (by omega)
    subst ht0
    have e2 : List.take begin b.data ++ List.take count (List.drop begin b.data) =
        List.take pos b.data := by rw [take_append_take_drop, hbc.1]
    refine ⟨?_, ?_⟩
    · rw [k2, ht1]; simp only [List.take_zero, List.append_nil]
      rw [← List.append_assoc, e2]
    · rw [k3]; congr 1; omega
  · by_cases hq : (modify_disk_link b begin (count + l + t)
        (List.take count (List.drop begin b.data) ++ (List.take l data ++ tail))
        (List.drop l data)).2.1 = []
    · rw [hq]; simp
    · have := k5 hq
      have : l ≠ 0 := fun h0 => by have := hl4 h0; omega
      omega


theorem modify_memory_spec (b : block) (pos : Nat) (data : List Nat) (hpos : pos ≤ b.len) :
    ∃ l, l ≤ data.length ∧ pos + l ≤ b.len ∧ (modify_memory b pos data).2 = data.drop l ∧
      (modify_memory b pos data).1.data =
        b.data.take pos ++ data.take l ++ b.data.drop (pos + l) ∧
      (l < data.length → pos + l = b.len) := by
  unfold modify_memory
  simp only [block.len] at *
  split_ifs with h
  · exact ⟨data.length, by omega, by omega, rfl, rfl, by omega⟩
  · exact ⟨b.data.length - pos, by omega, by omega, rfl, rfl, by omega⟩

theorem window_step (B R data : List Nat) (pos l : Nat) (hl : l ≤ data.length)
    (hp : pos + l ≤ B.length) :
    B.take pos ++ data.take l ++
        ((B.drop (pos + l) ++ R).take 0 ++ data.drop l ++
          (B.drop (pos + l) ++ R).drop (0 + (data.drop l).length)) =
      (B ++ R).take pos ++ data ++ (B ++ R).drop (pos + data.length) := by
  have hA : (B ++ R).take pos = B.take pos := List.take_append_of_le_length (by omega)
  have h1 : List.drop (pos + data.length) (B ++ R) =
      List.drop (data.length - l) (List.drop (pos + l) B ++ R) := by
    rw [← List.drop_append_of_le_length hp, List.drop_drop]
    congr 1; omega
  rw [hA, h1]
  simp only [List.take_zero, List.nil_append, List.length_drop, Nat.zero_add, List.append_assoc]
  congr 1
  rw [← List.append_assoc, List.take_append_drop]

theorem window_last (B R data : List Nat) (pos : Nat) (hp : pos + data.length ≤ B.length) :
    B.take pos ++ data.take data.length ++ B.drop (pos + data.length) ++ R =
      (B ++ R).take pos ++ data ++ (B ++ R).drop (pos + data.length) := by
  rw [List.take_append_of_le_length (by omega), List.drop_append_of_le_length hp]
  simp

/-- The loop of `modify` overwrites the window `[pos, pos + len)` of the content
of the list it walks, whenever the window lies inside that content. -/
theorem modify_loop_spec (fuel : Nat) (b : block) (rest : List block) (pos : Nat)
    (data : List Nat) (hpos : pos ≤ b.len) (hdata : 0 < data.length)
    (hin : pos + data.length ≤ total_len (b :: rest))
    (hb : total_len (b :: rest) < 18446744073709551616)
    (hfuel : data.length + (b :: rest).length ≤ fuel) :
    ∃ c n, modify_loop fuel (b :: rest) pos data = some (c, n) ∧
      content c = (content (b :: rest)).take pos ++ data ++
        (content (b :: rest)).drop (pos + data.length) := by
  induction fuel generalizing b rest pos data with
  | zero => simp at hfuel
  | succ fuel ih =>
    simp only [total_len_cons, List.length_cons] at hin hb hfuel
    simp only [modify_loop, content_cons]
    cases hmem : b.in_memory with
    | false =>
      simp only [Bool.not_false, if_true]
      obtain ⟨l, hl1, hl2, hl3, hl4, hl5, hl6⟩ :=
        modify_disk_spec b pos data hpos hdata (by omega)
      generalize modify_disk b pos data = r at *
      obtain ⟨e, q, d⟩ := r
      simp only at hl3 hl4 hl5 hl6
      subst hl3
      by_cases hd : (List.drop l data).length > 0
      · rw [if_pos hd]
        have hlt : l < data.length := by simpa using hd
        obtain ⟨he, hq⟩ := hl5 hlt
        have htot : total_len (q ++ rest) = (b.len - (pos + l)) + total_len rest := by
          rw [total_len_append, ← length_content q, hq]; simp [block.len]
        cases hc2 : q ++ rest with
        | nil => rw [hc2] at htot; simp at htot; simp at hd; omega
        | cons b2 rest2 =>
          obtain ⟨c, n, hc, hcont⟩ := ih b2 rest2 0 (List.drop l data) (Nat.zero_le _) hd
            (by rw [← hc2, htot]; simp; omega) (by rw [← hc2, htot]; omega)
            (by rw [← hc2]; simp; omega)
          refine ⟨e ++ c, n + 1, by rw [hc]; rfl, ?_⟩
          rw [content_append, hcont, he, ← hc2, content_append, hq]
          exact window_step b.data (content rest) data pos l hl1 hl2
      · rw [if_neg hd]
        have hle : l = data.length := by simp at hd; omega
        subst hle
        refine ⟨_, _, rfl, ?_⟩
        simp only [content_append]
        rw [← List.append_assoc, hl4]
        exact window_last b.data (content rest) data pos hl2
    | true =>
      simp only [Bool.not_true, Bool.false_eq_true, if_false]
      obtain ⟨l, hl1, hl2, hl3, hl4, hl5⟩ := modify_memory_spec b pos data hpos
      generalize modify_memory b pos data = r at *
      obtain ⟨b1, d⟩ := r
      simp only at hl3 hl4
      subst hl3
      by_cases hd : (List.drop l data).length > 0
      · rw [if_pos hd]
        have hlt : l < data.length := by simpa using hd
        have hfull := hl5 hlt
        cases hc2 : rest with
        | nil => subst hc2; simp at hin; simp at hd; omega
        | cons b2 rest2 =>
          subst hc2
          obtain ⟨c, n, hc, hcont⟩ := ih b2 rest2 0 (List.drop l data) (Nat.zero_le _) hd
            (by simp at hin ⊢; omega) (by omega) (by simp at hfuel ⊢; omega)
          refine ⟨b1 :: c, n, by rw [hc]; rfl, ?_⟩
          rw [content_cons, hcont, hl4]
          have := window_step b.data (content (b2 :: rest2)) data pos l hl1 hl2
          rw [← this]
          have hnil : List.drop (pos + l) b.data = [] := by
            apply List.drop_of_length_le; simp only [block.len] at hfull; omega
          rw [hnil]; simp
      · rw [if_neg hd]
        have hle : l = data.length := by simp at hd; omega
        subst hle
        refine ⟨_, _, rfl, ?_⟩
        rw [content_cons, hl4]
        exact window_last b.data (content rest) data pos hl2


/-! ### modify respects the buffer capacity -/

theorem modify_disk_l_le (b : block) (pos count len : Nat) :
    modify_disk_l b pos count len ≤ kMemoryBlockSize - count := by
  unfold modify_disk_l u64
  simp only [kMemoryBlockSize]
  norm_num
  split_ifs <;> omega

theorem modify_disk_tail_le (b : block) (e len left : Nat) :
    (modify_disk_tail b e len left).length ≤ left := by
  unfold modify_disk_tail
  simp only [block.len]
  split_ifs
  all_goals simp
  all_goals omega

theorem modify_disk_link_mem (b : block) (begin count : Nat) (buf data : List Nat)
    (hb : b.in_memory = false) :
    ∀ x ∈ (modify_disk_link b begin count buf data).1 ++
        (modify_disk_link b begin count buf data).2.1,
      x.in_memory = true → x.data = buf := by
  intro x hx hxm
  by_cases h1 : begin = 0
  · by_cases h2 : count = b.len
    · simp [modify_disk_link, h1, h2] at hx
      subst hx; rfl
    · simp [modify_disk_link, h1, h2] at hx
      rcases hx with hx | hx
      · subst hx; rfl
      · subst hx; simp [hb] at hxm
  · by_cases h3 : begin + count < b.len
    · simp [modify_disk_link, h1, h3] at hx
      rcases hx with hx | hx | hx
      · subst hx; simp [hb] at hxm
      · subst hx; rfl
      · subst hx; simp at hxm
    · simp [modify_disk_link, h1, h3] at hx
      rcases hx with hx | hx
      · subst hx; simp [hb] at hxm
      · subst hx; rfl

theorem modify_disk_cap (b : block) (pos : Nat) (data : List Nat) (hb : b.in_memory = false) :
    ∀ x ∈ (modify_disk b pos data).1 ++ (modify_disk b pos data).2.1,
      x.in_memory = true → x.len ≤ kMemoryBlockSize := by
  have hkb : kMemoryBlockSize = 4096 := by decide
  have hmid : kMidMemoryBlock = 2048 := by decide
  intro x hx hxm
  unfold modify_disk at hx
  simp only at hx
  have hd := modify_disk_link_mem _ _ _ _ _ hb x hx hxm
  rw [block.len, hd]
  have hc : (if pos ≤ kMidMemoryBlock then pos else kMidMemoryBlock) ≤ 2048 := by
    split_ifs <;> omega
  have h1 := modify_disk_l_le b pos (if pos ≤ kMidMemoryBlock then pos else kMidMemoryBlock)
    data.length
  have h2 := modify_disk_tail_le b
    (pos + modify_disk_l b pos (if pos ≤ kMidMemoryBlock then pos else kMidMemoryBlock)
      data.length)
    (data.length - modify_disk_l b pos (if pos ≤ kMidMemoryBlock then pos else kMidMemoryBlock)
      data.length)
    (kMemoryBlockSize - (if pos ≤ kMidMemoryBlock then pos else kMidMemoryBlock) -
      modify_disk_l b pos (if pos ≤ kMidMemoryBlock then pos else kMidMemoryBlock) data.length)
  simp only [List.length_append, List.length_take]
  omega

theorem modify_memory_len (b : block) (pos : Nat) (data : List Nat) :
    (modify_memory b pos data).1.len = b.len ∧
      (modify_memory b pos data).1.in_memory = b.in_memory := by
  unfold modify_memory
  simp only [block.len, List.length_append, List.length_take, List.length_drop, and_true]
  split_ifs <;> omega

/-- The loop of `modify` leaves no block in memory longer than its buffer. -/
theorem modify_loop_cap (fuel : Nat) (c : List block) (pos : Nat) (data : List Nat)
    (r : List block × Nat) (h : modify_loop fuel c pos data = some r)
    (hcap : ∀ x ∈ c, x.in_memory = true → x.len ≤ kMemoryBlockSize) :
    ∀ x ∈ r.1, x.in_memory = true → x.len ≤ kMemoryBlockSize := by
  induction fuel generalizing c pos data r with
  | zero => simp [modify_loop] at h
  | succ fuel ih =>
    cases c with
    | nil => simp [modify_loop] at h
    | cons b rest =>
      simp only [modify_loop] at h
      have hrest : ∀ x ∈ rest, x.in_memory = true → x.len ≤ kMemoryBlockSize :=
        fun x hx => hcap x (List.mem_cons_of_mem _ hx)
      cases hmem : b.in_memory with
      | false =>
        simp only [hmem, Bool.not_false, if_true] at h
        have hstep := modify_disk_cap b pos data hmem
        generalize modify_disk b pos data = s at *
        obtain ⟨e, q, d⟩ := s
        simp only at h hstep
        split_ifs at h with hd
        · cases hr : modify_loop fuel (q ++ rest) 0 d with
          | none => simp [hr] at h
          | some r2 =>
            simp only [hr, Option.map_some', Option.some.injEq] at h
            subst h
            have := ih (q ++ rest) 0 d r2 hr (fun x hx => by
              rcases List.mem_append.mp hx with hx | hx
              · exact hstep x (List.mem_append_right _ hx)
              · exact hrest x hx)
            intro x hx
            rcases List.mem_append.mp hx with hx | hx
            · exact hstep x (List.mem_append_left _ hx)
            · exact this x hx
        · simp only [Option.some.injEq] at h
          subst h
          intro x hx
          simp only [List.mem_append] at hx
          rcases hx with hx | hx | hx
          · exact hstep x (List.mem_append_left _ hx)
          · exact hstep x (List.mem_append_right _ hx)
          · exact hrest x hx
      | true =>
        simp only [hmem, Bool.not_true, Bool.false_eq_true, if_false] at h
        obtain ⟨hl, hm⟩ := modify_memory_len b pos data
        have hb1 : (modify_memory b pos data).1.len ≤ kMemoryBlockSize := by
          rw [hl]; exact hcap b (List.mem_cons_self _ _) hmem
        generalize modify_memory b pos data = s at *
        obtain ⟨b1, d⟩ := s
        simp only at h hb1
        split_ifs at h with hd
        · cases hr : modify_loop fuel rest 0 d with
          | none => simp [hr] at h
          | some r2 =>
            simp only [hr, Option.map_some', Option.some.injEq] at h
            subst h
            have := ih rest 0 d r2 hr hrest
            intro x hx
            rcases List.mem_cons.mp hx with hx | hx
            · subst hx; exact fun _ => hb1
            · exact this x hx
        · simp only [Option.some.injEq] at h
          subst h
          intro x hx
          rcases List.mem_cons.mp hx with hx | hx
          · subst hx; exact fun _ => hb1
          · exact hrest x hx

/-- `C1`: modify agrees with the reference editor.  In a writable state that
obeys the chain invariant, `modify(off, data, len)` with `len > 0`,
`off + len <= length`, `len <= kMaxMemoryUsed` and
`memory_used + len <= kMaxMemoryUsed` returns `kSuccess`, leaves the length
unchanged and makes the content `old[0, off) ++ data ++ old[off + len, length)`. -/
theorem modify_overwrites_window (m : file_model) (off : Nat) (data : List Nat)
    (record_change : Bool) (hok : chain_ok m) (hrw : m._M_read_only = false)
    (hlen : 0 < data.length) (hin : off + data.length ≤ m._M_len)
    (hmax : data.length ≤ kMaxMemoryUsed)
    (hmem : m._M_memory_used + data.length ≤ kMaxMemoryUsed) :
    ∃ m', modify m off data record_change = some (operation_result.kSuccess, m') ∧
      m'._M_len = m._M_len ∧
      content m'.chain =
        (content m.chain).take off ++ data ++ (content m.chain).drop (off + data.length) ∧
      chain_ok m' := by
  obtain ⟨hsum, h64, hcap⟩ := hok
  obtain ⟨⟨i, pos⟩, hr⟩ := seek_isSome m off hsum (by omega)
  obtain ⟨pre, b, rest, hc, hl, hp, hs⟩ := seek_some hr
  obtain ⟨ht, hd, -, -⟩ := decompose_take hc hl
  have htot : total_len pre + total_len (b :: rest) = m._M_len := by rw [← hsum, hc]; simp
  obtain ⟨c, n, hloop, hcont⟩ := modify_loop_spec (data.length + m.chain.length) b rest pos data
    (Nat.le_of_lt hp) hlen (by omega) (by omega) (by rw [hc]; simp)
  have hkmax : kMaxMemoryUsed = 104857600 := by decide
  unfold file_model.modify
  simp only [hrw, Bool.false_eq_true, if_false, hr, hd, hloop]
  rw [if_neg (by rw [u64_of_lt (by omega)]; omega), if_neg (by omega), if_neg (by omega),
    if_neg (by rw [u64_of_lt (by omega)]; omega)]
  have hcontent : content (List.take i m.chain ++ c) =
      (content m.chain).take off ++ data ++ (content m.chain).drop (off + data.length) := by
    simp only [ht, content_append, hcont]
    rw [hc, content_append, ← hs, ← length_content pre, List.take_append, Nat.add_assoc,
      List.drop_append]
    simp
  refine ⟨_, rfl, ?_, hcontent, ?_, ?_, ?_⟩
  · simp only; split_ifs <;> rfl
  · have : (content (List.take i m.chain ++ c)).length = m._M_len := by
      rw [hcontent, ← hsum, ← length_content]
      simp only [List.length_append, List.length_take, List.length_drop]
      have : off + data.length ≤ (content m.chain).length := by
        rw [length_content, hsum]; exact hin
      omega
    simp only
    rw [← length_content, this]
    split_ifs <;> rfl
  · simp only; split_ifs <;> exact h64
  · intro x hx
    simp only at hx
    rcases List.mem_append.mp hx with hx | hx
    · exact hcap x (List.mem_of_mem_take hx)
    · exact modify_loop_cap _ (b :: rest) pos data (c, n) hloop
        (fun y hy => hcap y (by rw [hc]; exact List.mem_append_right _ hy)) x hx


/-- Witness of `C1`: on the three-block sample chain, a modify that starts in
the first block and ends in the last one. -/
theorem modify_overwrites_window_witness :
    ∃ m', modify sample_edited 3 [13, 14, 15, 16] true = some (operation_result.kSuccess, m') ∧
      m'._M_len = sample_edited._M_len ∧
      content m'.chain =
        (content sample_edited.chain).take 3 ++ [13, 14, 15, 16] ++
          (content sample_edited.chain).drop (3 + [13, 14, 15, 16].length) ∧
      chain_ok m' :=
  modify_overwrites_window sample_edited 3 [13, 14, 15, 16] true (by decide) (by decide)
    (by decide) (by decide) (by decide) (by decide)

/-- `C5`: get reads a window of the logical content across blocks.  On a chain
whose block lengths sum to `length`, `get(off, buf, len)` fails iff
`off >= length`; otherwise it writes back `k = min(len, length - off)` and the
bytes delivered are `content[off, off + k)`. -/
theorem get_reads_window (m : file_model) (off len : Nat)
    (hsum : total_len m.chain = m._M_len) :
    (get m off len = none ↔ off ≥ m._M_len) ∧
    (off < m._M_len →
      get m off len = some (window (content m.chain) off (min len (m._M_len - off)),
        min len (m._M_len - off))) := by
  refine ⟨⟨fun h => ?_, fun h => ?_⟩, fun h => get_eq m off len hsum h⟩
  · by_contra hlt
    rw [get_eq m off len hsum (by omega)] at h
    exact Option.noConfusion h
  · unfold file_model.get; rw [seek_none m off h]

/-- Witness of `C5`: the sample chain, whose middle block is in memory. -/
theorem get_reads_window_witness :
    (get sample_edited 3 100 = none ↔ 3 ≥ sample_edited._M_len) ∧
    (3 < sample_edited._M_len →
      get sample_edited 3 100 =
        some (window (content sample_edited.chain) 3 (min 100 (sample_edited._M_len - 3)),
          min 100 (sample_edited._M_len - 3))) :=
  get_reads_window sample_edited 3 100 (by decide)


/-! ## add in the interior -/

theorem add_blocks_content (fuel : Nat) (data : List Nat) (h : data.length ≤ fuel) :
    content (add_blocks fuel data) = data := by
  induction fuel generalizing data with
  | zero =>
    have : data = [] := List.length_eq_zero.mp (by omega)
    subst this; rfl
  | succ fuel ih =>
    unfold add_blocks
    split_ifs with h1 h2
    · rw [content_cons, ih _ (by simp)]
      exact List.take_append_drop _ _
    · rw [content_cons, ih _ (by simp [kMemoryBlockSize] at *; omega)]; simp
    · have : data = [] := List.length_eq_zero.mp (by omega)
      subst this; rfl

theorem insert_at (P B R data : List Nat) (pos : Nat) (hp : pos ≤ B.length) :
    P ++ (B.take pos ++ data ++ B.drop pos ++ R) =
      (P ++ (B ++ R)).take (P.length + pos) ++ data ++ (P ++ (B ++ R)).drop (P.length + pos) := by
  rw [List.take_append, List.drop_append, List.take_append_of_le_length hp,
    List.drop_append_of_le_length hp]
  simp

theorem add_blocks_cap (fuel : Nat) (data : List Nat) :
    ∀ x ∈ add_blocks fuel data, x.len ≤ kMemoryBlockSize := by
  induction fuel generalizing data with
  | zero => simp [add_blocks]
  | succ fuel ih =>
    unfold add_blocks
    split_ifs with h1 h2
    · intro x hx
      rcases List.mem_cons.mp hx with hx | hx
      · subst hx; simp [block.len]; omega
      · exact ih _ x hx
    · intro x hx
      rcases List.mem_cons.mp hx with hx | hx
      · subst hx; simp [block.len]
      · exact ih _ x hx
    · simp

theorem chain_ok_of_content (m : file_model) (old data : List Nat) (off : Nat)
    (hc : content m.chain = old.take off ++ data ++ old.drop off)
    (hl : m._M_len = old.length + data.length) (h64 : m._M_len < 18446744073709551616)
    (hcap : ∀ b ∈ m.chain, b.in_memory = true → b.len ≤ kMemoryBlockSize) : chain_ok m := by
  refine ⟨?_, h64, hcap⟩
  rw [← length_content, hc, hl]
  simp only [List.length_append, List.length_take, List.length_drop]
  omega

/-- `C2`: add in the interior agrees with the reference editor.  In a writable
regular-file state that obeys the chain invariant, `add(off, data, len)` with
`off < length`, `len > 0`, `len <= kMaxMemoryUsed` and
`memory_used + len <= kMaxMemoryUsed` returns `kSuccess`, makes the length
`length + len` (a 64-bit value) and the content
`old[0, off) ++ data ++ old[off, length)`; the chain invariant holds again. -/
theorem add_inserts_interior (m : file_model) (off : Nat) (data : List Nat)
    (record_change : Bool) (hok : chain_ok m) (hrw : m._M_read_only = false)
    (hreg : m._M_block_device = false) (hoff : off < m._M_len) (hlen : 0 < data.length)
    (hmax : data.length ≤ kMaxMemoryUsed)
    (hmem : m._M_memory_used + data.length ≤ kMaxMemoryUsed)
    (h64 : m._M_len + data.length < 18446744073709551616) :
    ∃ m', add m off data record_change = some (operation_result.kSuccess, m') ∧
      m'._M_len = m._M_len + data.length ∧
      content m'.chain = (content m.chain).take off ++ data ++ (content m.chain).drop off ∧
      chain_ok m' := by
  obtain ⟨hsum, hlen64, hcap⟩ := hok
  obtain ⟨⟨i, pos⟩, hr⟩ := seek_isSome m off hsum hoff
  obtain ⟨pre, b, rest, hc, hl, hp, hs⟩ := seek_some hr
  obtain ⟨ht, hd, hd1, hblk⟩ := decompose_take hc hl
  have hkmax : kMaxMemoryUsed = 104857600 := by decide
  have hkb : kMemoryBlockSize = 4096 := by decide
  have hgoal : (content m.chain).take off ++ data ++ (content m.chain).drop off =
      content pre ++ (b.data.take pos ++ data ++ b.data.drop pos ++ content rest) := by
    rw [hc, content_append, content_cons, ← hs, ← length_content pre]
    exact (insert_at _ _ _ _ _ (by simpa [block.len] using Nat.le_of_lt hp)).symm
  have hpre : ∀ x ∈ pre, x.in_memory = true → x.len ≤ kMemoryBlockSize :=
    fun x hx => hcap x (by rw [hc]; exact List.mem_append_left _ hx)
  have hrest : ∀ x ∈ rest, x.in_memory = true → x.len ≤ kMemoryBlockSize :=
    fun x hx => hcap x (by rw [hc]; simp [hx])
  have hbcap : b.in_memory = true → b.len ≤ kMemoryBlockSize :=
    fun h => hcap b (by rw [hc]; simp) h
  -- every outcome below is a state with the expected length and content
  have hfinish : ∀ m' : file_model, m'._M_len = u64 (m._M_len + data.length) →
      content m'.chain =
        content pre ++ (b.data.take pos ++ data ++ b.data.drop pos ++ content rest) →
      (∀ x ∈ m'.chain, x.in_memory = true → x.len ≤ kMemoryBlockSize) →
      m'._M_len = m._M_len + data.length ∧
      content m'.chain = (content m.chain).take off ++ data ++ (content m.chain).drop off ∧
      chain_ok m' := by
    intro m' h1 h2 h3
    rw [u64_of_lt h64] at h1
    refine ⟨h1, by rw [hgoal]; exact h2, ?_⟩
    refine chain_ok_of_content m' (content m.chain) data off (by rw [hgoal]; exact h2) ?_
      (by omega) h3
    rw [h1, length_content, hsum]
  unfold file_model.add
  simp only [hrw, hreg, Bool.false_eq_true, if_false, hr, hblk]
  rw [if_neg (by omega), if_neg (by omega), if_neg (by rw [u64_of_lt (by omega)]; omega)]
  by_cases hfits : b.in_memory = true ∧ data.length ≤ sub64 kMemoryBlockSize b.len
  · rw [if_pos hfits]
    have hroom : ¬ (b.data.take pos ++ data ++ b.data.drop pos).length > kMemoryBlockSize := by
      have h1 := hbcap hfits.1
      have h2 := hfits.2
      rw [hkb] at h1
      rw [hkb, sub64_of_le h1 (by omega)] at h2
      simp only [block.len] at h1 h2 hp
      simp; omega
    simp only [block.len, hroom, if_false]
    refine ⟨_, rfl, hfinish _ ?_ ?_ ?_⟩
    · rfl
    · simp only [ht, hd1, content_append, content_cons, List.append_assoc]
    · intro x hx
      simp only [ht, hd1, List.mem_append, List.mem_cons] at hx
      rcases hx with hx | hx | hx
      · exact hpre x hx
      · subst hx; intro _; simp only [block.len]; omega
      · exact hrest x hx
  · rw [if_neg hfits]
    have hnofill : ¬ (b.in_memory = true ∧ off = m._M_len ∧ sub64 kMemoryBlockSize b.len > 0) :=
      fun h => by omega
    have hsplit : ¬ (pos ≠ 0 ∧ off ≠ m._M_len ∧ b.in_memory = true ∧
        b.len - pos > kMemoryBlockSize) := fun h => by
      have := hbcap h.2.2.1
      omega
    simp only [hnofill, if_false, hsplit]
    have hnew : ∀ x ∈ add_blocks data.length data,
        x.in_memory = true → x.len ≤ kMemoryBlockSize :=
      fun x hx _ => add_blocks_cap _ _ x hx
    refine ⟨_, rfl, hfinish _ ?_ ?_ ?_⟩
    · rfl
    · simp only
      by_cases hp0 : pos = 0
      · subst hp0
        simp only [if_true, ht, hd, content_append, content_cons,
          add_blocks_content _ _ (Nat.le_refl _)]
        simp
      · have hne : off ≠ m._M_len := by omega
        simp only [hp0, if_false, hne, ne_eq, not_false_eq_true, if_true, ht, hd1,
          content_append, content_cons, add_blocks_content _ _ (Nat.le_refl _)]
        simp
    · intro x hx
      simp only at hx
      by_cases hp0 : pos = 0
      · simp only [hp0, if_true, ht, hd, List.mem_append, List.mem_cons] at hx
        rcases hx with (hx | hx) | hx | hx
        · exact hpre x hx
        · exact hnew x hx
        · subst hx; exact hbcap
        · exact hrest x hx
      · have hne : off ≠ m._M_len := by omega
        simp only [hp0, if_false, hne, ne_eq, not_false_eq_true, if_true, ht, hd1,
          List.mem_append, List.mem_cons] at hx
        rcases hx with (hx | hx | hx) | hx | hx
        · exact hpre x hx
        · subst hx
          intro h
          have := hbcap h
          simp only [block.len, List.length_take] at this ⊢
          omega
        · exact hnew x hx
        · subst hx
          intro h
          have := hbcap h
          simp only [block.len, List.length_drop] at this ⊢
          omega
        · exact hrest x hx

/-- Witness of `C2`: an insertion inside the last block (in disk) of the sample
chain, which splits it. -/
theorem add_inserts_interior_witness :
    ∃ m', add sample_edited 7 [70, 71, 72] true = some (operation_result.kSuccess, m') ∧
      m'._M_len = sample_edited._M_len + [70, 71, 72].length ∧
      content m'.chain =
        (content sample_edited.chain).take 7 ++ [70, 71, 72] ++
          (content sample_edited.chain).drop 7 ∧
      chain_ok m' :=
  add_inserts_interior sample_edited 7 [70, 71, 72] true (by decide) (by decide) (by decide)
    (by decide) (by decide) (by decide) (by decide) (by decide)

/-! ## find with a degenerate needle -/

/-- `C10`: find rejects degenerate needles in both directions.  With an empty
needle, or with a needle longer than the file (needle and file together within
the 64-bit address space), `find` returns `false` for every offset.  Nothing is
assumed of the chain, which is not consulted. -/
theorem find_rejects_degenerate (m : file_model) (off : Nat) (dir : direction)
    (needle : List Nat)
    (h : needle.length = 0 ∨
      (needle.length > m._M_len ∧ needle.length + m._M_len ≤ 18446744073709551616)) :
    find m off dir needle = none := by
  unfold find find_forward find_backward
  rcases h with h0 | ⟨hlong, hfit⟩
  · simp [h0]
  · have hne : needle.length ≠ 0 := by omega
    by_cases hwrap : u64 (off + needle.length) > m._M_len
    · simp [hlong, hwrap]
    · have hoff : off ≥ m._M_len := by
        unfold u64 at hwrap; omega
      simp [hlong, hwrap, hne, seek_none m off hoff]

/-- Witness of `C10`: a thirteen-byte needle against the twelve-byte sample. -/
theorem find_rejects_degenerate_witness :
    find sample_edited 3 direction.kForward (List.replicate 13 0) = none :=
  find_rejects_degenerate sample_edited 3 direction.kForward (List.replicate 13 0)
    (Or.inr (by decide))


/-! ## remove without wrap-around -/

/-- The final loop of `remove` drops the first `len` bytes of the list it walks. -/
theorem remove_loop_spec (c : List block) (len : Nat) (hlen : 0 < len)
    (hin : len ≤ total_len c)
    (hcap : ∀ x ∈ c, x.in_memory = true → x.len ≤ kMemoryBlockSize) :
    ∃ c' freed, remove_loop c len = some (c', freed) ∧ content c' = (content c).drop len ∧
      ∀ x ∈ c', x.in_memory = true → x.len ≤ kMemoryBlockSize := by
  induction c generalizing len with
  | nil => simp at hin; omega
  | cons b rest ih =>
    have hrest : ∀ x ∈ rest, x.in_memory = true → x.len ≤ kMemoryBlockSize :=
      fun x hx => hcap x (List.mem_cons_of_mem _ hx)
    simp only [total_len_cons] at hin
    simp only [remove_loop, content_cons]
    by_cases h1 : len ≥ b.len
    · rw [if_pos h1]
      by_cases h2 : len - b.len > 0
      · rw [if_pos h2]
        obtain ⟨c', freed, hc, hcont, hcap'⟩ := ih (len - b.len) h2 (by omega) hrest
        refine ⟨c', _, by rw [hc]; rfl, ?_, hcap'⟩
        rw [hcont]
        have : len = b.data.length + (len - b.len) := by simp only [block.len] at *; omega
        conv => rhs; rw [this, List.drop_append]
      · rw [if_neg h2]
        refine ⟨rest, _, rfl, ?_, hrest⟩
        have : len = b.data.length + 0 := by simp only [block.len] at *; omega
        conv => rhs; rw [this, List.drop_append]
        rfl
    · rw [if_neg h1]
      refine ⟨_, _, rfl, ?_, ?_⟩
      · rw [content_cons, List.drop_append_of_le_length (by simp only [block.len] at h1; omega)]
      · intro x hx
        rcases List.mem_cons.mp hx with hx | hx
        · subst hx
          intro h
          have := hcap b (List.mem_cons_self _ _) h
          simp only [block.len, List.length_drop] at this ⊢
          omega
        · exact hrest x hx

theorem delete_at (P B R : List Nat) (pos k : Nat) (hp : pos ≤ B.length) :
    (P ++ (B ++ R)).take (P.length + pos) ++ (P ++ (B ++ R)).drop (P.length + pos + k) =
      P ++ (B.take pos ++ (B ++ R).drop (pos + k)) := by
  rw [List.take_append, Nat.add_assoc, List.drop_append, List.take_append_of_le_length hp]
  simp

theorem chain_ok_of_delete (m : file_model) (old : List Nat) (off k : Nat)
    (hc : content m.chain = old.take off ++ old.drop (off + k))
    (hk : off + k ≤ old.length)
    (hl : m._M_len = old.length - k) (h64 : old.length < 18446744073709551616)
    (hcap : ∀ b ∈ m.chain, b.in_memory = true → b.len ≤ kMemoryBlockSize) : chain_ok m := by
  refine ⟨?_, by omega, hcap⟩
  rw [← length_content, hc, hl]
  simp only [List.length_append, List.length_take, List.length_drop]
  omega

/-- Where `off + len` does not wrap around `2 ^ 64` and `malloc(len)` of a
recorded removal is granted, `remove` deletes the clamped range: with
`n = min(len, length - off)` the length becomes `length - n` and the content
`old[0, off) ++ old[off + n, length)`. -/
theorem remove_deletes_range (m : file_model) (off len : Nat) (record_change : Bool)
    (hok : chain_ok m) (hrw : m._M_read_only = false) (hreg : m._M_block_device = false)
    (hoff : off < m._M_len) (hlen : 0 < len) (hnowrap : off + len < 18446744073709551616)
    (hmalloc : (record_change && m._M_undo_enabled) = true → len < 9223372036854775808) :
    ∃ m', remove m off len record_change = some (operation_result.kSuccess, m') ∧
      m'._M_len = m._M_len - min len (m._M_len - off) ∧
      content m'.chain = (content m.chain).take off ++
        (content m.chain).drop (off + min len (m._M_len - off)) ∧
      chain_ok m' := by
  obtain ⟨hsum, hlen64, hcap⟩ := hok
  obtain ⟨⟨i, pos⟩, hr⟩ := seek_isSome m off hsum hoff
  obtain ⟨pre, b, rest, hc, hl, hp, hs⟩ := seek_some hr
  obtain ⟨ht, hd, hd1, hblk⟩ := decompose_take hc hl
  have hkb : kMemoryBlockSize = 4096 := by decide
  have htot : total_len pre + (b.len + total_len rest) = m._M_len := by
    rw [← hsum, hc]; simp
  have hpre : ∀ x ∈ pre, x.in_memory = true → x.len ≤ kMemoryBlockSize :=
    fun x hx => hcap x (by rw [hc]; exact List.mem_append_left _ hx)
  have hrest : ∀ x ∈ rest, x.in_memory = true → x.len ≤ kMemoryBlockSize :=
    fun x hx => hcap x (by rw [hc]; simp [hx])
  have hbcap : b.in_memory = true → b.len ≤ kMemoryBlockSize :=
    fun h => hcap b (by rw [hc]; simp) h
  generalize hk : min len (m._M_len - off) = k
  have hk1 : 0 < k := by omega
  have hk2 : off + k ≤ m._M_len := by omega
  have hclamp : (if u64 (off + len) > m._M_len then sub64 m._M_len off else len) = k := by
    rw [u64_of_lt hnowrap]
    split_ifs with h
    · rw [sub64_of_le (by omega) hlen64]; omega
    · omega
  have hn : u64 (pos + k) = pos + k := u64_of_lt (by omega)
  have hgoal : (content m.chain).take off ++ (content m.chain).drop (off + k) =
      content pre ++ (b.data.take pos ++ (b.data ++ content rest).drop (pos + k)) := by
    rw [hc, content_append, content_cons, ← hs, ← length_content pre]
    exact delete_at _ _ _ _ _ (by simpa [block.len] using Nat.le_of_lt hp)
  have hfinish : ∀ m' : file_model, m'._M_len = sub64 m._M_len k →
      content m'.chain =
        content pre ++ (b.data.take pos ++ (b.data ++ content rest).drop (pos + k)) →
      (∀ x ∈ m'.chain, x.in_memory = true → x.len ≤ kMemoryBlockSize) →
      m'._M_len = m._M_len - k ∧
      content m'.chain = (content m.chain).take off ++ (content m.chain).drop (off + k) ∧
      chain_ok m' := by
    intro m' h1 h2 h3
    rw [sub64_of_le (by omega) hlen64] at h1
    refine ⟨h1, by rw [hgoal]; exact h2, ?_⟩
    refine chain_ok_of_delete m' (content m.chain) off k (by rw [hgoal]; exact h2) ?_ ?_ ?_ h3
    · rw [length_content, hsum]; exact hk2
    · rw [h1, length_content, hsum]
    · rw [length_content, hsum]; exact hlen64
  have htake : ∀ x : block, x.data = b.data.take pos → x.in_memory = b.in_memory →
      x.in_memory = true → x.len ≤ kMemoryBlockSize := by
    intro x h1 h2 h3
    have := hbcap (h2 ▸ h3)
    simp only [block.len, h1, List.length_take] at this ⊢
    omega
  have hmal : ¬ ((record_change && m._M_undo_enabled) = true ∧ len ≥ 9223372036854775808) :=
    fun h => absurd (hmalloc h.1) (by omega)
  unfold file_model.remove
  simp only [hrw, hreg, Bool.false_eq_true, if_false, hr, hblk, hclamp, hn]
  rw [if_neg (by omega), if_neg hmal]
  by_cases hin : pos + k < b.len
  · rw [if_pos hin]
    have hdrop : (b.data ++ content rest).drop (pos + k) = b.data.drop (pos + k) ++ content rest :=
      List.drop_append_of_le_length (by simp only [block.len] at hin; omega)
    cases hmem : b.in_memory with
    | false =>
      simp only [Bool.not_false, if_true]
      refine ⟨_, rfl, hfinish _ rfl ?_ ?_⟩
      · simp only [ht, hd1, content_append, hdrop]
        by_cases hp0 : pos = 0
        · subst hp0; simp
        · simp [hp0]
      · intro x hx
        simp only [ht, hd1, List.mem_append] at hx
        rcases hx with (hx | hx) | hx
        · exact hpre x hx
        · by_cases hp0 : pos = 0
          · simp only [hp0, ne_eq, not_true_eq_false, if_false, List.mem_singleton] at hx
            subst hx; simp [hmem]
          · simp only [hp0, ne_eq, not_false_eq_true, if_true, List.mem_cons,
              List.mem_singleton, List.not_mem_nil, or_false] at hx
            rcases hx with hx | hx <;> subst hx <;> simp [hmem]
        · exact hrest x hx
    | true =>
      simp only [Bool.not_true, Bool.false_eq_true, if_false]
      have hroom : ¬ (b.data.take pos ++ b.data.drop (pos + k)).length > kMemoryBlockSize := by
        have := hbcap hmem
        simp only [block.len] at this hin
        simp; omega
      simp only [block.len, hroom, if_false]
      refine ⟨_, rfl, hfinish _ rfl ?_ ?_⟩
      · simp only [ht, hd1, content_append, content_cons, hdrop, List.append_assoc]
      · intro x hx
        simp only [ht, hd1, List.mem_append, List.mem_cons] at hx
        rcases hx with hx | hx | hx
        · exact hpre x hx
        · subst hx; intro _; simp only [block.len]; omega
        · exact hrest x hx
  · rw [if_neg hin]
    by_cases heq : pos + k = b.len
    · rw [if_pos heq]
      have hdrop : (b.data ++ content rest).drop (pos + k) = content rest := by
        have : pos + k = b.data.length + 0 := by simp only [block.len] at heq; omega
        rw [this, List.drop_append]; rfl
      refine ⟨_, rfl, hfinish _ rfl ?_ ?_⟩
      · simp only [ht, hd1, content_append, content_cons, hdrop]
      · intro x hx
        simp only [ht, hd1, List.mem_append, List.mem_cons] at hx
        rcases hx with hx | hx | hx
        · exact hpre x hx
        · subst hx; exact htake _ rfl rfl
        · exact hrest x hx
    · rw [if_neg heq]
      have hgt : b.len < pos + k := by omega
      by_cases hp0 : pos = 0
      · subst hp0
        simp only [ne_eq, not_true_eq_false, if_false, hd]
        obtain ⟨c', freed, hloop, hcont, hcap'⟩ := remove_loop_spec (b :: rest) k hk1
          (by simp; omega) (fun x hx => hcap x (by rw [hc]; exact List.mem_append_right _ hx))
        simp only [hloop]
        refine ⟨_, rfl, hfinish _ rfl ?_ ?_⟩
        · simp only [ht, content_append, hcont, content_cons]
          simp
        · intro x hx
          simp only [ht, List.mem_append, List.not_mem_nil, or_false] at hx
          rcases hx with hx | hx
          · exact hpre x hx
          · exact hcap' x hx
      · simp only [hp0, ne_eq, not_false_eq_true, if_true, hd1]
        have hlen1 : sub64 k (b.len - pos) = k - (b.len - pos) :=
          sub64_of_le (by omega) (by omega)
        obtain ⟨c', freed, hloop, hcont, hcap'⟩ := remove_loop_spec rest (k - (b.len - pos))
          (by omega) (by omega) hrest
        simp only [hlen1, hloop]
        refine ⟨_, rfl, hfinish _ rfl ?_ ?_⟩
        · simp only [ht, content_append, hcont, content_cons, content_nil, List.append_nil]
          have : pos + k = b.data.length + (k - (b.len - pos)) := by
            simp only [block.len] at hgt hp ⊢; omega
          rw [this, List.drop_append]
          simp
        · intro x hx
          simp only [ht, List.mem_append, List.mem_singleton] at hx
          rcases hx with (hx | hx) | hx
          · exact hpre x hx
          · subst hx; exact htake _ rfl rfl
          · exact hcap' x hx

/-- An instance of `remove_deletes_range`: a removal that starts in the first
block of the sample chain and is clamped at the end of the file. -/
theorem remove_deletes_range_sample :
    ∃ m', remove sample_edited 3 100 true = some (operation_result.kSuccess, m') ∧
      m'._M_len = sample_edited._M_len - min 100 (sample_edited._M_len - 3) ∧
      content m'.chain = (content sample_edited.chain).take 3 ++
        (content sample_edited.chain).drop (3 + min 100 (sample_edited._M_len - 3)) ∧
      chain_ok m' :=
  remove_deletes_range sample_edited 3 100 true (by decide) (by decide) (by decide)
    (by decide) (by decide) (by decide) (by decide)

/-! ## Results other than `kSuccess` -/

/-- A call of `modify` that returns a result other than `kSuccess` leaves the
whole state as it was. -/
theorem modify_failure_unchanged {m m' : file_model} {off : Nat} {data : List Nat}
    {rc : Bool} {r : operation_result}
    (h : modify m off data rc = some (r, m')) (hr : r ≠ operation_result.kSuccess) :
    m' = m := by
  unfold file_model.modify at h
  simp only at h
  repeat' split at h
  all_goals first
    | exact Option.noConfusion h
    | (simp only [Option.some.injEq, Prod.mk.injEq] at h
       first
         | exact h.2.symm
         | exact absurd h.1.symm hr)

/-- A call of `add` that returns a result other than `kSuccess` leaves the whole
state as it was. -/
theorem add_failure_unchanged {m m' : file_model} {off : Nat} {data : List Nat}
    {rc : Bool} {r : operation_result}
    (h : add m off data rc = some (r, m')) (hr : r ≠ operation_result.kSuccess) :
    m' = m := by
  unfold file_model.add at h
  simp only at h
  generalize (match m.seek off with
    | some r => some r
    | none =>
      if off = m._M_len then some (m.chain.length - 1, (blk m.chain (m.chain.length - 1)).len)
      else none) = at_block at h
  by_cases h1 : m._M_read_only = true
  · rw [if_pos h1] at h
    simp only [Option.some.injEq, Prod.mk.injEq] at h; exact h.2.symm
  rw [if_neg h1] at h
  by_cases h2 : m._M_block_device = true
  · rw [if_pos h2] at h
    simp only [Option.some.injEq, Prod.mk.injEq] at h; exact h.2.symm
  rw [if_neg h2] at h
  by_cases h3 : data.length > kMaxMemoryUsed
  · rw [if_pos h3] at h
    simp only [Option.some.injEq, Prod.mk.injEq] at h; exact h.2.symm
  rw [if_neg h3] at h
  cases at_block with
  | none => simp only [Option.some.injEq, Prod.mk.injEq] at h; exact h.2.symm
  | some ip =>
    obtain ⟨i, pos⟩ := ip
    simp only at h
    by_cases h4 : data.length = 0
    · rw [if_pos h4] at h
      simp only [Option.some.injEq, Prod.mk.injEq] at h; exact h.2.symm
    rw [if_neg h4] at h
    by_cases h5 : u64 (m._M_memory_used + data.length) > kMaxMemoryUsed
    · rw [if_pos h5] at h
      simp only [Option.some.injEq, Prod.mk.injEq] at h; exact h.2.symm
    rw [if_neg h5] at h
    split_ifs at h
    all_goals first
      | exact Option.noConfusion h
      | (simp only [Option.some.injEq, Prod.mk.injEq] at h
         exact absurd h.1.symm hr)

/-- A call of `remove` that returns a result other than `kSuccess` leaves the
whole state as it was. -/
theorem remove_failure_unchanged {m m' : file_model} {off len : Nat}
    {rc : Bool} {r : operation_result}
    (h : remove m off len rc = some (r, m')) (hr : r ≠ operation_result.kSuccess) :
    m' = m := by
  unfold file_model.remove at h
  simp only at h
  by_cases h1 : m._M_read_only = true
  · rw [if_pos h1] at h
    simp only [Option.some.injEq, Prod.mk.injEq] at h; exact h.2.symm
  rw [if_neg h1] at h
  by_cases h2 : m._M_block_device = true
  · rw [if_pos h2] at h
    simp only [Option.some.injEq, Prod.mk.injEq] at h; exact h.2.symm
  rw [if_neg h2] at h
  cases hs : m.seek off with
  | none =>
    rw [hs] at h
    simp only [Option.some.injEq, Prod.mk.injEq] at h; exact h.2.symm
  | some ip =>
    obtain ⟨i, pos⟩ := ip
    rw [hs] at h
    simp only at h
    by_cases h4 : len = 0
    · rw [if_pos h4] at h
      simp only [Option.some.injEq, Prod.mk.injEq] at h; exact h.2.symm
    rw [if_neg h4] at h
    by_cases h5 : (rc && m._M_undo_enabled) = true ∧ len ≥ 9223372036854775808
    · rw [if_pos h5] at h
      simp only [Option.some.injEq, Prod.mk.injEq] at h; exact h.2.symm
    rw [if_neg h5] at h
    split_ifs at h
    all_goals first
      | exact Option.noConfusion h
      | (simp only [Option.some.injEq, Prod.mk.injEq] at h
         exact absurd h.1.symm hr)
      | skip
    all_goals
      split at h
      · exact Option.noConfusion h
      · simp only [Option.some.injEq, Prod.mk.injEq] at h
        exact absurd h.1.symm hr

/-- The call `undo` forwards to, when it gets as far as the record. -/
theorem undo_inner {m m' : file_model} {r : operation_result}
    (h : undo m = some (r, m')) :
    (m' = m ∧ ((m._M_read_only = true ∧ r = operation_result.kErrorReadOnly) ∨
        (m._M_undo_enabled = false ∧ r = operation_result.kErrorUndoDisabled) ∨
        (m._M_nchange = 0 ∧ r = operation_result.kNoMoreChanges))) ∨
    (m._M_read_only = false ∧ m._M_undo_enabled = true ∧ m._M_nchange ≠ 0 ∧
      ∃ r1 m1, ((∃ off d, modify m off d false = some (r1, m1)) ∨
          (∃ off len, remove m off len false = some (r1, m1)) ∨
          (∃ off d, add m off d false = some (r1, m1))) ∧
        ((r1 = operation_result.kSuccess ∧ r = operation_result.kSuccess ∧
            m' = { m1 with _M_nchange := m1._M_nchange - 1 }) ∨
         (r1 ≠ operation_result.kSuccess ∧ r = r1 ∧ m' = m1))) := by
  unfold file_model.undo at h
  by_cases h1 : m._M_read_only = true
  · rw [if_pos h1] at h
    simp only [Option.some.injEq, Prod.mk.injEq] at h
    exact Or.inl ⟨h.2.symm, Or.inl ⟨h1, h.1.symm⟩⟩
  rw [if_neg h1] at h
  by_cases h2 : (!m._M_undo_enabled) = true
  · rw [if_pos h2] at h
    simp only [Option.some.injEq, Prod.mk.injEq] at h
    exact Or.inl ⟨h.2.symm, Or.inr (Or.inl ⟨by simpa using h2, h.1.symm⟩)⟩
  rw [if_neg h2] at h
  by_cases h3 : m._M_nchange = 0
  · rw [if_pos h3] at h
    simp only [Option.some.injEq, Prod.mk.injEq] at h
    exact Or.inl ⟨h.2.symm, Or.inr (Or.inr ⟨h3, h.1.symm⟩)⟩
  rw [if_neg h3] at h
  refine Or.inr ⟨by simpa using h1, by simpa using h2, h3, ?_⟩
  cases hc : m._M_changes.get? (m._M_nchange - 1) with
  | none => rw [hc] at h; exact Option.noConfusion h
  | some chg =>
    rw [hc] at h
    simp only at h
    generalize hres : (match chg.t with
      | change_type.kModify =>
        (buffer chg.olddata chg.len).bind (fun d => m.modify chg.off d false)
      | change_type.kAdd => m.remove chg.off chg.len false
      | change_type.kRemove =>
        (buffer chg.olddata chg.len).bind (fun d => m.add chg.off d false)) = res at h
    cases res with
    | none => exact Option.noConfusion h
    | some rm =>
      obtain ⟨r1, m1⟩ := rm
      simp only at h
      refine ⟨r1, m1, ?_, ?_⟩
      · cases ht : chg.t with
        | kModify =>
          rw [ht] at hres
          simp only [Option.bind_eq_some] at hres
          obtain ⟨d, -, hd⟩ := hres
          exact Or.inl ⟨_, _, hd⟩
        | kAdd =>
          rw [ht] at hres
          exact Or.inr (Or.inl ⟨_, _, hres⟩)
        | kRemove =>
          rw [ht] at hres
          simp only [Option.bind_eq_some] at hres
          obtain ⟨d, -, hd⟩ := hres
          exact Or.inr (Or.inr ⟨_, _, hd⟩)
      · by_cases hr1 : r1 = operation_result.kSuccess
        · rw [if_pos hr1] at h
          simp only [Option.some.injEq, Prod.mk.injEq] at h
          exact Or.inl ⟨hr1, h.1.symm, h.2.symm⟩
        · rw [if_neg hr1] at h
          simp only [Option.some.injEq, Prod.mk.injEq] at h
          exact Or.inr ⟨hr1, h.1.symm, h.2.symm⟩

/-- The call `redo` forwards to, when it gets as far as the record. -/
theorem redo_inner {m m' : file_model} {r : operation_result}
    (h : redo m = some (r, m')) :
    (m' = m ∧ ((m._M_read_only = true ∧ r = operation_result.kErrorReadOnly) ∨
        (m._M_undo_enabled = false ∧ r = operation_result.kErrorUndoDisabled) ∨
        (m._M_nchange = m._M_changes.length ∧ r = operation_result.kNoMoreChanges))) ∨
    (m._M_read_only = false ∧ m._M_undo_enabled = true ∧ m._M_nchange ≠ m._M_changes.length ∧
      ∃ r1 m1, ((∃ off d, modify m off d false = some (r1, m1)) ∨
          (∃ off len, remove m off len false = some (r1, m1)) ∨
          (∃ off d, add m off d false = some (r1, m1))) ∧
        ((r1 = operation_result.kSuccess ∧ r = operation_result.kSuccess ∧
            m' = { m1 with _M_nchange := m1._M_nchange + 1 }) ∨
         (r1 ≠ operation_result.kSuccess ∧ r = r1 ∧ m' = m1))) := by
  unfold file_model.redo at h
  by_cases h1 : m._M_read_only = true
  · rw [if_pos h1] at h
    simp only [Option.some.injEq, Prod.mk.injEq] at h
    exact Or.inl ⟨h.2.symm, Or.inl ⟨h1, h.1.symm⟩⟩
  rw [if_neg h1] at h
  by_cases h2 : (!m._M_undo_enabled) = true
  · rw [if_pos h2] at h
    simp only [Option.some.injEq, Prod.mk.injEq] at h
    exact Or.inl ⟨h.2.symm, Or.inr (Or.inl ⟨by simpa using h2, h.1.symm⟩)⟩
  rw [if_neg h2] at h
  by_cases h3 : m._M_nchange = m._M_changes.length
  · rw [if_pos h3] at h
    simp only [Option.some.injEq, Prod.mk.injEq] at h
    exact Or.inl ⟨h.2.symm, Or.inr (Or.inr ⟨h3, h.1.symm⟩)⟩
  rw [if_neg h3] at h
  refine Or.inr ⟨by simpa using h1, by simpa using h2, h3, ?_⟩
  cases hc : m._M_changes.get? m._M_nchange with
  | none => rw [hc] at h; exact Option.noConfusion h
  | some chg =>
    rw [hc] at h
    simp only at h
    generalize hres : (match chg.t with
      | change_type.kModify =>
        (buffer chg.newdata chg.len).bind (fun d => m.modify chg.off d false)
      | change_type.kAdd =>
        (buffer chg.newdata chg.len).bind (fun d => m.add chg.off d false)
      | change_type.kRemove => m.remove chg.off chg.len false) = res at h
    cases res with
    | none => exact Option.noConfusion h
    | some rm =>
      obtain ⟨r1, m1⟩ := rm
      simp only at h
      refine ⟨r1, m1, ?_, ?_⟩
      · cases ht : chg.t with
        | kModify =>
          rw [ht] at hres
          simp only [Option.bind_eq_some] at hres
          obtain ⟨d, -, hd⟩ := hres
          exact Or.inl ⟨_, _, hd⟩
        | kAdd =>
          rw [ht] at hres
          simp only [Option.bind_eq_some] at hres
          obtain ⟨d, -, hd⟩ := hres
          exact Or.inr (Or.inr ⟨_, _, hd⟩)
        | kRemove =>
          rw [ht] at hres
          exact Or.inr (Or.inl ⟨_, _, hres⟩)
      · by_cases hr1 : r1 = operation_result.kSuccess
        · rw [if_pos hr1] at h
          simp only [Option.some.injEq, Prod.mk.injEq] at h
          exact Or.inl ⟨hr1, h.1.symm, h.2.symm⟩
        · rw [if_neg hr1] at h
          simp only [Option.some.injEq, Prod.mk.injEq] at h
          exact Or.inr ⟨hr1, h.1.symm, h.2.symm⟩

/-- `C11`: failed editing calls are all-or-nothing.  Whenever `modify`, `add`,
`remove`, `undo` or `redo` returns a result other than `kSuccess` (no allocation
fails in the model), the state after the call is the state before it: content,
length, `memory_used`, `modified`, `size_modified`, the journal records and
`nchange` are as they were. -/
theorem failed_call_changes_nothing (m m' : file_model) (r : operation_result)
    (off len : Nat) (data : List Nat) (record_change : Bool)
    (hr : r ≠ operation_result.kSuccess)
    (h : modify m off data record_change = some (r, m') ∨
      add m off data record_change = some (r, m') ∨
      remove m off len record_change = some (r, m') ∨
      undo m = some (r, m') ∨ redo m = some (r, m')) :
    m' = m ∧ content m'.chain = content m.chain ∧ m'._M_len = m._M_len ∧
      m'._M_memory_used = m._M_memory_used ∧ m'._M_modified = m._M_modified ∧
      m'._M_size_modified = m._M_size_modified ∧ m'._M_changes = m._M_changes ∧
      m'._M_nchange = m._M_nchange := by
  have key : m' = m := by
    rcases h with h | h | h | h | h
    · exact modify_failure_unchanged h hr
    · exact add_failure_unchanged h hr
    · exact remove_failure_unchanged h hr
    · rcases undo_inner h with ⟨h1, -⟩ | ⟨-, -, -, r1, m1, hcall, hres⟩
      · exact h1
      · rcases hres with ⟨-, h2, -⟩ | ⟨hr1, -, h3⟩
        · exact absurd h2 hr
        · rw [h3]
          rcases hcall with ⟨_, _, hc⟩ | ⟨_, _, hc⟩ | ⟨_, _, hc⟩
          · exact modify_failure_unchanged hc hr1
          · exact remove_failure_unchanged hc hr1
          · exact add_failure_unchanged hc hr1
    · rcases redo_inner h with ⟨h1, -⟩ | ⟨-, -, -, r1, m1, hcall, hres⟩
      · exact h1
      · rcases hres with ⟨-, h2, -⟩ | ⟨hr1, -, h3⟩
        · exact absurd h2 hr
        · rw [h3]
          rcases hcall with ⟨_, _, hc⟩ | ⟨_, _, hc⟩ | ⟨_, _, hc⟩
          · exact modify_failure_unchanged hc hr1
          · exact remove_failure_unchanged hc hr1
          · exact add_failure_unchanged hc hr1
  subst key
  exact ⟨rfl, rfl, rfl, rfl, rfl, rfl, rfl, rfl⟩

/-- Witness of `C11`: on the sample chain a modify that ends past the end of
the file returns `kInvalidOperation`. -/
theorem failed_call_changes_nothing_witness :
    modify sample_edited 10 [1, 2, 3] true =
      some (operation_result.kInvalidOperation, sample_edited) ∧
    sample_edited = sample_edited ∧
    content sample_edited.chain = content sample_edited.chain ∧
    sample_edited._M_len = sample_edited._M_len ∧
    sample_edited._M_memory_used = sample_edited._M_memory_used ∧
    sample_edited._M_modified = sample_edited._M_modified ∧
    sample_edited._M_size_modified = sample_edited._M_size_modified ∧
    sample_edited._M_changes = sample_edited._M_changes ∧
    sample_edited._M_nchange = sample_edited._M_nchange :=
  ⟨by decide, failed_call_changes_nothing sample_edited sample_edited
    operation_result.kInvalidOperation 10 0 [1, 2, 3] true (by decide) (Or.inl (by decide))⟩

/-! ## Read-only models -/

/-- Whatever the host delivers, `open` has set `read_only` from the mode when
the name has passed the test of its length. -/
theorem open_file_read_only (m : file_model) (f : Option host_file) (mode : open_mode) :
    (open_file m f mode).2._M_read_only = decide (mode = open_mode.kReadOnly) := by
  cases f with
  | none => rfl
  | some hf =>
    unfold open_file
    simp only
    split_ifs <;> rfl

/-- `C17`: read-only models reject every mutation.  When `read_only` is true,
`modify`, `add`, `remove`, `undo` and `redo` return `kErrorReadOnly` for all
arguments, whatever the rest of the state is, and leave the state unchanged;
`read_only` is true in a model that was never opened, in a closed model, and
after `open` in mode `kReadOnly` when `open` returns `true` or, more
generally, when the name is shorter than `sizeof(_M_filename)`; with a longer
name `open` returns `false` and leaves the model, `read_only` included, as it
was. -/
theorem read_only_rejects (m : file_model) (hro : m._M_read_only = true) :
    (∀ off data rc, modify m off data rc = some (operation_result.kErrorReadOnly, m)) ∧
    (∀ off data rc, add m off data rc = some (operation_result.kErrorReadOnly, m)) ∧
    (∀ off len rc, remove m off len rc = some (operation_result.kErrorReadOnly, m)) ∧
    undo m = some (operation_result.kErrorReadOnly, m) ∧
    redo m = some (operation_result.kErrorReadOnly, m) ∧
    (∀ undo_enabled, (file_model.new undo_enabled)._M_read_only = true) ∧
    (∀ (m0 : file_model) filename f,
      (file_model.open m0 filename f open_mode.kReadOnly).1 = true ∨
          strlen filename < kPathMax →
        (file_model.open m0 filename f open_mode.kReadOnly).2._M_read_only = true) ∧
    (∀ (m0 : file_model) filename f mode, strlen filename ≥ kPathMax →
      file_model.open m0 filename f mode = (false, m0)) ∧
    (∀ m0 : file_model, m0.close._M_read_only = true) := by
  refine ⟨?_, ?_, ?_, ?_, ?_, fun _ => rfl, ?_, ?_, fun _ => rfl⟩
  · intro off data rc; unfold file_model.modify; rw [if_pos hro]
  · intro off data rc; unfold file_model.add; rw [if_pos hro]
  · intro off len rc; unfold file_model.remove; rw [if_pos hro]
  · unfold file_model.undo; rw [if_pos hro]
  · unfold file_model.redo; rw [if_pos hro]
  · intro m0 filename f h
    have hn : strlen filename < kPathMax := by
      rcases h with h | h
      · exact (open_true h).1
      · exact h
    have hr := open_file_read_only m0 f open_mode.kReadOnly
    unfold file_model.open
    rw [if_neg (by omega)]
    simp only
    split_ifs <;> exact hr.trans (by decide)
  · intro m0 filename f mode hn
    unfold file_model.open
    rw [if_pos hn]

/-- Witness of `C17`: the model `viewed`, opened read-only on a file of ten
bytes (`open` returned `true`, the chain is one block in disk). -/
theorem read_only_rejects_witness :
    (file_model.open (file_model.new true) "file_model.bin"
      (some { bytes := [0, 1, 2, 3, 4, 5, 6, 7, 8, 9], block_device := false })
      open_mode.kReadOnly).1 = true ∧
    viewed._M_read_only = true ∧ viewed._M_len = 10 ∧
    modify viewed 3 [1] true = some (operation_result.kErrorReadOnly, viewed) ∧
    add viewed 3 [1] true = some (operation_result.kErrorReadOnly, viewed) ∧
    remove viewed 3 1 true = some (operation_result.kErrorReadOnly, viewed) ∧
    undo viewed = some (operation_result.kErrorReadOnly, viewed) ∧
    redo viewed = some (operation_result.kErrorReadOnly, viewed) :=
  have h := read_only_rejects viewed (by decide)
  ⟨by decide, by decide, by decide, h.1 3 [1] true, h.2.1 3 [1] true, h.2.2.1 3 1 true,
    h.2.2.2.1, h.2.2.2.2.1⟩

/-! ## Edits of length zero -/

theorem u64_le (n : Nat) : u64 n ≤ n := Nat.mod_le _ _

/-- The code at the failing input of `C12`: on a writable model of ten bytes
`modify(10, data, 0)` has `off + 0 <= length`, passes the range test, fails
at `seek(10)` and returns `kInvalidOperation` before the test `len == 0` is
reached; so does `modify(0, data, 0)` on a writable model of an empty file.
The state is left as it was. -/
theorem modify_zero_at_end_invalid :
    (opened [0, 1, 2, 3, 4, 5, 6, 7, 8, 9])._M_read_only = false ∧
    10 + ([] : List Nat).length ≤ (opened [0, 1, 2, 3, 4, 5, 6, 7, 8, 9])._M_len ∧
    modify (opened [0, 1, 2, 3, 4, 5, 6, 7, 8, 9]) 10 [] true =
      some (operation_result.kInvalidOperation, opened [0, 1, 2, 3, 4, 5, 6, 7, 8, 9]) ∧
    (opened [])._M_read_only = false ∧
    0 + ([] : List Nat).length ≤ (opened [])._M_len ∧
    modify (opened []) 0 [] true = some (operation_result.kInvalidOperation, opened []) := by
  decide

/-- Edits of length zero on a writable model whose block lengths sum to
`length`: `modify(off, data, 0)` for every `off < length`, and on a regular
file `add(off, data, 0)` for every `off <= length` and `remove(off, 0)` for
every `off < length`, return `kSuccess` and leave the whole state, the journal
included, as it was; `modify(off, data, 0)` for `off >= length` returns
`kInvalidOperation`. -/
theorem zero_length_edits (m : file_model) (off : Nat) (record_change : Bool)
    (hrw : m._M_read_only = false) (hsum : total_len m.chain = m._M_len) :
    (off < m._M_len →
      modify m off [] record_change = some (operation_result.kSuccess, m)) ∧
    (m._M_block_device = false → off ≤ m._M_len →
      add m off [] record_change = some (operation_result.kSuccess, m)) ∧
    (m._M_block_device = false → off < m._M_len →
      remove m off 0 record_change = some (operation_result.kSuccess, m)) ∧
    (m._M_len ≤ off →
      modify m off [] record_change = some (operation_result.kInvalidOperation, m)) := by
  have hkmax : kMaxMemoryUsed = 104857600 := by decide
  refine ⟨fun hoff => ?_, fun hreg hadd => ?_, fun hreg hoff => ?_, fun hge => ?_⟩
  · obtain ⟨⟨i, pos⟩, hr⟩ := seek_isSome m off hsum hoff
    unfold file_model.modify
    simp only [hrw, Bool.false_eq_true, if_false, hr, List.length_nil, if_true]
    rw [if_neg (by have := u64_le (off + 0); omega), if_neg (by omega)]
  · unfold file_model.add
    simp only [hrw, hreg, Bool.false_eq_true, if_false, List.length_nil]
    rw [if_neg (by omega)]
    rcases Nat.lt_or_ge off m._M_len with hlt | hge
    · obtain ⟨⟨j, q⟩, hq⟩ := seek_isSome m off hsum hlt
      simp only [hq, if_true]
    · have he : off = m._M_len := by omega
      subst he
      simp only [seek_none m m._M_len (Nat.le_refl _), if_true]
  · obtain ⟨⟨i, pos⟩, hr⟩ := seek_isSome m off hsum hoff
    unfold file_model.remove
    simp only [hrw, hreg, Bool.false_eq_true, if_false, hr, if_true]
  · unfold file_model.modify
    simp only [hrw, Bool.false_eq_true, if_false, List.length_nil, Nat.add_zero,
      seek_none m off hge]
    split_ifs <;> first | rfl | omega

/-- An instance of `zero_length_edits`: the three-block sample chain of twelve
bytes. -/
theorem zero_length_edits_sample :
    modify sample_edited 3 [] true = some (operation_result.kSuccess, sample_edited) ∧
    add sample_edited 12 [] true = some (operation_result.kSuccess, sample_edited) ∧
    remove sample_edited 3 0 true = some (operation_result.kSuccess, sample_edited) ∧
    modify sample_edited 12 [] true =
      some (operation_result.kInvalidOperation, sample_edited) :=
  ⟨(zero_length_edits sample_edited 3 true (by decide) (by decide)).1 (by decide),
    (zero_length_edits sample_edited 12 true (by decide) (by decide)).2.1 (by decide)
      (by decide),
    (zero_length_edits sample_edited 3 true (by decide) (by decide)).2.2.1 (by decide)
      (by decide),
    (zero_length_edits sample_edited 12 true (by decide) (by decide)).2.2.2 (by decide)⟩

/-! ## Offsets out of range and oversized changes -/

/-- The sample model `opened`, member by member. -/
theorem opened_eq (bytes : List Nat) :
    opened bytes =
      { file_model.new true with
          _M_read_only := false
          _M_filesize := bytes.length
          _M_data := if bytes.length ≠ 0 then some bytes else none
          chain := if bytes.length ≠ 0 then
              [{ data := bytes, in_memory := false, addr := 0 }] else []
          _M_filename := "file_model.bin"
          _M_len := bytes.length } := by
  unfold opened
  rw [open_facts (open_ok _ _ _ _ (by decide) rfl)]
  rfl

theorem opened_read_only (bytes : List Nat) : (opened bytes)._M_read_only = false := by
  rw [opened_eq]

theorem opened_block_device (bytes : List Nat) : (opened bytes)._M_block_device = false := by
  rw [opened_eq]; rfl

theorem opened_len (bytes : List Nat) : (opened bytes)._M_len = bytes.length := by
  rw [opened_eq]

/-- A change longer than `kMaxMemoryUsed` that passes the range test of `modify`. -/
theorem modify_oversized (m : file_model) (off : Nat) (data : List Nat) (record_change : Bool)
    (hrw : m._M_read_only = false) (hin : ¬ u64 (off + data.length) > m._M_len)
    (hbig : data.length > kMaxMemoryUsed) :
    modify m off data record_change =
      some (operation_result.kChangeBiggerMaxMemoryUsed, m) := by
  unfold file_model.modify
  simp only [hrw, Bool.false_eq_true, if_false]
  rw [if_neg hin, if_pos hbig]

theorem opened_memory_used (bytes : List Nat) : (opened bytes)._M_memory_used = 0 := by
  rw [opened_eq]; rfl

/-- The code at the failing input of `C13`: on a writable regular file of ten
bytes, `modify(2^64 - 104857597, data, 104857601)` has `off + len > length`;
the sum wraps to `4`, the range test passes and the call returns
`kChangeBiggerMaxMemoryUsed`. -/
theorem modify_range_test_wraps :
    (opened [0, 1, 2, 3, 4, 5, 6, 7, 8, 9])._M_read_only = false ∧
    (opened [0, 1, 2, 3, 4, 5, 6, 7, 8, 9])._M_block_device = false ∧
    18446744073604694019 < 18446744073709551616 ∧
    (List.replicate 104857601 0).length < 18446744073709551616 ∧
    18446744073604694019 + (List.replicate 104857601 0).length >
      (opened [0, 1, 2, 3, 4, 5, 6, 7, 8, 9])._M_len ∧
    modify (opened [0, 1, 2, 3, 4, 5, 6, 7, 8, 9]) 18446744073604694019
        (List.replicate 104857601 0) true =
      some (operation_result.kChangeBiggerMaxMemoryUsed,
        opened [0, 1, 2, 3, 4, 5, 6, 7, 8, 9]) := by
  refine ⟨opened_read_only _, opened_block_device _, by decide, ?_, ?_, ?_⟩
  · rw [List.length_replicate]; decide
  · rw [List.length_replicate, opened_len]; decide
  · exact modify_oversized _ _ _ _ (opened_read_only _)
      (by rw [List.length_replicate, opened_len]; decide)
      (by rw [List.length_replicate]; decide)

/-- Offsets out of range when `off + len` does not wrap: on a writable regular
file `modify` returns `kInvalidOperation` whenever `off + len > length`, `add`
with `len <= kMaxMemoryUsed` whenever `off > length`, and `remove` whenever
`off >= length`. -/
theorem out_of_range_invalid (m : file_model) (off len : Nat) (data : List Nat)
    (record_change : Bool) (hrw : m._M_read_only = false)
    (hreg : m._M_block_device = false) :
    (off + data.length < 18446744073709551616 → off + data.length > m._M_len →
      modify m off data record_change = some (operation_result.kInvalidOperation, m)) ∧
    (data.length ≤ kMaxMemoryUsed → off > m._M_len →
      add m off data record_change = some (operation_result.kInvalidOperation, m)) ∧
    (off ≥ m._M_len →
      remove m off len record_change = some (operation_result.kInvalidOperation, m)) := by
  refine ⟨fun h64 hgt => ?_, fun hmax hgt => ?_, fun hge => ?_⟩
  · unfold file_model.modify
    simp only [hrw, Bool.false_eq_true, if_false]
    rw [if_pos (by rw [u64_of_lt h64]; exact hgt)]
  · unfold file_model.add
    simp only [hrw, hreg, Bool.false_eq_true, if_false]
    rw [if_neg (by omega), seek_none m off (by omega), if_neg (by omega)]
  · unfold file_model.remove
    simp only [hrw, hreg, Bool.false_eq_true, if_false]
    rw [seek_none m off hge]

/-- `C16`: oversized single operations are rejected.  On a writable model,
whatever `memory_used` is, a `modify` with `off + len <= length` and, on a
regular file, every `add` return `kChangeBiggerMaxMemoryUsed` and leave the
state unchanged when `len > kMaxMemoryUsed`. -/
theorem oversized_change_rejected (m : file_model) (off off_add : Nat) (data : List Nat)
    (record_change : Bool) (hrw : m._M_read_only = false)
    (h64 : m._M_len < 18446744073709551616) (hbig : data.length > kMaxMemoryUsed) :
    (off + data.length ≤ m._M_len →
      modify m off data record_change =
        some (operation_result.kChangeBiggerMaxMemoryUsed, m)) ∧
    (m._M_block_device = false →
      add m off_add data record_change =
        some (operation_result.kChangeBiggerMaxMemoryUsed, m)) := by
  refine ⟨fun hin => ?_, fun hreg => ?_⟩
  · exact modify_oversized m off data record_change hrw
      (by rw [u64_of_lt (by omega)]; omega) hbig
  · unfold file_model.add
    simp only [hrw, hreg, Bool.false_eq_true, if_false]
    rw [if_pos hbig]

/-- Witness of `C16`: a file of `kMaxMemoryUsed + 1` bytes and a change of the
same length. -/
theorem oversized_change_rejected_witness :
    modify (opened (List.replicate 104857601 0)) 0 (List.replicate 104857601 1) true =
      some (operation_result.kChangeBiggerMaxMemoryUsed,
        opened (List.replicate 104857601 0)) ∧
    add (opened (List.replicate 104857601 0)) 7 (List.replicate 104857601 1) true =
      some (operation_result.kChangeBiggerMaxMemoryUsed,
        opened (List.replicate 104857601 0)) :=
  have h := oversized_change_rejected (opened (List.replicate 104857601 0)) 0 7
    (List.replicate 104857601 1) true (opened_read_only _)
    (by rw [opened_len, List.length_replicate]; decide)
    (by rw [List.length_replicate]; decide)
  ⟨h.1 (by rw [opened_len, List.length_replicate, List.length_replicate]),
    h.2 (opened_block_device _)⟩

/-! ## Calls that are performed -/

/-- A block of the chain in memory, or the header, is no longer than a buffer. -/
theorem blk_cap {m : file_model} (hok : chain_ok m) (i : Nat)
    (h : (blk m.chain i).in_memory = true) : (blk m.chain i).len ≤ kMemoryBlockSize := by
  unfold blk at h ⊢
  rcases Nat.lt_or_ge i m.chain.length with hi | hi
  · rw [List.getD_eq_getElem _ _ hi] at h ⊢
    exact hok.2.2 _ (List.getElem_mem hi) h
  · rw [List.getD_eq_default _ _ hi] at h
    exact absurd h (by decide)

/-- Once its tests are passed, `add` is performed; when it splits a block in
memory it counts the new blocks and the copy of the right side. -/
theorem add_performed (m : file_model) (off : Nat) (data : List Nat) (record_change : Bool)
    (i pos : Nat) (hrw : m._M_read_only = false) (hreg : m._M_block_device = false)
    (hlen : 0 < data.length) (hmax : data.length ≤ kMaxMemoryUsed)
    (hguard : ¬ u64 (m._M_memory_used + data.length) > kMaxMemoryUsed)
    (hat : add_position m off i pos)
    (hbcap : (blk m.chain i).in_memory = true → (blk m.chain i).len ≤ kMemoryBlockSize) :
    ∃ m', add m off data record_change = some (operation_result.kSuccess, m') ∧
      (pos ≠ 0 → off ≠ m._M_len → (blk m.chain i).in_memory = true →
        ¬ data.length ≤ sub64 kMemoryBlockSize (blk m.chain i).len →
        m'._M_memory_used = m._M_memory_used +
          ((add_blocks data.length data).length + 1) * kMemoryBlockSize) := by
  have hkb : kMemoryBlockSize = 4096 := by decide
  have hat' : (match seek m off with
      | some r => some r
      | none =>
        if off = m._M_len then
          some (m.chain.length - 1, (blk m.chain (m.chain.length - 1)).len)
        else none) = some (i, pos) := by
    rcases hat with h | ⟨h1, h2, h3, h4⟩
    · rw [h]
    · rw [h1, h3, h4]; simp only [h2, if_true]
  unfold file_model.add
  simp only [hrw, hreg, Bool.false_eq_true, if_false, hat']
  rw [if_neg (by omega), if_neg (by omega), if_neg hguard]
  by_cases hfits : (blk m.chain i).in_memory = true ∧
      data.length ≤ sub64 kMemoryBlockSize (blk m.chain i).len
  · rw [if_pos hfits]
    have hroom : ¬ ((blk m.chain i).data.take pos ++ data ++
        (blk m.chain i).data.drop pos).length > kMemoryBlockSize := by
      have h1 := hbcap hfits.1
      have h2 := hfits.2
      rw [hkb] at h1
      rw [hkb, sub64_of_le h1 (by omega)] at h2
      simp only [block.len] at h1 h2
      simp; omega
    simp only [block.len, hroom, if_false]
    exact ⟨_, rfl, fun _ _ _ h4 => absurd hfits.2 h4⟩
  · rw [if_neg hfits]
    by_cases hfill : (blk m.chain i).in_memory = true ∧ off = m._M_len ∧
        sub64 kMemoryBlockSize (blk m.chain i).len > 0
    · have hsplit : ∀ P : Prop, ¬ (pos ≠ 0 ∧
          u64 (off + sub64 kMemoryBlockSize (blk m.chain i).len) ≠
            u64 (m._M_len + sub64 kMemoryBlockSize (blk m.chain i).len) ∧ P) :=
        fun P h => h.2.1 (by rw [hfill.2.1])
      simp only [if_pos hfill]
      rw [if_neg (hsplit _)]
      exact ⟨_, rfl, fun _ h2 => absurd hfill.2.1 h2⟩
    · have hsplit : ¬ (pos ≠ 0 ∧ off ≠ m._M_len ∧ (blk m.chain i).in_memory = true ∧
          (blk m.chain i).len - pos > kMemoryBlockSize) := fun h => by
        have := hbcap h.2.2.1
        omega
      simp only [hfill, if_false, hsplit]
      refine ⟨_, rfl, fun h1 h2 h3 _ => ?_⟩
      simp only [h1, h2, h3, if_false, ne_eq, not_false_eq_true, if_true]

/-- What a call of `modify` leaves alone, and the results it cannot give. -/
theorem modify_frame {m m' : file_model} {off : Nat} {data : List Nat}
    {rc : Bool} {r : operation_result}
    (h : modify m off data rc = some (r, m')) :
    m'._M_size_modified = m._M_size_modified ∧ m'._M_block_device = m._M_block_device ∧
      m'._M_read_only = m._M_read_only ∧ m'._M_undo_enabled = m._M_undo_enabled ∧
      m'._M_len = m._M_len ∧
      (rc = false → m'._M_nchange = m._M_nchange ∧ m'._M_changes = m._M_changes) ∧
      r ≠ operation_result.kErrorBlockDevice ∧ r ≠ operation_result.kNoMoreChanges ∧
      r ≠ operation_result.kErrorUndoDisabled ∧
      (r = operation_result.kSuccess → data.length ≠ 0 → m'._M_modified = true) := by
  unfold file_model.modify at h
  simp only at h
  repeat' split at h
  all_goals first
    | exact Option.noConfusion h
    | (simp only [Option.some.injEq, Prod.mk.injEq] at h
       obtain ⟨rfl, rfl⟩ := h
       simp_all)

/-- What a call of `add` leaves alone, and the results it cannot give. -/
theorem add_frame {m m' : file_model} {off : Nat} {data : List Nat}
    {rc : Bool} {r : operation_result}
    (h : add m off data rc = some (r, m')) :
    m'._M_block_device = m._M_block_device ∧
      m'._M_read_only = m._M_read_only ∧ m'._M_undo_enabled = m._M_undo_enabled ∧
      (rc = false → m'._M_nchange = m._M_nchange ∧ m'._M_changes = m._M_changes) ∧
      r ≠ operation_result.kNoMoreChanges ∧ r ≠ operation_result.kErrorUndoDisabled := by
  unfold file_model.add at h
  simp only at h
  generalize (match m.seek off with
    | some r => some r
    | none =>
      if off = m._M_len then some (m.chain.length - 1, (blk m.chain (m.chain.length - 1)).len)
      else none) = at_block at h
  by_cases h1 : m._M_read_only = true
  · rw [if_pos h1] at h
    simp only [Option.some.injEq, Prod.mk.injEq] at h; obtain ⟨rfl, rfl⟩ := h; simp
  rw [if_neg h1] at h
  by_cases h2 : m._M_block_device = true
  · rw [if_pos h2] at h
    simp only [Option.some.injEq, Prod.mk.injEq] at h; obtain ⟨rfl, rfl⟩ := h; simp
  rw [if_neg h2] at h
  by_cases h3 : data.length > kMaxMemoryUsed
  · rw [if_pos h3] at h
    simp only [Option.some.injEq, Prod.mk.injEq] at h; obtain ⟨rfl, rfl⟩ := h; simp
  rw [if_neg h3] at h
  cases at_block with
  | none => simp only [Option.some.injEq, Prod.mk.injEq] at h; obtain ⟨rfl, rfl⟩ := h; simp
  | some ip =>
    obtain ⟨i, pos⟩ := ip
    simp only at h
    by_cases h4 : data.length = 0
    · rw [if_pos h4] at h
      simp only [Option.some.injEq, Prod.mk.injEq] at h; obtain ⟨rfl, rfl⟩ := h; simp
    rw [if_neg h4] at h
    by_cases h5 : u64 (m._M_memory_used + data.length) > kMaxMemoryUsed
    · rw [if_pos h5] at h
      simp only [Option.some.injEq, Prod.mk.injEq] at h; obtain ⟨rfl, rfl⟩ := h; simp
    rw [if_neg h5] at h
    split_ifs at h
    all_goals first
      | exact Option.noConfusion h
      | (simp only [Option.some.injEq, Prod.mk.injEq] at h
         obtain ⟨rfl, rfl⟩ := h
         simp_all)

/-- What a call of `remove` leaves alone, and the results it cannot give. -/
theorem remove_frame {m m' : file_model} {off len : Nat}
    {rc : Bool} {r : operation_result}
    (h : remove m off len rc = some (r, m')) :
    m'._M_block_device = m._M_block_device ∧
      m'._M_read_only = m._M_read_only ∧ m'._M_undo_enabled = m._M_undo_enabled ∧
      (rc = false → m'._M_nchange = m._M_nchange ∧ m'._M_changes = m._M_changes) ∧
      r ≠ operation_result.kNoMoreChanges ∧ r ≠ operation_result.kErrorUndoDisabled := by
  unfold file_model.remove at h
  simp only at h
  by_cases h1 : m._M_read_only = true
  · rw [if_pos h1] at h
    simp only [Option.some.injEq, Prod.mk.injEq] at h; obtain ⟨rfl, rfl⟩ := h; simp
  rw [if_neg h1] at h
  by_cases h2 : m._M_block_device = true
  · rw [if_pos h2] at h
    simp only [Option.some.injEq, Prod.mk.injEq] at h; obtain ⟨rfl, rfl⟩ := h; simp
  rw [if_neg h2] at h
  cases hs : m.seek off with
  | none =>
    rw [hs] at h
    simp only [Option.some.injEq, Prod.mk.injEq] at h; obtain ⟨rfl, rfl⟩ := h; simp
  | some ip =>
    obtain ⟨i, pos⟩ := ip
    rw [hs] at h
    simp only at h
    by_cases h4 : len = 0
    · rw [if_pos h4] at h
      simp only [Option.some.injEq, Prod.mk.injEq] at h; obtain ⟨rfl, rfl⟩ := h; simp
    rw [if_neg h4] at h
    by_cases h5 : (rc && m._M_undo_enabled) = true ∧ len ≥ 9223372036854775808
    · rw [if_pos h5] at h
      simp only [Option.some.injEq, Prod.mk.injEq] at h; obtain ⟨rfl, rfl⟩ := h; simp
    rw [if_neg h5] at h
    split_ifs at h
    all_goals first
      | exact Option.noConfusion h
      | (simp only [Option.some.injEq, Prod.mk.injEq] at h
         obtain ⟨rfl, rfl⟩ := h
         simp_all)
      | skip
    all_goals
      split at h
      · exact Option.noConfusion h
      · simp only [Option.some.injEq, Prod.mk.injEq] at h
        obtain ⟨rfl, rfl⟩ := h
        simp_all

/-- Under its preconditions `modify` is performed. -/
theorem modify_succeeds (m : file_model) (off : Nat) (data : List Nat)
    (record_change : Bool) (hok : chain_ok m) (hrw : m._M_read_only = false)
    (hlen : 0 < data.length) (hin : off + data.length ≤ m._M_len)
    (hmax : data.length ≤ kMaxMemoryUsed)
    (hmem : m._M_memory_used + data.length ≤ kMaxMemoryUsed) :
    ∃ m', modify m off data record_change = some (operation_result.kSuccess, m') := by
  obtain ⟨hsum, h64, hcap⟩ := hok
  obtain ⟨⟨i, pos⟩, hr⟩ := seek_isSome m off hsum (by omega)
  obtain ⟨pre, b, rest, hc, hl, hp, hs⟩ := seek_some hr
  obtain ⟨ht, hd, -, -⟩ := decompose_take hc hl
  have htot : total_len pre + total_len (b :: rest) = m._M_len := by rw [← hsum, hc]; simp
  obtain ⟨c, n, hloop, -⟩ := modify_loop_spec (data.length + m.chain.length) b rest pos data
    (Nat.le_of_lt hp) hlen (by omega) (by omega) (by rw [hc]; simp)
  have hkmax : kMaxMemoryUsed = 104857600 := by decide
  unfold file_model.modify
  simp only [hrw, Bool.false_eq_true, if_false, hr, hd, hloop]
  rw [if_neg (by rw [u64_of_lt (by omega)]; omega), if_neg (by omega), if_neg (by omega),
    if_neg (by rw [u64_of_lt (by omega)]; omega)]
  exact ⟨_, rfl⟩

/-- Under its preconditions `add` is performed, at every offset up to the length
of the file. -/
theorem add_succeeds (m : file_model) (off : Nat) (data : List Nat)
    (record_change : Bool) (hok : chain_ok m) (hrw : m._M_read_only = false)
    (hreg : m._M_block_device = false) (hlen : 0 < data.length) (hoff : off ≤ m._M_len)
    (hmax : data.length ≤ kMaxMemoryUsed)
    (hmem : m._M_memory_used + data.length ≤ kMaxMemoryUsed) :
    ∃ m', add m off data record_change = some (operation_result.kSuccess, m') := by
  have hkmax : kMaxMemoryUsed = 104857600 := by decide
  have hguard : ¬ u64 (m._M_memory_used + data.length) > kMaxMemoryUsed := by
    rw [u64_of_lt (by omega)]; omega
  rcases Nat.lt_or_ge off m._M_len with hlt | hge
  · obtain ⟨⟨i, pos⟩, hr⟩ := seek_isSome m off hok.1 hlt
    obtain ⟨m', h, -⟩ := add_performed m off data record_change i pos hrw hreg hlen hmax
      hguard (Or.inl hr) (blk_cap hok i)
    exact ⟨m', h⟩
  · obtain ⟨m', h, -⟩ := add_performed m off data record_change _ _ hrw hreg hlen hmax
      hguard (Or.inr ⟨seek_none m off hge, by omega, rfl, rfl⟩) (blk_cap hok _)
    exact ⟨m', h⟩

/-! ## The memory cap -/

/-- `C14`: need-save rejection.  In a writable state that obeys the chain
invariant, for every `modify` with `off + len <= length` and every `add` with
`off <= length` on a regular file, with `0 < len <= kMaxMemoryUsed` (and
`memory_used + len` a 64-bit value): if `memory_used + len > kMaxMemoryUsed` the
call returns `kErrorNeedSave` and leaves the state as it was, whatever blocks
hold the bytes touched; if `memory_used + len <= kMaxMemoryUsed` the call is
performed and returns `kSuccess`, so it does not return `kErrorNeedSave`. -/
theorem need_save_rejection (m : file_model) (off off_add : Nat) (data : List Nat)
    (record_change : Bool) (hok : chain_ok m) (hrw : m._M_read_only = false)
    (hlen : 0 < data.length) (hmax : data.length ≤ kMaxMemoryUsed)
    (h64 : m._M_memory_used + data.length < 18446744073709551616) :
    (off + data.length ≤ m._M_len →
      (m._M_memory_used + data.length > kMaxMemoryUsed →
        modify m off data record_change = some (operation_result.kErrorNeedSave, m)) ∧
      (m._M_memory_used + data.length ≤ kMaxMemoryUsed →
        ∃ m', modify m off data record_change = some (operation_result.kSuccess, m'))) ∧
    (m._M_block_device = false → off_add ≤ m._M_len →
      (m._M_memory_used + data.length > kMaxMemoryUsed →
        add m off_add data record_change = some (operation_result.kErrorNeedSave, m)) ∧
      (m._M_memory_used + data.length ≤ kMaxMemoryUsed →
        ∃ m', add m off_add data record_change = some (operation_result.kSuccess, m'))) := by
  have hkmax : kMaxMemoryUsed = 104857600 := by decide
  refine ⟨fun hin => ⟨fun hgt => ?_, fun hle => ?_⟩, fun hreg hoff => ⟨fun hgt => ?_, fun hle => ?_⟩⟩
  · obtain ⟨⟨i, pos⟩, hr⟩ := seek_isSome m off hok.1 (by omega)
    unfold file_model.modify
    simp only [hrw, Bool.false_eq_true, if_false, hr]
    rw [if_neg (by rw [u64_of_lt (by have := hok.2.1; omega)]; omega), if_neg (by omega),
      if_neg (by omega), if_pos (by rw [u64_of_lt h64]; omega)]
  · exact modify_succeeds m off data record_change hok hrw hlen hin hmax hle
  · have hat : (match seek m off_add with
        | some r => some r
        | none =>
          if off_add = m._M_len then
            some (m.chain.length - 1, (blk m.chain (m.chain.length - 1)).len)
          else none).isSome = true := by
      rcases Nat.lt_or_ge off_add m._M_len with hlt | hge
      · obtain ⟨r, hr⟩ := seek_isSome m off_add hok.1 hlt
        rw [hr]; rfl
      · rw [seek_none m off_add hge, if_pos (by omega)]; rfl
    obtain ⟨⟨i, pos⟩, hsome⟩ := Option.isSome_iff_exists.mp hat
    unfold file_model.add
    simp only [hrw, hreg, Bool.false_eq_true, if_false, hsome]
    rw [if_neg (by omega), if_neg (by omega), if_pos (by rw [u64_of_lt h64]; omega)]
  · exact add_succeeds m off_add data record_change hok hrw hreg hlen hoff hmax hle

/-- Witness of `C14`: the sample chain has one block in memory, so
`memory_used` is 4096; an `add` of `kMaxMemoryUsed` bytes needs a save, a
`modify` and an `add` of two bytes are performed. -/
theorem need_save_rejection_witness :
    add sample_edited 5 (List.replicate 104857600 0) true =
      some (operation_result.kErrorNeedSave, sample_edited) ∧
    (∃ m', modify sample_edited 4 [1, 2] true = some (operation_result.kSuccess, m')) ∧
    (∃ m', add sample_edited 12 [1, 2] true = some (operation_result.kSuccess, m')) :=
  have h := need_save_rejection sample_edited 0 5 (List.replicate 104857600 0) true
    (by decide) (by decide) (by rw [List.length_replicate]; decide)
    (by rw [List.length_replicate]; decide) (by rw [List.length_replicate]; decide)
  have h2 := need_save_rejection sample_edited 4 12 [1, 2] true
    (by decide) (by decide) (by decide) (by decide) (by decide)
  ⟨(h.2 (by decide) (by decide)).1 (by rw [List.length_replicate]; decide),
    (h2.1 (by decide)).2 (by decide), (h2.2 (by decide) (by decide)).2 (by decide)⟩

/-- The static method `add` makes one block for every `kMemoryBlockSize` bytes. -/
theorem add_blocks_length (fuel : Nat) (data : List Nat) (h : data.length ≤ fuel) :
    (add_blocks fuel data).length = (data.length + 4095) / 4096 := by
  induction fuel generalizing data with
  | zero =>
    have h0 : data.length = 0 := by omega
    simp [add_blocks, h0]
  | succ fuel ih =>
    unfold add_blocks
    have hkb : kMemoryBlockSize = 4096 := by decide
    by_cases h0 : data.length > 0
    · rw [if_pos h0]
      simp only [List.length_cons]
      rw [ih _ (by simp only [List.length_drop]; split_ifs <;> omega)]
      simp only [List.length_drop]
      split_ifs <;> omega
    · rw [if_neg h0]
      have : data.length = 0 := by omega
      simp [this]

/-- The code at the counterexample of `C15`: an empty file is opened, three bytes
are added (one block in memory, `memory_used = 4096`), then
`kMaxMemoryUsed - 4096` bytes are added at offset 1.  The test
`memory_used + len > kMaxMemoryUsed` passes, the block is split, and
`memory_used` ends at `kMaxMemoryUsed + 4096`. -/
theorem memory_used_exceeds_cap :
    add (opened []) 0 [1, 2, 3] true = some (operation_result.kSuccess, three_added) ∧
    three_added._M_memory_used = 4096 ∧
    ∃ m', add three_added 1 (List.replicate 104853504 0) true =
        some (operation_result.kSuccess, m') ∧
      m'._M_memory_used = 104861696 ∧ m'._M_memory_used > kMaxMemoryUsed := by
  refine ⟨by decide, by decide, ?_⟩
  obtain ⟨m', h, hm⟩ := add_performed three_added 1 (List.replicate 104853504 0) true 0 1
    (by decide) (by decide) (by rw [List.length_replicate]; decide)
    (by rw [List.length_replicate]; decide) (by rw [List.length_replicate]; decide)
    (Or.inl (by decide)) (fun _ => by decide)
  have hmem := hm (by decide) (by decide) (by decide) (by rw [List.length_replicate]; decide)
  rw [add_blocks_length _ _ (Nat.le_refl _), List.length_replicate] at hmem
  have h1 : three_added._M_memory_used = 4096 := by decide
  have hkb : kMemoryBlockSize = 4096 := by decide
  have hkmax : kMaxMemoryUsed = 104857600 := by decide
  rw [h1, hkb] at hmem
  exact ⟨m', h, by rw [hmem], by rw [hmem, hkmax]; decide⟩

/-- `C15`, amended: the cap bounds the request, not the counter.  A `modify` or
an `add` with `len > 0` that returns `kSuccess` was called in a state with
`memory_used + len <= kMaxMemoryUsed` (the sum being a 64-bit value); the
counter itself then grows by `kMemoryBlockSize` for every buffer allocated. -/
theorem cap_bounds_request (m m' : file_model) (off : Nat) (data : List Nat)
    (record_change : Bool) (hlen : 0 < data.length)
    (h64 : m._M_memory_used + data.length < 18446744073709551616)
    (h : modify m off data record_change = some (operation_result.kSuccess, m') ∨
      add m off data record_change = some (operation_result.kSuccess, m')) :
    m._M_memory_used + data.length ≤ kMaxMemoryUsed := by
  by_contra hgt
  have hguard : u64 (m._M_memory_used + data.length) > kMaxMemoryUsed := by
    rw [u64_of_lt h64]; omega
  have hne : data.length ≠ 0 := by omega
  rcases h with h | h
  · unfold file_model.modify at h
    simp only [hguard, hne, if_true, if_false] at h
    repeat' split at h
    all_goals first
      | exact Option.noConfusion h
      | (simp only [Option.some.injEq, Prod.mk.injEq] at h
         exact operation_result.noConfusion h.1)
  · unfold file_model.add at h
    simp only [hguard, hne, if_true, if_false] at h
    repeat' split at h
    all_goals first
      | exact Option.noConfusion h
      | (simp only [Option.some.injEq, Prod.mk.injEq] at h
         exact operation_result.noConfusion h.1)

/-- Witness of `C15`, amended: a `modify` of two bytes on the sample chain. -/
theorem cap_bounds_request_witness :
    modify sample_edited 3 [13, 14] true =
      some (operation_result.kSuccess, state_after (modify sample_edited 3 [13, 14] true)) ∧
    sample_edited._M_memory_used + [13, 14].length ≤ kMaxMemoryUsed :=
  ⟨by decide, cap_bounds_request sample_edited
    (state_after (modify sample_edited 3 [13, 14] true)) 3 [13, 14] true (by decide)
    (by decide) (Or.inl (by decide))⟩

/-! ## Block devices -/

theorem add_block_device (m : file_model) (off : Nat) (data : List Nat) (rc : Bool)
    (hrw : m._M_read_only = false) (hbd : m._M_block_device = true) :
    add m off data rc = some (operation_result.kErrorBlockDevice, m) := by
  unfold file_model.add
  simp only [hrw, hbd, Bool.false_eq_true, if_false, if_true]

theorem remove_block_device (m : file_model) (off len : Nat) (rc : Bool)
    (hrw : m._M_read_only = false) (hbd : m._M_block_device = true) :
    remove m off len rc = some (operation_result.kErrorBlockDevice, m) := by
  unfold file_model.remove
  simp only [hrw, hbd, Bool.false_eq_true, if_false, if_true]

/-- `C18`: block devices are not resizable.  On a writable model whose
`block_device` flag is set, `add` and `remove` return `kErrorBlockDevice` for
all arguments and leave the state as it was; `modify` never returns
`kErrorBlockDevice`; `modify`, `undo` and `redo` keep the flag and
`size_modified`; under its usual preconditions `modify` returns `kSuccess`
and sets `modified`, so that with `size_modified` false `save` takes the
in-place path: whatever the file and the host, `save` is `save_in_place`. -/
theorem block_device_not_resizable (m : file_model) (off len : Nat) (data : List Nat)
    (record_change : Bool) (hrw : m._M_read_only = false)
    (hbd : m._M_block_device = true) :
    add m off data record_change = some (operation_result.kErrorBlockDevice, m) ∧
    remove m off len record_change = some (operation_result.kErrorBlockDevice, m) ∧
    (∀ r m', modify m off data record_change = some (r, m') →
      r ≠ operation_result.kErrorBlockDevice ∧ m'._M_block_device = true ∧
        m'._M_size_modified = m._M_size_modified) ∧
    (∀ r m', undo m = some (r, m') ∨ redo m = some (r, m') →
      m'._M_block_device = true ∧ m'._M_size_modified = m._M_size_modified) ∧
    (chain_ok m → 0 < data.length → off + data.length ≤ m._M_len →
      data.length ≤ kMaxMemoryUsed → m._M_memory_used + data.length ≤ kMaxMemoryUsed →
      ∃ m', modify m off data record_change = some (operation_result.kSuccess, m') ∧
        m'._M_modified = true ∧ m'._M_size_modified = m._M_size_modified ∧
        (m._M_size_modified = false →
          save_route m' = save_path.kInPlace ∧
            ∀ disk host, m'.save disk host = m'.save_in_place disk host)) := by
  refine ⟨add_block_device m off data record_change hrw hbd,
    remove_block_device m off len record_change hrw hbd, ?_, ?_, ?_⟩
  · intro r m' h
    have hf := modify_frame h
    exact ⟨hf.2.2.2.2.2.2.1, by rw [hf.2.1, hbd], hf.1⟩
  · have key : ∀ r1 m1, ((∃ off d, modify m off d false = some (r1, m1)) ∨
        (∃ off len, remove m off len false = some (r1, m1)) ∨
        (∃ off d, add m off d false = some (r1, m1))) →
        m1._M_block_device = true ∧ m1._M_size_modified = m._M_size_modified := by
      intro r1 m1 hcall
      rcases hcall with ⟨o, d, hc⟩ | ⟨o, l, hc⟩ | ⟨o, d, hc⟩
      · have hf := modify_frame hc
        exact ⟨by rw [hf.2.1, hbd], hf.1⟩
      · rw [remove_block_device m o l false hrw hbd] at hc
        simp only [Option.some.injEq, Prod.mk.injEq] at hc
        rw [← hc.2]; exact ⟨hbd, rfl⟩
      · rw [add_block_device m o d false hrw hbd] at hc
        simp only [Option.some.injEq, Prod.mk.injEq] at hc
        rw [← hc.2]; exact ⟨hbd, rfl⟩
    intro r m' h
    rcases h with h | h
    · rcases undo_inner h with ⟨h1, -⟩ | ⟨-, -, -, r1, m1, hcall, hres⟩
      · rw [h1]; exact ⟨hbd, rfl⟩
      · have hk := key r1 m1 hcall
        rcases hres with ⟨-, -, h3⟩ | ⟨-, -, h3⟩
        · rw [h3]; exact hk
        · rw [h3]; exact hk
    · rcases redo_inner h with ⟨h1, -⟩ | ⟨-, -, -, r1, m1, hcall, hres⟩
      · rw [h1]; exact ⟨hbd, rfl⟩
      · have hk := key r1 m1 hcall
        rcases hres with ⟨-, -, h3⟩ | ⟨-, -, h3⟩
        · rw [h3]; exact hk
        · rw [h3]; exact hk
  · intro hok hlen hin hmax hmem
    obtain ⟨m', h⟩ := modify_succeeds m off data record_change hok hrw hlen hin hmax hmem
    have hf := modify_frame h
    have hmod : m'._M_modified = true := hf.2.2.2.2.2.2.2.2.2 rfl (by omega)
    refine ⟨m', h, hmod, hf.1, fun hs => ?_⟩
    have hroute : save_route m' = save_path.kInPlace := by
      unfold save_route
      simp [hmod, hf.1, hs]
    refine ⟨hroute, fun disk host => ?_⟩
    unfold file_model.save
    rw [hroute]

/-- Witness of `C18`: a block device of ten bytes.  After `modify(4, {40, 41}, 2)`
a `save` on a host on which no system call fails writes the two bytes in place
and returns `true`. -/
theorem block_device_not_resizable_witness :
    add (opened_device [0, 1, 2, 3, 4, 5, 6, 7, 8, 9]) 4 [40, 41] true =
      some (operation_result.kErrorBlockDevice, opened_device [0, 1, 2, 3, 4, 5, 6, 7, 8, 9]) ∧
    remove (opened_device [0, 1, 2, 3, 4, 5, 6, 7, 8, 9]) 4 2 true =
      some (operation_result.kErrorBlockDevice, opened_device [0, 1, 2, 3, 4, 5, 6, 7, 8, 9]) ∧
    (∃ m', modify (opened_device [0, 1, 2, 3, 4, 5, 6, 7, 8, 9]) 4 [40, 41] true =
        some (operation_result.kSuccess, m') ∧
      m'._M_modified = true ∧
      m'._M_size_modified = (opened_device [0, 1, 2, 3, 4, 5, 6, 7, 8, 9])._M_size_modified ∧
      ((opened_device [0, 1, 2, 3, 4, 5, 6, 7, 8, 9])._M_size_modified = false →
        save_route m' = save_path.kInPlace ∧
          ∀ disk host, m'.save disk host = m'.save_in_place disk host)) ∧
    ((state_after (modify (opened_device [0, 1, 2, 3, 4, 5, 6, 7, 8, 9]) 4 [40, 41] true)).save
        [0, 1, 2, 3, 4, 5, 6, 7, 8, 9] steady).1 = true ∧
    ((state_after (modify (opened_device [0, 1, 2, 3, 4, 5, 6, 7, 8, 9]) 4 [40, 41] true)).save
        [0, 1, 2, 3, 4, 5, 6, 7, 8, 9] steady).2.2 = [0, 1, 2, 3, 40, 41, 6, 7, 8, 9] :=
  have h := block_device_not_resizable (opened_device [0, 1, 2, 3, 4, 5, 6, 7, 8, 9]) 4 2
    [40, 41] true (by decide) (by decide)
  ⟨h.1, h.2.1, h.2.2.2.2 (by decide) (by decide) (by decide) (by decide) (by decide),
    by decide, by decide⟩

/-! ## undo and redo -/

/-- `C19`: the preconditions of undo and redo.  On a writable model with undo
disabled, `undo` and `redo` return `kErrorUndoDisabled`.  With undo enabled,
`undo` returns `kNoMoreChanges` iff `nchange = 0` and `redo` returns
`kNoMoreChanges` iff `nchange` is the size of the journal; when `undo` returns
`kSuccess` it has decremented `nchange` by exactly 1, when `redo` returns
`kSuccess` it has incremented `nchange` by exactly 1. -/
theorem undo_redo_preconditions (m : file_model) (hrw : m._M_read_only = false) :
    (m._M_undo_enabled = false →
      undo m = some (operation_result.kErrorUndoDisabled, m) ∧
      redo m = some (operation_result.kErrorUndoDisabled, m)) ∧
    (m._M_undo_enabled = true →
      (result_of (undo m) = some operation_result.kNoMoreChanges ↔ m._M_nchange = 0) ∧
      (result_of (redo m) = some operation_result.kNoMoreChanges ↔
        m._M_nchange = m._M_changes.length) ∧
      (∀ m', undo m = some (operation_result.kSuccess, m') →
        m'._M_nchange + 1 = m._M_nchange) ∧
      (∀ m', redo m = some (operation_result.kSuccess, m') →
        m'._M_nchange = m._M_nchange + 1)) := by
  have key : ∀ r1 m1, ((∃ off d, modify m off d false = some (r1, m1)) ∨
      (∃ off len, remove m off len false = some (r1, m1)) ∨
      (∃ off d, add m off d false = some (r1, m1))) →
      m1._M_nchange = m._M_nchange ∧ r1 ≠ operation_result.kNoMoreChanges := by
    intro r1 m1 hcall
    rcases hcall with ⟨o, d, hc⟩ | ⟨o, l, hc⟩ | ⟨o, d, hc⟩
    · have hf := modify_frame hc
      exact ⟨(hf.2.2.2.2.2.1 rfl).1, hf.2.2.2.2.2.2.2.1⟩
    · have hf := remove_frame hc
      exact ⟨(hf.2.2.2.1 rfl).1, hf.2.2.2.2.1⟩
    · have hf := add_frame hc
      exact ⟨(hf.2.2.2.1 rfl).1, hf.2.2.2.2.1⟩
  refine ⟨fun hdis => ⟨?_, ?_⟩, fun hen => ⟨⟨fun h => ?_, fun h => ?_⟩,
    ⟨fun h => ?_, fun h => ?_⟩, fun m' h => ?_, fun m' h => ?_⟩⟩
  · unfold file_model.undo
    simp only [hrw, hdis, Bool.false_eq_true, if_false, Bool.not_false, if_true]
  · unfold file_model.redo
    simp only [hrw, hdis, Bool.false_eq_true, if_false, Bool.not_false, if_true]
  · cases hu : undo m with
    | none => rw [hu] at h; exact Option.noConfusion h
    | some rm =>
      obtain ⟨r, m'⟩ := rm
      rw [hu] at h
      simp only [result_of, Option.map_some', Option.some.injEq] at h
      rcases undo_inner hu with ⟨-, ⟨h1, -⟩ | ⟨h1, -⟩ | ⟨h1, -⟩⟩ |
        ⟨-, -, -, r1, m1, hcall, hres⟩
      · rw [hrw] at h1; exact absurd h1 (by decide)
      · rw [hen] at h1; exact absurd h1 (by decide)
      · exact h1
      · have hk := key r1 m1 hcall
        rcases hres with ⟨-, h2, -⟩ | ⟨-, h2, -⟩
        · rw [h2] at h; exact operation_result.noConfusion h
        · rw [h2] at h; exact absurd h hk.2
  · unfold file_model.undo
    simp only [hrw, hen, h, Bool.false_eq_true, if_false, Bool.not_true, if_true, result_of,
      Option.map_some']
  · cases hu : redo m with
    | none => rw [hu] at h; exact Option.noConfusion h
    | some rm =>
      obtain ⟨r, m'⟩ := rm
      rw [hu] at h
      simp only [result_of, Option.map_some', Option.some.injEq] at h
      rcases redo_inner hu with ⟨-, ⟨h1, -⟩ | ⟨h1, -⟩ | ⟨h1, -⟩⟩ |
        ⟨-, -, -, r1, m1, hcall, hres⟩
      · rw [hrw] at h1; exact absurd h1 (by decide)
      · rw [hen] at h1; exact absurd h1 (by decide)
      · exact h1
      · have hk := key r1 m1 hcall
        rcases hres with ⟨-, h2, -⟩ | ⟨-, h2, -⟩
        · rw [h2] at h; exact operation_result.noConfusion h
        · rw [h2] at h; exact absurd h hk.2
  · unfold file_model.redo
    simp only [hrw, hen, h, Bool.false_eq_true, if_false, Bool.not_true, if_true, result_of,
      Option.map_some']
  · rcases undo_inner h with ⟨-, ⟨-, h1⟩ | ⟨-, h1⟩ | ⟨-, h1⟩⟩ |
      ⟨-, -, hnc, r1, m1, hcall, hres⟩
    · exact operation_result.noConfusion h1
    · exact operation_result.noConfusion h1
    · exact operation_result.noConfusion h1
    · have hk := key r1 m1 hcall
      rcases hres with ⟨-, -, h3⟩ | ⟨h1, h2, -⟩
      · rw [h3]; simp only; rw [hk.1]; omega
      · exact absurd h2.symm h1
  · rcases redo_inner h with ⟨-, ⟨-, h1⟩ | ⟨-, h1⟩ | ⟨-, h1⟩⟩ |
      ⟨-, -, hnc, r1, m1, hcall, hres⟩
    · exact operation_result.noConfusion h1
    · exact operation_result.noConfusion h1
    · exact operation_result.noConfusion h1
    · have hk := key r1 m1 hcall
      rcases hres with ⟨-, -, h3⟩ | ⟨h1, h2, -⟩
      · rw [h3]; simp only; rw [hk.1]
      · exact absurd h2.symm h1

/-- Witness of `C19`: the sample chain, whose journal holds one `add`, and the
state after its undo; a model with undo disabled. -/
theorem undo_redo_preconditions_witness :
    undo (opened_no_undo [0, 1, 2]) =
      some (operation_result.kErrorUndoDisabled, opened_no_undo [0, 1, 2]) ∧
    undo sample_edited = some (operation_result.kSuccess, state_after (undo sample_edited)) ∧
    (state_after (undo sample_edited))._M_nchange + 1 = sample_edited._M_nchange ∧
    (result_of (redo sample_edited) = some operation_result.kNoMoreChanges ↔
      sample_edited._M_nchange = sample_edited._M_changes.length) ∧
    redo (state_after (undo sample_edited)) =
      some (operation_result.kSuccess, state_after (redo (state_after (undo sample_edited)))) ∧
    (state_after (redo (state_after (undo sample_edited))))._M_nchange =
      (state_after (undo sample_edited))._M_nchange + 1 :=
  have h0 := undo_redo_preconditions (opened_no_undo [0, 1, 2]) (by decide)
  have h1 := undo_redo_preconditions sample_edited (by decide)
  have h2 := undo_redo_preconditions (state_after (undo sample_edited)) (by decide)
  ⟨(h0.1 (by decide)).1, by decide, (h1.2 (by decide)).2.2.1 _ (by decide),
    (h1.2 (by decide)).2.1, by decide, (h2.2 (by decide)).2.2.2 _ (by decide)⟩

/-! ## The journal after a recorded edit -/

/-- The journal and the cursor after a recorded `modify` that succeeded. -/
theorem modify_journal {m m' : file_model} {off : Nat} {data : List Nat}
    (h : modify m off data true = some (operation_result.kSuccess, m'))
    (hen : m._M_undo_enabled = true) (hlen : data.length ≠ 0) :
    ∃ i pos, seek m off = some (i, pos) ∧
      m'._M_changes = register_change (erase_from_position m._M_changes m._M_nchange)
        change_type.kModify off (some (get_from (m.chain.drop i) pos data.length).1)
        (some data) (get_from (m.chain.drop i) pos data.length).2 ∧
      m'._M_nchange = m._M_nchange + 1 ∧ m._M_read_only = false := by
  unfold file_model.modify at h
  simp only [hen, hlen, Bool.and_true, if_true, if_false] at h
  by_cases h1 : m._M_read_only = true
  · rw [if_pos h1] at h; simp at h
  rw [if_neg h1] at h
  split_ifs at h with h2 h3 h5
  · simp at h
  · simp at h
  all_goals
    cases hs : m.seek off with
    | none => rw [hs] at h; simp at h
    | some ip =>
      obtain ⟨i, pos⟩ := ip
      rw [hs] at h
      simp only at h
      first
        | exact absurd h (by simp)
        | (split at h
           · exact Option.noConfusion h
           · simp only [Option.some.injEq, Prod.mk.injEq, true_and] at h
             subst h
             exact ⟨i, pos, rfl, rfl, rfl, by simpa using h1⟩)

/-- The journal and the cursor after a recorded `add` that succeeded. -/
theorem add_journal {m m' : file_model} {off : Nat} {data : List Nat}
    (h : add m off data true = some (operation_result.kSuccess, m'))
    (hen : m._M_undo_enabled = true) (hlen : data.length ≠ 0) :
    m'._M_changes = register_change (erase_from_position m._M_changes m._M_nchange)
        change_type.kAdd off none (some data) data.length ∧
      m'._M_nchange = m._M_nchange + 1 ∧ m._M_read_only = false := by
  unfold file_model.add at h
  simp only [hen, hlen, Bool.and_true, if_true, if_false] at h
  generalize (match m.seek off with
    | some r => some r
    | none =>
      if off = m._M_len then some (m.chain.length - 1, (blk m.chain (m.chain.length - 1)).len)
      else none) = at_block at h
  by_cases h1 : m._M_read_only = true
  · rw [if_pos h1] at h; simp at h
  rw [if_neg h1] at h
  by_cases h2 : m._M_block_device = true
  · rw [if_pos h2] at h; simp at h
  rw [if_neg h2] at h
  by_cases h3 : data.length > kMaxMemoryUsed
  · rw [if_pos h3] at h; simp at h
  rw [if_neg h3] at h
  cases at_block with
  | none => simp at h
  | some ip =>
    obtain ⟨i, pos⟩ := ip
    simp only at h
    by_cases h5 : u64 (m._M_memory_used + data.length) > kMaxMemoryUsed
    · rw [if_pos h5] at h; simp at h
    rw [if_neg h5] at h
    split_ifs at h
    all_goals first
      | exact Option.noConfusion h
      | (simp only [Option.some.injEq, Prod.mk.injEq, true_and] at h
         subst h
         exact ⟨rfl, rfl, by simpa using h1⟩)

/-- The journal and the cursor after a recorded `remove` that succeeded. -/
theorem remove_journal {m m' : file_model} {off len : Nat}
    (h : remove m off len true = some (operation_result.kSuccess, m'))
    (hen : m._M_undo_enabled = true) (hlen : len ≠ 0) :
    ∃ i pos, seek m off = some (i, pos) ∧
      m'._M_changes = register_change (erase_from_position m._M_changes m._M_nchange)
        change_type.kRemove off (some (get_from (m.chain.drop i) pos len).1) none
        (get_from (m.chain.drop i) pos len).2 ∧
      m'._M_nchange = m._M_nchange + 1 ∧ m._M_read_only = false := by
  unfold file_model.remove at h
  simp only [hen, hlen, Bool.and_true, if_true, if_false] at h
  by_cases h1 : m._M_read_only = true
  · rw [if_pos h1] at h; simp at h
  rw [if_neg h1] at h
  by_cases h2 : m._M_block_device = true
  · rw [if_pos h2] at h; simp at h
  rw [if_neg h2] at h
  cases hs : m.seek off with
  | none => rw [hs] at h; simp at h
  | some ip =>
    obtain ⟨i, pos⟩ := ip
    rw [hs] at h
    simp only at h
    split_ifs at h
    all_goals first
      | exact Option.noConfusion h
      | (simp only [Option.some.injEq, Prod.mk.injEq, reduceCtorEq, false_and] at h; done)
      | (simp only [Option.some.injEq, Prod.mk.injEq, true_and] at h
         subst h
         exact ⟨i, pos, rfl, rfl, rfl, by simpa using h1⟩)
      | skip
    all_goals
      split at h
      · exact Option.noConfusion h
      · simp only [Option.some.injEq, Prod.mk.injEq, true_and] at h
        subst h
        exact ⟨i, pos, rfl, rfl, rfl, by simpa using h1⟩

/-- The private `get` at the position `seek` found copies at least one byte. -/
theorem get_from_count_pos {m : file_model} {off i pos : Nat} (len : Nat)
    (hs : seek m off = some (i, pos)) (hlen : len ≠ 0) :
    (get_from (m.chain.drop i) pos len).2 ≠ 0 := by
  obtain ⟨pre, b, rest, hc, hl, hp, -⟩ := seek_some hs
  obtain ⟨-, hd, -, -⟩ := decompose_take hc hl
  rw [hd, get_from_eq _ _ _ (by simpa [blk] using Nat.le_of_lt hp)]
  simp only [length_content, total_len_cons]
  omega

/-- The journal after `erase_from_position` at a cursor inside it and
`register_change` with a length other than 0. -/
theorem register_after_erase (changes : List file_change) (k : Nat) (t : change_type)
    (off : Nat) (o n : Option (List Nat)) (l : Nat) (hk : k ≤ changes.length) (hl : l ≠ 0) :
    ∃ r, register_change (erase_from_position changes k) t off o n l = changes.take k ++ [r] ∧
      r.t = t ∧ r.off = off ∧ r.len = l := by
  unfold register_change erase_from_position
  rw [if_neg hl]
  refine ⟨{ t := t, off := off, olddata := o, newdata := n.map (List.take l), len := l },
    ?_, rfl, rfl, rfl⟩
  split_ifs with h
  · rw [List.take_of_length_le (by omega)]
  · rfl

/-- A recorded edit at a cursor inside the journal discards the redo tail: with
undo enabled and `nchange = k <= journal size`, after a successful recorded
`modify`, `add` or `remove` with `len > 0` the journal has `k + 1` records, the
records `[0, k)` are the old ones, record `k` has the offset of the edit,
`nchange = k + 1` and `redo` returns `kNoMoreChanges`. -/
theorem recorded_edit_truncates (m m' : file_model) (off len : Nat) (data : List Nat)
    (hen : m._M_undo_enabled = true) (hk : m._M_nchange ≤ m._M_changes.length)
    (h : (data.length ≠ 0 ∧
        modify m off data true = some (operation_result.kSuccess, m')) ∨
      (data.length ≠ 0 ∧ add m off data true = some (operation_result.kSuccess, m')) ∨
      (len ≠ 0 ∧ remove m off len true = some (operation_result.kSuccess, m'))) :
    m'._M_changes.length = m._M_nchange + 1 ∧
    m'._M_changes.take m._M_nchange = m._M_changes.take m._M_nchange ∧
    (∃ r, m'._M_changes.get? m._M_nchange = some r ∧ r.off = off) ∧
    m'._M_nchange = m._M_nchange + 1 ∧
    redo m' = some (operation_result.kNoMoreChanges, m') := by
  have key : ∃ r, m'._M_changes = m._M_changes.take m._M_nchange ++ [r] ∧ r.off = off ∧
      m'._M_nchange = m._M_nchange + 1 ∧ m'._M_read_only = false ∧
      m'._M_undo_enabled = true := by
    rcases h with ⟨hl, h⟩ | ⟨hl, h⟩ | ⟨hl, h⟩
    · obtain ⟨i, pos, hs, hj, hn, hro⟩ := modify_journal h hen hl
      obtain ⟨r, hr, -, hoff, -⟩ := register_after_erase m._M_changes m._M_nchange
        change_type.kModify off (some (get_from (m.chain.drop i) pos data.length).1)
        (some data) _ hk (get_from_count_pos data.length hs hl)
      have hf := modify_frame h
      exact ⟨r, by rw [hj, hr], hoff, hn, by rw [hf.2.2.1, hro], by rw [hf.2.2.2.1, hen]⟩
    · obtain ⟨hj, hn, hro⟩ := add_journal h hen hl
      obtain ⟨r, hr, -, hoff, -⟩ := register_after_erase m._M_changes m._M_nchange
        change_type.kAdd off none (some data) _ hk hl
      have hf := add_frame h
      exact ⟨r, by rw [hj, hr], hoff, hn, by rw [hf.2.1, hro], by rw [hf.2.2.1, hen]⟩
    · obtain ⟨i, pos, hs, hj, hn, hro⟩ := remove_journal h hen hl
      obtain ⟨r, hr, -, hoff, -⟩ := register_after_erase m._M_changes m._M_nchange
        change_type.kRemove off (some (get_from (m.chain.drop i) pos len).1) none _ hk
        (get_from_count_pos len hs hl)
      have hf := remove_frame h
      exact ⟨r, by rw [hj, hr], hoff, hn, by rw [hf.2.1, hro], by rw [hf.2.2.1, hen]⟩
  obtain ⟨r, hj, hoff, hn, hro, hen'⟩ := key
  have hlen : m'._M_changes.length = m._M_nchange + 1 := by
    rw [hj, List.length_append, List.length_take, List.length_singleton]; omega
  refine ⟨hlen, ?_, ⟨r, ?_, hoff⟩, hn, ?_⟩
  · rw [hj, List.take_append_of_le_length (by rw [List.length_take]; omega), List.take_take]
    simp
  · rw [hj, List.get?_eq_getElem?,
      List.getElem?_append_right (by rw [List.length_take]; omega)]
    simp [List.length_take, Nat.min_eq_left hk]
  · unfold file_model.redo
    simp only [hro, hen', Bool.false_eq_true, if_false, Bool.not_true, hn, hlen, if_true]

/-! ## The records of the journal -/

/-- The private `get` at the position `seek` found, on a chain that obeys the
block-sum invariant: the window of the content and its length. -/
theorem get_from_at_seek {m : file_model} {off i pos : Nat} (len : Nat)
    (hsum : total_len m.chain = m._M_len) (hs : seek m off = some (i, pos)) :
    get_from (m.chain.drop i) pos len =
      (window (content m.chain) off (min len (m._M_len - off)), min len (m._M_len - off)) := by
  have hoff : off < m._M_len := by
    rcases Nat.lt_or_ge off m._M_len with h | h
    · exact h
    · rw [seek_none m off h] at hs; exact Option.noConfusion hs
  have h := get_eq m off len hsum hoff
  unfold file_model.get at h
  rw [hs] at h
  simp only [Option.some.injEq] at h
  rw [h]; rfl

/-- `C21`: journal records carry what undo needs.  In a state that obeys the
chain invariant, with undo enabled, a recorded call with `len > 0` that returns
`kSuccess` appends one record to the journal truncated at `nchange`: for
`modify(off, data, len)` (with `off + len` a 64-bit value) the record is
`kModify` with offset `off`, length `len`, the old bytes `[off, off + len)` of
the content before the call and the new bytes `data`; for `add(off, data, len)`
it is `kAdd` with offset `off`, length `len`, the new bytes `data` and no old
bytes; for `remove(off, len)` it is `kRemove` with offset `off`, length
`n = min(len, length - off)`, the old bytes `[off, off + n)` of the content
before the call and no new bytes. -/
theorem journal_records (m m' : file_model) (off len : Nat) (data : List Nat)
    (hok : chain_ok m) (hen : m._M_undo_enabled = true) :
    (data.length ≠ 0 → off + data.length < 18446744073709551616 →
      modify m off data true = some (operation_result.kSuccess, m') →
      m'._M_changes = erase_from_position m._M_changes m._M_nchange ++
        [{ t := change_type.kModify, off := off,
           olddata := some (window (content m.chain) off data.length),
           newdata := some data, len := data.length }]) ∧
    (data.length ≠ 0 → add m off data true = some (operation_result.kSuccess, m') →
      m'._M_changes = erase_from_position m._M_changes m._M_nchange ++
        [{ t := change_type.kAdd, off := off, olddata := none,
           newdata := some data, len := data.length }]) ∧
    (len ≠ 0 → remove m off len true = some (operation_result.kSuccess, m') →
      m'._M_changes = erase_from_position m._M_changes m._M_nchange ++
        [{ t := change_type.kRemove, off := off,
           olddata := some (window (content m.chain) off (min len (m._M_len - off))),
           newdata := none, len := min len (m._M_len - off) }]) := by
  refine ⟨fun hl h64 h => ?_, fun hl h => ?_, fun hl h => ?_⟩
  · obtain ⟨i, pos, hs, hj, -, -⟩ := modify_journal h hen hl
    have hin : ¬ u64 (off + data.length) > m._M_len := by
      intro hgt
      unfold file_model.modify at h
      simp only [hgt, if_true] at h
      split at h <;> simp at h
    rw [u64_of_lt h64] at hin
    have hmin : min data.length (m._M_len - off) = data.length := by omega
    rw [hj, get_from_at_seek data.length hok.1 hs, hmin]
    unfold register_change
    rw [if_neg hl]
    simp
  · obtain ⟨hj, -, -⟩ := add_journal h hen hl
    rw [hj]
    unfold register_change
    rw [if_neg hl]
    simp
  · obtain ⟨i, pos, hs, hj, -, -⟩ := remove_journal h hen hl
    have hoff : off < m._M_len := by
      rcases Nat.lt_or_ge off m._M_len with h | h
      · exact h
      · rw [seek_none m off h] at hs; exact Option.noConfusion hs
    rw [hj, get_from_at_seek len hok.1 hs]
    unfold register_change
    rw [if_neg (by omega)]
    simp

/-- Witness of `C21`: a recorded `modify`, `add` and `remove` on the sample
chain, each across its blocks. -/
theorem journal_records_witness :
    (state_after (modify sample_edited 3 [13, 14, 15, 16] true))._M_changes =
      erase_from_position sample_edited._M_changes sample_edited._M_nchange ++
        [{ t := change_type.kModify, off := 3,
           olddata := some (window (content sample_edited.chain) 3 4),
           newdata := some [13, 14, 15, 16], len := 4 }] ∧
    (state_after (add sample_edited 5 [13, 14] true))._M_changes =
      erase_from_position sample_edited._M_changes sample_edited._M_nchange ++
        [{ t := change_type.kAdd, off := 5, olddata := none,
           newdata := some [13, 14], len := 2 }] ∧
    (state_after (remove sample_edited 3 100 true))._M_changes =
      erase_from_position sample_edited._M_changes sample_edited._M_nchange ++
        [{ t := change_type.kRemove, off := 3,
           olddata := some (window (content sample_edited.chain) 3
             (min 100 (sample_edited._M_len - 3))),
           newdata := none, len := min 100 (sample_edited._M_len - 3) }] :=
  ⟨(journal_records sample_edited (state_after (modify sample_edited 3 [13, 14, 15, 16] true))
      3 0 [13, 14, 15, 16] (by decide) (by decide)).1 (by decide) (by decide) (by decide),
    (journal_records sample_edited (state_after (add sample_edited 5 [13, 14] true))
      5 0 [13, 14] (by decide) (by decide)).2.1 (by decide) (by decide),
    (journal_records sample_edited (state_after (remove sample_edited 3 100 true))
      3 100 [] (by decide) (by decide)).2.2 (by decide) (by decide)⟩

/-! ## Scenario 3 of the specification -/

/-- The code at the counterexample of `C30`: after scenario 2 and
`remove(4095, 10)` the fifteen bytes at `[4085, 4100)` are not zeros, and the
twenty bytes at `[4085, 4105)` are not fifteen zeros followed by `"FGHIJ"`: the
bytes `"ABCDE"` stay at `[4090, 4095)` and `"FGHIJ"` is removed. -/
theorem scenario_three_not_fghij :
    result_of (modify (opened (List.replicate 6000 0)) 4090
      [65, 66, 67, 68, 69, 70, 71, 72, 73, 74] true) = some operation_result.kSuccess ∧
    result_of (remove scenario_two 4095 10 true) = some operation_result.kSuccess ∧
    get scenario_three 4085 15 ≠ some (List.replicate 15 0, 15) ∧
    get scenario_three 4085 20 ≠ some (List.replicate 15 0 ++ [70, 71, 72, 73, 74], 20) ∧
    get scenario_three 4090 5 = some ([65, 66, 67, 68, 69], 5) ∧
    find scenario_three 0 direction.kForward [70, 71, 72, 73, 74] = none := by
  decide!

/-- `C30`, amended: scenario 3 of the specification.  Starting from a 6000-byte
file of `0x00` on which `modify(4090, "ABCDEFGHIJ", 10)` has succeeded,
`remove(4095, 10)` returns `kSuccess`, the length becomes 5990, and the bytes at
`[4085, 4100)` are five zeros, `"ABCDE"` and five zeros. -/
theorem scenario_three_bytes :
    result_of (modify (opened (List.replicate 6000 0)) 4090
      [65, 66, 67, 68, 69, 70, 71, 72, 73, 74] true) = some operation_result.kSuccess ∧
    get scenario_two 4090 10 = some ([65, 66, 67, 68, 69, 70, 71, 72, 73, 74], 10) ∧
    result_of (remove scenario_two 4095 10 true) = some operation_result.kSuccess ∧
    scenario_three._M_len = 5990 ∧
    get scenario_three 4085 15 =
      some ([0, 0, 0, 0, 0, 65, 66, 67, 68, 69, 0, 0, 0, 0, 0], 15) := by
  decide!

/-! ## The change log on disk -/

theorem dec_val_nil (n : Nat) : dec_val n [] = n := rfl

theorem dec_val_cons (n c : Nat) (ds : List Nat) :
    dec_val n (c :: ds) = dec_val (n * 10 + (c - 48)) ds := rfl

theorem dec_val_append (n : Nat) (ds es : List Nat) :
    dec_val n (ds ++ es) = dec_val (dec_val n ds) es := by
  unfold dec_val; rw [List.foldl_append]

theorem dec_val_ge (n : Nat) (ds : List Nat) : n ≤ dec_val n ds := by
  induction ds generalizing n with
  | nil => exact Nat.le_refl _
  | cons c ds ih =>
    rw [dec_val_cons]
    exact Nat.le_trans (by omega) (ih _)

/-- The digits `fprintf` writes for `n`, after which `acc` follows. -/
theorem decimal_loop_spec (fuel n : Nat) (acc : List Nat) (h : n < 10 ^ (fuel + 1)) :
    ∃ ds, decimal_loop (fuel + 1) n acc = ds ++ acc ∧ all_digits ds ∧ ds ≠ [] ∧
      dec_val 0 ds = n := by
  induction fuel generalizing n acc with
  | zero =>
    have hn : n < 10 := by simpa using h
    refine ⟨[48 + n], ?_, ?_, by simp, ?_⟩
    · simp [decimal_loop, hn]
    · intro c hc; simp at hc; omega
    · simp [dec_val]
  | succ fuel ih =>
    unfold decimal_loop
    by_cases hn : n < 10
    · rw [if_pos hn]
      refine ⟨[48 + n], by simp, ?_, by simp, ?_⟩
      · intro c hc; simp at hc; omega
      · simp [dec_val]
    · rw [if_neg hn]
      have hdiv : n / 10 < 10 ^ (fuel + 1) := by
        rw [Nat.div_lt_iff_lt_mul (by decide)]
        calc n < 10 ^ (fuel + 1 + 1) := h
          _ = 10 ^ (fuel + 1) * 10 := by rw [Nat.pow_succ]
      obtain ⟨ds, h1, h2, h3, h4⟩ := ih (n / 10) ((48 + n % 10) :: acc) hdiv
      refine ⟨ds ++ [48 + n % 10], ?_, ?_, by simp, ?_⟩
      · rw [h1]; simp
      · intro c hc
        rcases List.mem_append.mp hc with hc | hc
        · exact h2 c hc
        · simp at hc; omega
      · rw [dec_val_append, h4]
        simp only [dec_val, List.foldl_cons, List.foldl_nil]
        omega

/-- The digits `fprintf` writes for a 64-bit value. -/
theorem decimal_spec (n : Nat) (h : n < 18446744073709551616) :
    all_digits (decimal n) ∧ decimal n ≠ [] ∧ dec_val 0 (decimal n) = n := by
  obtain ⟨ds, h1, h2, h3, h4⟩ := decimal_loop_spec 19 n []
    (Nat.lt_trans h (by norm_num))
  unfold decimal
  rw [h1, List.append_nil]
  exact ⟨h2, h3, h4⟩

/-- The loop over the digits of the count reads a digit string that ends with
`'.'` at the end of the line. -/
theorem load_count_digits (ds : List Nat) (n l : Nat) (hd : all_digits ds)
    (hl : 0 < l + ds.length) (hv : dec_val n ds < 18446744073709551616) :
    load_count (ds ++ [46]) n l = some (dec_val n ds) := by
  induction ds generalizing n l with
  | nil =>
    have : l > 0 := by simpa using hl
    simp [load_count, this, dec_val]
  | cons c ds ih =>
    have hc := hd c (List.mem_cons_self _ _)
    have hge := dec_val_ge (n * 10 + (c - 48)) ds
    rw [dec_val_cons] at hv ⊢
    simp only [List.cons_append, load_count]
    rw [if_pos hc, u64_of_lt (by omega), if_neg (by omega)]
    exact ih _ _ (fun x hx => hd x (List.mem_cons_of_mem _ hx)) (by omega) hv

/-- The loop over the digits of the offset stops at the `','`. -/
theorem load_offset_digits (ds tail : List Nat) (n l : Nat) (hd : all_digits ds)
    (hl : 0 < l + ds.length) (hv : dec_val n ds < 18446744073709551616) :
    load_offset (ds ++ 44 :: tail) n l = some (dec_val n ds, 44 :: tail) := by
  induction ds generalizing n l with
  | nil =>
    have : l > 0 := by simpa using hl
    simp [load_offset, this, dec_val]
  | cons c ds ih =>
    have hc := hd c (List.mem_cons_self _ _)
    have hge := dec_val_ge (n * 10 + (c - 48)) ds
    rw [dec_val_cons] at hv ⊢
    simp only [List.cons_append, load_offset]
    rw [if_pos hc, u64_of_lt (by omega), if_neg (by omega)]
    exact ih _ _ (fun x hx => hd x (List.mem_cons_of_mem _ hx)) (by omega) hv

/-- The loop over the digits of the length reads a digit string of a value
other than 0 that ends with `'.'` at the end of the line. -/
theorem load_length_digits (ds : List Nat) (n l : Nat) (hd : all_digits ds)
    (hl : 0 < l + ds.length) (hv : dec_val n ds < 18446744073709551616)
    (hpos : 0 < dec_val n ds) :
    load_length (ds ++ [46]) n l = some (dec_val n ds) := by
  induction ds generalizing n l with
  | nil =>
    have : l > 0 := by simpa using hl
    have hn : n > 0 := by simpa [dec_val] using hpos
    simp [load_length, this, dec_val, hn]
  | cons c ds ih =>
    have hc := hd c (List.mem_cons_self _ _)
    have hge := dec_val_ge (n * 10 + (c - 48)) ds
    rw [dec_val_cons] at hv hpos ⊢
    simp only [List.cons_append, load_length]
    rw [if_pos hc, u64_of_lt (by omega), if_neg (by omega)]
    exact ih _ _ (fun x hx => hd x (List.mem_cons_of_mem _ hx)) (by omega) hv hpos

theorem memchr_append (c : Nat) (line rest : List Nat) (h : c ∉ line) :
    memchr c (line ++ c :: rest) = some line.length := by
  induction line with
  | nil => simp [memchr]
  | cons x line ih =>
    have hx : x ≠ c := fun e => h (by simp [e])
    have hl : c ∉ line := fun e => h (List.mem_cons_of_mem _ e)
    simp [memchr, hx, ih hl]

theorem take_line (line rest : List Nat) (c : Nat) :
    (line ++ c :: rest).take line.length = line := by
  simp

theorem drop_line (line rest : List Nat) (c : Nat) :
    (line ++ c :: rest).drop (line.length + 1) = rest := by
  rw [← List.drop_drop]; simp

theorem newline_not_digit (ds : List Nat) (h : all_digits ds) : 10 ∉ ds := by
  intro hm
  have := h 10 hm
  omega

theorem hex_value_digit (d : Nat) (h : d < 16) : hex_value (hex_digit d) = some d := by
  unfold hex_value hex_digit
  by_cases h10 : d < 10
  · rw [if_pos h10, if_pos (by omega)]; congr 1; omega
  · rw [if_neg h10, if_neg (by omega), if_pos (by omega)]; congr 1; omega

theorem hex_digit_ne_newline (d : Nat) : hex_digit d ≠ 10 := by
  unfold hex_digit; split_ifs <;> omega

/-- The hexadecimal digits `hexdump` writes are read back by `load`. -/
theorem load_hex_dump (d : List Nat) (h : ∀ v ∈ d, v < 256) :
    load_hex ((d.map hex_byte).flatten) = some d := by
  induction d with
  | nil => rfl
  | cons v d ih =>
    have hv := h v (List.mem_cons_self _ _)
    simp only [List.map_cons, List.flatten_cons, hex_byte, List.cons_append, List.nil_append,
      load_hex]
    rw [hex_value_digit _ (by omega), hex_value_digit _ (by omega)]
    have hval : v % 256 / 16 * 16 + v % 16 = v := by omega
    show Option.map (fun line => (v % 256 / 16 * 16 + v % 16) :: line)
      (load_hex ((d.map hex_byte).flatten)) = some (v :: d)
    rw [ih (fun x hx => h x (List.mem_cons_of_mem _ hx)), hval]
    rfl

theorem hex_dump_length (d : List Nat) : ((d.map hex_byte).flatten).length = 2 * d.length := by
  induction d with
  | nil => rfl
  | cons v d ih => simp [hex_byte, ih]; omega

theorem hex_dump_no_newline (d : List Nat) : 10 ∉ (d.map hex_byte).flatten := by
  induction d with
  | nil => simp
  | cons v d ih =>
    simp only [List.map_cons, List.flatten_cons, hex_byte, List.cons_append, List.nil_append,
      List.mem_cons, not_or]
    exact ⟨fun e => hex_digit_ne_newline _ e.symm, fun e => hex_digit_ne_newline _ e.symm, ih⟩

/-- The text of the first line of a record, without the newline. -/
theorem load_record_line_saved (t : change_type) (off len : Nat)
    (hoff : off < 18446744073709551616) (hlen : len < 18446744073709551616)
    (hpos : 0 < len) :
    load_record_line
      ((match t with
        | change_type.kModify => kModifyLabel
        | change_type.kAdd => kAddLabel
        | change_type.kRemove => kRemoveLabel) ++
        kOffsetLabel ++ decimal off ++ kLengthLabel ++ decimal len ++ [46]) =
      some (t, off, len) := by
  obtain ⟨ho1, ho2, ho3⟩ := decimal_spec off hoff
  obtain ⟨hl1, hl2, hl3⟩ := decimal_spec len hlen
  have hoffp : load_offset (decimal off ++
      44 :: 32 :: 108 :: 101 :: 110 :: 103 :: 116 :: 104 :: 58 :: 32 :: (decimal len ++ [46]))
      0 0 =
      some (off,
        44 :: 32 :: 108 :: 101 :: 110 :: 103 :: 116 :: 104 :: 58 :: 32 :: (decimal len ++ [46])) := by
    have := load_offset_digits (decimal off)
      (32 :: 108 :: 101 :: 110 :: 103 :: 116 :: 104 :: 58 :: 32 :: (decimal len ++ [46])) 0 0 ho1
      (by have := List.length_pos.mpr ho2; omega) (by rw [ho3]; exact hoff)
    rw [this, ho3]
  have hlenp : load_length (decimal len ++ [46]) 0 0 = some len := by
    have := load_length_digits (decimal len) 0 0 hl1
      (by have := List.length_pos.mpr hl2; omega) (by rw [hl3]; exact hlen) (by rw [hl3]; exact hpos)
    rw [this, hl3]
  cases t <;>
    simp [load_record_line, kModifyLabel, kAddLabel, kRemoveLabel, kOffsetLabel, kLengthLabel,
      hoffp, hlenp]

theorem label_no_newline (t : change_type) (off len : Nat)
    (hoff : off < 18446744073709551616) (hlen : len < 18446744073709551616) :
    10 ∉ (match t with
        | change_type.kModify => kModifyLabel
        | change_type.kAdd => kAddLabel
        | change_type.kRemove => kRemoveLabel) ++
        kOffsetLabel ++ decimal off ++ kLengthLabel ++ decimal len ++ [46] := by
  have h1 := newline_not_digit _ (decimal_spec off hoff).1
  have h2 := newline_not_digit _ (decimal_spec len hlen).1
  cases t <;>
    simp [kModifyLabel, kAddLabel, kRemoveLabel, kOffsetLabel, kLengthLabel, h1, h2]

theorem label_length (t : change_type) (off len : Nat) :
    20 ≤ ((match t with
        | change_type.kModify => kModifyLabel
        | change_type.kAdd => kAddLabel
        | change_type.kRemove => kRemoveLabel) ++
        kOffsetLabel ++ decimal off ++ kLengthLabel ++ decimal len ++ [46]).length := by
  cases t <;>
    simp [kModifyLabel, kAddLabel, kRemoveLabel, kOffsetLabel, kLengthLabel] <;> omega

/-- One iteration of the loop of `load` on the text `save` wrote for a record. -/
theorem load_loop_saved_record (malloc_zero : Bool) (fuel : Nat) (chg : file_change)
    (rest : List Nat) (nchanges : Nat) (changes : List file_change) (hok : record_ok chg) :
    ∃ text, save_record chg = some text ∧ 0 < text.length ∧
      load_loop malloc_zero (fuel + 1) (text ++ rest) false nchanges changes =
        if rest.length > 0 then
          load_loop malloc_zero fuel rest false nchanges (changes ++ [persisted chg])
        else some (decide (nchanges = (changes ++ [persisted chg]).length),
          changes ++ [persisted chg]) := by
  obtain ⟨t, off, old, new, len⟩ := chg
  obtain ⟨hpos, hoff, hlen, hnew⟩ := hok
  simp only at hpos hoff hlen hnew
  have hnl := label_no_newline t off len hoff hlen
  have hll := label_length t off len
  have hline := load_record_line_saved t off len hoff hlen hpos
  generalize hL : ((match t with
        | change_type.kModify => kModifyLabel
        | change_type.kAdd => kAddLabel
        | change_type.kRemove => kRemoveLabel) ++
        kOffsetLabel ++ decimal off ++ kLengthLabel ++ decimal len ++ [46]) = line
    at hnl hll hline
  have hlen0 : len ≠ 0 := by omega
  by_cases ht : t = change_type.kRemove
  · subst ht
    refine ⟨line ++ [10], ?_, by simp, ?_⟩
    · simp only [save_record, Option.some.injEq]
      rw [← hL]; simp
    · rw [List.append_assoc, List.singleton_append]
      rw [load_loop]
      simp only [memchr_append 10 line rest hnl, take_line, drop_line, hline,
        Bool.false_eq_true, if_false, if_true]
      rw [if_neg (by omega)]
      simp [register_change, hlen0, persisted]
  · rcases hnew with hnew | ⟨h63, hnew⟩
    · exact absurd hnew ht
    · cases new with
      | none => exact absurd hnew (by simp)
      | some d =>
        obtain ⟨hdl, hbytes⟩ := hnew
        have hdump : hexdump (some d) len = some (((d.map hex_byte).flatten) ++ [10]) := by
          unfold hexdump
          rw [if_neg hlen0]
          simp only
          rw [if_neg (by omega), ← hdl, List.take_length]
        refine ⟨line ++ 10 :: ((d.map hex_byte).flatten ++ [10]), ?_, by simp, ?_⟩
        · cases t with
          | kRemove => exact absurd rfl ht
          | kModify =>
            simp only [save_record, hdump, Option.map_some', Option.some.injEq]
            rw [← hL]; simp
          | kAdd =>
            simp only [save_record, hdump, Option.map_some', Option.some.injEq]
            rw [← hL]; simp
        · have hasm : (line ++ 10 :: ((d.map hex_byte).flatten ++ [10])) ++ rest =
              line ++ 10 :: ((d.map hex_byte).flatten ++ 10 :: rest) := by simp
          rw [hasm]
          have htake : List.take (2 * d.length) ((d.map hex_byte).flatten ++ 10 :: rest) =
              (d.map hex_byte).flatten := by
            rw [← hex_dump_length d]; exact take_line _ _ _
          have hdrop : List.drop (2 * d.length + 1) ((d.map hex_byte).flatten ++ 10 :: rest) =
              rest := by
            rw [← hex_dump_length d]; exact drop_line _ _ _
          have htk : List.take len d = d := by rw [← hdl, List.take_length]
          rw [load_loop]
          simp only [memchr_append 10 line _ hnl, take_line, drop_line, hline,
            Bool.false_eq_true, if_false, ht,
            memchr_append 10 _ rest (hex_dump_no_newline d), hex_dump_length]
          rw [if_neg (by omega), if_neg (by rw [u64_of_lt (by omega)]; omega),
            if_neg (by omega)]
          simp only [htake, hdrop, load_hex_dump d hbytes]
          simp [register_change, hlen0, persisted, ht, htk]

/-- The loop of `load` on the text `save` wrote for the records of a journal. -/
theorem load_loop_saved_records (malloc_zero : Bool) (records : List file_change)
    (hok : ∀ chg ∈ records, record_ok chg) :
    ∃ text, save_records records = some text ∧ records.length ≤ text.length ∧
      (records ≠ [] → ∀ fuel nchanges changes, records.length ≤ fuel →
        load_loop malloc_zero fuel text false nchanges changes =
          some (decide (nchanges = (changes ++ records.map persisted).length),
            changes ++ records.map persisted)) := by
  induction records with
  | nil => exact ⟨[], rfl, Nat.le_refl _, fun h => absurd rfl h⟩
  | cons chg rest ih =>
    obtain ⟨b, hb, hbl, hrest⟩ := ih (fun c hc => hok c (List.mem_cons_of_mem _ hc))
    obtain ⟨a, ha, hal, -⟩ := load_loop_saved_record malloc_zero 0 chg [] 0 []
      (hok chg (List.mem_cons_self _ _))
    refine ⟨a ++ b, ?_, ?_, ?_⟩
    · simp only [save_records, ha, hb]
    · simp only [List.length_cons, List.length_append]; omega
    · intro _ fuel nchanges changes hfuel
      cases fuel with
      | zero => simp at hfuel
      | succ fuel =>
        obtain ⟨a', ha', -, hstep⟩ := load_loop_saved_record malloc_zero fuel chg b nchanges
          changes (hok chg (List.mem_cons_self _ _))
        rw [ha] at ha'
        simp only [Option.some.injEq] at ha'
        subst ha'
        rw [hstep]
        by_cases hbz : b.length > 0
        · rw [if_pos hbz]
          have hne : rest ≠ [] := by
            intro e
            subst e
            simp only [save_records, Option.some.injEq] at hb
            subst hb
            simp at hbz
          rw [hrest hne fuel nchanges _ (by simpa using hfuel)]
          simp
        · rw [if_neg hbz]
          have hre : rest = [] := by
            cases rest with
            | nil => rfl
            | cons c cs => simp only [List.length_cons] at hbl; omega
          subst hre
          simp

/-- `C27`: change-log round trip.  For every journal whose records have a
length other than 0, 64-bit offsets and lengths and, for `kModify` and `kAdd`,
`len` new bytes, `file_changes::save` writes a text that `file_changes::load`
into an empty journal accepts (`true`), and the journal loaded has the same
number of records in the same order, each with the same type, offset and
length, the same new bytes for `kModify` and `kAdd` records and no old bytes. -/
theorem change_log_round_trip (changes : List file_change) (malloc_zero : Bool)
    (hok : ∀ chg ∈ changes, record_ok chg) (hn : changes.length < 18446744073709551616) :
    ∃ text, file_changes.save changes = some text ∧
      file_changes.load [] text malloc_zero = some (true, changes.map persisted) ∧
      (changes.map persisted).length = changes.length ∧
      ∀ i chg, changes.get? i = some chg →
        ∃ chg', (changes.map persisted).get? i = some chg' ∧ chg'.t = chg.t ∧
          chg'.off = chg.off ∧ chg'.len = chg.len ∧ chg'.olddata = none ∧
          (chg.t ≠ change_type.kRemove → chg'.newdata = chg.newdata) := by
  obtain ⟨text, hs, hl, hload⟩ := load_loop_saved_records malloc_zero changes hok
  obtain ⟨hd1, hd2, hd3⟩ := decimal_spec changes.length hn
  have hnl : 10 ∉ kNumberOfChanges ++ decimal changes.length ++ [46] := by
    have := newline_not_digit _ hd1
    simp [kNumberOfChanges, this]
  have hcount : load_count (decimal changes.length ++ [46]) 0 0 = some changes.length := by
    have := load_count_digits (decimal changes.length) 0 0 hd1
      (by have := List.length_pos.mpr hd2; omega) (by rw [hd3]; exact hn)
    rw [this, hd3]
  have hinput : kNumberOfChanges ++ decimal changes.length ++ [46, 10] ++ text =
      (kNumberOfChanges ++ decimal changes.length ++ [46]) ++ 10 :: text := by simp
  refine ⟨kNumberOfChanges ++ decimal changes.length ++ [46, 10] ++ text, ?_, ?_, by simp, ?_⟩
  · simp only [file_changes.save, hs, Option.map_some']
  · unfold file_changes.load
    rw [if_neg (by simp [kNumberOfChanges])]
    have hfuel : changes.length ≤
        (kNumberOfChanges ++ decimal changes.length ++ [46, 10] ++ text).length := by
      simp only [List.length_append]; omega
    generalize (kNumberOfChanges ++ decimal changes.length ++ [46, 10] ++ text).length = fuel
      at hfuel
    rw [hinput, load_loop]
    simp only [memchr_append 10 _ text hnl, take_line, drop_line, if_true]
    have hlong : ¬ (kNumberOfChanges ++ decimal changes.length ++ [46]).length < 20 := by
      simp [kNumberOfChanges]
    have htake : List.take 19 (kNumberOfChanges ++ decimal changes.length ++ [46]) =
        kNumberOfChanges := by
      simp [kNumberOfChanges]
    have hdrop : List.drop 19 (kNumberOfChanges ++ decimal changes.length ++ [46]) =
        decimal changes.length ++ [46] := by
      simp [kNumberOfChanges]
    rw [if_neg hlong]
    simp only [htake, hdrop, hcount, ne_eq, not_true_eq_false, if_false]
    by_cases htz : text.length > 0
    · rw [if_pos htz]
      have hne : changes ≠ [] := by
        intro e
        subst e
        simp only [save_records, Option.some.injEq] at hs
        subst hs
        simp at htz
      rw [hload hne fuel changes.length [] hfuel]
      simp
    · rw [if_neg htz]
      have hre : changes = [] := by
        cases changes with
        | nil => rfl
        | cons c cs => simp only [List.length_cons] at hl; omega
      subst hre
      simp
  · intro i chg hi
    refine ⟨persisted chg, by simp [List.get?_eq_getElem?] at hi ⊢; exact ⟨chg, hi, rfl⟩,
      rfl, rfl, rfl, rfl, fun ht => ?_⟩
    simp [persisted, ht]

/-- Witness of `C27`: a journal with a `kModify`, a `kRemove` at the largest
offset and a `kAdd` record. -/
theorem change_log_round_trip_witness :
    ∃ text, file_changes.save sample_journal = some text ∧
      file_changes.load [] text true = some (true, sample_journal.map persisted) ∧
      (sample_journal.map persisted).length = sample_journal.length ∧
      ∀ i chg, sample_journal.get? i = some chg →
        ∃ chg', (sample_journal.map persisted).get? i = some chg' ∧ chg'.t = chg.t ∧
          chg'.off = chg.off ∧ chg'.len = chg.len ∧ chg'.olddata = none ∧
          (chg.t ≠ change_type.kRemove → chg'.newdata = chg.newdata) :=
  change_log_round_trip sample_journal true (by decide) (by decide)

theorem memchr_some {c : Nat} {input : List Nat} {k : Nat} (h : memchr c input = some k) :
    k < input.length ∧ input = input.take k ++ c :: input.drop (k + 1) := by
  induction input generalizing k with
  | nil => simp [memchr] at h
  | cons x rest ih =>
    unfold memchr at h
    by_cases hx : x = c
    · rw [if_pos hx] at h
      simp only [Option.some.injEq] at h
      subst h; subst hx
      simp
    · rw [if_neg hx] at h
      simp only [Option.map_eq_some'] at h
      obtain ⟨j, hj, rfl⟩ := h
      obtain ⟨h1, h2⟩ := ih hj
      refine ⟨by simp; omega, ?_⟩
      simp only [List.take_succ_cons, List.drop_succ_cons, List.cons_append, List.cons.injEq,
        true_and]
      exact h2

theorem register_change_length (changes : List file_change) (t : change_type) (off : Nat)
    (o n : Option (List Nat)) (len : Nat) :
    (register_change changes t off o n len).length ≤ changes.length + 1 := by
  unfold register_change
  split_ifs <;> simp

/-- The loop of `load` after the header line always returns; it stores at most
one record for every 21 bytes it reads, and it returns `true` only if the
journal then holds `nchanges` records. -/
theorem load_loop_returns (malloc_zero : Bool) (fuel : Nat) (input : List Nat) (nchanges : Nat)
    (changes : List file_change) (hfuel : input.length < fuel) :
    ∃ b J, load_loop malloc_zero fuel input false nchanges changes = some (b, J) ∧
      J.length * 21 ≤ changes.length * 21 + input.length ∧ (b = true → nchanges = J.length) := by
  induction fuel generalizing input changes with
  | zero => omega
  | succ fuel ih =>
    rw [load_loop]
    cases hm : memchr 10 input with
    | none => exact ⟨false, changes, rfl, by omega, fun h => by simp at h⟩
    | some k =>
      obtain ⟨hk, -⟩ := memchr_some hm
      simp only [Bool.false_eq_true, if_false]
      by_cases h20 : k < 20
      · rw [if_pos h20]
        exact ⟨false, changes, rfl, by omega, fun h => by simp at h⟩
      rw [if_neg h20]
      have hnext : (input.drop (k + 1)).length = input.length - (k + 1) := List.length_drop _ _
      cases hr : load_record_line (input.take k) with
      | none => exact ⟨false, changes, rfl, by omega, fun h => by simp at h⟩
      | some r =>
        obtain ⟨t, off, len⟩ := r
        simp only
        have hreg := register_change_length changes
        by_cases ht : t = change_type.kRemove
        · rw [if_pos ht]
          by_cases hz : (input.drop (k + 1)).length > 0
          · rw [if_pos hz]
            obtain ⟨b, J, h1, h2, h3⟩ := ih (input.drop (k + 1))
              (register_change changes change_type.kRemove off none none len) (by omega)
            have := hreg change_type.kRemove off none none len
            exact ⟨b, J, h1, by omega, h3⟩
          · rw [if_neg hz]
            have := hreg change_type.kRemove off none none len
            exact ⟨_, _, rfl, by omega, fun h => by simpa using h⟩
        · rw [if_neg ht]
          cases hm2 : memchr 10 (input.drop (k + 1)) with
          | none => exact ⟨false, changes, rfl, by omega, fun h => by simp at h⟩
          | some k2 =>
            obtain ⟨hk2, -⟩ := memchr_some hm2
            simp only
            have hnext2 : ((input.drop (k + 1)).drop (k2 + 1)).length =
                input.length - (k + 1) - (k2 + 1) := by
              rw [List.length_drop, List.length_drop]
            by_cases c1 : k2 ≠ u64 (2 * len)
            · rw [if_pos c1]
              exact ⟨false, changes, rfl, by omega, fun h => by simp at h⟩
            rw [if_neg c1]
            by_cases c2 : len ≥ 9223372036854775808 ∨ (len = 0 ∧ malloc_zero = false)
            · rw [if_pos c2]
              exact ⟨false, changes, rfl, by omega, fun h => by simp at h⟩
            rw [if_neg c2]
            cases hh : load_hex (List.take k2 (List.drop (k + 1) input)) with
            | none => exact ⟨false, changes, rfl, by omega, fun h => by simp at h⟩
            | some line =>
              simp only
              have := hreg t off none (some line) len
              by_cases hz : ((input.drop (k + 1)).drop (k2 + 1)).length > 0
              · rw [if_pos hz]
                obtain ⟨b, J, h1, h2, h3⟩ := ih ((input.drop (k + 1)).drop (k2 + 1))
                  (register_change changes t off none (some line) len) (by omega)
                exact ⟨b, J, h1, by omega, h3⟩
              · rw [if_neg hz]
                exact ⟨_, _, rfl, by omega, fun h => by simpa using h⟩

/-- The value the loop over the digits of the count returns is not below the
value it starts from. -/
theorem load_count_mono (line : List Nat) (n l v : Nat) (h : load_count line n l = some v) :
    n ≤ v := by
  induction line generalizing n l with
  | nil => simp [load_count] at h; omega
  | cons c rest ih =>
    unfold load_count at h
    simp only at h
    split_ifs at h with h1 h2 h3
    · exact Nat.le_trans (by omega) (ih _ _ h)
    · simp only [Option.some.injEq] at h; omega

/-- The loop over the digits of the count returns the value of the digit
string, or a value of at least `1844674407370955161` when a product `n * 10`
has left the 64 bits unnoticed. -/
theorem load_count_value (line : List Nat) (n l v : Nat) (hn : n < 18446744073709551616)
    (h : load_count line n l = some v) :
    v = dec_val n (line.takeWhile (fun c => decide (48 ≤ c ∧ c ≤ 57))) ∨
      1844674407370955161 ≤ v := by
  induction line generalizing n l with
  | nil => simp [load_count] at h; left; simp [dec_val, h]
  | cons c rest ih =>
    unfold load_count at h
    simp only at h
    split_ifs at h with h1 h2 h3
    · rw [List.takeWhile_cons, if_pos (by simpa using h1), dec_val_cons]
      by_cases hw : n * 10 + (c - 48) < 18446744073709551616
      · rw [u64_of_lt hw] at h
        exact ih _ _ hw h
      · right
        have hmono := load_count_mono _ _ _ _ h
        unfold u64 at h2 hmono
        omega
    · simp only [Option.some.injEq] at h
      left
      rw [List.takeWhile_cons, if_neg (by simpa using h1)]
      simp [dec_val, h]

theorem takeWhile_append_stop (p : Nat → Bool) (a b : List Nat) (c : Nat) (hc : p c = false) :
    (a ++ c :: b).takeWhile p = a.takeWhile p := by
  induction a with
  | nil => simp [List.takeWhile_cons, hc]
  | cons x a ih =>
    simp only [List.cons_append, List.takeWhile_cons]
    split
    · rw [ih]
    · rfl

/-- `C28`: the declared count is enforced.  For a journal that is empty on
entry and a file of fewer than `2^64` bytes, `load` returns, and it returns
`true` only if the number of records it appended equals the number `N` declared
by the header line; if they differ `load` returns `false`. -/
theorem declared_count_enforced (input : List Nat) (malloc_zero : Bool)
    (hsize : input.length < 18446744073709551616) :
    ∃ b J, file_changes.load [] input malloc_zero = some (b, J) ∧
      (b = true → J.length = declared_count input) ∧
      (J.length ≠ declared_count input → b = false) := by
  have key : ∃ b J, file_changes.load [] input malloc_zero = some (b, J) ∧
      (b = true → J.length = declared_count input) := by
    unfold file_changes.load
    by_cases h0 : input.length = 0
    · rw [if_pos h0]
      exact ⟨false, [], rfl, fun h => by simp at h⟩
    rw [if_neg h0, load_loop]
    cases hm : memchr 10 input with
    | none => exact ⟨false, [], rfl, fun h => by simp at h⟩
    | some k =>
      obtain ⟨hk, hsplit⟩ := memchr_some hm
      simp only [if_true]
      by_cases h20 : k < 20
      · rw [if_pos h20]
        exact ⟨false, [], rfl, fun h => by simp at h⟩
      rw [if_neg h20]
      by_cases hlabel : List.take 19 (List.take k input) ≠ kNumberOfChanges
      · rw [if_pos hlabel]
        exact ⟨false, [], rfl, fun h => by simp at h⟩
      rw [if_neg hlabel]
      cases hc : load_count (List.drop 19 (List.take k input)) 0 0 with
      | none => exact ⟨false, [], rfl, fun h => by simp at h⟩
      | some v =>
        simp only
        have hdecl : declared_count input =
            dec_val 0 ((List.drop 19 (List.take k input)).takeWhile
              (fun c => decide (48 ≤ c ∧ c ≤ 57))) := by
          unfold declared_count
          have h19 : List.drop 19 input =
              List.drop 19 (List.take k input) ++ 10 :: List.drop (k + 1) input := by
            conv => lhs; rw [hsplit]
            rw [List.drop_append_of_le_length (by rw [List.length_take]; omega)]
          rw [h19, takeWhile_append_stop _ _ _ _ (by decide)]
        have hval := load_count_value _ 0 0 v (by decide) hc
        rw [← hdecl] at hval
        have hnext : (input.drop (k + 1)).length = input.length - (k + 1) := List.length_drop _ _
        by_cases hz : (input.drop (k + 1)).length > 0
        · rw [if_pos hz]
          obtain ⟨b, J, h1, h2, h3⟩ := load_loop_returns malloc_zero input.length
            (input.drop (k + 1)) v [] (by omega)
          refine ⟨b, J, h1, fun hb => ?_⟩
          have hv := h3 hb
          simp only [List.length_nil, Nat.zero_mul, Nat.zero_add] at h2
          rcases hval with hval | hval
          · omega
          · omega
        · rw [if_neg hz]
          refine ⟨_, _, rfl, fun hb => ?_⟩
          have hv : v = 0 := by simpa using hb
          rcases hval with hval | hval
          · simp only [List.length_nil]; omega
          · omega
  obtain ⟨b, J, h1, h2⟩ := key
  refine ⟨b, J, h1, h2, fun hne => ?_⟩
  cases b with
  | false => rfl
  | true => exact absurd (h2 rfl) hne

/-- Witness of `C28`: a header that declares two changes, followed by one
record. -/
theorem declared_count_enforced_witness :
    declared_count (bytes_of "Number of changes: 2.\nRemove: offset: 0, length: 1.\n") = 2 ∧
    file_changes.load [] (bytes_of "Number of changes: 2.\nRemove: offset: 0, length: 1.\n")
      true =
      some (false, [{ t := change_type.kRemove, off := 0, olddata := none, newdata := none,
                      len := 1 }]) ∧
    ∃ b J, file_changes.load []
        (bytes_of "Number of changes: 2.\nRemove: offset: 0, length: 1.\n") true = some (b, J) ∧
      (b = true → J.length =
        declared_count (bytes_of "Number of changes: 2.\nRemove: offset: 0, length: 1.\n")) ∧
      (J.length ≠
          declared_count (bytes_of "Number of changes: 2.\nRemove: offset: 0, length: 1.\n") →
        b = false) :=
  ⟨by decide, by decide,
    declared_count_enforced (bytes_of "Number of changes: 2.\nRemove: offset: 0, length: 1.\n")
      true (by decide)⟩

/-! ## What the operations do to the invariants -/

theorem owned_nil : owned [] = 0 := rfl

theorem owned_cons (b : block) (c : List block) :
    owned (b :: c) = (if b.in_memory then 1 else 0) + owned c := by
  unfold owned
  cases h : b.in_memory
  · simp [List.filter_cons, h]
  · simp [List.filter_cons, h]; omega

theorem owned_append (a c : List block) : owned (a ++ c) = owned a + owned c := by
  unfold owned; simp

theorem aligned_append (a c : List block) (off : Nat) (file : List Nat) :
    aligned_from (a ++ c) off file ↔
      aligned_from a off file ∧ aligned_from c (off + total_len a) file := by
  induction a generalizing off with
  | nil => simp [aligned_from]
  | cons b a ih =>
    show ((b.in_memory = false → b.data = window file off b.len) ∧
      aligned_from (a ++ c) (off + b.len) file) ↔ _
    rw [ih]
    simp only [aligned_from, total_len_cons, Nat.add_assoc, and_assoc]

theorem window_take (file : List Nat) (off n k : Nat) (h : k ≤ n) :
    (window file off n).take k = window file off k := by
  unfold window
  rw [List.take_take, Nat.min_eq_left h]

theorem window_drop (file : List Nat) (off n k : Nat) :
    (window file off n).drop k = window file (off + k) (n - k) := by
  unfold window
  rw [List.drop_take, List.drop_drop]

theorem take_drop_chain (c : List block) (i : Nat) :
    total_len (c.take i) + total_len (c.drop i) = total_len c ∧
      owned (c.take i) + owned (c.drop i) = owned c := by
  constructor
  · rw [← total_len_append, List.take_append_drop]
  · rw [← owned_append, List.take_append_drop]

/-- The pieces `modify` makes of a block in disk: one block in memory between
the pieces of the block, each piece at its own offset. -/
theorem modify_disk_link_pieces (b : block) (begin count : Nat) (buf data file : List Nat)
    (off : Nat) (hb : b.in_memory = false) (h : begin + count ≤ b.len)
    (hbuf : buf.length = count) :
    owned ((modify_disk_link b begin count buf data).1 ++
      (modify_disk_link b begin count buf data).2.1) = 1 ∧
    total_len (modify_disk_link b begin count buf data).1 = begin + count ∧
    total_len (modify_disk_link b begin count buf data).2.1 = b.len - (begin + count) ∧
    (b.data = window file off b.len →
      aligned_from (modify_disk_link b begin count buf data).1 off file ∧
      aligned_from (modify_disk_link b begin count buf data).2.1 (off + (begin + count)) file) := by
  unfold modify_disk_link
  simp only [block.len] at h ⊢
  split_ifs with h1 h2 h3
  · subst h1
    refine ⟨by simp [owned], by simp [total_len, block.len, hbuf], by simp [total_len, h2], ?_⟩
    intro _
    simp [aligned_from]
  · subst h1
    refine ⟨by simp [owned, hb], by simp [total_len, block.len, hbuf],
      by simp [total_len, block.len], ?_⟩
    intro hal
    simp only [aligned_from, and_true, block.len, List.length_drop, Nat.zero_add]
    refine ⟨fun hx => by simp at hx, fun _ => ?_⟩
    conv => lhs; rw [hal]
    rw [window_drop]
  · refine ⟨by simp [owned, hb], ?_, ?_, ?_⟩
    · simp [total_len, block.len, hbuf]; omega
    · simp [total_len, block.len]
    · intro hal
      simp only [aligned_from, and_true, block.len, List.length_take, List.length_drop]
      refine ⟨⟨fun _ => ?_, fun hx => by simp at hx⟩, fun _ => ?_⟩
      · have hm : min begin b.data.length = begin := by omega
        rw [hm]
        conv => lhs; rw [hal]
        rw [window_take _ _ _ _ (by omega)]
      · conv => lhs; rw [hal]
        rw [window_drop]
  · refine ⟨by simp [owned, hb], ?_, ?_, ?_⟩
    · simp [total_len, block.len, hbuf]; omega
    · simp [total_len]; omega
    · intro hal
      simp only [aligned_from, and_true, block.len, List.length_take]
      refine ⟨fun _ => ?_, fun hx => by simp at hx⟩
      have hm : min begin b.data.length = begin := by omega
      rw [hm]
      conv => lhs; rw [hal]
      rw [window_take _ _ _ _ (by omega)]

/-- The pieces `modify` makes of a block in disk, loop body. -/
theorem modify_disk_pieces (b : block) (pos : Nat) (data file : List Nat) (off : Nat)
    (hb : b.in_memory = false) (hpos : pos ≤ b.len) (hdata : 0 < data.length)
    (h64 : pos + data.length < 18446744073709551616) :
    owned ((modify_disk b pos data).1 ++ (modify_disk b pos data).2.1) = 1 ∧
    total_len (modify_disk b pos data).1 + total_len (modify_disk b pos data).2.1 = b.len ∧
    (b.data = window file off b.len →
      aligned_from (modify_disk b pos data).1 off file ∧
      aligned_from (modify_disk b pos data).2.1
        (off + total_len (modify_disk b pos data).1) file) := by
  unfold modify_disk
  simp only [kMidMemoryBlock, kMemoryBlockSize]
  norm_num
  generalize hbegin : (if pos ≤ 2048 then 0 else pos - 2048) = begin
  generalize hcount : (if pos ≤ 2048 then pos else 2048) = count
  have hbc : begin + count = pos ∧ count ≤ 2048 := by
    subst hbegin; subst hcount; split_ifs <;> omega
  obtain ⟨hl1, hl2, hl3, hl4⟩ :=
    modify_disk_l_spec b pos count data.length hpos hdata hbc.2 h64
  generalize modify_disk_l b pos count data.length = l at *
  obtain ⟨t, ht1, ht2, ht3, ht4, ht5⟩ :=
    modify_disk_tail_spec b (pos + l) (data.length - l) (4096 - count - l) hl2
  simp only [kMemoryBlockSize] at *
  norm_num at *
  rw [ht5]
  generalize modify_disk_tail b (pos + l) (data.length - l) (4096 - count - l) = tail at *
  have hbuf : (List.take count (List.drop begin b.data) ++ (List.take l data ++ tail)).length =
      count + l + t := by
    simp only [List.length_append, List.length_take, List.length_drop, ht5]
    simp only [block.len] at hpos hl2
    omega
  obtain ⟨k1, k2, k3, k4⟩ := modify_disk_link_pieces b begin (count + l + t)
    (List.take count (List.drop begin b.data) ++ (List.take l data ++ tail)) (List.drop l data)
    file off hb (by omega) hbuf
  refine ⟨k1, by rw [k2, k3]; omega, fun hal => ?_⟩
  rw [k2]
  exact k4 hal

/-- The loop of `modify` adds one block in memory for every buffer it counts,
keeps the sum of the block lengths, and keeps every block in disk at its
offset. -/
theorem modify_loop_pieces (fuel : Nat) (c : List block) (pos : Nat) (data file : List Nat)
    (off : Nat) (r : List block × Nat) (h : modify_loop fuel c pos data = some r)
    (hpos : pos ≤ (blk c 0).len) (hdata : 0 < data.length)
    (h64 : pos + data.length < 18446744073709551616) :
    owned r.1 = owned c + r.2 ∧ total_len r.1 = total_len c ∧
      (aligned_from c off file → aligned_from r.1 off file) := by
  induction fuel generalizing c pos data r off with
  | zero => simp [modify_loop] at h
  | succ fuel ih =>
    cases c with
    | nil => simp [modify_loop] at h
    | cons b rest =>
      simp only [modify_loop] at h
      have hpos' : pos ≤ b.len := by simpa [blk] using hpos
      cases hmem : b.in_memory with
      | false =>
        simp only [hmem, Bool.not_false, if_true] at h
        obtain ⟨p1, p2, p3⟩ := modify_disk_pieces b pos data file off hmem hpos' hdata h64
        obtain ⟨l, hl1, -, hl3, -, -, -⟩ := modify_disk_spec b pos data hpos' hdata h64
        generalize modify_disk b pos data = s at *
        obtain ⟨e, q, d⟩ := s
        simp only at h p1 p2 p3 hl3
        rw [owned_append] at p1
        split_ifs at h with hd
        · cases hr : modify_loop fuel (q ++ rest) 0 d with
          | none => simp [hr] at h
          | some r2 =>
            simp only [hr, Option.map_some', Option.some.injEq] at h
            subst h
            obtain ⟨i1, i2, i3⟩ := ih (q ++ rest) 0 d (off + total_len e) r2 hr (Nat.zero_le _) hd
              (by rw [hl3]; simp only [List.length_drop]; omega)
            simp only [owned_append, total_len_append, owned_cons, total_len_cons, hmem,
              Bool.false_eq_true, if_false] at i1 i2 ⊢
            refine ⟨by omega, by first | trivial | omega, fun hal => ?_⟩
            simp only [aligned_from] at hal
            obtain ⟨a1, a2⟩ := p3 (hal.1 hmem)
            rw [aligned_append]
            refine ⟨a1, i3 ?_⟩
            rw [aligned_append]
            refine ⟨a2, ?_⟩
            have : off + total_len e + total_len q = off + b.len := by omega
            rw [this]; exact hal.2
        · simp only [Option.some.injEq] at h
          subst h
          simp only [owned_append, total_len_append, owned_cons, total_len_cons, hmem,
            Bool.false_eq_true, if_false]
          refine ⟨by omega, by first | trivial | omega, fun hal => ?_⟩
          simp only [aligned_from] at hal
          obtain ⟨a1, a2⟩ := p3 (hal.1 hmem)
          rw [aligned_append, aligned_append]
          refine ⟨a1, a2, ?_⟩
          have : off + total_len e + total_len q = off + b.len := by omega
          rw [this]; exact hal.2
      | true =>
        simp only [hmem, Bool.not_true, Bool.false_eq_true, if_false] at h
        obtain ⟨hl, hm⟩ := modify_memory_len b pos data
        obtain ⟨l, hl1, -, hl3, -, -⟩ := modify_memory_spec b pos data hpos'
        generalize modify_memory b pos data = s at *
        obtain ⟨b1, d⟩ := s
        simp only at h hl hm hl3
        split_ifs at h with hd
        · cases hr : modify_loop fuel rest 0 d with
          | none => simp [hr] at h
          | some r2 =>
            simp only [hr, Option.map_some', Option.some.injEq] at h
            subst h
            obtain ⟨i1, i2, i3⟩ := ih rest 0 d (off + b.len) r2 hr (Nat.zero_le _) hd
              (by rw [hl3]; simp only [List.length_drop]; omega)
            simp only [owned_cons, total_len_cons, hmem, hm, hl, if_true] at i1 i2 ⊢
            refine ⟨by omega, by first | trivial | omega, fun hal => ?_⟩
            simp only [aligned_from, hl, hm, hmem] at hal ⊢
            exact ⟨fun hx => by simp at hx, i3 hal.2⟩
        · simp only [Option.some.injEq] at h
          subst h
          simp only [owned_cons, total_len_cons, hmem, hm, hl, if_true]
          refine ⟨by omega, trivial, fun hal => ?_⟩
          simp only [aligned_from, hl, hm, hmem] at hal ⊢
          exact ⟨fun hx => by simp at hx, hal.2⟩

/-! ## The invariant of the orderly runs -/

/-- The journal after a recorded change holds 64-bit lengths. -/
theorem journal_bound (changes : List file_change) (k : Nat) (t : change_type) (off : Nat)
    (o n : Option (List Nat)) (l : Nat)
    (h : ∀ chg ∈ changes, chg.len < 18446744073709551616) (hl : l < 18446744073709551616) :
    ∀ chg ∈ register_change (erase_from_position changes k) t off o n l,
      chg.len < 18446744073709551616 := by
  have he : ∀ chg ∈ erase_from_position changes k, chg.len < 18446744073709551616 := by
    intro chg hc
    unfold erase_from_position at hc
    split_ifs at hc
    · exact h chg hc
    · exact h chg (List.mem_of_mem_take hc)
  intro chg hc
  unfold register_change at hc
  split_ifs at hc
  · exact he chg hc
  · rcases List.mem_append.mp hc with hc | hc
    · exact he chg hc
    · simp only [List.mem_singleton] at hc
      subst hc
      exact hl

/-- The count `get` reports is at most the count asked for. -/
theorem get_from_count_le (c : List block) (pos len : Nat) (hpos : pos ≤ (blk c 0).len) :
    (get_from c pos len).2 ≤ len := by
  rw [get_from_eq c pos len hpos]
  exact Nat.min_le_left _ _

/-- What a call of `modify` does: nothing, or the loop over the blocks from the
block of the offset. -/
theorem modify_shape {m m' : file_model} {off : Nat} {data : List Nat}
    {rc : Bool} {r : operation_result}
    (h : modify m off data rc = some (r, m')) :
    m' = m ∨
    (0 < data.length ∧ data.length ≤ kMaxMemoryUsed ∧
      ∃ i pos c n, seek m off = some (i, pos) ∧
        modify_loop (data.length + m.chain.length) (m.chain.drop i) pos data = some (c, n) ∧
        m'.chain = m.chain.take i ++ c ∧
        m'._M_memory_used = m._M_memory_used + n * kMemoryBlockSize ∧
        m'._M_modified = true ∧ m'._M_len = m._M_len ∧
        m'._M_size_modified = m._M_size_modified ∧
        (m'._M_changes = m._M_changes ∨
          m'._M_changes = register_change (erase_from_position m._M_changes m._M_nchange)
            change_type.kModify off (some (get_from (m.chain.drop i) pos data.length).1)
            (some data) (get_from (m.chain.drop i) pos data.length).2)) := by
  unfold file_model.modify at h
  simp only at h
  by_cases h1 : m._M_read_only = true
  · rw [if_pos h1] at h
    simp only [Option.some.injEq, Prod.mk.injEq] at h
    exact Or.inl h.2.symm
  rw [if_neg h1] at h
  by_cases h2 : u64 (off + data.length) > m._M_len
  · rw [if_pos h2] at h
    simp only [Option.some.injEq, Prod.mk.injEq] at h
    exact Or.inl h.2.symm
  rw [if_neg h2] at h
  by_cases h3 : data.length > kMaxMemoryUsed
  · rw [if_pos h3] at h
    simp only [Option.some.injEq, Prod.mk.injEq] at h
    exact Or.inl h.2.symm
  rw [if_neg h3] at h
  cases hs : m.seek off with
  | none =>
    rw [hs] at h
    simp only [Option.some.injEq, Prod.mk.injEq] at h
    exact Or.inl h.2.symm
  | some ip =>
    obtain ⟨i, pos⟩ := ip
    rw [hs] at h
    simp only at h
    by_cases h4 : data.length = 0
    · rw [if_pos h4] at h
      simp only [Option.some.injEq, Prod.mk.injEq] at h
      exact Or.inl h.2.symm
    rw [if_neg h4] at h
    by_cases h5 : u64 (m._M_memory_used + data.length) > kMaxMemoryUsed
    · rw [if_pos h5] at h
      simp only [Option.some.injEq, Prod.mk.injEq] at h
      exact Or.inl h.2.symm
    rw [if_neg h5] at h
    cases hl : modify_loop (data.length + m.chain.length) (m.chain.drop i) pos data with
    | none => rw [hl] at h; exact Option.noConfusion h
    | some cn =>
      obtain ⟨c, n⟩ := cn
      rw [hl] at h
      simp only [Option.some.injEq, Prod.mk.injEq] at h
      obtain ⟨-, rfl⟩ := h
      refine Or.inr ⟨by omega, by omega, i, pos, c, n, rfl, hl, rfl, rfl, rfl, ?_, ?_, ?_⟩
      · split_ifs <;> rfl
      · split_ifs <;> rfl
      · split_ifs
        · exact Or.inr rfl
        · exact Or.inl rfl

/-- A call of `modify` keeps the invariant of the orderly runs. -/
theorem modify_inv {m m' : file_model} {off : Nat} {data : List Nat} {rc : Bool}
    {r : operation_result} {disk : List Nat} {resized : Bool}
    (hok : state_ok disk resized m) (h : modify m off data rc = some (r, m'))
    (hfit : fits m') : state_ok disk resized m' := by
  rcases modify_shape h with rfl | ⟨hlen, hmax, i, pos, c, n, hs, hl, hc, hmu, hmod, hlen', hsz, hj⟩
  · exact hok
  obtain ⟨⟨hsum, h64, hcap⟩, hf, hmem, hsize, hclean, hal, hjb⟩ := hok
  obtain ⟨pre, b, rest, hch, hpl, hp, hoff⟩ := seek_some hs
  obtain ⟨ht, hd, -, -⟩ := decompose_take hch hpl
  have hkmax : kMaxMemoryUsed = 104857600 := by decide
  have hf1 := hf.1
  have hb : b.len ≤ m._M_len := by
    rw [← hsum, hch]; simp only [total_len_append, total_len_cons]; omega
  rw [hd] at hl
  rw [ht] at hc
  have hpos : pos ≤ (blk (b :: rest) 0).len := by simp [blk]; omega
  obtain ⟨p1, p2, p3⟩ := modify_loop_pieces _ (b :: rest) pos data disk (total_len pre) (c, n) hl
    hpos hlen (by omega)
  have hcap' := modify_loop_cap _ (b :: rest) pos data (c, n) hl
    (fun x hx => hcap x (by rw [hch]; exact List.mem_append_right _ hx))
  simp only at p1 p2 p3 hcap'
  have hkb : kMemoryBlockSize = 4096 := by decide
  refine ⟨⟨?_, by rw [hlen']; exact h64, ?_⟩, hfit, ?_, by rw [hsz]; exact hsize, ?_, ?_, ?_⟩
  · rw [hc, hlen', ← hsum, hch]
    simp only [total_len_append]
    omega
  · rw [hc]
    intro x hx
    rcases List.mem_append.mp hx with hx | hx
    · exact hcap x (by rw [hch]; exact List.mem_append_left _ hx)
    · exact hcap' x hx
  · rw [hmu, hc, hmem, hch]
    simp only [owned_append, p1, hkb]
    omega
  · intro hm
    rw [hmod] at hm
    exact absurd hm (by decide)
  · intro hr
    rcases hal hr with ⟨-, hnil⟩ | ⟨ha, hl2⟩
    · rw [hnil] at hch
      exact absurd hch (by simp)
    · right
      refine ⟨?_, by rw [hlen']; exact hl2⟩
      rw [hch, aligned_append] at ha
      rw [hc, aligned_append]
      exact ⟨ha.1, by simpa using p3 (by simpa using ha.2)⟩
  · rcases hj with hj | hj
    · rw [hj]; exact hjb
    · rw [hj]
      refine journal_bound _ _ _ _ _ _ _ hjb ?_
      have := get_from_count_le (m.chain.drop i) pos data.length (by rw [hd]; exact hpos)
      omega

/-- The final loop of `remove` takes `len` bytes off the list and counts the
blocks in memory it frees. -/
theorem remove_loop_pieces (c : List block) (len : Nat) (r : List block × Nat)
    (h : remove_loop c len = some r)
    (hcap : ∀ x ∈ c, x.in_memory = true → x.len ≤ kMemoryBlockSize) :
    total_len r.1 + len = total_len c ∧ owned r.1 + r.2 = owned c ∧
      ∀ x ∈ r.1, x.in_memory = true → x.len ≤ kMemoryBlockSize := by
  induction c generalizing len r with
  | nil => simp [remove_loop] at h
  | cons b rest ih =>
    have hrest : ∀ x ∈ rest, x.in_memory = true → x.len ≤ kMemoryBlockSize :=
      fun x hx => hcap x (List.mem_cons_of_mem _ hx)
    simp only [remove_loop] at h
    by_cases h1 : len ≥ b.len
    · rw [if_pos h1] at h
      by_cases h2 : len - b.len > 0
      · rw [if_pos h2] at h
        cases hr : remove_loop rest (len - b.len) with
        | none => simp [hr] at h
        | some r2 =>
          simp only [hr, Option.map_some', Option.some.injEq] at h
          subst h
          obtain ⟨i1, i2, i3⟩ := ih (len - b.len) r2 hr hrest
          simp only [total_len_cons, owned_cons]
          refine ⟨by omega, by omega, i3⟩
      · rw [if_neg h2] at h
        simp only [Option.some.injEq] at h
        subst h
        simp only [total_len_cons, owned_cons]
        refine ⟨by omega, by omega, hrest⟩
    · rw [if_neg h1] at h
      simp only [Option.some.injEq] at h
      subst h
      have hb := hcap b (List.mem_cons_self _ _)
      simp only [total_len_cons, owned_cons, block.len, List.length_drop] at h1 hb ⊢
      refine ⟨by omega, by omega, ?_⟩
      intro x hx
      rcases List.mem_cons.mp hx with hx | hx
      · subst hx
        intro hm
        have := hb hm
        simp only [block.len, List.length_drop]
        omega
      · exact hrest x hx

/-- What a call of `remove` does to the sum of the block lengths and to the
memory used: nothing, or the sum is the new length and the memory used is
`kMemoryBlockSize` for every block in memory again. -/
theorem remove_effect {m m' : file_model} {off len : Nat} {rc : Bool} {r : operation_result}
    (h : remove m off len rc = some (r, m'))
    (hsum : total_len m.chain = m._M_len)
    (hcap : ∀ b ∈ m.chain, b.in_memory = true → b.len ≤ kMemoryBlockSize)
    (hmem : m._M_memory_used = kMemoryBlockSize * owned m.chain)
    (hf : fits m) (hlen : len < 18446744073709551616) :
    (m' = m ∧ (r ≠ operation_result.kSuccess ∨ len = 0)) ∨
    (r = operation_result.kSuccess ∧ len ≠ 0 ∧ total_len m'.chain = m'._M_len ∧
      (∀ b ∈ m'.chain, b.in_memory = true → b.len ≤ kMemoryBlockSize) ∧
      m'._M_memory_used = kMemoryBlockSize * owned m'.chain ∧
      m'._M_modified = true ∧ m'._M_size_modified = true ∧
      (m'._M_changes = m._M_changes ∨ ∃ o l, l ≤ len ∧
        m'._M_changes = register_change (erase_from_position m._M_changes m._M_nchange)
          change_type.kRemove off o none l)) := by
  unfold file_model.remove at h
  simp only at h
  by_cases h1 : m._M_read_only = true
  · rw [if_pos h1] at h
    simp only [Option.some.injEq, Prod.mk.injEq] at h
    exact Or.inl ⟨h.2.symm, Or.inl (by rw [← h.1]; decide)⟩
  rw [if_neg h1] at h
  by_cases h2 : m._M_block_device = true
  · rw [if_pos h2] at h
    simp only [Option.some.injEq, Prod.mk.injEq] at h
    exact Or.inl ⟨h.2.symm, Or.inl (by rw [← h.1]; decide)⟩
  rw [if_neg h2] at h
  cases hs : m.seek off with
  | none =>
    rw [hs] at h
    simp only [Option.some.injEq, Prod.mk.injEq] at h
    exact Or.inl ⟨h.2.symm, Or.inl (by rw [← h.1]; decide)⟩
  | some ip =>
    obtain ⟨i, pos⟩ := ip
    rw [hs] at h
    simp only at h
    by_cases h4 : len = 0
    · rw [if_pos h4] at h
      simp only [Option.some.injEq, Prod.mk.injEq] at h
      exact Or.inl ⟨h.2.symm, Or.inr h4⟩
    rw [if_neg h4] at h
    by_cases h5 : (rc && m._M_undo_enabled) = true ∧ len ≥ 9223372036854775808
    · rw [if_pos h5] at h
      simp only [Option.some.injEq, Prod.mk.injEq] at h
      exact Or.inl ⟨h.2.symm, Or.inl (by rw [← h.1]; decide)⟩
    rw [if_neg h5] at h
    obtain ⟨pre, b, rest, hc, hl, hp, hoff⟩ := seek_some hs
    obtain ⟨ht, hd, hd1, hblk⟩ := decompose_take hc hl
    have hcount := get_from_count_le (m.chain.drop i) pos len
      (by rw [hd]; simp [blk]; omega)
    generalize hm1 : (if (rc && m._M_undo_enabled) = true then
        { m with _M_changes :=
            (register_change (erase_from_position m._M_changes m._M_nchange)
              change_type.kRemove off (some (get_from (m.chain.drop i) pos len).1) none
              (get_from (m.chain.drop i) pos len).2) }
      else m) = m1 at h
    have hmu1 : m1._M_memory_used = m._M_memory_used := by
      rw [← hm1]; split_ifs <;> rfl
    have hj1 : m1._M_changes = m._M_changes ∨ ∃ o l, l ≤ len ∧
        m1._M_changes = register_change (erase_from_position m._M_changes m._M_nchange)
          change_type.kRemove off o none l := by
      rw [← hm1]
      split_ifs
      · exact Or.inr ⟨_, _, hcount, rfl⟩
      · exact Or.inl rfl
    clear hm1 hcount
    rw [hblk, ht, hd1] at h
    have hkb : kMemoryBlockSize = 4096 := by decide
    have htot : total_len pre + (b.data.length + total_len rest) = m._M_len := by
      rw [← hsum, hc]; simp [block.len]
    have hown : owned pre + ((if b.in_memory = true then 1 else 0) + owned rest) =
        owned m.chain := by
      rw [hc, owned_append, owned_cons]
    have hpre : ∀ x ∈ pre, x.in_memory = true → x.len ≤ kMemoryBlockSize :=
      fun x hx => hcap x (by rw [hc]; exact List.mem_append_left _ hx)
    have hrest : ∀ x ∈ rest, x.in_memory = true → x.len ≤ kMemoryBlockSize :=
      fun x hx => hcap x (by rw [hc]; simp [hx])
    have hbcap : b.in_memory = true → b.data.length ≤ 4096 :=
      fun h => hcap b (by rw [hc]; simp) h
    obtain ⟨hf1, hf2⟩ := hf
    simp only [u64, sub64, block.len] at h hp
    generalize hL : (if (off + len) % 18446744073709551616 > m._M_len then
        (m._M_len + 18446744073709551616 - off) % 18446744073709551616 else len) = L at h
    have hL1 : 0 < L ∧ L < 18446744073709551616 ∧
        (off + L ≤ m._M_len ∨ 18446744073709551616 ≤ off + L) := by
      rw [← hL]
      split_ifs with hw
      · omega
      · omega
    clear hL
    obtain ⟨hLpos, hL64, hLcase⟩ := hL1
    by_cases hin : (pos + L) % 18446744073709551616 < b.data.length
    · rw [if_pos hin] at h
      cases hbm : b.in_memory with
      | false =>
        simp only [hbm, Bool.not_false, if_true, Option.some.injEq, Prod.mk.injEq] at h
        obtain ⟨hr, rfl⟩ := h
        refine Or.inr ⟨hr.symm, h4, ?_, ?_, ?_, rfl, rfl, hj1⟩
        · by_cases hp0 : pos = 0
          · subst hp0
            simp only [ne_eq, not_true_eq_false, if_false, total_len_append, total_len_cons,
              total_len_nil, block.len, List.length_drop]
            omega
          · simp only [ne_eq, hp0, not_false_eq_true, if_true, total_len_append,
              total_len_cons, total_len_nil, block.len, List.length_drop, List.length_take]
            omega
        · by_cases hp0 : pos = 0
          · simp only [hp0, ne_eq, not_true_eq_false, if_false, List.forall_mem_append,
              List.forall_mem_cons, List.not_mem_nil, false_imp_iff, implies_true, and_true]
            exact ⟨⟨hpre, fun hm => Bool.noConfusion hm⟩, hrest⟩
          · simp only [ne_eq, hp0, not_false_eq_true, if_true, List.forall_mem_append,
              List.forall_mem_cons, List.not_mem_nil, false_imp_iff, implies_true, and_true]
            exact ⟨⟨hpre, fun hm => Bool.noConfusion hm, fun hm => Bool.noConfusion hm⟩, hrest⟩
        · show m1._M_memory_used = _
          rw [hmu1, hmem, ← hown]
          by_cases hp0 : pos = 0
          · simp [hp0, owned_append, owned_cons, owned_nil, hbm, hkb]
          · simp [hp0, owned_append, owned_cons, owned_nil, hbm, hkb]
      | true =>
        simp only [hbm, Bool.not_true, Bool.false_eq_true, if_false] at h
        by_cases hroom : (List.take pos b.data ++
            List.drop ((pos + L) % 18446744073709551616) b.data).length > kMemoryBlockSize
        · rw [if_pos hroom] at h
          exact Option.noConfusion h
        rw [if_neg hroom] at h
        simp only [Option.some.injEq, Prod.mk.injEq] at h
        obtain ⟨hr, rfl⟩ := h
        refine Or.inr ⟨hr.symm, h4, ?_, ?_, ?_, rfl, rfl, hj1⟩
        · simp only [total_len_append, total_len_cons, block.len, List.length_drop,
            List.length_take, List.length_append]
          omega
        · simp only [List.forall_mem_append, List.forall_mem_cons]
          exact ⟨hpre, fun _ => by simpa [block.len] using hroom, hrest⟩
        · show m1._M_memory_used = _
          rw [hmu1, hmem, ← hown]
          simp only [owned_append, owned_cons, hbm, hkb]
    · rw [if_neg hin] at h
      by_cases heq : (pos + L) % 18446744073709551616 = b.data.length
      · rw [if_pos heq] at h
        simp only [Option.some.injEq, Prod.mk.injEq] at h
        obtain ⟨hr, rfl⟩ := h
        refine Or.inr ⟨hr.symm, h4, ?_, ?_, ?_, rfl, rfl, hj1⟩
        · simp only [total_len_append, total_len_cons, block.len, List.length_take]
          omega
        · simp only [List.forall_mem_append, List.forall_mem_cons]
          refine ⟨hpre, fun hm => ?_, hrest⟩
          have := hbcap hm
          simp only [block.len, List.length_take, hkb]
          omega
        · show m1._M_memory_used = _
          rw [hmu1, hmem, ← hown]
          simp only [owned_append, owned_cons, hkb]
      · rw [if_neg heq] at h
        by_cases hp0 : pos = 0
        · subst hp0
          simp only [ne_eq, not_true_eq_false, if_false, hd] at h
          cases hrl : remove_loop (b :: rest) L with
          | none => rw [hrl] at h; exact Option.noConfusion h
          | some cf =>
            obtain ⟨c, freed⟩ := cf
            rw [hrl] at h
            simp only [Option.some.injEq, Prod.mk.injEq] at h
            obtain ⟨hr, rfl⟩ := h
            obtain ⟨q1, q2, q3⟩ := remove_loop_pieces (b :: rest) L (c, freed) hrl
              (fun x hx => hcap x (by rw [hc]; exact List.mem_append_right _ hx))
            simp only [total_len_cons, owned_cons, block.len] at q1 q2 q3
            refine Or.inr ⟨hr.symm, h4, ?_, ?_, ?_, rfl, rfl, hj1⟩
            · simp only [total_len_append, total_len_nil]
              omega
            · simp only [List.forall_mem_append, List.not_mem_nil, false_imp_iff, implies_true,
                and_true]
              exact ⟨hpre, q3⟩
            · show (m._M_memory_used + 18446744073709551616 - freed * kMemoryBlockSize) %
                18446744073709551616 = _
              rw [hmem, ← hown] at hf2 ⊢
              simp only [owned_append, owned_nil, hkb] at hf2 ⊢
              omega
        · simp only [ne_eq, hp0, not_false_eq_true, if_true, hd1] at h
          generalize hl1 : (L + 18446744073709551616 - (b.data.length - pos)) %
            18446744073709551616 = len1 at h
          cases hrl : remove_loop rest len1 with
          | none => rw [hrl] at h; exact Option.noConfusion h
          | some cf =>
            obtain ⟨c, freed⟩ := cf
            rw [hrl] at h
            simp only [Option.some.injEq, Prod.mk.injEq] at h
            obtain ⟨hr, rfl⟩ := h
            obtain ⟨q1, q2, q3⟩ := remove_loop_pieces rest len1 (c, freed) hrl hrest
            simp only at q1 q2 q3
            refine Or.inr ⟨hr.symm, h4, ?_, ?_, ?_, rfl, rfl, hj1⟩
            · simp only [total_len_append, total_len_cons, total_len_nil, block.len,
                List.length_take]
              omega
            · simp only [List.forall_mem_append, List.forall_mem_cons, List.not_mem_nil,
                false_imp_iff, implies_true, and_true]
              refine ⟨⟨hpre, fun hm => ?_⟩, q3⟩
              have := hbcap hm
              simp only [block.len, List.length_take, hkb]
              omega
            · show (m._M_memory_used + 18446744073709551616 - freed * kMemoryBlockSize) %
                18446744073709551616 = _
              rw [hmem, ← hown] at hf2 ⊢
              simp only [owned_append, owned_cons, owned_nil, hkb] at hf2 ⊢
              omega

/-- A call of `remove` keeps the invariant of the orderly runs. -/
theorem remove_inv {m m' : file_model} {off len : Nat} {rc : Bool}
    {r : operation_result} {disk : List Nat} {resized : Bool}
    (hok : state_ok disk resized m) (hlen : len < 18446744073709551616)
    (h : remove m off len rc = some (r, m')) (hfit : fits m') :
    state_ok disk
      (resized || (decide (r = operation_result.kSuccess) && decide (len ≠ 0))) m' := by
  obtain ⟨⟨hsum, h64, hcap⟩, hf, hmem, hsize, hclean, hal, hjb⟩ := hok
  rcases remove_effect h hsum hcap hmem hf hlen with
    ⟨rfl, hr⟩ | ⟨hr, hl0, e1, e2, e3, e4, e5, e6⟩
  · have hg : (resized || (decide (r = operation_result.kSuccess) && decide (len ≠ 0))) =
        resized := by
      rcases hr with hr | hr
      · simp [hr]
      · simp [hr]
    rw [hg]
    exact ⟨⟨hsum, h64, hcap⟩, hf, hmem, hsize, hclean, hal, hjb⟩
  · have hg : (resized || (decide (r = operation_result.kSuccess) && decide (len ≠ 0))) =
        true := by simp [hr, hl0]
    rw [hg]
    refine ⟨⟨e1, by have := hfit.1; omega, e2⟩, hfit, e3, e5, ?_, ?_, ?_⟩
    · intro hm; rw [e4] at hm; exact absurd hm (by decide)
    · intro hm; exact absurd hm (by decide)
    · rcases e6 with e6 | ⟨o, l, hl, e6⟩
      · rw [e6]; exact hjb
      · rw [e6]; exact journal_bound _ _ _ _ _ _ _ hjb (by omega)

theorem add_blocks_owned (fuel : Nat) (data : List Nat) :
    owned (add_blocks fuel data) = (add_blocks fuel data).length := by
  induction fuel generalizing data with
  | zero => simp [add_blocks, owned]
  | succ fuel ih =>
    unfold add_blocks
    split_ifs
    · simp only [owned_cons, List.length_cons, if_true, ih]; omega
    · simp only [owned_cons, List.length_cons, if_true, ih]; omega
    · simp [owned]

theorem add_blocks_total (fuel : Nat) (data : List Nat) (h : data.length ≤ fuel) :
    total_len (add_blocks fuel data) = data.length := by
  rw [← length_content, add_blocks_content fuel data h]

theorem take_succ_chain {c pre rest : List block} {b : block} {i : Nat}
    (hc : c = pre ++ b :: rest) (hl : pre.length = i) : c.take (i + 1) = pre ++ [b] := by
  subst hc; subst hl
  rw [List.take_append]
  simp

/-- Where `add` starts: at the block of the offset, or at the end of the last
block. -/
theorem add_start (m : file_model) (off : Nat) (hsum : total_len m.chain = m._M_len) :
    (match m.seek off with
      | some r => some r
      | none =>
        if off = m._M_len then
          some (m.chain.length - 1, (blk m.chain (m.chain.length - 1)).len)
        else none) = none ∨
    ∃ i pos, (match m.seek off with
      | some r => some r
      | none =>
        if off = m._M_len then
          some (m.chain.length - 1, (blk m.chain (m.chain.length - 1)).len)
        else none) = some (i, pos) ∧
      ((m.chain = [] ∧ i = 0 ∧ pos = 0 ∧ off = m._M_len) ∨
        ∃ pre b rest, m.chain = pre ++ b :: rest ∧ pre.length = i ∧
          total_len pre + pos = off ∧
          ((pos < b.len ∧ off < m._M_len) ∨ (pos = b.len ∧ off = m._M_len ∧ rest = []))) := by
  cases hs : m.seek off with
  | some ip =>
    obtain ⟨i, pos⟩ := ip
    obtain ⟨pre, b, rest, hc, hl, hp, hoff⟩ := seek_some hs
    refine Or.inr ⟨i, pos, rfl, Or.inr ⟨pre, b, rest, hc, hl, hoff, Or.inl ⟨hp, ?_⟩⟩⟩
    rw [← hsum, hc, ← hoff]
    simp only [total_len_append, total_len_cons]
    omega
  | none =>
    simp only
    by_cases hoff : off = m._M_len
    · rw [if_pos hoff]
      refine Or.inr ⟨_, _, rfl, ?_⟩
      rcases List.eq_nil_or_concat m.chain with hnil | ⟨pre, b, hc⟩
      · left
        rw [hnil]
        exact ⟨rfl, rfl, rfl, hoff⟩
      · right
        have hc' : m.chain = pre ++ b :: [] := by rw [hc]; simp
        have hl : pre.length = m.chain.length - 1 := by rw [hc']; simp
        obtain ⟨-, -, -, hblk⟩ := decompose_take hc' hl
        refine ⟨pre, b, [], hc', hl, ?_, Or.inr ⟨by rw [hblk], hoff, rfl⟩⟩
        rw [hblk, hoff, ← hsum, hc']
        simp
    · rw [if_neg hoff]
      exact Or.inl rfl

/-- What a call of `add` does to the sum of the block lengths and to the memory
used: nothing, or the sum is the new length and the memory used is
`kMemoryBlockSize` for every block in memory again. -/
theorem add_effect {m m' : file_model} {off : Nat} {data : List Nat} {rc : Bool}
    {r : operation_result}
    (h : add m off data rc = some (r, m'))
    (hsum : total_len m.chain = m._M_len)
    (hcap : ∀ b ∈ m.chain, b.in_memory = true → b.len ≤ kMemoryBlockSize)
    (hmem : m._M_memory_used = kMemoryBlockSize * owned m.chain)
    (hf : fits m) :
    (m' = m ∧ (r ≠ operation_result.kSuccess ∨ data.length = 0)) ∨
    (r = operation_result.kSuccess ∧ data.length ≠ 0 ∧ data.length ≤ kMaxMemoryUsed ∧
      total_len m'.chain = m'._M_len ∧
      (∀ b ∈ m'.chain, b.in_memory = true → b.len ≤ kMemoryBlockSize) ∧
      m'._M_memory_used = kMemoryBlockSize * owned m'.chain ∧
      m'._M_modified = true ∧ m'._M_size_modified = true ∧
      (m'._M_changes = m._M_changes ∨
        m'._M_changes = register_change (erase_from_position m._M_changes m._M_nchange)
          change_type.kAdd off none (some data) data.length)) := by
  unfold file_model.add at h
  simp only at h
  have hstart := add_start m off hsum
  generalize (match m.seek off with
    | some r => some r
    | none =>
      if off = m._M_len then some (m.chain.length - 1, (blk m.chain (m.chain.length - 1)).len)
      else none) = at_block at h hstart
  by_cases h1 : m._M_read_only = true
  · rw [if_pos h1] at h
    simp only [Option.some.injEq, Prod.mk.injEq] at h
    exact Or.inl ⟨h.2.symm, Or.inl (by rw [← h.1]; decide)⟩
  rw [if_neg h1] at h
  by_cases h2 : m._M_block_device = true
  · rw [if_pos h2] at h
    simp only [Option.some.injEq, Prod.mk.injEq] at h
    exact Or.inl ⟨h.2.symm, Or.inl (by rw [← h.1]; decide)⟩
  rw [if_neg h2] at h
  by_cases h3 : data.length > kMaxMemoryUsed
  · rw [if_pos h3] at h
    simp only [Option.some.injEq, Prod.mk.injEq] at h
    exact Or.inl ⟨h.2.symm, Or.inl (by rw [← h.1]; decide)⟩
  rw [if_neg h3] at h
  rcases hstart with hnone | ⟨i, pos, hat, hcase⟩
  · rw [hnone] at h
    simp only [Option.some.injEq, Prod.mk.injEq] at h
    exact Or.inl ⟨h.2.symm, Or.inl (by rw [← h.1]; decide)⟩
  rw [hat] at h
  simp only at h
  by_cases h4 : data.length = 0
  · rw [if_pos h4] at h
    simp only [Option.some.injEq, Prod.mk.injEq] at h
    exact Or.inl ⟨h.2.symm, Or.inr h4⟩
  rw [if_neg h4] at h
  by_cases h5 : u64 (m._M_memory_used + data.length) > kMaxMemoryUsed
  · rw [if_pos h5] at h
    simp only [Option.some.injEq, Prod.mk.injEq] at h
    exact Or.inl ⟨h.2.symm, Or.inl (by rw [← h.1]; decide)⟩
  rw [if_neg h5] at h
  generalize hm1 : (if (rc && m._M_undo_enabled) = true then
      { m with _M_changes :=
          (register_change (erase_from_position m._M_changes m._M_nchange)
            change_type.kAdd off none (some data) data.length) }
    else m) = m1 at h
  have hmu1 : m1._M_memory_used = m._M_memory_used := by
    rw [← hm1]; split_ifs <;> rfl
  have hj1 : m1._M_changes = m._M_changes ∨
      m1._M_changes = register_change (erase_from_position m._M_changes m._M_nchange)
        change_type.kAdd off none (some data) data.length := by
    rw [← hm1]
    split_ifs
    · exact Or.inr rfl
    · exact Or.inl rfl
  clear hm1
  have hkb : kMemoryBlockSize = 4096 := by decide
  have hkmax : kMaxMemoryUsed = 104857600 := by decide
  obtain ⟨hf1, hf2⟩ := hf
  rcases hcase with ⟨hnil, rfl, rfl, hoffM⟩ | ⟨pre, b, rest, hc, hl, hoff, hwhere⟩
  · simp [hnil, blk, header, u64, sub64] at h
    obtain ⟨hr, rfl⟩ := h
    have nb1 := add_blocks_total data.length data (le_refl _)
    have nb2 := add_blocks_owned data.length data
    have nb3 := add_blocks_cap data.length data
    have hM : m._M_len = 0 := by rw [← hsum, hnil]; rfl
    have hO : owned m.chain = 0 := by rw [hnil]; rfl
    refine Or.inr ⟨hr.symm, h4, by omega, ?_, fun x hx _ => nb3 x hx, ?_, rfl, rfl, hj1⟩
    · show total_len (add_blocks data.length data) =
        (m._M_len + data.length) % 18446744073709551616
      rw [nb1, hM]
      omega
    · show m._M_memory_used + (add_blocks data.length data).length * kMemoryBlockSize =
        kMemoryBlockSize * owned (add_blocks data.length data)
      rw [nb2, hmem, hO, hkb]
      omega
  · obtain ⟨ht, hd, hd1, hblk⟩ := decompose_take hc hl
    have ht1 := take_succ_chain hc hl
    rw [hblk] at h
    have htot : total_len pre + (b.data.length + total_len rest) = m._M_len := by
      rw [← hsum, hc]; simp [block.len]
    have hown : owned pre + ((if b.in_memory = true then 1 else 0) + owned rest) =
        owned m.chain := by
      rw [hc, owned_append, owned_cons]
    have hpre : ∀ x ∈ pre, x.in_memory = true → x.len ≤ kMemoryBlockSize :=
      fun x hx => hcap x (by rw [hc]; exact List.mem_append_left _ hx)
    have hrest : ∀ x ∈ rest, x.in_memory = true → x.len ≤ kMemoryBlockSize :=
      fun x hx => hcap x (by rw [hc]; simp [hx])
    have hbcap : b.in_memory = true → b.data.length ≤ 4096 :=
      fun h => hcap b (by rw [hc]; simp) h
    simp only [u64, sub64, block.len, hkb] at h hwhere h5
    generalize hleft : (4096 + 18446744073709551616 - b.data.length) % 18446744073709551616 =
      left at h
    by_cases hA : b.in_memory = true ∧ data.length ≤ left
    · rw [if_pos hA, ht, hd1] at h
      split at h
      · exact Option.noConfusion h
      rename_i hroom
      simp only [Option.some.injEq, Prod.mk.injEq] at h
      obtain ⟨hr, rfl⟩ := h
      have hb4 := hbcap hA.1
      refine Or.inr ⟨hr.symm, h4, by omega, ?_, ?_, ?_, rfl, rfl, hj1⟩
      · simp only [total_len_append, total_len_cons, block.len, List.length_drop,
          List.length_take, List.length_append]
        omega
      · simp only [List.forall_mem_append, List.forall_mem_cons]
        exact ⟨hpre, fun _ => by simpa [block.len, hkb] using hroom, hrest⟩
      · show m1._M_memory_used = _
        rw [hmu1, hmem, ← hown]
        simp only [owned_append, owned_cons, hkb]
    rw [if_neg hA] at h
    by_cases hfill : b.in_memory = true ∧ off = m._M_len ∧ left > 0
    · simp only [if_pos hfill] at h
      obtain ⟨hbm, hoffM, hleft0⟩ := hfill
      have hb4 := hbcap hbm
      have hrest0 : pos = b.data.length ∧ rest = [] := by
        rcases hwhere with hw | hw
        · omega
        · exact ⟨hw.1, hw.2.2⟩
      obtain ⟨hpb, rfl⟩ := hrest0
      have nb1 := add_blocks_total (List.drop left data).length (List.drop left data) (le_refl _)
      have nb2 := add_blocks_owned (List.drop left data).length (List.drop left data)
      have nb3 := add_blocks_cap (List.drop left data).length (List.drop left data)
      generalize add_blocks (List.drop left data).length (List.drop left data) = nb
        at h nb1 nb2 nb3
      rw [ht, hd1] at h
      have hb2 : ∀ b2 : block, List.take i (pre ++ [b2]) = pre ∧
          List.drop i (pre ++ [b2]) = [b2] ∧ List.take (i + 1) (pre ++ [b2]) = pre ++ [b2] := by
        intro b2
        obtain ⟨x1, x2, -, -⟩ := decompose_take (rfl : pre ++ [b2] = pre ++ b2 :: []) hl
        exact ⟨x1, x2, take_succ_chain rfl hl⟩
      simp only [hb2] at h
      simp only [List.length_drop, total_len_nil, owned_nil, Nat.add_zero] at nb1 htot hown
      have hnA : left < data.length := by
        by_contra hcon
        exact hA ⟨hbm, by omega⟩
      by_cases hp0 : pos = 0
      · simp only [hp0, ne_eq, not_true_eq_false, false_and, if_false, if_true,
          Option.some.injEq, Prod.mk.injEq] at h
        obtain ⟨hr, rfl⟩ := h
        refine Or.inr ⟨hr.symm, h4, by omega, ?_, ?_, ?_, rfl, rfl, hj1⟩
        · simp only [total_len_append, total_len_cons, total_len_nil, block.len,
            List.length_drop, List.length_take, List.length_append]
          omega
        · simp only [List.forall_mem_append, List.forall_mem_cons, List.not_mem_nil,
            false_imp_iff, implies_true, and_true]
          refine ⟨⟨hpre, fun x hx _ => nb3 x hx⟩, fun _ => ?_⟩
          simp only [block.len, List.length_append, List.length_take, hkb]
          omega
        · show m._M_memory_used + nb.length * 4096 = _
          rw [hmem, ← hown]
          simp only [owned_append, owned_cons, owned_nil, hbm, hkb, nb2, if_true]
          omega
      · have hsame : ¬ ((off + left) % 18446744073709551616 ≠
            (m._M_len + left) % 18446744073709551616) := by rw [hoffM]; simp
        simp only [hp0, hsame, ne_eq, not_false_eq_true, false_and, and_false, if_false,
          if_true, Option.some.injEq, Prod.mk.injEq] at h
        obtain ⟨hr, rfl⟩ := h
        refine Or.inr ⟨hr.symm, h4, by omega, ?_, ?_, ?_, rfl, rfl, hj1⟩
        · simp only [total_len_append, total_len_cons, total_len_nil, block.len,
            List.length_drop, List.length_take, List.length_append]
          omega
        · simp only [List.forall_mem_append, List.forall_mem_cons, List.not_mem_nil,
            false_imp_iff, implies_true, and_true]
          refine ⟨⟨hpre, fun _ => ?_⟩, fun x hx _ => nb3 x hx⟩
          simp only [block.len, List.length_append, List.length_take, hkb]
          omega
        · show m._M_memory_used + nb.length * 4096 = _
          rw [hmem, ← hown]
          simp only [owned_append, owned_cons, owned_nil, hbm, hkb, nb2, if_true]
          omega
    · simp only [if_neg hfill] at h
      have nb1 := add_blocks_total data.length data (le_refl _)
      have nb2 := add_blocks_owned data.length data
      have nb3 := add_blocks_cap data.length data
      generalize add_blocks data.length data = nb at h nb1 nb2 nb3
      rw [ht, hd, hd1, ht1] at h
      by_cases hp0 : pos = 0
      · simp only [hp0, ne_eq, not_true_eq_false, false_and, if_false, if_true,
          Option.some.injEq, Prod.mk.injEq] at h
        obtain ⟨hr, rfl⟩ := h
        refine Or.inr ⟨hr.symm, h4, by omega, ?_, ?_, ?_, rfl, rfl, hj1⟩
        · simp only [total_len_append, total_len_cons, block.len]
          omega
        · simp only [List.forall_mem_append, List.forall_mem_cons]
          exact ⟨⟨hpre, fun x hx _ => nb3 x hx⟩, fun hm => by simpa [hkb, block.len] using hbcap hm,
            hrest⟩
        · show m._M_memory_used + nb.length * 4096 = _
          rw [hmem, ← hown]
          simp only [owned_append, owned_cons, hkb, nb2]
          omega
      · by_cases hoffM : off = m._M_len
        · have hrest0 : pos = b.data.length ∧ rest = [] := by
            rcases hwhere with hw | hw
            · omega
            · exact ⟨hw.1, hw.2.2⟩
          obtain ⟨hpb, rfl⟩ := hrest0
          simp only [hp0, hoffM, ne_eq, not_true_eq_false, not_false_eq_true, false_and,
            and_false, if_false, if_true, Option.some.injEq, Prod.mk.injEq] at h
          obtain ⟨hr, rfl⟩ := h
          simp only [total_len_nil, owned_nil, Nat.add_zero] at htot hown
          refine Or.inr ⟨hr.symm, h4, by omega, ?_, ?_, ?_, rfl, rfl, hj1⟩
          · simp only [total_len_append, total_len_cons, total_len_nil, block.len]
            omega
          · simp only [List.forall_mem_append, List.forall_mem_cons, List.not_mem_nil,
              false_imp_iff, implies_true, and_true]
            exact ⟨⟨hpre, fun hm => by simpa [hkb, block.len] using hbcap hm⟩,
              fun x hx _ => nb3 x hx⟩
          · show m._M_memory_used + nb.length * 4096 = _
            rw [hmem, ← hown]
            simp only [owned_append, owned_cons, owned_nil, hkb, nb2]
            omega
        · simp only [hp0, hoffM, ne_eq, not_false_eq_true, true_and, if_false, if_true] at h
          split at h
          · exact Option.noConfusion h
          simp only [Option.some.injEq, Prod.mk.injEq] at h
          obtain ⟨hr, rfl⟩ := h
          refine Or.inr ⟨hr.symm, h4, by omega, ?_, ?_, ?_, rfl, rfl, hj1⟩
          · simp only [total_len_append, total_len_cons, block.len, List.length_take,
              List.length_drop]
            omega
          · simp only [List.forall_mem_append, List.forall_mem_cons]
            refine ⟨⟨hpre, fun hm => ?_, fun x hx _ => nb3 x hx⟩, fun hm => ?_, hrest⟩
            · have := hbcap hm
              simp only [block.len, List.length_take, hkb]
              omega
            · have := hbcap hm
              simp only [block.len, List.length_drop, hkb]
              omega
          · show m._M_memory_used + (if b.in_memory = true then nb.length + 1
              else nb.length) * 4096 = _
            rw [hmem, ← hown]
            simp only [owned_append, owned_cons, hkb, nb2]
            split_ifs <;> omega

/-- A call of `add` keeps the invariant of the orderly runs. -/
theorem add_inv {m m' : file_model} {off : Nat} {data : List Nat} {rc : Bool}
    {r : operation_result} {disk : List Nat} {resized : Bool}
    (hok : state_ok disk resized m)
    (h : add m off data rc = some (r, m')) (hfit : fits m') :
    state_ok disk
      (resized || (decide (r = operation_result.kSuccess) && decide (data.length ≠ 0))) m' := by
  obtain ⟨⟨hsum, h64, hcap⟩, hf, hmem, hsize, hclean, hal, hjb⟩ := hok
  rcases add_effect h hsum hcap hmem hf with
    ⟨rfl, hr⟩ | ⟨hr, hl0, hmax, e1, e2, e3, e4, e5, e6⟩
  · have hg : (resized ||
        (decide (r = operation_result.kSuccess) && decide (data.length ≠ 0))) = resized := by
      rcases hr with hr | hr
      · simp [hr]
      · simp [hr]
    rw [hg]
    exact ⟨⟨hsum, h64, hcap⟩, hf, hmem, hsize, hclean, hal, hjb⟩
  · have hg : (resized ||
        (decide (r = operation_result.kSuccess) && decide (data.length ≠ 0))) = true := by
      simp [hr, hl0]
    have hkmax : kMaxMemoryUsed = 104857600 := by decide
    rw [hg]
    refine ⟨⟨e1, by have := hfit.1; omega, e2⟩, hfit, e3, e5, ?_, ?_, ?_⟩
    · intro hm; rw [e4] at hm; exact absurd hm (by decide)
    · intro hm; exact absurd hm (by decide)
    · rcases e6 with e6 | e6
      · rw [e6]; exact hjb
      · rw [e6]; exact journal_bound _ _ _ _ _ _ _ hjb (by omega)

/-- The invariant of the orderly runs does not read the journal cursor. -/
theorem state_ok_nchange {m : file_model} {disk : List Nat} {resized : Bool} (k : Nat)
    (hok : state_ok disk resized m) : state_ok disk resized { m with _M_nchange := k } :=
  hok

/-- The call `undo` forwards to: the record before the cursor says which. -/
theorem undo_forward {m m' : file_model} {r : operation_result}
    (h : undo m = some (r, m')) :
    (m' = m ∧ r ≠ operation_result.kSuccess) ∨
    ∃ chg r1 m1, m._M_changes.get? (m._M_nchange - 1) = some chg ∧
      ((chg.t = change_type.kModify ∧ ∃ d, modify m chg.off d false = some (r1, m1)) ∨
        (chg.t = change_type.kAdd ∧ remove m chg.off chg.len false = some (r1, m1)) ∨
        (chg.t = change_type.kRemove ∧ ∃ d, buffer chg.olddata chg.len = some d ∧
          add m chg.off d false = some (r1, m1))) ∧
      ((r1 = operation_result.kSuccess ∧ r = operation_result.kSuccess ∧
          m' = { m1 with _M_nchange := m1._M_nchange - 1 }) ∨
        (r1 ≠ operation_result.kSuccess ∧ r = r1 ∧ m' = m1)) := by
  unfold file_model.undo at h
  by_cases h1 : m._M_read_only = true
  · rw [if_pos h1] at h
    simp only [Option.some.injEq, Prod.mk.injEq] at h
    exact Or.inl ⟨h.2.symm, by rw [← h.1]; decide⟩
  rw [if_neg h1] at h
  by_cases h2 : (!m._M_undo_enabled) = true
  · rw [if_pos h2] at h
    simp only [Option.some.injEq, Prod.mk.injEq] at h
    exact Or.inl ⟨h.2.symm, by rw [← h.1]; decide⟩
  rw [if_neg h2] at h
  by_cases h3 : m._M_nchange = 0
  · rw [if_pos h3] at h
    simp only [Option.some.injEq, Prod.mk.injEq] at h
    exact Or.inl ⟨h.2.symm, by rw [← h.1]; decide⟩
  rw [if_neg h3] at h
  right
  cases hc : m._M_changes.get? (m._M_nchange - 1) with
  | none => rw [hc] at h; exact Option.noConfusion h
  | some chg =>
    rw [hc] at h
    simp only at h
    generalize hres : (match chg.t with
      | change_type.kModify =>
        (buffer chg.olddata chg.len).bind (fun d => m.modify chg.off d false)
      | change_type.kAdd => m.remove chg.off chg.len false
      | change_type.kRemove =>
        (buffer chg.olddata chg.len).bind (fun d => m.add chg.off d false)) = res at h
    cases res with
    | none => exact Option.noConfusion h
    | some rm =>
      obtain ⟨r1, m1⟩ := rm
      simp only at h
      refine ⟨chg, r1, m1, rfl, ?_, ?_⟩
      · cases ht : chg.t with
        | kModify =>
          rw [ht] at hres
          simp only [Option.bind_eq_some] at hres
          obtain ⟨d, -, hd⟩ := hres
          exact Or.inl ⟨rfl, d, hd⟩
        | kAdd =>
          rw [ht] at hres
          exact Or.inr (Or.inl ⟨rfl, hres⟩)
        | kRemove =>
          rw [ht] at hres
          simp only [Option.bind_eq_some] at hres
          obtain ⟨d, hb, hd⟩ := hres
          exact Or.inr (Or.inr ⟨rfl, d, hb, hd⟩)
      · by_cases hr1 : r1 = operation_result.kSuccess
        · rw [if_pos hr1] at h
          simp only [Option.some.injEq, Prod.mk.injEq] at h
          exact Or.inl ⟨hr1, h.1.symm, h.2.symm⟩
        · rw [if_neg hr1] at h
          simp only [Option.some.injEq, Prod.mk.injEq] at h
          exact Or.inr ⟨hr1, h.1.symm, h.2.symm⟩

/-- The call `redo` forwards to: the record at the cursor says which. -/
theorem redo_forward {m m' : file_model} {r : operation_result}
    (h : redo m = some (r, m')) :
    (m' = m ∧ r ≠ operation_result.kSuccess) ∨
    ∃ chg r1 m1, m._M_changes.get? m._M_nchange = some chg ∧
      ((chg.t = change_type.kModify ∧ ∃ d, modify m chg.off d false = some (r1, m1)) ∨
        (chg.t = change_type.kAdd ∧ ∃ d, buffer chg.newdata chg.len = some d ∧
          add m chg.off d false = some (r1, m1)) ∨
        (chg.t = change_type.kRemove ∧ remove m chg.off chg.len false = some (r1, m1))) ∧
      ((r1 = operation_result.kSuccess ∧ r = operation_result.kSuccess ∧
          m' = { m1 with _M_nchange := m1._M_nchange + 1 }) ∨
        (r1 ≠ operation_result.kSuccess ∧ r = r1 ∧ m' = m1)) := by
  unfold file_model.redo at h
  by_cases h1 : m._M_read_only = true
  · rw [if_pos h1] at h
    simp only [Option.some.injEq, Prod.mk.injEq] at h
    exact Or.inl ⟨h.2.symm, by rw [← h.1]; decide⟩
  rw [if_neg h1] at h
  by_cases h2 : (!m._M_undo_enabled) = true
  · rw [if_pos h2] at h
    simp only [Option.some.injEq, Prod.mk.injEq] at h
    exact Or.inl ⟨h.2.symm, by rw [← h.1]; decide⟩
  rw [if_neg h2] at h
  by_cases h3 : m._M_nchange = m._M_changes.length
  · rw [if_pos h3] at h
    simp only [Option.some.injEq, Prod.mk.injEq] at h
    exact Or.inl ⟨h.2.symm, by rw [← h.1]; decide⟩
  rw [if_neg h3] at h
  right
  cases hc : m._M_changes.get? m._M_nchange with
  | none => rw [hc] at h; exact Option.noConfusion h
  | some chg =>
    rw [hc] at h
    simp only at h
    generalize hres : (match chg.t with
      | change_type.kModify =>
        (buffer chg.newdata chg.len).bind (fun d => m.modify chg.off d false)
      | change_type.kAdd =>
        (buffer chg.newdata chg.len).bind (fun d => m.add chg.off d false)
      | change_type.kRemove => m.remove chg.off chg.len false) = res at h
    cases res with
    | none => exact Option.noConfusion h
    | some rm =>
      obtain ⟨r1, m1⟩ := rm
      simp only at h
      refine ⟨chg, r1, m1, rfl, ?_, ?_⟩
      · cases ht : chg.t with
        | kModify =>
          rw [ht] at hres
          simp only [Option.bind_eq_some] at hres
          obtain ⟨d, -, hd⟩ := hres
          exact Or.inl ⟨rfl, d, hd⟩
        | kAdd =>
          rw [ht] at hres
          simp only [Option.bind_eq_some] at hres
          obtain ⟨d, hb, hd⟩ := hres
          exact Or.inr (Or.inl ⟨rfl, d, hb, hd⟩)
        | kRemove =>
          rw [ht] at hres
          exact Or.inr (Or.inr ⟨rfl, hres⟩)
      · by_cases hr1 : r1 = operation_result.kSuccess
        · rw [if_pos hr1] at h
          simp only [Option.some.injEq, Prod.mk.injEq] at h
          exact Or.inl ⟨hr1, h.1.symm, h.2.symm⟩
        · rw [if_neg hr1] at h
          simp only [Option.some.injEq, Prod.mk.injEq] at h
          exact Or.inr ⟨hr1, h.1.symm, h.2.symm⟩

/-- A call of `undo` keeps the invariant of the orderly runs. -/
theorem undo_inv {m m' : file_model} {r : operation_result} {disk : List Nat}
    {resized : Bool} (hok : state_ok disk resized m) (h : undo m = some (r, m'))
    (hfit : fits m') :
    state_ok disk
      (resized || (decide (r = operation_result.kSuccess) && undo_resizes m)) m' := by
  rcases undo_forward h with ⟨hmm, hr⟩ | ⟨chg, r1, m1, hget, hcase, hres⟩
  · have hg : (resized || (decide (r = operation_result.kSuccess) && undo_resizes m)) =
        resized := by simp [hr]
    rw [hg, hmm]; exact hok
  have hr : r = r1 := by
    rcases hres with ⟨h1, h2, -⟩ | ⟨-, h2, -⟩
    · rw [h1, h2]
    · exact h2
  have hfit1 : fits m1 := by
    rcases hres with ⟨-, -, h3⟩ | ⟨-, -, h3⟩
    · rw [h3] at hfit; exact hfit
    · rw [h3] at hfit; exact hfit
  have hlen : chg.len < 18446744073709551616 := hok.2.2.2.2.2.2 chg (List.get?_mem hget)
  have key : state_ok disk
      (resized || (decide (r = operation_result.kSuccess) && undo_resizes m)) m1 := by
    unfold undo_resizes
    rw [hget, hr]
    rcases hcase with ⟨ht, d, hd⟩ | ⟨ht, hd⟩ | ⟨ht, d, hb, hd⟩
    · simp only [ht, Bool.and_false, Bool.or_false]
      exact modify_inv hok hd hfit1
    · simp only [ht]
      exact remove_inv hok hlen hd hfit1
    · simp only [ht, hb, Option.getD_some]
      exact add_inv hok hd hfit1
  rcases hres with ⟨-, -, h3⟩ | ⟨-, -, h3⟩
  · rw [h3]; exact state_ok_nchange _ key
  · rw [h3]; exact key

/-- A call of `redo` keeps the invariant of the orderly runs. -/
theorem redo_inv {m m' : file_model} {r : operation_result} {disk : List Nat}
    {resized : Bool} (hok : state_ok disk resized m) (h : redo m = some (r, m'))
    (hfit : fits m') :
    state_ok disk
      (resized || (decide (r = operation_result.kSuccess) && redo_resizes m)) m' := by
  rcases redo_forward h with ⟨hmm, hr⟩ | ⟨chg, r1, m1, hget, hcase, hres⟩
  · have hg : (resized || (decide (r = operation_result.kSuccess) && redo_resizes m)) =
        resized := by simp [hr]
    rw [hg, hmm]; exact hok
  have hr : r = r1 := by
    rcases hres with ⟨h1, h2, -⟩ | ⟨-, h2, -⟩
    · rw [h1, h2]
    · exact h2
  have hfit1 : fits m1 := by
    rcases hres with ⟨-, -, h3⟩ | ⟨-, -, h3⟩
    · rw [h3] at hfit; exact hfit
    · rw [h3] at hfit; exact hfit
  have hlen : chg.len < 18446744073709551616 := hok.2.2.2.2.2.2 chg (List.get?_mem hget)
  have key : state_ok disk
      (resized || (decide (r = operation_result.kSuccess) && redo_resizes m)) m1 := by
    unfold redo_resizes
    rw [hget, hr]
    rcases hcase with ⟨ht, d, hd⟩ | ⟨ht, d, hb, hd⟩ | ⟨ht, hd⟩
    · simp only [ht, Bool.and_false, Bool.or_false]
      exact modify_inv hok hd hfit1
    · simp only [ht, hb, Option.getD_some]
      exact add_inv hok hd hfit1
    · simp only [ht]
      exact remove_inv hok hlen hd hfit1
  rcases hres with ⟨-, -, h3⟩ | ⟨-, -, h3⟩
  · rw [h3]; exact state_ok_nchange _ key
  · rw [h3]; exact key

/-- A file that was just mapped holds its own bytes at offset 0. -/
theorem window_whole (file : List Nat) : window file 0 file.length = file := by
  unfold window
  simp

/-- The state after `close` obeys the invariant for every file on disk. -/
theorem close_inv {m : file_model} (disk : List Nat)
    (hj : ∀ chg ∈ m._M_changes, chg.len < 18446744073709551616) :
    state_ok disk false m.close :=
  ⟨⟨rfl, Nat.zero_lt_succ _, fun _ hx => absurd hx (List.not_mem_nil _)⟩,
    ⟨Nat.zero_lt_succ _, Nat.zero_lt_succ _⟩, rfl, rfl, fun _ => ⟨rfl, rfl⟩, fun _ => Or.inl ⟨rfl, rfl⟩, hj⟩

/-- The chain `open` makes of a file obeys the invariant of the chain and holds
the file at offset 0. -/
theorem mapped_chain (bytes : List Nat) :
    total_len (if bytes.length ≠ 0 then
        [({ data := bytes, in_memory := false, addr := 0 } : block)] else []) = bytes.length ∧
      owned (if bytes.length ≠ 0 then
        [({ data := bytes, in_memory := false, addr := 0 } : block)] else []) = 0 ∧
      aligned_from (if bytes.length ≠ 0 then
        [({ data := bytes, in_memory := false, addr := 0 } : block)] else []) 0 bytes ∧
      ∀ b ∈ (if bytes.length ≠ 0 then
        [({ data := bytes, in_memory := false, addr := 0 } : block)] else []),
        b.in_memory = true → b.len ≤ kMemoryBlockSize := by
  split_ifs with h0
  · refine ⟨by simp [block.len], rfl, ?_, ?_⟩
    · simp only [aligned_from, block.len, window_whole, and_true, implies_true]
    · intro b hb hm
      rw [List.mem_singleton.mp hb] at hm
      simp at hm
  · refine ⟨by simp at h0; simp [h0], rfl, trivial, fun x hx => absurd hx (List.not_mem_nil _)⟩

/-- The state after an `open` that returns `true` on a model that holds no chain
obeys the invariant. -/
theorem open_inv {m : file_model} (filename : String) (f : host_file) (mode : open_mode)
    (hc : m.chain = []) (hmu : m._M_memory_used = 0) (hsz : m._M_size_modified = false)
    (hj : ∀ chg ∈ m._M_changes, chg.len < 18446744073709551616)
    (hlen : f.bytes.length < 9223372036854775808)
    (hopen : (file_model.open m filename (some f) mode).1 = true) :
    state_ok f.bytes false (file_model.open m filename (some f) mode).2 := by
  have e := open_facts hopen
  have e1 : (file_model.open m filename (some f) mode).2._M_len = f.bytes.length := by rw [e]
  have e2 : (file_model.open m filename (some f) mode).2._M_memory_used = 0 := by
    rw [e]; exact hmu
  have e4 : (file_model.open m filename (some f) mode).2._M_size_modified = false := by
    rw [e]; exact hsz
  have e5 : (file_model.open m filename (some f) mode).2.chain =
      if f.bytes.length ≠ 0 then [{ data := f.bytes, in_memory := false, addr := 0 }]
      else [] := by
    rw [e]; simp only [hc]
  have e6 : ∀ chg ∈ (file_model.open m filename (some f) mode).2._M_changes,
      chg.len < 18446744073709551616 := by
    rw [e]; simp only
    intro chg hchg
    split_ifs at hchg
    · exact absurd hchg (List.not_mem_nil _)
    · exact hj chg hchg
  obtain ⟨t1, t2, t3, t4⟩ := mapped_chain f.bytes
  rw [← e5] at t1 t2 t3 t4
  refine ⟨⟨by rw [t1, e1], by rw [e1]; omega, t4⟩, ⟨by rw [e1]; exact hlen, by rw [e2]; exact Nat.zero_lt_succ _⟩,
    by rw [e2, t2, Nat.mul_zero], e4, fun _ => ⟨rfl, t2⟩, fun _ => Or.inr ⟨t3, e1⟩, e6⟩

/-- Alignment at the offsets from `o` on reads the file from `o` on only. -/
theorem aligned_congr (c : List block) (o : Nat) (file file' : List Nat)
    (h : file.drop o = file'.drop o) (ha : aligned_from c o file) : aligned_from c o file' := by
  induction c generalizing o with
  | nil => trivial
  | cons b rest ih =>
    obtain ⟨h1, h2⟩ := ha
    refine ⟨fun hb => ?_, ih (o + b.len) ?_ h2⟩
    · rw [h1 hb]
      unfold window
      rw [h]
    · rw [← List.drop_drop, ← List.drop_drop, h]

/-- A write inside the file replaces the bytes at the offset. -/
theorem write_at_inside (file : List Nat) (off : Nat) (data : List Nat)
    (h : off + data.length ≤ file.length) :
    write_at file off data = file.take off ++ data ++ file.drop (off + data.length) := by
  unfold write_at
  split_ifs with he
  · rw [List.length_eq_zero.mp he]
    simp
  · have : off - file.length = 0 := by omega
    rw [this]
    simp

/-- A write at the end of the file appends. -/
theorem write_at_end (file data : List Nat) : write_at file file.length data = file ++ data := by
  unfold write_at
  split_ifs with he
  · rw [List.length_eq_zero.mp he]
    simp
  · simp

/-- The loop of `save_in_place`, when it returns `true`, has written what it
writes on a host on which no system call fails. -/
theorem save_in_place_loop_true (no_seek : Bool) (c : List block) (off : Nat) (file : List Nat)
    (room : Option Nat) (d : List Nat)
    (h : save_in_place_loop no_seek c off file room = (true, d)) :
    save_in_place_loop false c off file none = (true, d) := by
  induction c generalizing off file room with
  | nil => simpa [save_in_place_loop] using h
  | cons b rest ih =>
    simp only [save_in_place_loop] at h ⊢
    cases hb : b.in_memory with
    | false =>
      simp only [hb, Bool.false_eq_true, if_false] at h ⊢
      exact ih _ _ _ h
    | true =>
      simp only [hb, if_true] at h ⊢
      cases hn : no_seek with
      | true => simp [hn] at h
      | false =>
        subst hn
        simp only [Bool.false_eq_true, if_false] at h
        simp only [write, Bool.false_eq_true, if_false, ne_eq, block.len, not_true_eq_false]
        cases room with
        | none =>
          simp only [write, ne_eq, block.len, not_true_eq_false, if_false, Option.map_none'] at h
          exact ih _ _ _ h
        | some r =>
          simp only [write, ne_eq, block.len, Option.map_some'] at h
          by_cases hr : min r b.data.length = b.data.length
          · rw [if_neg (by simpa using hr)] at h
            rw [List.take_of_length_le (by omega)] at h
            exact ih _ _ _ h
          · rw [if_pos (by simpa using hr)] at h
            simp at h

/-- The loop of `save` over the blocks, when it returns `true`, has appended the
content of the chain to the temporary file. -/
theorem save_loop_true (c : List block) (tmp : List Nat) (room : Option Nat) (d : List Nat)
    (h : save_loop c tmp room = (true, d)) : d = tmp ++ content c := by
  induction c generalizing tmp room with
  | nil => simp [save_loop] at h; simp [h]
  | cons b rest ih =>
    simp only [save_loop] at h
    cases room with
    | none =>
      simp only [write, ne_eq, block.len, not_true_eq_false, if_false, Option.map_none',
        write_at_end] at h
      rw [ih _ _ h, content_cons, List.append_assoc]
    | some r =>
      simp only [write, ne_eq, block.len, Option.map_some'] at h
      by_cases hr : min r b.data.length = b.data.length
      · rw [if_neg (by simpa using hr)] at h
        rw [List.take_of_length_le (by omega), write_at_end] at h
        rw [ih _ _ h, content_cons, List.append_assoc]
      · rw [if_pos (by simpa using hr)] at h
        simp at h

/-- On a host on which no write fails the loop of `save` returns `true`. -/
theorem save_loop_steady (c : List block) (tmp : List Nat) :
    save_loop c tmp none = (true, tmp ++ content c) := by
  induction c generalizing tmp with
  | nil => simp [save_loop]
  | cons b rest ih =>
    simp only [save_loop, write, ne_eq, block.len, not_true_eq_false, if_false,
      Option.map_none', write_at_end]
    rw [ih, content_cons, List.append_assoc]

/-- The loop of `save_in_place` leaves the content of the chain in the file,
when every block in disk holds the bytes of the file at its own offset. -/
theorem save_flush (c : List block) (off : Nat) (file : List Nat)
    (ha : aligned_from c off file) (hlen : off + total_len c = file.length) :
    save_in_place_loop false c off file none = (true, file.take off ++ content c) := by
  induction c generalizing off file with
  | nil =>
    simp only [total_len_nil, Nat.add_zero] at hlen
    simp only [save_in_place_loop, content_nil, List.append_nil]
    rw [hlen, List.take_length]
  | cons b rest ih =>
    obtain ⟨h1, h2⟩ := ha
    simp only [total_len_cons, block.len] at hlen
    simp only [save_in_place_loop, content_cons]
    cases hb : b.in_memory with
    | false =>
      simp only [Bool.false_eq_true, if_false]
      rw [ih (off + b.len) file h2 (by simp only [block.len]; omega)]
      have hd : b.data = (file.drop off).take b.data.length := h1 hb
      rw [← List.append_assoc]
      congr 2
      simp only [block.len]
      rw [List.take_add, ← hd]
    | true =>
      simp only [if_true, Bool.false_eq_true, if_false, write, ne_eq, block.len,
        not_true_eq_false, Option.map_none']
      have hw : write_at file off b.data =
          file.take off ++ b.data ++ file.drop (off + b.data.length) :=
        write_at_inside file off b.data (by omega)
      have hwl : (write_at file off b.data).length = file.length := by
        rw [hw]
        simp only [List.length_append, List.length_take, List.length_drop]
        omega
      have hwd : file.drop (off + b.len) = (write_at file off b.data).drop (off + b.len) := by
        rw [hw]
        simp only [block.len]
        rw [List.drop_left' (by simp only [List.length_append, List.length_take]; omega)]
      have hwt : (write_at file off b.data).take (off + b.len) = file.take off ++ b.data := by
        rw [hw]
        simp only [block.len]
        rw [List.take_left' (by simp only [List.length_append, List.length_take]; omega)]
      have := ih (off + b.len) (write_at file off b.data)
        (aligned_congr rest _ file _ hwd h2) (by rw [hwl]; simp only [block.len]; omega)
      simp only [block.len] at this hwt
      rw [this, hwt, List.append_assoc]
/-- The bytes `get` reads depend on the length and the content only. -/
theorem get_congr {m m' : file_model} (hsum : total_len m.chain = m._M_len)
    (hsum' : total_len m'.chain = m'._M_len) (hl : m'._M_len = m._M_len)
    (hc : content m'.chain = content m.chain) (off len : Nat) :
    get m' off len = get m off len := by
  by_cases h : off < m._M_len
  · rw [get_eq m off len hsum h, get_eq m' off len hsum' (by omega), hc, hl]
  · have h1 : seek m off = none := seek_none m off (by omega)
    have h2 : seek m' off = none := seek_none m' off (by omega)
    unfold file_model.get
    rw [h1, h2]

/-- The file `save` opens again is the file it has written. -/
theorem again_some {host : save_host} {bytes : List Nat} {device : Bool} {f : host_file}
    (h : host.again bytes device = some f) : f.bytes = bytes ∧ f.block_device = device := by
  unfold save_host.again at h
  split_ifs at h
  simp only [Option.some.injEq] at h
  subst h
  exact ⟨rfl, rfl⟩

/-- What `open` leaves when `save` calls it on the model it has just closed and
it returns `true`. -/
theorem open_own_facts (m : file_model) (fo : Option host_file) (mode : open_mode)
    (h : (open_own_name m.close fo mode).1 = true) :
    ∃ f, fo = some f ∧
    (open_own_name m.close fo mode).2._M_len = f.bytes.length ∧
    (open_own_name m.close fo mode).2._M_memory_used = 0 ∧
    (open_own_name m.close fo mode).2._M_modified = false ∧
    (open_own_name m.close fo mode).2._M_size_modified = false ∧
    (open_own_name m.close fo mode).2.chain =
      (if f.bytes.length ≠ 0 then [{ data := f.bytes, in_memory := false, addr := 0 }]
       else []) ∧
    (open_own_name m.close fo mode).2._M_changes = m._M_changes := by
  obtain ⟨f, hf, e⟩ := open_own_true h
  refine ⟨f, hf, ?_⟩
  rw [e]
  exact ⟨rfl, rfl, rfl, rfl, rfl, rfl⟩

/-- The ways through `save` that return `true` on a modified state: the file is
written in place, or the temporary file holds the content of the chain and the
file is that file, or the old one when `rename` fails; the model is the one
`open` makes of the file. -/
theorem save_true {m m' : file_model} {disk disk' : List Nat} {host : save_host}
    (hmod : m._M_modified = true) (h : m.save disk host = (true, m', disk')) :
    ((m._M_size_modified = false ∧
        save_in_place_loop false m.chain 0 disk none = (true, disk')) ∨
      (m._M_size_modified = true ∧ host.no_rename = false ∧ disk' = content m.chain) ∨
      (m._M_size_modified = true ∧ host.no_rename = true ∧ disk' = disk)) ∧
    m'._M_len = disk'.length ∧ m'._M_memory_used = 0 ∧
    m'._M_modified = false ∧ m'._M_size_modified = false ∧
    m'.chain = (if disk'.length ≠ 0 then [{ data := disk', in_memory := false, addr := 0 }]
      else []) ∧
    m'._M_changes = m._M_changes := by
  unfold file_model.save save_route at h
  simp only [hmod, Bool.not_true, Bool.false_eq_true, if_false] at h
  cases hs : m._M_size_modified with
  | false =>
    simp only [hs, Bool.not_false, if_true] at h
    unfold save_in_place at h
    simp only at h
    cases hw : save_in_place_loop host.no_seek m.chain 0 disk host.room with
    | mk ok d =>
      rw [hw] at h
      cases ok with
      | false => simp at h
      | true =>
        simp only [Bool.not_true, Bool.false_eq_true, if_false, Prod.mk.injEq] at h
        obtain ⟨h1, hm', hd'⟩ := h
        subst hd'
        obtain ⟨f, hf, f2, f3, f4, f5, f6, f7⟩ := open_own_facts m _ _ h1
        obtain ⟨hb, -⟩ := again_some hf
        rw [hm'] at f2 f3 f4 f5 f6 f7
        rw [hb] at f2 f6
        exact ⟨Or.inl ⟨rfl, save_in_place_loop_true _ _ _ _ _ _ hw⟩, f2, f3, f4, f5, f6, f7⟩
  | true =>
    simp only [hs, Bool.not_true, Bool.false_eq_true, if_false] at h
    by_cases ht : host.no_temporary = true
    · simp [ht] at h
    simp only [ht, Bool.false_eq_true, if_false] at h
    cases hw : save_loop m.chain [] host.room with
    | mk ok d =>
      rw [hw] at h
      cases ok with
      | false => simp at h
      | true =>
        simp only [Bool.not_true, Bool.false_eq_true, if_false, Prod.mk.injEq] at h
        obtain ⟨h1, hm', hd'⟩ := h
        have hd := save_loop_true _ _ _ _ hw
        simp only [List.nil_append] at hd
        obtain ⟨f, hf, f2, f3, f4, f5, f6, f7⟩ := open_own_facts m _ _ h1
        obtain ⟨hb, -⟩ := again_some hf
        rw [hm'] at f2 f3 f4 f5 f6 f7
        rw [hb, hd'] at f2 f6
        refine ⟨Or.inr ?_, f2, f3, f4, f5, f6, f7⟩
        cases hr : host.no_rename with
        | false =>
          rw [hr] at hd'
          simp only [Bool.false_eq_true, if_false] at hd'
          exact Or.inl ⟨rfl, rfl, by rw [← hd', hd]⟩
        | true =>
          rw [hr] at hd'
          simp only [if_true] at hd'
          exact Or.inr ⟨rfl, rfl, hd'.symm⟩

/-- What a call of `save` that returns `true` does to a modified state that
obeys the invariant, on a host whose `rename` succeeds: the file holds the
content, and the model is the one `open` makes of that file. -/
theorem save_effect {m m' : file_model} {disk disk' : List Nat} {resized : Bool}
    {host : save_host}
    (hok : state_ok disk resized m) (hmod : m._M_modified = true)
    (hren : host.no_rename = false)
    (h : m.save disk host = (true, m', disk')) :
    disk' = content m.chain ∧ m'._M_len = m._M_len ∧ m'._M_memory_used = 0 ∧
      m'._M_modified = false ∧ m'._M_size_modified = false ∧
      m'.chain = (if m._M_len ≠ 0 then [{ data := disk', in_memory := false, addr := 0 }]
        else []) ∧
      m'._M_changes = m._M_changes := by
  obtain ⟨⟨hsum, h64, hcap⟩, hf, hmem, hsize, hclean, hal, hjb⟩ := hok
  have hcl : (content m.chain).length = m._M_len := by rw [length_content, hsum]
  obtain ⟨hway, f2, f3, f4, f5, f6, f7⟩ := save_true hmod h
  have hd : disk' = content m.chain := by
    rcases hway with ⟨hs, hw⟩ | ⟨-, -, hw⟩ | ⟨-, hr, -⟩
    · rw [hs] at hsize
      rcases hal hsize.symm with ⟨hx, -⟩ | ⟨ha, hl⟩
      · rw [hmod] at hx; exact absurd hx (by decide)
      have hflush := save_flush m.chain 0 disk ha (by rw [Nat.zero_add, hsum, hl])
      simp only [List.take_zero, List.nil_append] at hflush
      rw [hflush] at hw
      exact (Prod.mk.inj hw).2.symm
    · exact hw
    · rw [hren] at hr; exact absurd hr (by decide)
  have hdl : disk'.length = m._M_len := by rw [hd, hcl]
  rw [hdl] at f2 f6
  exact ⟨hd, f2, f3, f4, f5, f6, f7⟩

/-- A call of `save` that returns `true` keeps the invariant of the orderly
runs, for the file it leaves on disk. -/
theorem save_inv {m m' : file_model} {disk disk' : List Nat} {resized : Bool}
    {host : save_host}
    (hok : state_ok disk resized m) (hren : host.no_rename = false)
    (h : m.save disk host = (true, m', disk')) :
    state_ok disk' false m' := by
  cases hmod : m._M_modified with
  | false =>
    unfold file_model.save save_route at h
    simp only [hmod, Bool.not_false, if_true, Prod.mk.injEq, true_and] at h
    obtain ⟨rfl, rfl⟩ := h
    have hr := (hok.2.2.2.2.1 hmod).1
    rw [hr] at hok
    exact hok
  | true =>
    obtain ⟨e1, e2, e3, e4, e5, e6, e7⟩ := save_effect hok hmod hren h
    obtain ⟨⟨hsum, h64, hcap⟩, hf, hmem, hsize, hclean, hal, hjb⟩ := hok
    have hcl : (content m.chain).length = m._M_len := by rw [length_content, hsum]
    have hch : total_len m'.chain = m._M_len ∧ owned m'.chain = 0 ∧
        aligned_from m'.chain 0 disk' ∧
        ∀ b ∈ m'.chain, b.in_memory = true → b.len ≤ kMemoryBlockSize := by
      rw [e6]
      split_ifs with h0
      · refine ⟨by simp [block.len, e1, hcl], rfl, ?_, ?_⟩
        · simp only [aligned_from, block.len, window_whole, and_true, implies_true]
        · intro b hb hm
          rw [List.mem_singleton.mp hb] at hm
          simp at hm
      · refine ⟨by simp at h0; simp [h0], rfl, trivial,
          fun _ hx => absurd hx (List.not_mem_nil _)⟩
    obtain ⟨t1, t2, t3, t4⟩ := hch
    refine ⟨⟨by rw [t1, e2], by rw [e2]; exact h64, t4⟩,
      ⟨by rw [e2]; exact hf.1, by rw [e3]; exact Nat.zero_lt_succ _⟩,
      by rw [e3, t2, Nat.mul_zero], e5, fun _ => ⟨rfl, t2⟩,
      fun _ => Or.inr ⟨t3, by rw [e2, e1, hcl]⟩, by rw [e7]; exact hjb⟩

/-- Every state of an orderly run obeys the invariant. -/
theorem orderly_inv {disk : List Nat} {resized : Bool} {m : file_model}
    (h : orderly disk resized m) : state_ok disk resized m := by
  induction h with
  | open_new undo_enabled filename f mode hlen hopen =>
    exact open_inv filename f mode rfl rfl rfl
      (fun _ hx => absurd hx (List.not_mem_nil _)) hlen hopen
  | open_closed filename f mode _ hlen hopen ih =>
    exact open_inv filename f mode rfl rfl rfl ih.2.2.2.2.2.2 hlen hopen
  | close _ ih => exact close_inv _ ih.2.2.2.2.2.2
  | save host m' disk' _ hren hs ih => exact save_inv ih hren hs
  | modify off data rc r m' _ hop hfit ih => exact modify_inv ih hop hfit
  | add off data rc r m' _ hop hfit ih => exact add_inv ih hop hfit
  | remove off len rc r m' _ hlen hop hfit ih => exact remove_inv ih hlen hop hfit
  | undo r m' _ hop hfit ih => exact undo_inv ih hop hfit
  | redo r m' _ hop hfit ih => exact redo_inv ih hop hfit

/-- An orderly run is a run of public operations. -/
theorem orderly_reachable {disk : List Nat} {resized : Bool} {m : file_model}
    (h : orderly disk resized m) : reachable disk resized m := by
  induction h with
  | open_new undo_enabled filename f mode hlen hopen =>
    exact reachable.open_new undo_enabled filename f mode hlen hopen
  | open_closed filename f mode _ hlen hopen ih =>
    exact reachable.open_again filename f mode (reachable.close ih) hlen hopen
  | close _ ih => exact reachable.close ih
  | save host m' disk' hprev hren hs ih =>
    exact reachable.save host m' disk' ih hs (save_inv (orderly_inv hprev) hren hs).2.1
  | modify off data rc r m' _ hop hfit ih => exact reachable.modify off data rc r m' ih hop hfit
  | add off data rc r m' _ hop hfit ih => exact reachable.add off data rc r m' ih hop hfit
  | remove off len rc r m' _ hlen hop hfit ih =>
    exact reachable.remove off len rc r m' ih hlen hop hfit
  | undo r m' _ hop hfit ih => exact reachable.undo r m' ih hop hfit
  | redo r m' _ hop hfit ih => exact reachable.redo r m' ih hop hfit

/-- The sample state `first_edited` is reached by an orderly run: `open`, then
one `modify`. -/
theorem first_edited_orderly : orderly [0, 1, 2, 3] false first_edited :=
  orderly.modify 1 [9] true operation_result.kSuccess first_edited
    (orderly.open_new true "file_model.bin" { bytes := [0, 1, 2, 3], block_device := false }
      open_mode.kReadWrite (by decide) (by decide))
    (by decide) (by decide)

/-- The sample state `first_grown` is reached by an orderly run: `open`, one
`modify`, one `add`. -/
theorem first_grown_orderly : orderly [0, 1, 2, 3] true first_grown :=
  orderly.add 4 [7] true operation_result.kSuccess first_grown first_edited_orderly
    (by decide) (by decide)

/-! ## Invariants of the orderly runs -/

/-- Block-sum invariant of the orderly runs: in every state of a run in which
`open` is called on a model that was just constructed or closed, the lengths of
the blocks of the chain sum to `_M_len`, the value `length()` returns. -/
theorem orderly_block_sum (disk : List Nat) (resized : Bool) (m : file_model)
    (h : orderly disk resized m) : total_len m.chain = m._M_len :=
  (orderly_inv h).1.1

/-- An instance of `orderly_block_sum`: the sample state `first_grown`. -/
theorem orderly_block_sum_sample :
    orderly [0, 1, 2, 3] true first_grown ∧
      total_len first_grown.chain = first_grown._M_len :=
  ⟨first_grown_orderly, orderly_block_sum _ _ _ first_grown_orderly⟩

/-- Memory accounting of the orderly runs: `_M_memory_used` is
`kMemoryBlockSize` times the number of blocks in memory of the chain; it is 0
after an `open` that returns `true` on a model that was just constructed or
closed, and after a `save` that returns `true`. -/
theorem orderly_memory_accounting (disk : List Nat) (resized : Bool) (m : file_model)
    (h : orderly disk resized m) :
    m._M_memory_used = kMemoryBlockSize * owned m.chain ∧
      (∀ (undo_enabled : Bool) (filename : String) (f : host_file) (mode : open_mode),
        (file_model.open (file_model.new undo_enabled) filename (some f) mode).1 = true →
        (file_model.open (file_model.new undo_enabled) filename (some f)
          mode).2._M_memory_used = 0) ∧
      (∀ (filename : String) (f : host_file) (mode : open_mode),
        (file_model.open m.close filename (some f) mode).1 = true →
        (file_model.open m.close filename (some f) mode).2._M_memory_used = 0) ∧
      ∀ (host : save_host) (m' : file_model) (disk' : List Nat),
        m.save disk host = (true, m', disk') → m'._M_memory_used = 0 := by
  have hok := orderly_inv h
  refine ⟨hok.2.2.1, ?_, ?_, ?_⟩
  · intro undo_enabled filename f mode hopen
    rw [open_facts hopen]
    rfl
  · intro filename f mode hopen
    rw [open_facts hopen]
    rfl
  · intro host m' disk' hs
    cases hmod : m._M_modified with
    | false =>
      unfold file_model.save save_route at hs
      simp only [hmod, Bool.not_false, if_true, Prod.mk.injEq, true_and] at hs
      rw [← hs.1, hok.2.2.1, (hok.2.2.2.2.1 hmod).2, Nat.mul_zero]
    | true => exact (save_true hmod hs).2.2.1

/-- An instance of `orderly_memory_accounting`: the sample state `first_grown`. -/
theorem orderly_memory_accounting_sample :
    orderly [0, 1, 2, 3] true first_grown ∧
      first_grown._M_memory_used = kMemoryBlockSize * owned first_grown.chain :=
  ⟨first_grown_orderly, (orderly_memory_accounting _ _ _ first_grown_orderly).1⟩

/-- An `add` of no bytes returns `kSuccess` right after `open` and
`_M_size_modified` is still `false`. -/
theorem zero_length_add_keeps_size_flag :
    add (opened [0, 1, 2, 3]) 0 [] true =
        some (operation_result.kSuccess, opened [0, 1, 2, 3]) ∧
      (opened [0, 1, 2, 3])._M_size_modified = false := by
  decide

/-- The flag `_M_size_modified` in the orderly runs: it is `true` if and only
if an `add` or a `remove` of at least one byte (called by the client, or by
`undo` or `redo`) has returned `kSuccess` since the last `open`, `close` or
`save`; a call of `modify` changes neither `_M_size_modified` nor the
length. -/
theorem orderly_size_modified (disk : List Nat) (resized : Bool) (m : file_model)
    (h : orderly disk resized m) :
    (m._M_size_modified = true ↔ resized = true) ∧
      ∀ (off : Nat) (data : List Nat) (rc : Bool) (r : operation_result) (m' : file_model),
        modify m off data rc = some (r, m') →
          m'._M_size_modified = m._M_size_modified ∧ m'._M_len = m._M_len := by
  refine ⟨by rw [(orderly_inv h).2.2.2.1], ?_⟩
  intro off data rc r m' hm
  have hf := modify_frame hm
  exact ⟨hf.1, hf.2.2.2.2.1⟩

/-- An instance of `orderly_size_modified`: the sample state `first_grown`. -/
theorem orderly_size_modified_sample :
    orderly [0, 1, 2, 3] true first_grown ∧
      (first_grown._M_size_modified = true ↔ true = true) :=
  ⟨first_grown_orderly, (orderly_size_modified _ _ _ first_grown_orderly).1⟩

/-- What `save` does in the orderly runs on a host whose `rename` succeeds.
For a state with `_M_modified = true`, on the in-place path and on the rewrite
path alike, a `save` that returns `true` leaves the logical content in the file
on disk; afterwards the length and every `get` are what they were,
`_M_memory_used = 0`, `_M_modified` and `_M_size_modified` are `false`, the
chain is one block in disk that holds the file (no block when the length is
0), and a second `save` returns `true` and changes neither the model nor the
file. -/
theorem orderly_save (disk : List Nat) (resized : Bool) (m m' : file_model)
    (disk' : List Nat) (host : save_host) (h : orderly disk resized m)
    (hmod : m._M_modified = true) (hren : host.no_rename = false)
    (hs : m.save disk host = (true, m', disk')) :
    disk' = content m.chain ∧ m'._M_len = m._M_len ∧
      (∀ off len, get m' off len = get m off len) ∧
      m'._M_memory_used = 0 ∧ m'._M_modified = false ∧ m'._M_size_modified = false ∧
      (m'.chain = [{ data := disk', in_memory := false, addr := 0 }] ∨
        (m'.chain = [] ∧ m'._M_len = 0)) ∧
      ∀ host', m'.save disk' host' = (true, m', disk') := by
  have hok := orderly_inv h
  obtain ⟨e1, e2, e3, e4, e5, e6, -⟩ := save_effect hok hmod hren hs
  have hok' := save_inv hok hren hs
  have hcl : (content m.chain).length = m._M_len := by rw [length_content, hok.1.1]
  have hcont : content m'.chain = content m.chain := by
    rw [e6]
    split_ifs with h0
    · simp [e1]
    · simp only [ne_eq, not_not] at h0
      rw [h0] at hcl
      rw [List.length_eq_zero.mp hcl]
      rfl
  refine ⟨e1, e2, get_congr hok.1.1 hok'.1.1 e2 hcont, e3, e4, e5, ?_, ?_⟩
  · rw [e6]
    split_ifs with h0
    · exact Or.inl rfl
    · simp only [ne_eq, not_not] at h0
      exact Or.inr ⟨rfl, by rw [e2, h0]⟩
  · intro host'
    unfold file_model.save save_route
    simp only [e4, Bool.not_false, if_true]

/-- An instance of `orderly_save`: the sample state `first_edited` on a host
on which no system call fails. -/
theorem orderly_save_sample :
    orderly [0, 1, 2, 3] false first_edited ∧ first_edited._M_modified = true ∧
      first_edited.save [0, 1, 2, 3] steady =
        (true, (first_edited.save [0, 1, 2, 3] steady).2.1, [0, 9, 2, 3]) ∧
      [0, 9, 2, 3] = content first_edited.chain ∧
      (first_edited.save [0, 1, 2, 3] steady).2.1._M_len = first_edited._M_len ∧
      (first_edited.save [0, 1, 2, 3] steady).2.1.chain =
          [{ data := [0, 9, 2, 3], in_memory := false, addr := 0 }] :=
  ⟨first_edited_orderly, by decide, by decide, by decide, by decide, by decide⟩

/-! ## seek (C33) -/

theorem prefix_step (c : List block) (i : Nat) (h : i < c.length) :
    total_len (c.take (i + 1)) = total_len (c.take i) + (blk c i).len := by
  induction c generalizing i with
  | nil => simp at h
  | cons b c ih =>
    cases i with
    | zero => simp [blk]
    | succ i =>
      simp only [List.length_cons, Nat.add_lt_add_iff_right] at h
      have := ih i h
      simp only [List.take_succ_cons, total_len_cons, blk, List.getD_cons_succ] at this ⊢
      omega

theorem prefix_mono (c : List block) (j i : Nat) (h : j ≤ i) :
    total_len (c.take j) ≤ total_len (c.take i) := by
  have h1 : c.take j = (c.take i).take j := by
    rw [List.take_take, Nat.min_eq_left h]
  have h2 := (take_drop_chain (c.take i) j).1
  rw [← h1] at h2
  omega

/-- `C33`: seek locates the block that contains the offset.  For a chain whose
block lengths sum to `_M_len`, `seek(off)` fails if and only if
`off >= _M_len`; a result `(b, pos)` has `pos < b->len` and the lengths of the
blocks before `b` plus `pos` are `off`; and an offset at which a block of at
least one byte starts gives that block with `pos = 0`. -/
theorem seek_locates (m : file_model) (off : Nat) (hsum : total_len m.chain = m._M_len) :
    (seek m off = none ↔ off ≥ m._M_len) ∧
      (∀ i pos, seek m off = some (i, pos) →
        i < m.chain.length ∧ pos < (blk m.chain i).len ∧
          total_len (m.chain.take i) + pos = off) ∧
      ∀ i, i < m.chain.length → total_len (m.chain.take i) = off →
        0 < (blk m.chain i).len → seek m off = some (i, 0) := by
  have hpart : ∀ i pos, seek m off = some (i, pos) →
      i < m.chain.length ∧ pos < (blk m.chain i).len ∧
        total_len (m.chain.take i) + pos = off := by
    intro i pos hs
    obtain ⟨pre, b, rest, hc, hl, hp, hoff⟩ := seek_some hs
    obtain ⟨ht, -, -, hblk⟩ := decompose_take hc hl
    refine ⟨?_, by rw [hblk]; exact hp, by rw [ht]; exact hoff⟩
    rw [hc, List.length_append, List.length_cons]
    omega
  refine ⟨⟨fun hn => ?_, seek_none m off⟩, hpart, ?_⟩
  · by_contra hlt
    obtain ⟨r, hr⟩ := seek_isSome m off hsum (by omega)
    rw [hn] at hr
    exact Option.noConfusion hr
  · intro i hi htot hpos
    have hstep := prefix_step m.chain i hi
    have hall : total_len (m.chain.take (i + 1)) ≤ total_len m.chain := by
      have := (take_drop_chain m.chain (i + 1)).1
      omega
    obtain ⟨⟨j, p⟩, hr⟩ := seek_isSome m off hsum (by omega)
    obtain ⟨hj, hp, hjoff⟩ := hpart j p hr
    have hstepj := prefix_step m.chain j hj
    have hji : j = i := by
      rcases Nat.lt_trichotomy j i with hlt | heq | hgt
      · have := prefix_mono m.chain (j + 1) i hlt
        omega
      · exact heq
      · have := prefix_mono m.chain (i + 1) j hgt
        omega
    subst hji
    have hp0 : p = 0 := by omega
    rw [hr, hp0]

/-- Witness of `C33`: the sample chain of three blocks of 4, 2 and 6 bytes at
offset 4, the boundary between the first and the second block: `seek` gives the
second block with `pos = 0`, not the first block with `pos = 4`. -/
theorem seek_locates_witness :
    total_len sample_edited.chain = sample_edited._M_len ∧
      sample_edited.chain.map block.len = [4, 2, 6] ∧
      (seek sample_edited 4 = none ↔ 4 ≥ sample_edited._M_len) ∧
      (∀ i pos, seek sample_edited 4 = some (i, pos) →
        i < sample_edited.chain.length ∧ pos < (blk sample_edited.chain i).len ∧
          total_len (sample_edited.chain.take i) + pos = 4) ∧
      seek sample_edited 4 = some (1, 0) ∧ seek sample_edited 4 ≠ some (0, 4) :=
  have h := seek_locates sample_edited 4 (by decide)
  ⟨by decide, by decide, h.1, h.2.1, h.2.2 1 (by decide) (by decide) (by decide), by decide⟩

/-! ## The journal under undo and redo (C39) -/

/-- `C39`: undo and redo never rewrite history.  In every state, a call of
`undo` or `redo` leaves the journal as it was (the number of records and every
record), whatever it returns; the cursor `_M_nchange` moves by one when the
call returns `kSuccess` and stays otherwise. -/
theorem undo_redo_keep_journal (m m' : file_model) (r : operation_result) :
    (undo m = some (r, m') →
      m'._M_changes = m._M_changes ∧
        (r = operation_result.kSuccess → m'._M_nchange = m._M_nchange - 1) ∧
        (r ≠ operation_result.kSuccess → m'._M_nchange = m._M_nchange)) ∧
    (redo m = some (r, m') →
      m'._M_changes = m._M_changes ∧
        (r = operation_result.kSuccess → m'._M_nchange = m._M_nchange + 1) ∧
        (r ≠ operation_result.kSuccess → m'._M_nchange = m._M_nchange)) := by
  have hfwd : ∀ (r1 : operation_result) (m1 : file_model),
      ((∃ off d, modify m off d false = some (r1, m1)) ∨
        (∃ off len, remove m off len false = some (r1, m1)) ∨
        (∃ off d, add m off d false = some (r1, m1))) →
      m1._M_nchange = m._M_nchange ∧ m1._M_changes = m._M_changes := by
    intro r1 m1 h
    rcases h with ⟨off, d, h⟩ | ⟨off, len, h⟩ | ⟨off, d, h⟩
    · exact (modify_frame h).2.2.2.2.2.1 rfl
    · exact (remove_frame h).2.2.2.1 rfl
    · exact (add_frame h).2.2.2.1 rfl
  constructor
  · intro h
    rcases undo_inner h with ⟨rfl, hr⟩ | ⟨-, -, -, r1, m1, hop, hres⟩
    · refine ⟨rfl, fun hs => ?_, fun _ => rfl⟩
      rcases hr with ⟨-, hr⟩ | ⟨-, hr⟩ | ⟨-, hr⟩ <;> rw [hr] at hs <;> cases hs
    · obtain ⟨hn, hc⟩ := hfwd r1 m1 hop
      rcases hres with ⟨-, hr, hm⟩ | ⟨hne, hr, hm⟩
      · subst hm
        exact ⟨hc, fun _ => by rw [← hn], fun hx => absurd hr hx⟩
      · subst hm
        exact ⟨hc, fun hx => absurd (hr ▸ hx) hne, fun _ => hn⟩
  · intro h
    rcases redo_inner h with ⟨rfl, hr⟩ | ⟨-, -, -, r1, m1, hop, hres⟩
    · refine ⟨rfl, fun hs => ?_, fun _ => rfl⟩
      rcases hr with ⟨-, hr⟩ | ⟨-, hr⟩ | ⟨-, hr⟩ <;> rw [hr] at hs <;> cases hs
    · obtain ⟨hn, hc⟩ := hfwd r1 m1 hop
      rcases hres with ⟨-, hr, hm⟩ | ⟨hne, hr, hm⟩
      · subst hm
        exact ⟨hc, fun _ => by rw [← hn], fun hx => absurd hr hx⟩
      · subst hm
        exact ⟨hc, fun hx => absurd (hr ▸ hx) hne, fun _ => hn⟩

theorem undo_redo_keep_journal_witness :
    undo first_edited = some (operation_result.kSuccess, state_after (undo first_edited)) ∧
      (state_after (undo first_edited))._M_changes = first_edited._M_changes ∧
      (operation_result.kSuccess = operation_result.kSuccess →
        (state_after (undo first_edited))._M_nchange = first_edited._M_nchange - 1) ∧
      (operation_result.kSuccess ≠ operation_result.kSuccess →
        (state_after (undo first_edited))._M_nchange = first_edited._M_nchange) :=
  ⟨by decide, (undo_redo_keep_journal first_edited (state_after (undo first_edited))
    operation_result.kSuccess).1 (by decide)⟩

/-- A defined run is its result code and its state. -/
theorem run_of_result {x : Option (operation_result × file_model)} {r : operation_result}
    (h : result_of x = some r) : x = some (r, state_after x) := by
  cases x with
  | none => simp [result_of] at h
  | some p =>
    obtain ⟨r1, m1⟩ := p
    simp only [result_of, Option.map_some', Option.some.injEq] at h
    subst h
    rfl

/-- The sample state `scenario_two` is reached by an orderly run: `open`, then
one `modify`. -/
theorem scenario_two_orderly : orderly (List.replicate 6000 0) false scenario_two :=
  orderly.modify 4090 [65, 66, 67, 68, 69, 70, 71, 72, 73, 74] true
    operation_result.kSuccess scenario_two
    (orderly.open_new true "file_model.bin"
      { bytes := List.replicate 6000 0, block_device := false } open_mode.kReadWrite
      (by rw [List.length_replicate]; decide) (open_ok _ _ _ _ (by decide) rfl))
    (run_of_result (by decide!)) (by decide!)

/-- The sample state `scenario_two` is reachable. -/
theorem scenario_two_reachable : reachable (List.replicate 6000 0) false scenario_two :=
  orderly_reachable scenario_two_orderly

/-! ## The block walks (C38) -/

/-- The final loop of `remove` ends at a block of the list when the list holds
the bytes to remove. -/
theorem remove_loop_returns (c : List block) (len : Nat) (hlen : 0 < len)
    (hin : len ≤ total_len c) : ∃ r, remove_loop c len = some r := by
  induction c generalizing len with
  | nil => simp at hin; omega
  | cons b rest ih =>
    simp only [total_len_cons] at hin
    simp only [remove_loop]
    by_cases h1 : len ≥ b.len
    · rw [if_pos h1]
      by_cases h2 : len - b.len > 0
      · rw [if_pos h2]
        obtain ⟨r, hr⟩ := ih (len - b.len) h2 (by omega)
        exact ⟨_, by rw [hr]; rfl⟩
      · rw [if_neg h2]
        exact ⟨_, rfl⟩
    · rw [if_neg h1]
      exact ⟨_, rfl⟩

/-- `C38`: the block walks never step onto the sentinel.  For a chain whose
block lengths sum to `_M_len` and a seek result `(b, pos)` for `off`: the loop
of `modify` for `len > 0` bytes with `off + len <= _M_len`, and the final loop
of `remove` for a length clamped to `_M_len - off` that does not end in `b`,
return a result.  The loops of the model return no result exactly when the
block pointer is the header (the list is exhausted) while bytes are left, or
when the fuel `len + number of blocks` runs out: so every iteration is at a
block of the chain and both loops terminate. -/
theorem walks_stay_off_sentinel (m : file_model) (off i pos : Nat)
    (hsum : total_len m.chain = m._M_len) (h64 : m._M_len < 18446744073709551616)
    (hs : seek m off = some (i, pos)) :
    (∀ data : List Nat, 0 < data.length → off + data.length ≤ m._M_len →
      ∃ c n, modify_loop (data.length + m.chain.length) (m.chain.drop i) pos data =
        some (c, n)) ∧
    ∀ len : Nat, 0 < len → off + len ≤ m._M_len → (blk m.chain i).len < pos + len →
      ∃ c freed, remove_loop (m.chain.drop (if pos ≠ 0 then i + 1 else i))
        (if pos ≠ 0 then sub64 len ((blk m.chain i).len - pos) else len) = some (c, freed) := by
  obtain ⟨pre, b, rest, hc, hl, hp, hoff⟩ := seek_some hs
  obtain ⟨ht, hd, hd1, hblk⟩ := decompose_take hc hl
  have htot : total_len pre + (b.len + total_len rest) = m._M_len := by
    rw [← hsum, hc]; simp
  constructor
  · intro data hdata hin
    rw [hd]
    obtain ⟨c, n, hloop, -⟩ := modify_loop_spec (data.length + m.chain.length) b rest pos data
      (Nat.le_of_lt hp) hdata (by simp only [total_len_cons]; omega)
      (by simp only [total_len_cons]; omega) (by rw [hc]; simp)
    exact ⟨c, n, hloop⟩
  · intro len hlen hin hrun
    rw [hblk] at hrun ⊢
    by_cases hp0 : pos = 0
    · subst hp0
      simp only [ne_eq, not_true_eq_false, if_false, hd]
      obtain ⟨⟨c, freed⟩, hr⟩ := remove_loop_returns (b :: rest) len hlen
        (by simp only [total_len_cons]; omega)
      exact ⟨c, freed, hr⟩
    · simp only [ne_eq, hp0, not_false_eq_true, if_true, hd1]
      rw [sub64_of_le (by omega) (by omega)]
      obtain ⟨⟨c, freed⟩, hr⟩ := remove_loop_returns rest (len - (b.len - pos)) (by omega)
        (by omega)
      exact ⟨c, freed, hr⟩

theorem walks_stay_off_sentinel_witness :
    total_len three_pieces.chain = three_pieces._M_len ∧
      three_pieces._M_len < 18446744073709551616 ∧
      seek three_pieces 1 = some (0, 1) ∧
      (∀ data : List Nat, 0 < data.length → 1 + data.length ≤ three_pieces._M_len →
        ∃ c n, modify_loop (data.length + three_pieces.chain.length)
          (three_pieces.chain.drop 0) 1 data = some (c, n)) ∧
      ∀ len : Nat, 0 < len → 1 + len ≤ three_pieces._M_len →
        (blk three_pieces.chain 0).len < 1 + len →
        ∃ c freed, remove_loop (three_pieces.chain.drop (if 1 ≠ 0 then 0 + 1 else 0))
          (if 1 ≠ 0 then sub64 len ((blk three_pieces.chain 0).len - 1) else len) =
            some (c, freed) :=
  ⟨by decide, by decide, by decide,
    walks_stay_off_sentinel three_pieces 1 0 1 (by decide) (by decide) (by decide)⟩

/-! ## add at the end of the file (C37) -/

/-- `C37`: appending is exact when the last block is not a block in memory of
length 0.  In a writable regular-file state that obeys the chain invariant and
whose last block is not a block in memory of length 0, `add(length, data, len)`
with `len > 0`, `len <= kMaxMemoryUsed` and `memory_used + len <=
kMaxMemoryUsed` returns `kSuccess`, the content becomes `old ++ data` and the
length `length + len` (as a 64-bit value); this covers the data that fills the
room of a last block in memory and goes on in new blocks. -/
theorem add_appends (m : file_model) (data : List Nat) (rc : Bool)
    (hok : chain_ok m) (hrw : m._M_read_only = false) (hreg : m._M_block_device = false)
    (hlen : 0 < data.length) (hmax : data.length ≤ kMaxMemoryUsed)
    (hmem : m._M_memory_used + data.length ≤ kMaxMemoryUsed)
    (hlast : ¬ ((blk m.chain (m.chain.length - 1)).in_memory = true ∧
      (blk m.chain (m.chain.length - 1)).len = 0)) :
    ∃ m', add m m._M_len data rc = some (operation_result.kSuccess, m') ∧
      content m'.chain = content m.chain ++ data ∧
      m'._M_len = u64 (m._M_len + data.length) := by
  obtain ⟨hsum, hlen64, hcap⟩ := hok
  have hseek : seek m m._M_len = none := seek_none m _ (le_refl _)
  have hkmax : kMaxMemoryUsed = 104857600 := by decide
  have hkb : kMemoryBlockSize = 4096 := by decide
  have nbc := add_blocks_content data.length data (le_refl _)
  unfold file_model.add
  simp only [hrw, hreg, Bool.false_eq_true, if_false, hseek, if_true]
  rw [if_neg (by omega), if_neg (by omega), if_neg (by rw [u64_of_lt (by omega)]; omega)]
  rcases List.eq_nil_or_concat m.chain with hnil | ⟨pre, b, hc⟩
  · simp [hnil, blk, header, sub64, u64, nbc]
  · have hc' : m.chain = pre ++ b :: [] := by rw [hc]; simp
    have hl : pre.length = m.chain.length - 1 := by rw [hc']; simp
    obtain ⟨ht, hd, hd1, hblk⟩ := decompose_take hc' hl
    have ht1 := take_succ_chain hc' hl
    rw [hblk] at hlast
    have htot : total_len pre + b.data.length = m._M_len := by
      rw [← hsum, hc']; simp [block.len]
    have hbcap : b.in_memory = true → b.data.length ≤ 4096 :=
      fun h => hcap b (by rw [hc']; simp) h
    have hcont : content m.chain = content pre ++ b.data := by rw [hc']; simp
    rw [hcont]
    simp only [hblk]
    generalize m.chain.length - 1 = i at hl ht hd hd1 ht1 ⊢
    simp only [u64, sub64, block.len, hkb] at hlast ⊢
    generalize hleft : (4096 + 18446744073709551616 - b.data.length) % 18446744073709551616 =
      left
    by_cases hA : b.in_memory = true ∧ data.length ≤ left
    · have hb4 := hbcap hA.1
      rw [if_pos hA, ht, hd1, if_neg (by
        simp only [List.length_append, List.length_take, List.length_drop]; omega)]
      refine ⟨_, rfl, ?_, rfl⟩
      simp
    rw [if_neg hA]
    have hb2 : ∀ b2 : block, List.take i (pre ++ [b2]) = pre ∧
        List.drop i (pre ++ [b2]) = [b2] ∧ List.take (i + 1) (pre ++ [b2]) = pre ++ [b2] := by
      intro b2
      obtain ⟨x1, x2, -, -⟩ := decompose_take (rfl : pre ++ [b2] = pre ++ b2 :: []) hl
      exact ⟨x1, x2, take_succ_chain rfl hl⟩
    rw [ht, hd1]
    by_cases hfill : b.in_memory = true ∧ True ∧ left > 0
    · have hbm := hfill.1
      have hb4 := hbcap hbm
      have hp0 : b.data.length ≠ 0 := fun h0 => hlast ⟨hbm, h0⟩
      have hnA : left < data.length := by
        by_contra hcon
        exact hA ⟨hbm, by omega⟩
      have nbc2 := add_blocks_content (List.drop left data).length (List.drop left data)
        (le_refl _)
      simp only [if_pos hfill, hb2, hp0, ne_eq, not_true_eq_false, not_false_eq_true,
        false_and, and_false, if_false, if_true]
      refine ⟨_, rfl, ?_, ?_⟩
      · simp only [content_append, content_cons, content_nil, nbc2, List.append_nil,
          List.append_assoc, List.take_append_drop]
      · simp only [List.length_drop]
        omega
    · have hdisk0 : b.data.length = 0 → b.in_memory = false := by
        intro h0
        cases hbm : b.in_memory with
        | false => rfl
        | true => exact absurd ⟨hbm, h0⟩ hlast
      simp only [if_neg hfill, ht, hd, ht1, ne_eq, not_true_eq_false, false_and, and_false,
        if_false]
      by_cases hp0 : b.data.length = 0
      · simp only [hp0, if_true]
        refine ⟨_, rfl, ?_, rfl⟩
        simp only [content_append, content_cons, content_nil, nbc, List.append_nil,
          List.length_eq_zero.mp hp0, List.append_assoc]
      · simp only [hp0, if_false]
        refine ⟨_, rfl, ?_, rfl⟩
        simp only [content_append, content_cons, content_nil, nbc, List.append_nil,
          List.append_assoc]

theorem add_appends_witness :
    chain_ok first_edited ∧ first_edited._M_read_only = false ∧
      first_edited._M_block_device = false ∧
      (blk first_edited.chain (first_edited.chain.length - 1)).in_memory = true ∧
      (blk first_edited.chain (first_edited.chain.length - 1)).len = 4 ∧
      ∃ m', add first_edited first_edited._M_len (List.replicate 4100 7) true =
          some (operation_result.kSuccess, m') ∧
        content m'.chain = content first_edited.chain ++ List.replicate 4100 7 ∧
        m'._M_len = u64 (first_edited._M_len + (List.replicate 4100 7).length) :=
  ⟨by decide, by decide, by decide, by decide, by decide,
    add_appends first_edited (List.replicate 4100 7) true (by decide) (by decide) (by decide)
      (by rw [List.length_replicate]; decide)
      (by rw [List.length_replicate]; decide)
      (by rw [List.length_replicate]; decide) (by decide)⟩

/-! ## The buffer `modify` makes of a block in disk (C34) -/

/-- The window of a block with the data written at `pos`, as the buffer is
filled: the bytes before `pos`, the data, the bytes after the data. -/
theorem written_window (B data : List Nat) (pos begin W : Nat) (hb : begin ≤ pos)
    (hp : pos + data.length ≤ B.length) (hw : pos - begin + data.length ≤ W) :
    ((B.take pos ++ data ++ B.drop (pos + data.length)).drop begin).take W =
      (B.drop begin).take (pos - begin) ++ data ++
        (B.drop (pos + data.length)).take (W - (pos - begin) - data.length) := by
  have h1 : (B.take pos).length = pos := by rw [List.length_take]; omega
  have h2 : ((B.take pos).drop begin).length = pos - begin := by
    rw [List.length_drop, h1]
  have h3 : (B.take pos ++ data ++ B.drop (pos + data.length)).drop begin =
      (B.take pos).drop begin ++ (data ++ B.drop (pos + data.length)) := by
    rw [List.append_assoc, List.drop_append_of_le_length (by omega)]
  have h4 : (B.take pos).drop begin = (B.drop begin).take (pos - begin) := by
    rw [List.drop_take]
  have h5 : ((B.take pos).drop begin).take W = (B.take pos).drop begin :=
    List.take_of_length_le (by omega)
  have h6 : data.take (W - (pos - begin)) = data := List.take_of_length_le (by omega)
  rw [h3, List.take_append_eq_append_take, h5, h2, List.take_append_eq_append_take, h6, h4,
    List.append_assoc]

/-- The loop body of `modify` for a block in disk, when the data ends inside the
block and inside the buffer: one block in memory between the parts of the block
that stay in disk, and no data left. -/
theorem modify_disk_window (b : block) (pos : Nat) (data : List Nat) (begin W : Nat)
    (hbegin : begin = if pos ≤ kMidMemoryBlock then 0 else pos - kMidMemoryBlock)
    (hW : W = min kMemoryBlockSize (b.len - begin))
    (hdisk : b.in_memory = false) (hlen : 0 < data.length)
    (hin : pos + data.length ≤ b.len) (hroom : pos - begin + data.length ≤ kMemoryBlockSize)
    (h64 : b.len < 18446744073709551616) :
    modify_disk b pos data =
      ((if begin = 0 then [] else [{ b with data := b.data.take begin }]) ++
        [{ data := ((b.data.take pos ++ data ++ b.data.drop (pos + data.length)).drop
            begin).take W, in_memory := true, addr := 0 }],
       (if begin + W < b.len then
          [{ data := b.data.drop (begin + W), in_memory := false, addr := b.addr + (begin + W) }]
        else []), []) := by
  have hkb : kMemoryBlockSize = 4096 := by decide
  have hkm : kMidMemoryBlock = 2048 := by decide
  rw [hkb] at hW hroom
  rw [hkm] at hbegin
  simp only [block.len] at hin h64 hW
  have hbp : begin ≤ pos := by rw [hbegin]; split_ifs <;> omega
  have hcount : (if pos ≤ 2048 then pos else 2048) = pos - begin := by
    rw [hbegin]; split_ifs <;> omega
  have hl : modify_disk_l b pos (pos - begin) data.length = data.length := by
    unfold modify_disk_l
    simp only [hkb, u64, block.len]
    split_ifs <;> omega
  have htail : modify_disk_tail b (pos + data.length) (data.length - data.length)
      (4096 - (pos - begin) - data.length) =
      (b.data.drop (pos + data.length)).take (W - (pos - begin) - data.length) := by
    unfold modify_disk_tail
    simp only [block.len, Nat.sub_self, true_and]
    split_ifs with h1 h2 h3
    · congr 1; omega
    · congr 1; omega
    · rw [List.drop_of_length_le (by omega)]; simp
    · have : W - (pos - begin) - data.length = 0 := by omega
      rw [this]; simp
  have hww := written_window b.data data pos begin W hbp hin (by omega)
  have hwl : (((b.data.take pos ++ data ++ b.data.drop (pos + data.length)).drop
      begin).take W).length = W := by
    simp only [List.length_take, List.length_drop, List.length_append]
    omega
  unfold modify_disk
  simp only [hkb, hkm, hcount, ← hbegin, hl, htail, List.take_length, List.drop_length]
  rw [← hww]
  unfold modify_disk_link
  simp only [List.length_take, hwl, block.len] at hwl ⊢
  have hC : pos - begin + data.length +
      (W - (pos - begin) - data.length) ⊓ (List.drop (pos + data.length) b.data).length =
      W := by
    rw [List.length_drop]; omega
  simp only [hC, hdisk]
  by_cases hb0 : begin = 0
  · simp only [hb0, if_true, List.nil_append, Nat.zero_add, Nat.sub_zero] at hW ⊢
    by_cases hwb : W = b.data.length
    · rw [if_pos hwb, if_neg (by omega)]
    · rw [if_neg hwb, if_pos (by omega)]
  · simp only [hb0, if_false]
    by_cases hwb : begin + W < b.data.length
    · simp only [if_pos hwb]; rfl
    · simp only [if_neg hwb]; rfl

/-- `C34`: the materialisation window of `modify`.  When `modify(off, data,
len)` with `len > 0` lands at position `pos` of a block in disk of length `L`
and the data ends inside that block and inside the buffer's room
(`pos + len <= L` and `(pos - begin) + len <= kMemoryBlockSize`, where `begin`
is 0 if `pos <= kMidMemoryBlock` and `pos - kMidMemoryBlock` otherwise), the
call returns `kSuccess`, one block in memory is created, it holds the range
`[begin, begin + W)` of the block with the data written at `pos`, where
`W = min(kMemoryBlockSize, L - begin)`, the rest of the block stays in disk as
a left part `[0, begin)` and a right part `[begin + W, L)` (each only if it is
not empty), and `_M_memory_used` grows by `kMemoryBlockSize`. -/
theorem modify_materialises_window (m : file_model) (off : Nat) (data : List Nat) (rc : Bool)
    (i pos begin W : Nat)
    (hsum : total_len m.chain = m._M_len) (h64 : m._M_len < 18446744073709551616)
    (hrw : m._M_read_only = false)
    (hs : seek m off = some (i, pos)) (hdisk : (blk m.chain i).in_memory = false)
    (hbegin : begin = if pos ≤ kMidMemoryBlock then 0 else pos - kMidMemoryBlock)
    (hW : W = min kMemoryBlockSize ((blk m.chain i).len - begin))
    (hlen : 0 < data.length) (hin : pos + data.length ≤ (blk m.chain i).len)
    (hroom : pos - begin + data.length ≤ kMemoryBlockSize)
    (hmem : m._M_memory_used + data.length ≤ kMaxMemoryUsed) :
    ∃ m', modify m off data rc = some (operation_result.kSuccess, m') ∧
      m'._M_memory_used = m._M_memory_used + kMemoryBlockSize ∧
      owned m'.chain = owned m.chain + 1 ∧
      m'.chain = m.chain.take i ++
        ((if begin = 0 then []
          else [{ (blk m.chain i) with data := (blk m.chain i).data.take begin }]) ++
         [{ data := (((blk m.chain i).data.take pos ++ data ++
              (blk m.chain i).data.drop (pos + data.length)).drop begin).take W,
            in_memory := true, addr := 0 }] ++
         (if begin + W < (blk m.chain i).len then
            [{ data := (blk m.chain i).data.drop (begin + W), in_memory := false,
               addr := (blk m.chain i).addr + (begin + W) }]
          else [])) ++
        m.chain.drop (i + 1) := by
  obtain ⟨pre, b, rest, hc, hl, hp, hoff⟩ := seek_some hs
  obtain ⟨ht, hd, hd1, hblk⟩ := decompose_take hc hl
  rw [hblk] at hdisk hW hin ⊢
  have hkb : kMemoryBlockSize = 4096 := by decide
  have hkmax : kMaxMemoryUsed = 104857600 := by decide
  have htot : total_len pre + (b.len + total_len rest) = m._M_len := by
    rw [← hsum, hc]; simp
  have hbp : begin ≤ pos := by rw [hbegin]; split_ifs <;> omega
  have hwin := modify_disk_window b pos data begin W hbegin hW hdisk hlen hin hroom (by omega)
  obtain ⟨k, hk⟩ : ∃ k, data.length + m.chain.length = k + 1 := ⟨data.length + m.chain.length - 1,
    by omega⟩
  have hloop : modify_loop (data.length + m.chain.length) (m.chain.drop i) pos data =
      some ((if begin = 0 then [] else [{ b with data := b.data.take begin }]) ++
        [{ data := ((b.data.take pos ++ data ++ b.data.drop (pos + data.length)).drop
            begin).take W, in_memory := true, addr := 0 }] ++
       ((if begin + W < b.len then
          [{ data := b.data.drop (begin + W), in_memory := false, addr := b.addr + (begin + W) }]
        else []) ++ rest), 1) := by
    rw [hk, hd]
    simp only [modify_loop, hdisk, Bool.not_false, if_true, hwin, List.length_nil,
      gt_iff_lt, Nat.lt_irrefl, if_false]
  unfold file_model.modify
  simp only [hrw, Bool.false_eq_true, if_false, hs, hloop]
  rw [if_neg (by rw [u64_of_lt (by omega)]; omega), if_neg (by omega), if_neg (by omega),
    if_neg (by rw [u64_of_lt (by omega)]; omega)]
  refine ⟨_, rfl, by simp only [Nat.one_mul], ?_, ?_⟩
  · have hown : owned m.chain = owned pre + owned rest := by
      rw [hc, owned_append, owned_cons, hdisk]; simp
    rw [hown]
    simp only [ht, owned_append]
    split_ifs <;> simp [owned_cons, owned_nil, hdisk] <;> omega
  · simp only [ht, hd1, List.append_assoc]

theorem modify_materialises_window_witness :
    seek (opened (List.replicate 6000 0)) 4090 = some (0, 4090) ∧
      (blk (opened (List.replicate 6000 0)).chain 0).len = 6000 ∧
      ∃ m', modify (opened (List.replicate 6000 0)) 4090
          [65, 66, 67, 68, 69, 70, 71, 72, 73, 74] true =
            some (operation_result.kSuccess, m') ∧
        m'._M_memory_used = (opened (List.replicate 6000 0))._M_memory_used + kMemoryBlockSize ∧
        owned m'.chain = owned (opened (List.replicate 6000 0)).chain + 1 ∧
        m'.chain = (opened (List.replicate 6000 0)).chain.take 0 ++
          ((if 2042 = 0 then []
            else [{ (blk (opened (List.replicate 6000 0)).chain 0) with
              data := (blk (opened (List.replicate 6000 0)).chain 0).data.take 2042 }]) ++
           [{ data := (((blk (opened (List.replicate 6000 0)).chain 0).data.take 4090 ++
                [65, 66, 67, 68, 69, 70, 71, 72, 73, 74] ++
                (blk (opened (List.replicate 6000 0)).chain 0).data.drop
                  (4090 + [65, 66, 67, 68, 69, 70, 71, 72, 73, 74].length)).drop 2042).take 3958,
              in_memory := true, addr := 0 }] ++
           (if 2042 + 3958 < (blk (opened (List.replicate 6000 0)).chain 0).len then
              [{ data := (blk (opened (List.replicate 6000 0)).chain 0).data.drop (2042 + 3958),
                 in_memory := false,
                 addr := (blk (opened (List.replicate 6000 0)).chain 0).addr + (2042 + 3958) }]
            else [])) ++
          (opened (List.replicate 6000 0)).chain.drop (0 + 1) :=
  ⟨by decide!, by decide!,
    modify_materialises_window (opened (List.replicate 6000 0)) 4090
      [65, 66, 67, 68, 69, 70, 71, 72, 73, 74] true 0 4090 2042 3958
      (by decide!) (by decide!) (by decide!) (by decide!) (by decide!) (by decide) (by decide!)
      (by decide) (by decide!) (by decide) (by decide!)⟩

/-! ## The blocks in disk stay at their offsets -/

theorem placed_append (a c : List block) (off : Nat) :
    placed_from (a ++ c) off ↔ placed_from a off ∧ placed_from c (off + total_len a) := by
  induction a generalizing off with
  | nil => simp [placed_from]
  | cons b a ih =>
    show ((b.in_memory = false → b.addr = off) ∧ placed_from (a ++ c) (off + b.len)) ↔ _
    rw [ih]
    simp only [placed_from, total_len_cons, Nat.add_assoc, and_assoc]

theorem modify_disk_link_placed (b : block) (begin count : Nat) (buf data : List Nat)
    (off : Nat) (h : begin + count ≤ b.len)
    (hadr : b.addr = off) :
    placed_from (modify_disk_link b begin count buf data).1 off ∧
      placed_from (modify_disk_link b begin count buf data).2.1 (off + (begin + count)) := by
  unfold modify_disk_link
  simp only [block.len] at h ⊢
  split_ifs with h1 h2 h3
  · simp [placed_from]
  · subst h1
    simp [placed_from, hadr]
  · simp [placed_from, hadr, block.len]
  · simp [placed_from, hadr]

theorem modify_disk_placed (b : block) (pos : Nat) (data : List Nat) (off : Nat)
    (hb : b.in_memory = false) (hpos : pos ≤ b.len) (hdata : 0 < data.length)
    (h64 : pos + data.length < 18446744073709551616) (hadr : b.addr = off) :
    placed_from (modify_disk b pos data).1 off ∧
      placed_from (modify_disk b pos data).2.1 (off + total_len (modify_disk b pos data).1) := by
  obtain ⟨-, p2, -⟩ := modify_disk_pieces b pos data [] off hb hpos hdata h64
  revert p2
  unfold modify_disk
  simp only [kMidMemoryBlock, kMemoryBlockSize]
  norm_num
  generalize hbegin : (if pos ≤ 2048 then 0 else pos - 2048) = begin
  generalize hcount : (if pos ≤ 2048 then pos else 2048) = count
  have hbc : begin + count = pos ∧ count ≤ 2048 := by
    subst hbegin; subst hcount; split_ifs <;> omega
  obtain ⟨hl1, hl2, hl3, hl4⟩ :=
    modify_disk_l_spec b pos count data.length hpos hdata hbc.2 h64
  generalize modify_disk_l b pos count data.length = l at *
  obtain ⟨t, ht1, ht2, ht3, ht4, ht5⟩ :=
    modify_disk_tail_spec b (pos + l) (data.length - l) (4096 - count - l) hl2
  simp only [kMemoryBlockSize] at *
  norm_num at *
  rw [ht5]
  generalize modify_disk_tail b (pos + l) (data.length - l) (4096 - count - l) = tail at *
  intro p2
  have hbuf : (List.take count (List.drop begin b.data) ++ (List.take l data ++ tail)).length =
      count + l + t := by
    simp only [List.length_append, List.length_take, List.length_drop, ht5]
    simp only [block.len] at hpos hl2
    omega
  obtain ⟨k1, k2, k3, -⟩ := modify_disk_link_pieces b begin (count + l + t)
    (List.take count (List.drop begin b.data) ++ (List.take l data ++ tail)) (List.drop l data)
    [] off hb (by omega) hbuf
  obtain ⟨q1, q2⟩ := modify_disk_link_placed b begin (count + l + t)
    (List.take count (List.drop begin b.data) ++ (List.take l data ++ tail)) (List.drop l data)
    off (by omega) hadr
  rw [k2]
  exact ⟨q1, q2⟩

/-- The loop of `modify` keeps every block in disk at its own offset. -/
theorem modify_loop_placed (fuel : Nat) (c : List block) (pos : Nat) (data : List Nat)
    (off : Nat) (r : List block × Nat) (h : modify_loop fuel c pos data = some r)
    (hpos : pos ≤ (blk c 0).len) (hdata : 0 < data.length)
    (h64 : pos + data.length < 18446744073709551616) (hpl : placed_from c off) :
    placed_from r.1 off := by
  induction fuel generalizing c pos data r off with
  | zero => simp [modify_loop] at h
  | succ fuel ih =>
    cases c with
    | nil => simp [modify_loop] at h
    | cons b rest =>
      simp only [modify_loop] at h
      have hpos' : pos ≤ b.len := by simpa [blk] using hpos
      obtain ⟨hp1, hp2⟩ := hpl
      cases hmem : b.in_memory with
      | false =>
        simp only [hmem, Bool.not_false, if_true] at h
        obtain ⟨-, p2, -⟩ := modify_disk_pieces b pos data [] off hmem hpos' hdata h64
        obtain ⟨a1, a2⟩ := modify_disk_placed b pos data off hmem hpos' hdata h64 (hp1 hmem)
        obtain ⟨l, hl1, -, hl3, -, -, -⟩ := modify_disk_spec b pos data hpos' hdata h64
        generalize modify_disk b pos data = s at *
        obtain ⟨e, q, d⟩ := s
        simp only at h p2 a1 a2 hl3
        have hrest : placed_from (q ++ rest) (off + total_len e) := by
          rw [placed_append]
          refine ⟨a2, ?_⟩
          have : off + total_len e + total_len q = off + b.len := by omega
          rw [this]; exact hp2
        split_ifs at h with hd
        · cases hr : modify_loop fuel (q ++ rest) 0 d with
          | none => simp [hr] at h
          | some r2 =>
            simp only [hr, Option.map_some', Option.some.injEq] at h
            subst h
            have i3 := ih (q ++ rest) 0 d (off + total_len e) r2 hr (Nat.zero_le _) hd
              (by rw [hl3]; simp only [List.length_drop]; omega) hrest
            rw [placed_append]
            exact ⟨a1, i3⟩
        · simp only [Option.some.injEq] at h
          subst h
          rw [placed_append]
          exact ⟨a1, hrest⟩
      | true =>
        simp only [hmem, Bool.not_true, Bool.false_eq_true, if_false] at h
        obtain ⟨hl, hm⟩ := modify_memory_len b pos data
        obtain ⟨l, hl1, -, hl3, -, -⟩ := modify_memory_spec b pos data hpos'
        generalize modify_memory b pos data = s at *
        obtain ⟨b1, d⟩ := s
        simp only at h hl hm hl3
        split_ifs at h with hd
        · cases hr : modify_loop fuel rest 0 d with
          | none => simp [hr] at h
          | some r2 =>
            simp only [hr, Option.map_some', Option.some.injEq] at h
            subst h
            have i3 := ih rest 0 d (off + b.len) r2 hr (Nat.zero_le _) hd
              (by rw [hl3]; simp only [List.length_drop]; omega) hp2
            refine ⟨fun hx => ?_, by rw [hl]; exact i3⟩
            rw [hm, hmem] at hx
            exact absurd hx (by decide)
        · simp only [Option.some.injEq] at h
          subst h
          refine ⟨fun hx => ?_, by rw [hl]; exact hp2⟩
          rw [hm, hmem] at hx
          exact absurd hx (by decide)

/-- The chain after an `open` that returns `true`: one block in disk, or the
chain the model had when the file is empty. -/
theorem open_chain (m : file_model) (filename : String) (f : host_file) (mode : open_mode)
    (hopen : (file_model.open m filename (some f) mode).1 = true) :
    (file_model.open m filename (some f) mode).2.chain =
      if f.bytes.length ≠ 0 then [{ data := f.bytes, in_memory := false, addr := 0 }]
      else m.chain := by
  rw [open_facts hopen]

theorem placed_unit (bytes : List Nat) :
    placed_from (if bytes.length ≠ 0 then [{ data := bytes, in_memory := false, addr := 0 }]
      else []) 0 := by
  split_ifs
  · exact ⟨fun _ => rfl, trivial⟩
  · trivial

/-- A call of `modify` keeps every block in disk at its own offset. -/
theorem modify_placed {m m' : file_model} {off : Nat} {data : List Nat} {rc : Bool}
    {r : operation_result} (hsum : total_len m.chain = m._M_len)
    (h63 : m._M_len < 9223372036854775808)
    (h : modify m off data rc = some (r, m')) (hpl : placed_from m.chain 0) :
    placed_from m'.chain 0 := by
  rcases modify_shape h with rfl | ⟨hlen, hmax, i, pos, c, n, hs, hl, hc, -⟩
  · exact hpl
  obtain ⟨pre, b, rest, hch, hpl', hp, hoff⟩ := seek_some hs
  obtain ⟨ht, hd, -, -⟩ := decompose_take hch hpl'
  have hkmax : kMaxMemoryUsed = 104857600 := by decide
  have hb : b.len ≤ m._M_len := by
    rw [← hsum, hch]; simp only [total_len_append, total_len_cons]; omega
  rw [hd] at hl
  rw [ht] at hc
  rw [hch, placed_append] at hpl
  rw [hc, placed_append]
  refine ⟨hpl.1, ?_⟩
  have := modify_loop_placed _ (b :: rest) pos data (0 + total_len pre) (c, n) hl
    (by simp [blk]; omega) hlen (by omega) hpl.2
  exact this

/-- A call of `add` that leaves `_M_size_modified` at `false` changes nothing. -/
theorem add_keeps_size {m m' : file_model} {off : Nat} {data : List Nat} {rc : Bool}
    {r : operation_result} {disk : List Nat} {resized : Bool} (hok : state_ok disk resized m)
    (h : add m off data rc = some (r, m')) (hs : m'._M_size_modified = false) : m' = m := by
  obtain ⟨⟨hsum, h64, hcap⟩, hf, hmem, -⟩ := hok
  rcases add_effect h hsum hcap hmem hf with ⟨hm, -⟩ | ⟨-, -, -, -, -, -, -, e5, -⟩
  · exact hm
  · rw [e5] at hs; exact absurd hs (by decide)

/-- A call of `remove` that leaves `_M_size_modified` at `false` changes
nothing. -/
theorem remove_keeps_size {m m' : file_model} {off len : Nat} {rc : Bool}
    {r : operation_result} {disk : List Nat} {resized : Bool} (hok : state_ok disk resized m)
    (hlen : len < 18446744073709551616)
    (h : remove m off len rc = some (r, m')) (hs : m'._M_size_modified = false) : m' = m := by
  obtain ⟨⟨hsum, h64, hcap⟩, hf, hmem, -⟩ := hok
  rcases remove_effect h hsum hcap hmem hf hlen with ⟨hm, -⟩ | ⟨-, -, -, -, -, -, e5, -⟩
  · exact hm
  · rw [e5] at hs; exact absurd hs (by decide)

theorem or_false_left {a b : Bool} (h : (a || b) = false) : a = false := by
  cases a <;> simp_all

/-- In a state of an orderly run that was not resized every block in disk is at
its own offset. -/
theorem orderly_placed {disk : List Nat} {resized : Bool} {m : file_model}
    (h : orderly disk resized m) : resized = false → placed_from m.chain 0 := by
  induction h with
  | open_new undo_enabled filename f mode hlen hopen =>
    intro _
    rw [open_chain _ _ _ _ hopen]
    exact placed_unit f.bytes
  | open_closed filename f mode _ hlen hopen ih =>
    intro _
    rw [open_chain _ _ _ _ hopen]
    exact placed_unit f.bytes
  | close _ ih => intro _; trivial
  | @save disk resized m host m' disk' hprev hren hs ih =>
    intro _
    have hok := orderly_inv hprev
    cases hmod : m._M_modified with
    | false =>
      unfold file_model.save save_route at hs
      simp only [hmod, Bool.not_false, if_true, Prod.mk.injEq, true_and] at hs
      rw [← hs.1]
      exact ih (hok.2.2.2.2.1 hmod).1
    | true =>
      obtain ⟨-, -, -, -, -, e6, -⟩ := save_effect hok hmod hren hs
      rw [e6]
      split_ifs
      · exact ⟨fun _ => rfl, trivial⟩
      · trivial
  | @modify disk resized m off data rc r m' hprev hop hfit ih =>
    intro hg
    have hok := orderly_inv hprev
    exact modify_placed hok.1.1 hok.2.1.1 hop (ih hg)
  | @add disk resized m off data rc r m' hprev hop hfit ih =>
    intro hg
    have hok' := orderly_inv (orderly.add off data rc r m' hprev hop hfit)
    have hm := add_keeps_size (orderly_inv hprev) hop (by rw [hok'.2.2.2.1]; exact hg)
    rw [hm]
    exact ih (or_false_left hg)
  | @remove disk resized m off len rc r m' hprev hlen hop hfit ih =>
    intro hg
    have hok' := orderly_inv (orderly.remove off len rc r m' hprev hlen hop hfit)
    have hm := remove_keeps_size (orderly_inv hprev) hlen hop
      (by rw [hok'.2.2.2.1]; exact hg)
    rw [hm]
    exact ih (or_false_left hg)
  | @undo disk resized m r m' hprev hop hfit ih =>
    intro hg
    have hok := orderly_inv hprev
    have hok' := orderly_inv (orderly.undo r m' hprev hop hfit)
    have hsz : m'._M_size_modified = false := by rw [hok'.2.2.2.1]; exact hg
    have hpl := ih (or_false_left hg)
    rcases undo_forward hop with ⟨hmm, -⟩ | ⟨chg, r1, m1, hget, hcase, hres⟩
    · rw [hmm]; exact hpl
    have hch : m'.chain = m1.chain ∧ m'._M_size_modified = m1._M_size_modified := by
      rcases hres with ⟨-, -, h3⟩ | ⟨-, -, h3⟩ <;> rw [h3] <;> exact ⟨rfl, rfl⟩
    rw [hch.2] at hsz
    rw [hch.1]
    have hlen : chg.len < 18446744073709551616 := hok.2.2.2.2.2.2 chg (List.get?_mem hget)
    rcases hcase with ⟨-, d, hd⟩ | ⟨-, hd⟩ | ⟨-, d, -, hd⟩
    · exact modify_placed hok.1.1 hok.2.1.1 hd hpl
    · rw [remove_keeps_size hok hlen hd hsz]; exact hpl
    · rw [add_keeps_size hok hd hsz]; exact hpl
  | @redo disk resized m r m' hprev hop hfit ih =>
    intro hg
    have hok := orderly_inv hprev
    have hok' := orderly_inv (orderly.redo r m' hprev hop hfit)
    have hsz : m'._M_size_modified = false := by rw [hok'.2.2.2.1]; exact hg
    have hpl := ih (or_false_left hg)
    rcases redo_forward hop with ⟨hmm, -⟩ | ⟨chg, r1, m1, hget, hcase, hres⟩
    · rw [hmm]; exact hpl
    have hch : m'.chain = m1.chain ∧ m'._M_size_modified = m1._M_size_modified := by
      rcases hres with ⟨-, -, h3⟩ | ⟨-, -, h3⟩ <;> rw [h3] <;> exact ⟨rfl, rfl⟩
    rw [hch.2] at hsz
    rw [hch.1]
    have hlen : chg.len < 18446744073709551616 := hok.2.2.2.2.2.2 chg (List.get?_mem hget)
    rcases hcase with ⟨-, d, hd⟩ | ⟨-, d, -, hd⟩ | ⟨-, hd⟩
    · exact modify_placed hok.1.1 hok.2.1.1 hd hpl
    · rw [add_keeps_size hok hd hsz]; exact hpl
    · rw [remove_keeps_size hok hlen hd hsz]; exact hpl

/-- The in-place save in the orderly runs.  In every state with
`_M_size_modified = false`, every block in disk points into the mapping at its
own offset in the file (`addr` is the sum of the lengths of the blocks before
it) and holds the bytes of the file on disk there; and when the model is
modified or its chain is not empty, the file is as long as the model and the
loop of `save_in_place`, which writes the blocks in memory at their offsets,
leaves the logical content in the file. -/
theorem orderly_in_place_save (disk : List Nat) (resized : Bool) (m : file_model)
    (h : orderly disk resized m) (hs : m._M_size_modified = false) :
    placed_from m.chain 0 ∧
      (∀ b ∈ m.chain, b.in_memory = false → b.data = window disk b.addr b.len) ∧
      (m._M_modified = true ∨ m.chain ≠ [] →
        m._M_len = disk.length ∧
          save_in_place_loop false m.chain 0 disk none = (true, content m.chain)) := by
  have hok := orderly_inv h
  have hg : resized = false := by rw [← hok.2.2.2.1]; exact hs
  have hpl := orderly_placed h hg
  have hal : aligned_from m.chain 0 disk := by
    rcases hok.2.2.2.2.2.1 hg with ⟨-, hnil⟩ | ⟨ha, -⟩
    · rw [hnil]; trivial
    · exact ha
  refine ⟨hpl, ?_, ?_⟩
  · have key : ∀ (c : List block) (off : Nat), placed_from c off → aligned_from c off disk →
        ∀ b ∈ c, b.in_memory = false → b.data = window disk b.addr b.len := by
      intro c
      induction c with
      | nil => intro _ _ _ b hb; exact absurd hb (List.not_mem_nil _)
      | cons x c ih =>
        intro off hp ha b hb hm
        rcases List.mem_cons.mp hb with hb | hb
        · subst hb
          rw [hp.1 hm]
          exact ha.1 hm
        · exact ih _ hp.2 ha.2 b hb hm
    exact key m.chain 0 hpl hal
  · intro hopen
    rcases hok.2.2.2.2.2.1 hg with ⟨hmod, hnil⟩ | ⟨ha, hl⟩
    · rcases hopen with hx | hx
      · rw [hmod] at hx; exact absurd hx (by decide)
      · exact absurd hnil hx
    · refine ⟨hl, ?_⟩
      have hflush := save_flush m.chain 0 disk ha (by rw [Nat.zero_add, hok.1.1, hl])
      simpa using hflush

/-- An instance of `orderly_in_place_save`: the sample state `scenario_two`. -/
theorem orderly_in_place_save_sample :
    orderly (List.replicate 6000 0) false scenario_two ∧
      scenario_two._M_size_modified = false ∧
      placed_from scenario_two.chain 0 ∧
      (∀ b ∈ scenario_two.chain, b.in_memory = false →
        b.data = window (List.replicate 6000 0) b.addr b.len) ∧
      (scenario_two._M_modified = true ∨ scenario_two.chain ≠ [] →
        scenario_two._M_len = (List.replicate 6000 0).length ∧
          save_in_place_loop false scenario_two.chain 0 (List.replicate 6000 0) none =
            (true, content scenario_two.chain)) :=
  ⟨scenario_two_orderly, by decide!,
    orderly_in_place_save _ _ _ scenario_two_orderly (by decide!)⟩

/-! ## Forward search (C36) -/

theorem occurs_iff (c needle : List Nat) (q : Nat) :
    occurs_at c needle q ↔
      q + needle.length ≤ c.length ∧ (c.drop q).take needle.length = needle := Iff.rfl

theorem occurs_append_left (B R needle : List Nat) (q : Nat)
    (h : q + needle.length ≤ B.length) :
    occurs_at (B ++ R) needle q ↔ occurs_at B needle q := by
  rw [occurs_iff, occurs_iff, List.drop_append_of_le_length (by omega),
    List.take_append_of_le_length (by rw [List.length_drop]; omega), List.length_append]
  constructor
  · exact fun hx => ⟨h, hx.2⟩
  · exact fun hx => ⟨by omega, hx.2⟩

theorem occurs_append_right (B R needle : List Nat) (q : Nat) :
    occurs_at (B ++ R) needle (B.length + q) ↔ occurs_at R needle q := by
  rw [occurs_iff, occurs_iff, List.drop_append, List.length_append]
  constructor
  · exact fun hx => ⟨by omega, hx.2⟩
  · exact fun hx => ⟨by omega, hx.2⟩

theorem occurs_straddle (B R needle : List Nat) (q k : Nat) (hk : q + k = B.length)
    (hkn : k ≤ needle.length) :
    occurs_at (B ++ R) needle q ↔
      B.drop q = needle.take k ∧ R.take (needle.length - k) = needle.drop k := by
  have hx : (B.drop q).length = k := by rw [List.length_drop]; omega
  rw [occurs_iff, List.drop_append_of_le_length (by omega), List.take_append_eq_append_take,
    List.take_of_length_le (by omega), hx, List.length_append]
  constructor
  · rintro ⟨-, h⟩
    have h1 := congrArg (List.take k) h
    have h2 := congrArg (List.drop k) h
    rw [List.take_left' hx] at h1
    rw [List.drop_left' hx] at h2
    exact ⟨h1, h2⟩
  · rintro ⟨h1, h2⟩
    refine ⟨?_, by rw [h1, h2, List.take_append_drop]⟩
    have := congrArg List.length h2
    simp only [List.length_take, List.length_drop] at this
    omega

theorem occurs_cons_succ (x : Nat) (t needle : List Nat) (j : Nat) :
    occurs_at (x :: t) needle (j + 1) ↔ occurs_at t needle j := by
  rw [occurs_iff, occurs_iff, List.drop_succ_cons, List.length_cons]
  constructor
  · exact fun hx => ⟨by omega, hx.2⟩
  · exact fun hx => ⟨by omega, hx.2⟩

theorem occurs_zero (c needle : List Nat) :
    occurs_at c needle 0 ↔ c.take needle.length = needle := by
  rw [occurs_iff, List.drop_zero]
  constructor
  · exact fun hx => hx.2
  · intro hx
    refine ⟨?_, hx⟩
    have := congrArg List.length hx
    simp only [List.length_take] at this
    omega

theorem memmem_some (hay needle : List Nat) (k : Nat) (h : memmem hay needle = some k) :
    occurs_at hay needle k ∧ ∀ j, j < k → ¬ occurs_at hay needle j := by
  induction hay generalizing k with
  | nil =>
    simp only [memmem] at h
    split_ifs at h with h0
    simp only [Option.some.injEq] at h
    subst h
    exact ⟨by rw [occurs_zero, h0]; rfl, fun j hj => absurd hj (Nat.not_lt_zero _)⟩
  | cons x t ih =>
    simp only [memmem] at h
    split_ifs at h with h0
    · simp only [Option.some.injEq] at h
      subst h
      exact ⟨(occurs_zero _ _).mpr h0, fun j hj => absurd hj (Nat.not_lt_zero _)⟩
    · cases hm : memmem t needle with
      | none => simp [hm] at h
      | some k1 =>
        simp only [hm, Option.map_some', Option.some.injEq] at h
        subst h
        obtain ⟨i1, i2⟩ := ih k1 hm
        refine ⟨(occurs_cons_succ _ _ _ _).mpr i1, fun j hj => ?_⟩
        cases j with
        | zero => exact fun hx => h0 ((occurs_zero _ _).mp hx)
        | succ j => exact fun hx => i2 j (by omega) ((occurs_cons_succ _ _ _ _).mp hx)

theorem memmem_none (hay needle : List Nat) (hn : 0 < needle.length)
    (h : memmem hay needle = none) : ∀ j, ¬ occurs_at hay needle j := by
  induction hay with
  | nil =>
    intro j hj
    have := hj.1
    simp only [List.length_nil] at this
    omega
  | cons x t ih =>
    simp only [memmem] at h
    split_ifs at h with h0
    cases hm : memmem t needle with
    | some k1 => simp [hm] at h
    | none =>
      intro j
      cases j with
      | zero => exact fun hx => h0 ((occurs_zero _ _).mp hx)
      | succ j => exact fun hx => ih hm j ((occurs_cons_succ _ _ _ _).mp hx)

theorem occurs_drop (B needle : List Nat) (pos k : Nat) (hp : pos ≤ B.length) :
    occurs_at (B.drop pos) needle k ↔ occurs_at B needle (pos + k) := by
  rw [occurs_iff, occurs_iff, List.drop_drop, List.length_drop]
  constructor
  · exact fun hx => ⟨by omega, hx.2⟩
  · exact fun hx => ⟨by omega, hx.2⟩

/-- The inner walk of `find_forward` when the rest of the needle fits the next
block: one comparison, and the walking pointer stays. -/
theorem forward_walk_fits (nx : block) (rest : List block) (needle : List Nat) (l idx : Nat)
    (h : l ≤ nx.len) :
    forward_walk (nx :: rest) needle l idx =
      if nx.data.take l = (needle.drop idx).take l then walk_result.found 0
      else walk_result.stopped (nx :: rest) := by
  simp only [forward_walk, h, if_true]

/-- The `for` loop of `find_forward` over the starts in `b` whose match runs
into the next block, when that block holds the rest of the needle. -/
theorem forward_straddle_exact (left : Nat) (b nx : block) (rest : List block)
    (needle : List Nat) (pos : Nat) (hleft : pos + left = b.len)
    (hshort : left < needle.length) (hnx : needle.length - 1 ≤ nx.len) :
    (∀ p, forward_straddle left b (nx :: rest) needle pos = scan_result.found p →
      pos ≤ p ∧ p < b.len ∧ occurs_at (b.data ++ content (nx :: rest)) needle p ∧
        ∀ q, pos ≤ q → q < p → ¬ occurs_at (b.data ++ content (nx :: rest)) needle q) ∧
    (forward_straddle left b (nx :: rest) needle pos = scan_result.no_match →
      ∀ q, pos ≤ q → q < b.len → ¬ occurs_at (b.data ++ content (nx :: rest)) needle q) ∧
    forward_straddle left b (nx :: rest) needle pos ≠ scan_result.end_of_file := by
  induction left generalizing pos with
  | zero =>
    refine ⟨fun p hp => ?_, fun _ q h1 h2 => by omega, fun h => ?_⟩
    · simp [forward_straddle] at hp
    · simp [forward_straddle] at h
  | succ left ih =>
    have hocc : occurs_at (b.data ++ content (nx :: rest)) needle pos ↔
        (b.data.drop pos).take (left + 1) = needle.take (left + 1) ∧
          nx.data.take (needle.length - (left + 1)) =
            (needle.drop (left + 1)).take (needle.length - (left + 1)) := by
      have e1 : (b.data.drop pos).take (left + 1) = b.data.drop pos :=
        List.take_of_length_le (by
          rw [List.length_drop]; simp only [block.len] at hleft; omega)
      have e2 : (content (nx :: rest)).take (needle.length - (left + 1)) =
          nx.data.take (needle.length - (left + 1)) := by
        rw [content_cons, List.take_append_of_le_length (by
          simp only [block.len] at hnx; omega)]
      have e3 : (needle.drop (left + 1)).take (needle.length - (left + 1)) =
          needle.drop (left + 1) :=
        List.take_of_length_le (by rw [List.length_drop])
      rw [occurs_straddle b.data (content (nx :: rest)) needle pos (left + 1)
        (by simp only [block.len] at hleft; omega) (by omega), e1, e2, e3]
    obtain ⟨i1, i2, i3⟩ := ih (pos + 1) (by omega) (by omega)
    have hstep : ¬ occurs_at (b.data ++ content (nx :: rest)) needle pos →
        (∀ p, forward_straddle left b (nx :: rest) needle (pos + 1) = scan_result.found p →
          pos ≤ p ∧ p < b.len ∧ occurs_at (b.data ++ content (nx :: rest)) needle p ∧
            ∀ q, pos ≤ q → q < p → ¬ occurs_at (b.data ++ content (nx :: rest)) needle q) ∧
        (forward_straddle left b (nx :: rest) needle (pos + 1) = scan_result.no_match →
          ∀ q, pos ≤ q → q < b.len →
            ¬ occurs_at (b.data ++ content (nx :: rest)) needle q) := by
      intro hno
      refine ⟨fun p hp => ?_, fun hm q h1 h2 => ?_⟩
      · obtain ⟨j1, j2, j3, j4⟩ := i1 p hp
        refine ⟨by omega, j2, j3, fun q h1 h2 => ?_⟩
        by_cases hq : q = pos
        · rw [hq]; exact hno
        · exact j4 q (by omega) h2
      · by_cases hq : q = pos
        · rw [hq]; exact hno
        · exact i2 hm q (by omega) h2
    simp only [forward_straddle]
    by_cases h1 : (b.data.drop pos).take (left + 1) = needle.take (left + 1)
    · rw [if_pos h1, forward_walk_fits nx rest needle _ _ (by omega)]
      by_cases h2 : nx.data.take (needle.length - (left + 1)) =
          (needle.drop (left + 1)).take (needle.length - (left + 1))
      · rw [if_pos h2]
        refine ⟨fun p hp => ?_, fun hm => ?_, fun he => ?_⟩
        · simp only [scan_result.found.injEq] at hp
          subst hp
          exact ⟨le_refl _, by omega, hocc.mpr ⟨h1, h2⟩, fun q h3 h4 => by omega⟩
        · simp at hm
        · simp at he
      · rw [if_neg h2]
        simp only
        obtain ⟨s1, s2⟩ := hstep (fun hx => h2 (hocc.mp hx).2)
        exact ⟨s1, s2, i3⟩
    · rw [if_neg h1]
      obtain ⟨s1, s2⟩ := hstep (fun hx => h1 (hocc.mp hx).1)
      exact ⟨s1, s2, i3⟩

/-- The outer loop of `find_forward` returns the first position from `pos` on
at which the needle occurs in the blocks it walks, when every block after the
first holds the needle but one byte. -/
theorem find_forward_loop_exact (c : List block) (off pos : Nat) (needle : List Nat)
    (hn : 0 < needle.length) (hblocks : ∀ x ∈ c.tail, needle.length - 1 ≤ x.len)
    (hsize : total_len c + needle.length < 18446744073709551616)
    (hpos : pos ≤ (blk c 0).len) :
    (∀ p, find_forward_loop c off pos needle = some p →
      ∃ q, p = off + q ∧ first_occurrence (content c) needle pos q) ∧
    (find_forward_loop c off pos needle = none →
      ∀ q, pos ≤ q → ¬ occurs_at (content c) needle q) := by
  induction c generalizing off pos with
  | nil =>
    refine ⟨fun p hp => by simp [find_forward_loop] at hp, fun _ q _ hq => ?_⟩
    have := hq.1
    simp only [content_nil, List.length_nil] at this
    omega
  | cons b rest ih =>
    have hpos' : pos ≤ b.data.length := by simpa [blk, block.len] using hpos
    simp only [total_len_cons, block.len] at hsize
    have hu : u64 (pos + needle.length) = pos + needle.length := u64_of_lt (by omega)
    -- the starts from `pos` on whose match lies inside `b`
    have hinside : ∀ q, pos ≤ q → q + needle.length ≤ b.data.length →
        (occurs_at (b.data ++ content rest) needle q ↔
          occurs_at (b.data.drop pos) needle (q - pos)) := by
      intro q h1 h2
      rw [occurs_append_left _ _ _ _ h2, occurs_drop _ _ _ _ hpos']
      have : pos + (q - pos) = q := by omega
      rw [this]
    -- what is left once the starts before `pos1` are excluded
    have hrest : ∀ pos1, pos ≤ pos1 → pos1 ≤ b.data.length →
        b.data.length < pos1 + needle.length →
        (∀ q, pos ≤ q → q < pos1 → ¬ occurs_at (b.data ++ content rest) needle q) →
        (∀ p, (match rest with
            | [] => none
            | _ :: _ =>
              match forward_straddle (b.len - pos1) b rest needle pos1 with
              | scan_result.found p => some (off + p)
              | scan_result.end_of_file => none
              | scan_result.no_match => find_forward_loop rest (off + b.len) 0 needle) = some p →
          ∃ q, p = off + q ∧ first_occurrence (b.data ++ content rest) needle pos q) ∧
        ((match rest with
            | [] => none
            | _ :: _ =>
              match forward_straddle (b.len - pos1) b rest needle pos1 with
              | scan_result.found p => some (off + p)
              | scan_result.end_of_file => none
              | scan_result.no_match => find_forward_loop rest (off + b.len) 0 needle) = none →
          ∀ q, pos ≤ q → ¬ occurs_at (b.data ++ content rest) needle q) := by
      intro pos1 hp1 hp2 hp3 hbefore
      cases rest with
      | nil =>
        refine ⟨fun p hp => by simp at hp, fun _ q hq hocc => ?_⟩
        by_cases hlt : q < pos1
        · exact hbefore q hq hlt hocc
        · have := hocc.1
          simp only [content_nil, List.append_nil] at this
          omega
      | cons nx rest' =>
        obtain ⟨s1, s2, s3⟩ := forward_straddle_exact (b.len - pos1) b nx rest' needle pos1
          (by simp only [block.len]; omega) (by simp only [block.len]; omega)
          (hblocks nx (by simp))
        obtain ⟨r1, r2⟩ := ih (off + b.len) 0
          (fun x hx => hblocks x (List.mem_cons_of_mem _ hx)) (by omega) (Nat.zero_le _)
        have hafter : ∀ q, b.data.length ≤ q →
            (occurs_at (b.data ++ content (nx :: rest')) needle q ↔
              occurs_at (content (nx :: rest')) needle (q - b.data.length)) := by
          intro q hq
          have : q = b.data.length + (q - b.data.length) := by omega
          conv => lhs; rw [this]
          exact occurs_append_right _ _ _ _
        simp only
        cases hs : forward_straddle (b.len - pos1) b (nx :: rest') needle pos1 with
        | found p1 =>
          simp only
          obtain ⟨t1, t2, t3, t4⟩ := s1 p1 hs
          refine ⟨fun p hp => ?_, fun h => by simp at h⟩
          simp only [Option.some.injEq] at hp
          refine ⟨p1, hp.symm, by omega, t3, fun q h1 h2 => ?_⟩
          by_cases hlt : q < pos1
          · exact hbefore q h1 hlt
          · exact t4 q (by omega) h2
        | end_of_file => exact absurd hs s3
        | no_match =>
          simp only
          have hmid := s2 hs
          refine ⟨fun p hp => ?_, fun hnone q hq => ?_⟩
          · obtain ⟨q1, hq1, -, f2, f3⟩ := r1 p hp
            refine ⟨b.data.length + q1, by rw [hq1]; simp only [block.len]; omega, by omega,
              (occurs_append_right _ _ _ _).mpr f2, fun q h1 h2 => ?_⟩
            by_cases hlt : q < pos1
            · exact hbefore q h1 hlt
            · by_cases hlt2 : q < b.data.length
              · exact hmid q (by omega) (by simp only [block.len]; omega)
              · rw [hafter q (by omega)]
                exact f3 _ (Nat.zero_le _) (by omega)
          · by_cases hlt : q < pos1
            · exact hbefore q hq hlt
            · by_cases hlt2 : q < b.data.length
              · exact hmid q (by omega) (by simp only [block.len]; omega)
              · rw [hafter q (by omega)]
                exact r2 hnone _ (Nat.zero_le _)
    simp only [find_forward_loop, content_cons, hu, block.len]
    by_cases hfit : pos + needle.length ≤ b.data.length
    · simp only [hfit, decide_True, if_true]
      cases hm : memmem (b.data.drop pos) needle with
      | some k =>
        simp only
        obtain ⟨m1, m2⟩ := memmem_some _ _ _ hm
        have hk := m1.1
        rw [List.length_drop] at hk
        refine ⟨fun p hp => ?_, fun h => by simp at h⟩
        simp only [Option.some.injEq] at hp
        refine ⟨pos + k, hp.symm, by omega, ?_, fun q h1 h2 => ?_⟩
        · rw [hinside (pos + k) (by omega) (by omega)]
          have : pos + k - pos = k := by omega
          rw [this]; exact m1
        · rw [hinside q h1 (by omega)]
          exact m2 _ (by omega)
      | none =>
        simp only
        have hno := memmem_none _ _ hn hm
        have hs64 : sub64 b.data.length needle.length = b.data.length - needle.length :=
          sub64_of_le (by omega) (by omega)
        have hs1 : u64 (sub64 b.data.length needle.length + 1) =
            b.data.length - needle.length + 1 := by
          rw [hs64, u64_of_lt (by omega)]
        rw [hs1]
        have := hrest (b.data.length - needle.length + 1) (by omega) (by omega) (by omega)
          (fun q h1 h2 => by
            rw [hinside q h1 (by omega)]
            exact hno _)
        simpa only [block.len] using this
    · simp only [hfit, decide_False, Bool.false_eq_true, if_false]
      have := hrest pos (le_refl _) hpos' (by omega) (fun q h1 h2 => by omega)
      simpa only [block.len] using this

/-- `C36`: forward search is exact when no block is shorter than the needle but
one byte.  For a chain whose block lengths sum to `_M_len`, a needle of at
least one byte (the file and the needle together within the 64-bit address
space) and blocks that all have `len >= needlelen - 1`, or a chain of one
block: when
`find_forward(off, needle)` succeeds, the position is the smallest position
`>= off` at which the needle occurs in the content, and when it fails the
needle occurs at no position `>= off`. -/
theorem find_forward_exact (m : file_model) (off : Nat) (needle : List Nat)
    (hsum : total_len m.chain = m._M_len)
    (hsize : m._M_len + needle.length < 18446744073709551616)
    (hn : 0 < needle.length)
    (hblocks : (∀ b ∈ m.chain, needle.length - 1 ≤ b.len) ∨ m.chain.length ≤ 1) :
    (∀ p, find_forward m off needle = some p →
      first_occurrence (content m.chain) needle off p) ∧
    (find_forward m off needle = none →
      ∀ q, off ≤ q → ¬ occurs_at (content m.chain) needle q) := by
  have hcl : (content m.chain).length = m._M_len := by rw [length_content, hsum]
  have hfar : off + needle.length > m._M_len →
      ∀ q, off ≤ q → ¬ occurs_at (content m.chain) needle q := by
    intro h q hq hocc
    have := hocc.1
    omega
  unfold find_forward
  simp only
  by_cases h1 : u64 (off + needle.length) > m._M_len
  · rw [if_pos h1]
    refine ⟨fun p hp => by simp at hp, fun _ => hfar ?_⟩
    by_contra hcon
    rw [u64_of_lt (by omega)] at h1
    omega
  rw [if_neg h1, if_neg (by omega)]
  cases hs : m.seek off with
  | none =>
    simp only
    refine ⟨fun p hp => by simp at hp, fun _ => hfar ?_⟩
    by_contra hcon
    obtain ⟨r, hr⟩ := seek_isSome m off hsum (by omega)
    rw [hs] at hr
    exact Option.noConfusion hr
  | some ip =>
    obtain ⟨i, pos⟩ := ip
    simp only
    obtain ⟨pre, b, rest, hc, hl, hp, hoff⟩ := seek_some hs
    obtain ⟨ht, hd, -, -⟩ := decompose_take hc hl
    have htot : total_len pre + total_len (b :: rest) = m._M_len := by
      rw [← hsum, hc]; simp
    have hcont : content m.chain = content pre ++ content (b :: rest) := by
      rw [hc, content_append]
    have hpl : (content pre).length = total_len pre := length_content pre
    have hoffp : off - pos = total_len pre := by omega
    rw [hd, hoffp]
    obtain ⟨l1, l2⟩ := find_forward_loop_exact (b :: rest) (total_len pre) pos needle hn
      (fun x hx => by
        rcases hblocks with hb | hb
        · exact hb x (by rw [hc]; exact List.mem_append_right _ (List.mem_cons_of_mem _ hx))
        · rw [hc, List.length_append, List.length_cons] at hb
          have : rest = [] := List.length_eq_zero.mp (by omega)
          rw [this] at hx
          exact absurd hx (List.not_mem_nil _)) (by omega)
      (by simp [blk]; omega)
    have hshift : ∀ q, occurs_at (content m.chain) needle (total_len pre + q) ↔
        occurs_at (content (b :: rest)) needle q := by
      intro q
      rw [hcont, ← hpl]
      exact occurs_append_right _ _ _ _
    refine ⟨fun p hp => ?_, fun hnone q hq => ?_⟩
    · obtain ⟨q, hq, f1, f2, f3⟩ := l1 p hp
      subst hq
      refine ⟨by omega, (hshift q).mpr f2, fun q' h1 h2 => ?_⟩
      have : q' = total_len pre + (q' - total_len pre) := by omega
      rw [this, hshift]
      exact f3 _ (by omega) (by omega)
    · have : q = total_len pre + (q - total_len pre) := by omega
      rw [this, hshift]
      exact l2 hnone _ (by omega)

theorem find_forward_exact_witness :
    total_len three_pieces.chain = three_pieces._M_len ∧
      ((∀ b ∈ three_pieces.chain, [97, 97].length - 1 ≤ b.len) ∨
        three_pieces.chain.length ≤ 1) ∧
      find_forward three_pieces 1 [97, 97] = some 1 ∧
      (∀ p, find_forward three_pieces 1 [97, 97] = some p →
        first_occurrence (content three_pieces.chain) [97, 97] 1 p) ∧
      (find_forward three_pieces 1 [97, 97] = none →
        ∀ q, 1 ≤ q → ¬ occurs_at (content three_pieces.chain) [97, 97] q) :=
  ⟨by decide, by decide, by decide,
    find_forward_exact three_pieces 1 [97, 97] (by decide) (by decide) (by decide)
      (by decide)⟩

/-! ## The code at the failing inputs -/

/-- `C3`, the code at a failing input.  The state `emptied` is reached from an
empty file by a successful add and a successful remove; it obeys the chain
invariant and has length 0.  There `add(0, data, 4097)` returns `kSuccess` and
the length becomes 4097, but the content is the last byte of `data` followed by
its first 4096 bytes, not `data`. -/
theorem add_at_end_reorders :
    result_of (add (opened []) 0 [1, 2, 3] true) = some operation_result.kSuccess ∧
    result_of (remove three_added 0 3 true) = some operation_result.kSuccess ∧
    chain_ok emptied ∧ emptied._M_len = 0 ∧ content emptied.chain = [] ∧
    result_of (add emptied 0 zeros_one true) = some operation_result.kSuccess ∧
    (state_after (add emptied 0 zeros_one true))._M_len = 4097 ∧
    content (state_after (add emptied 0 zeros_one true)).chain = 1 :: List.replicate 4096 0 ∧
    content (state_after (add emptied 0 zeros_one true)).chain ≠
      content emptied.chain ++ zeros_one := by
  decide!

/-- `C4`, the code at a failing input.  On a ten-byte file opened with undo
disabled, `remove(5, 2^64 - 1)` has `off < length` and `len > 0`; the sum
`off + len` wraps, the length is not clamped, the call returns `kSuccess`, and
the file grows to 11 bytes instead of shrinking to `old[0, 5)`. -/
theorem remove_wraps_around :
    chain_ok (opened_no_undo [0, 1, 2, 3, 4, 5, 6, 7, 8, 9]) ∧
    result_of (remove (opened_no_undo [0, 1, 2, 3, 4, 5, 6, 7, 8, 9]) 5
      18446744073709551615 true) = some operation_result.kSuccess ∧
    (state_after (remove (opened_no_undo [0, 1, 2, 3, 4, 5, 6, 7, 8, 9]) 5
      18446744073709551615 true))._M_len = 11 ∧
    content (state_after (remove (opened_no_undo [0, 1, 2, 3, 4, 5, 6, 7, 8, 9]) 5
      18446744073709551615 true)).chain = [0, 1, 2, 3, 4, 4, 5, 6, 7, 8, 9] := by
  decide!

/-- `C6`, the code at a failing input.  The state `tail_emptied` is reached from
a file holding `zeros_one` by a successful add and a successful remove; it
obeys the chain invariant and its content is `zeros_one`.  There the recorded
`remove(0, 4097)` returns `kSuccess` and so does the undo that follows, yet the
content after the undo starts with the last byte of the original content. -/
theorem undo_of_remove_reorders :
    result_of (add (opened zeros_one) 4097 [9] true) = some operation_result.kSuccess ∧
    result_of (remove tail_added 4097 1 true) = some operation_result.kSuccess ∧
    chain_ok tail_emptied ∧ content tail_emptied.chain = zeros_one ∧
    result_of (remove tail_emptied 0 4097 true) = some operation_result.kSuccess ∧
    result_of (undo (state_after (remove tail_emptied 0 4097 true))) =
      some operation_result.kSuccess ∧
    content (state_after (undo (state_after (remove tail_emptied 0 4097 true)))).chain =
      1 :: List.replicate 4096 0 ∧
    content (state_after (undo (state_after (remove tail_emptied 0 4097 true)))).chain ≠
      content tail_emptied.chain := by
  decide!

/-- `C7`, the code at a failing input.  In the state `emptied` (see `C3`) the
recorded `add(0, zeros_one, 4097)`, the undo and the redo all return
`kSuccess`; the content after the redo is `zeros_one`, the content right after
the original add was its last byte followed by its first 4096 bytes. -/
theorem redo_differs_from_original :
    chain_ok emptied ∧
    result_of (add emptied 0 zeros_one true) = some operation_result.kSuccess ∧
    result_of (undo (state_after (add emptied 0 zeros_one true))) =
      some operation_result.kSuccess ∧
    result_of (redo (state_after (undo (state_after (add emptied 0 zeros_one true))))) =
      some operation_result.kSuccess ∧
    content (state_after (redo (state_after (undo (state_after
      (add emptied 0 zeros_one true)))))).chain = zeros_one ∧
    content (state_after (redo (state_after (undo (state_after
      (add emptied 0 zeros_one true)))))).chain ≠
      content (state_after (add emptied 0 zeros_one true)).chain := by
  decide!

/-- `C8`, the code at a failing input.  The chain `aa`, `a`, `ab` is reached
from the file `aaZaZab` by two successful removes and obeys the chain
invariant; its content `aaaab` holds the needle `aaab` at position 1.
`find(0, kForward, "aaab")` returns `false`, while the search from offset 1
finds the needle. -/
theorem find_forward_misses :
    result_of (remove (opened [97, 97, 90, 97, 90, 97, 98]) 2 1 true) =
      some operation_result.kSuccess ∧
    result_of (remove two_pieces 3 1 true) = some operation_result.kSuccess ∧
    chain_ok three_pieces ∧ content three_pieces.chain = [97, 97, 97, 97, 98] ∧
    three_pieces.chain.map block.data = [[97, 97], [97], [97, 98]] ∧
    occurs_at (content three_pieces.chain) [97, 97, 97, 98] 1 ∧
    find three_pieces 0 direction.kForward [97, 97, 97, 98] = none ∧
    find three_pieces 1 direction.kForward [97, 97, 97, 98] = some 1 := by
  decide!

/-- `C9`, the code at a failing input.  The chain `ba`, `a`, `aa` is reached
from the file `baZaZaa` by two successful removes and obeys the chain
invariant; its content `baaaa` holds the needle `baaa` at position 0, which is
at most `min(off, length - needlelen)` for `off = 4`.
`find(4, kBackward, "baaa")` returns `false`, while the search from offset 0
finds the needle. -/
theorem find_backward_misses :
    result_of (remove (opened [98, 97, 90, 97, 90, 97, 97]) 2 1 true) =
      some operation_result.kSuccess ∧
    result_of (remove two_pieces_back 3 1 true) = some operation_result.kSuccess ∧
    chain_ok three_pieces_back ∧ content three_pieces_back.chain = [98, 97, 97, 97, 97] ∧
    three_pieces_back.chain.map block.data = [[98, 97], [97], [97, 97]] ∧
    occurs_at (content three_pieces_back.chain) [98, 97, 97, 97] 0 ∧
    0 ≤ min 4 (three_pieces_back._M_len - [98, 97, 97, 97].length) ∧
    find three_pieces_back 4 direction.kBackward [98, 97, 97, 97] = none ∧
    find three_pieces_back 0 direction.kBackward [98, 97, 97, 97] = some 0 := by
  decide!

/-- The code at the failing input of `C20`: a model with undo enabled records a
`modify` on a first file, is closed and opened on a second file.  `open` clears
the journal and leaves `nchange` at 1.  A recorded `modify(1, {9}, 1)` at this
cursor `k = 1` returns `kSuccess`; the journal then holds one record, not
`k + 1`, `nchange` is 2, and the following `redo` reads the record at index 2
of a journal of size 1, a null pointer. -/
theorem recorded_edit_after_reopen :
    modify (opened [0, 1, 2, 3]) 1 [9] true = some (operation_result.kSuccess, first_edited) ∧
    first_edited._M_nchange = 1 ∧ first_edited._M_changes.length = 1 ∧
    reopened._M_undo_enabled = true ∧ reopened._M_read_only = false ∧
    reopened._M_nchange = 1 ∧ reopened._M_changes.length = 0 ∧
    modify reopened 1 [9] true = some (operation_result.kSuccess, reopened_edited) ∧
    reopened_edited._M_changes.length = 1 ∧ reopened_edited._M_nchange = 2 ∧
    reopened_edited._M_changes.get? reopened_edited._M_nchange = none ∧
    redo reopened_edited = none ∧
    result_of (redo reopened_edited) ≠ some operation_result.kNoMoreChanges := by
  decide

/-- The code at the failing input of `C22`: a model with undo enabled records a
`modify` on a first file (`nchange = 1`, one record), is closed and opened on
a second file.  `open` returns `true` and clears the journal, `nchange` is
still 1: the cursor is outside the journal, and `undo` reads the record at
index `nchange - 1 = 0` of an empty journal, a null pointer. -/
theorem cursor_outside_journal :
    result_of (modify (opened [0, 1, 2, 3]) 1 [9] true) = some operation_result.kSuccess ∧
    first_edited._M_nchange ≤ first_edited._M_changes.length ∧
    (file_model.open first_edited.close "second.bin"
      (some { bytes := [5, 6, 7, 8], block_device := false }) open_mode.kReadWrite).1 = true ∧
    reopened._M_read_only = false ∧ reopened._M_undo_enabled = true ∧
    reopened._M_changes.length = 0 ∧ reopened._M_nchange = 1 ∧
    ¬ reopened._M_nchange ≤ reopened._M_changes.length ∧
    reopened._M_changes.get? (reopened._M_nchange - 1) = none ∧
    undo reopened = none := by
  decide

/-- The code at the failing inputs of `C29`: `load` returns `true` for a header
line `"Number of changes: 1"` without the final `'.'`, for a record line
`"Add: offset: 0, length: 1"` without the final `'.'` and, when `malloc(0)`
returns a pointer, for an `Add` record of length 0 written without the final
`'.'` (the record is accepted and not stored).  The loops over the digits end
at the end of the line without having met the terminator. -/
theorem load_accepts_unterminated :
    (∀ malloc_zero, file_changes.load []
        (bytes_of "Number of changes: 1\nAdd: offset: 0, length: 1.\n41\n") malloc_zero =
      some (true, [{ t := change_type.kAdd, off := 0, olddata := none, newdata := some [65],
                     len := 1 }])) ∧
    (∀ malloc_zero, file_changes.load []
        (bytes_of "Number of changes: 1.\nAdd: offset: 0, length: 1\n41\n") malloc_zero =
      some (true, [{ t := change_type.kAdd, off := 0, olddata := none, newdata := some [65],
                     len := 1 }])) ∧
    file_changes.load [] (bytes_of "Number of changes: 0.\nAdd: offset: 0, length: 0\n\n") true =
      some (true, []) ∧
    file_changes.load [] (bytes_of "Number of changes: 0.\nAdd: offset: 0, length: 0.\n\n") true =
      some (false, []) := by
  decide

/-- The code at the failing input of `C23`: a model opened on the file
`{0, 1, 2}` is opened, without `close`, on an empty file.  `open` returns
`true` and sets `_M_len = 0`, but for an empty file it links no block and does
not free the chain it finds: the reachable state `empty_over_three` keeps
the block of three bytes of the first file, and the block lengths sum to 3
while `length()` is 0. -/
theorem open_keeps_chain :
    (file_model.open (opened [0, 1, 2]) "empty.bin"
      (some { bytes := [], block_device := false }) open_mode.kReadWrite).1 = true ∧
    reachable [] false empty_over_three ∧
    empty_over_three.chain = [{ data := [0, 1, 2], in_memory := false, addr := 0 }] ∧
    total_len empty_over_three.chain = 3 ∧ empty_over_three._M_len = 0 ∧
    total_len empty_over_three.chain ≠ empty_over_three._M_len ∧
    get empty_over_three 0 3 = none :=
  ⟨by decide,
    reachable.open_again "empty.bin" { bytes := [], block_device := false }
      open_mode.kReadWrite
      (reachable.open_new true "file_model.bin" { bytes := [0, 1, 2], block_device := false }
        open_mode.kReadWrite (by decide) (by decide))
      (by decide) (by decide),
    by decide, by decide, by decide, by decide, by decide⟩

/-- The code at the failing input of `C24`: the model of `first_edited`, whose
chain holds one block in memory (`_M_memory_used = 4096`), is opened, without
`close`, on a second file of four bytes.  `open` returns `true` and links one
block in disk in place of the chain, and leaves `_M_memory_used` as it was:
right after `open`, in the reachable state `second_over_edited`, no block is
in memory and `_M_memory_used` is 4096. -/
theorem open_keeps_memory_used :
    first_edited._M_memory_used = 4096 ∧ owned first_edited.chain = 1 ∧
    (file_model.open first_edited "second.bin"
      (some { bytes := [5, 6, 7, 8], block_device := false }) open_mode.kReadWrite).1 = true ∧
    reachable [5, 6, 7, 8] false second_over_edited ∧
    second_over_edited.chain = [{ data := [5, 6, 7, 8], in_memory := false, addr := 0 }] ∧
    owned second_over_edited.chain = 0 ∧
    second_over_edited._M_memory_used = 4096 ∧
    second_over_edited._M_memory_used ≠ kMemoryBlockSize * owned second_over_edited.chain :=
  ⟨by decide, by decide, by decide,
    reachable.open_again "second.bin" { bytes := [5, 6, 7, 8], block_device := false }
      open_mode.kReadWrite (orderly_reachable first_edited_orderly) (by decide) (by decide),
    by decide, by decide, by decide, by decide⟩

/-- The code at the failing input of `C25`: the model of `first_grown`, in which
an `add` of one byte has set `_M_size_modified`, is opened, without `close`, on
a second file of four bytes.  `open` returns `true` and leaves the flag as it
was: in the reachable state `second_over_grown` no `add` and no `remove` has
been called since the last `open` (the index of `reachable` is `false`) and
`_M_size_modified` is `true`; so is `_M_modified`. -/
theorem open_keeps_size_modified :
    first_grown._M_size_modified = true ∧
    (file_model.open first_grown "second.bin"
      (some { bytes := [5, 6, 7, 8], block_device := false }) open_mode.kReadWrite).1 = true ∧
    reachable [5, 6, 7, 8] false second_over_grown ∧
    second_over_grown._M_len = 4 ∧
    second_over_grown.chain = [{ data := [5, 6, 7, 8], in_memory := false, addr := 0 }] ∧
    second_over_grown._M_size_modified = true ∧ second_over_grown._M_modified = true :=
  ⟨by decide, by decide,
    reachable.open_again "second.bin" { bytes := [5, 6, 7, 8], block_device := false }
      open_mode.kReadWrite (orderly_reachable first_grown_orderly) (by decide) (by decide),
    by decide, by decide, by decide, by decide⟩

/-- The code at the failing input of `C26`: in the reachable state
`first_grown` (`_M_modified` and `_M_size_modified` are `true`, the file holds
`{0, 1, 2, 3}`, the logical content is `{0, 9, 2, 3, 7}`) `save` takes the
rewrite path on a host on which `rename` fails and every other system call
succeeds.  The result of `rename` is not looked at: `save` opens the old file
again and returns `true`; the file on disk is not the logical content before
the save, and the length is 4, not 5. -/
theorem save_ignores_rename :
    reachable [0, 1, 2, 3] true first_grown ∧
    first_grown._M_modified = true ∧ first_grown._M_size_modified = true ∧
    first_grown._M_len = 5 ∧ content first_grown.chain = [0, 9, 2, 3, 7] ∧
    (first_grown.save [0, 1, 2, 3] rename_fails).1 = true ∧
    (first_grown.save [0, 1, 2, 3] rename_fails).2.2 = [0, 1, 2, 3] ∧
    (first_grown.save [0, 1, 2, 3] rename_fails).2.2 ≠ content first_grown.chain ∧
    (first_grown.save [0, 1, 2, 3] rename_fails).2.1._M_len = 4 ∧
    (first_grown.save [0, 1, 2, 3] rename_fails).2.1.chain =
      [{ data := [0, 1, 2, 3], in_memory := false, addr := 0 }] ∧
    (first_grown.save [0, 1, 2, 3] steady).2.2 = [0, 9, 2, 3, 7] :=
  ⟨orderly_reachable first_grown_orderly, by decide, by decide, by decide, by decide,
    by decide, by decide, by decide, by decide, by decide, by decide⟩

/-- The sample state `zeros_edited` is reached by an orderly run: `open`, then
one `modify`. -/
theorem zeros_edited_orderly : orderly zeros_one false zeros_edited :=
  orderly.modify 0 [9] true operation_result.kSuccess zeros_edited
    (orderly.open_new true "file_model.bin" { bytes := zeros_one, block_device := false }
      open_mode.kReadWrite (by
        show (List.replicate 4096 0 ++ [1]).length < 9223372036854775808
        rw [List.length_append, List.length_replicate]
        decide) (open_ok _ _ _ _ (by decide) rfl))
    (run_of_result (by decide!)) (by decide!)

/-- The code at the failing input of `C35`: the model of `zeros_edited` (a file
of 4097 bytes after `modify(0, {9}, 1)`: a block in memory of 4096 bytes, a
block in disk of one byte at offset 4096 of the mapping) is opened, without
`close`, on an empty file.  `open` returns `true`, takes the descriptor of the
empty file and keeps the chain and the flags: in the reachable state
`empty_over_zeros`, `_M_size_modified` is `false`, `_M_modified` is `true` and
the block in disk is at its own offset 4096.  `save` takes the in-place path and
writes the block in memory into the empty file: the file then holds 4096
bytes, the logical content of the chain 4097. -/
theorem save_in_place_into_other_file :
    (file_model.open zeros_edited "empty.bin"
      (some { bytes := [], block_device := false }) open_mode.kReadWrite).1 = true ∧
    reachable [] false empty_over_zeros ∧
    empty_over_zeros._M_size_modified = false ∧ empty_over_zeros._M_modified = true ∧
    empty_over_zeros.chain.map (fun b => (b.in_memory, b.len, b.addr)) =
      [(true, 4096, 0), (false, 1, 4096)] ∧
    save_route empty_over_zeros = save_path.kInPlace ∧
    (empty_over_zeros.save [] steady).1 = true ∧
    ((empty_over_zeros.save [] steady).2.2).length = 4096 ∧
    (content empty_over_zeros.chain).length = 4097 ∧
    (empty_over_zeros.save [] steady).2.2 ≠ content empty_over_zeros.chain :=
  ⟨by decide!,
    reachable.open_again "empty.bin" { bytes := [], block_device := false }
      open_mode.kReadWrite (orderly_reachable zeros_edited_orderly) (by decide)
      (open_ok _ _ _ _ (by decide) rfl),
    by decide!, by decide!, by decide!, by decide!, by decide!, by decide!, by decide!,
    by decide!⟩

/-- The code at the failing input of `C31`: `remove(0, 3)` on a file of three
bytes takes the path `n == b->len`, which sets `b->len = pos = 0` and leaves
the block linked: the state is reachable and its chain is one block of length
0.  The same path leaves a block in memory of length 0 when the only block is
in memory (`emptied`), also when `undo` of the `add` calls the `remove`. -/
theorem remove_leaves_empty_block :
    reachable [0, 1, 2] true all_removed ∧
      all_removed.chain = [{ data := [], in_memory := false, addr := 0 }] ∧
      (blk all_removed.chain 0).len = 0 ∧ all_removed._M_len = 0 ∧
      emptied.chain.map block.len = [0] ∧
      (state_after (undo three_added)).chain.map block.len = [0] :=
  ⟨reachable.remove 0 3 true operation_result.kSuccess all_removed
      (reachable.open_new true "file_model.bin" { bytes := [0, 1, 2], block_device := false }
        open_mode.kReadWrite (by decide) (by decide))
      (by decide) (by decide) (by decide),
    by decide, by decide, by decide, by decide, by decide⟩

/-- The code at the failing input of `C32`: a model with undo disabled is
opened on a file of 6000 zero bytes and `modify(4090, "ABCDEFGHIJ", 10)` makes
the second block a block in memory of 3958 bytes (the reachable state
`scenario_two_no_undo`).  `remove(5000, 2^64 - 200)`, with `record_change` at
its default `true`, records nothing because undo is disabled, so it calls no
`malloc(len)`; it passes the range test because `off + len` wraps around
`2^64`, finds `n = pos + len = 2758 < b->len` and calls
`memmove(b->data + 2958, b->data + 2758, 1200)`, which writes the bytes
`[2958, 4158)` of a buffer of `kMemoryBlockSize = 4096` bytes: the run is
undefined.  With undo enabled (`scenario_two`) the same call asks `malloc` for
`2^64 - 200` bytes first and returns `kNoMemory`. -/
theorem remove_overflows_buffer :
    reachable (List.replicate 6000 0) false scenario_two_no_undo ∧
      scenario_two_no_undo._M_undo_enabled = false ∧
      seek scenario_two_no_undo 5000 = some (1, 2958) ∧
      (blk scenario_two_no_undo.chain 1).in_memory = true ∧
      (blk scenario_two_no_undo.chain 1).len = 3958 ∧
      ¬ u64 (5000 + 18446744073709551416) > scenario_two_no_undo._M_len ∧
      u64 (2958 + 18446744073709551416) = 2758 ∧
      2958 + ((blk scenario_two_no_undo.chain 1).len - 2758) > kMemoryBlockSize ∧
      remove scenario_two_no_undo 5000 18446744073709551416 true = none ∧
      result_of (remove scenario_two 5000 18446744073709551416 true) =
        some operation_result.kNoMemory :=
  ⟨reachable.modify 4090 [65, 66, 67, 68, 69, 70, 71, 72, 73, 74] true
      operation_result.kSuccess scenario_two_no_undo
      (reachable.open_new false "file_model.bin"
        { bytes := List.replicate 6000 0, block_device := false } open_mode.kReadWrite
        (by rw [List.length_replicate]; decide) (open_ok _ _ _ _ (by decide) rfl))
      (run_of_result (by decide!)) (by decide!),
    by decide!, by decide!, by decide!, by decide!, by decide!, by decide, by decide!,
    by decide!, by decide!⟩

/-- The code at the failing inputs of `C40`: the digit string
`30000000000000000000` does not fit in 64 bits; in the offset field of a
`Modify` line and in the length field of a `Remove` line `load` stores
`30000000000000000000 mod 2^64 = 11553255926290448384` and returns `true`.
The overflow test `tmp < n` of the digit loops does not notice the wrap of
`3000000000000000000 * 10`. -/
theorem load_wraps_decimal :
    (∀ malloc_zero, file_changes.load []
        (bytes_of "Number of changes: 1.\nModify: offset: 30000000000000000000, length: 1.\n41\n")
        malloc_zero =
      some (true, [{ t := change_type.kModify, off := 11553255926290448384, olddata := none,
                     newdata := some [65], len := 1 }])) ∧
    (∀ malloc_zero, file_changes.load []
        (bytes_of "Number of changes: 1.\nRemove: offset: 0, length: 30000000000000000000.\n")
        malloc_zero =
      some (true, [{ t := change_type.kRemove, off := 0, olddata := none, newdata := none,
                     len := 11553255926290448384 }])) ∧
    30000000000000000000 % 18446744073709551616 = 11553255926290448384 ∧
    ¬ 30000000000000000000 < 18446744073709551616 := by
  decide

end fs
